import Mathlib

/-!
# llama2.c (`run.c`): sampler, tokenizer, checkpoint loader and forward pass

A shallow embedding of the sampler (`sample`, `sample_argmax`, `sample_mult`,
`sample_topp`, `random_u32`, `random_f32`), of the byte-pair tokenizer (`str_lookup`,
`encode`, `decode`), of the checkpoint loader (`read_checkpoint`, `memory_map_weights`)
and of the forward pass (`malloc_run_state`, `rmsnorm`, `softmax`, `matmul`, `forward`) of
`run.c`, with the properties proved about them.

Conventions of the embedding:

* a `float` holds a finite value and is a rational number (`ℚ`); comparisons are the
  comparisons of `ℚ`. NaN and the infinities are not values; the one place where the code
  can divide by zero (`cutoff` of `sample_topp`) is treated by cases, following IEEE-754.
  In `sample_mult` and `sample_topp`, whose result is an index chosen by comparing
  accumulated sums, every `float` operation is rounded to binary32 (`f32`: round to
  nearest, ties to even), and `softmax_f32` is `softmax` with its operations rounded in
  the same way. Everywhere else float arithmetic is exact arithmetic: the numeric kernels
  (`softmax`, `rmsnorm`, `matmul`, `forward`) are written over any linear ordered field
  `F` in place of `ℚ`, so that they can also be read over the reals; the libm functions
  are parameters (`Libm`), and a float literal denotes its decimal value;
* signed `int` overflow and division by zero are undefined behaviour, `none` in the
  model (`imul`, `idiv`); `unsigned long long` arithmetic wraps modulo `2^64` (`u64`);
* a `float*` buffer together with its length `n` is a `List ℚ`;
* a C `int` holding a token id or an index is an `Int` (`-1` is "not found");
* a C string is the list of its bytes (each `< 256`) before the terminating NUL;
* a read or a write outside a buffer makes the function return `none`;
* a view `float*` into the mapped checkpoint is an offset, counted in floats, into the
  one weight region `data`; the buffers of `RunState` are separate lists;
* the draw `random_f32()` made inside `sample_mult` and `sample_topp` is an argument of
  their models; `sample` makes the draw from the generator state and hands it over.
-/

namespace Llama2

/-! ## The sampler -/

/-- Entry of the scratch buffer of top-p sampling (`ProbIndex` in `run.c`). -/
structure ProbIndex where
  prob : ℚ
  index : Nat
deriving DecidableEq, Repr

/-- The function `random_u32`: one step of xorshift* on the 64-bit state `rng_seed`.
Returns the 32-bit output and the new state. -/
def random_u32 (rng_seed : Nat) : Nat × Nat :=
  let s1 := rng_seed ^^^ (rng_seed >>> 12)
  let s2 := s1 ^^^ ((s1 <<< 25) % 2 ^ 64)
  let s3 := s2 ^^^ (s2 >>> 27)
  (((s3 * 0x2545F4914F6CDD1D) % 2 ^ 64) >>> 32, s3)

/-- The function `random_f32`: the value `(random_u32() >> 8) / 16777216.0f` and the new
state. -/
def random_f32 (rng_seed : Nat) : ℚ × Nat :=
  let us := random_u32 rng_seed
  (((us.1 >>> 8 : Nat) : ℚ) / 16777216, us.2)

/-- The power `2^k` of two, for an integer `k`. -/
def pow2 (k : Int) : ℚ :=
  if 0 ≤ k then ((2 ^ k.toNat : Nat) : ℚ) else 1 / ((2 ^ (-k).toNat : Nat) : ℚ)

/-- The integer nearest to `q`, the even one of the two when `q` lies half-way. -/
def round_even (q : ℚ) : Int :=
  if q - (Rat.floor q : ℚ) < 1 / 2 then Rat.floor q
  else if 1 / 2 < q - (Rat.floor q : ℚ) then Rat.floor q + 1
  else if Rat.floor q % 2 = 0 then Rat.floor q
  else Rat.floor q + 1

/-- The number of halvings that bring `n` below 2, at most `fuel` of them: the floor of
the binary logarithm of `n` when `fuel` is at least `n`. -/
def log2_loop : Nat → Nat → Nat
  | 0, _ => 0
  | fuel + 1, n => if n < 2 then 0 else log2_loop fuel (n / 2) + 1

/-- The binary exponent of `x ≠ 0`: the `e` with `2^e <= |x| < 2^(e+1)`, which is the
difference of the binary logarithms of numerator and denominator or one less. -/
def float_exponent (x : ℚ) : Int :=
  if pow2 ((log2_loop x.num.natAbs x.num.natAbs : Int) - (log2_loop x.den x.den : Int)) ≤
      (if x < 0 then -x else x)
  then (log2_loop x.num.natAbs x.num.natAbs : Int) - (log2_loop x.den x.den : Int)
  else (log2_loop x.num.natAbs x.num.natAbs : Int) - (log2_loop x.den x.den : Int) - 1

/-- The rounding of a result to `float` (IEEE-754 binary32, round to nearest, ties to
even): the nearest multiple of `2^(e - 23)`, where `e` is the binary exponent of the value
and at least `-126` (gradual underflow). The sampler applies it after every `float`
operation. The values it rounds (sums and products of probabilities) stay far below
`2^128`, and the overflow to infinity is not part of the model. -/
def f32 (x : ℚ) : ℚ :=
  if x = 0 then 0
  else (round_even (x / pow2 (max (float_exponent x) (-126) - 23)) : ℚ) *
    pow2 (max (float_exponent x) (-126) - 23)

/-- The value of a `float` accumulator that starts at `acc` after `acc += p` for every
`p` of the list in turn, each sum rounded to `float`. -/
def running_from (acc : ℚ) (ps : List ℚ) : ℚ := ps.foldl (fun c p => f32 (c + p)) acc

/-- The value of a `float` accumulator that starts at `0.0f` after the entries of the list
have been added in turn. -/
def running_sum (ps : List ℚ) : ℚ := running_from 0 ps

/-- Body of the loop `for (i = 1; i < n; i++)` of `sample_argmax`: `rest` holds
`probabilities[i..n)`, `max_i` and `max_p` are the running maximum. -/
def sample_argmax_loop : List ℚ → Nat → Nat → ℚ → Nat
  | [], _, max_i, _ => max_i
  | p :: rest, i, max_i, max_p =>
    if p > max_p then sample_argmax_loop rest (i + 1) i p
    else sample_argmax_loop rest (i + 1) max_i max_p

/-- The function `sample_argmax(probabilities, n)`. With `n = 0` the read of
`probabilities[0]` is outside the buffer. -/
def sample_argmax (probabilities : List ℚ) : Option Nat :=
  match probabilities with
  | [] => none
  | p0 :: rest => some (sample_argmax_loop rest 1 0 p0)

/-- Loop of `sample_mult`: `rest` holds `probabilities[i..n)`, `cdf` the running sum,
a `float`: `cdf += probabilities[i]` rounds the sum. Returns the index at which the loop
returns, `none` when it runs to the end. -/
def sample_mult_loop (r : ℚ) : List ℚ → Nat → ℚ → Option Nat
  | [], _, _ => none
  | p :: rest, i, cdf =>
    if r < f32 (cdf + p) then some i else sample_mult_loop r rest (i + 1) (f32 (cdf + p))

/-- The function `sample_mult(probabilities, n)`, where `r` is the value returned by its
call of `random_f32()`. -/
def sample_mult (probabilities : List ℚ) (r : ℚ) : Int :=
  match sample_mult_loop r probabilities 0 0 with
  | some i => (i : Int)
  | none => (probabilities.length : Int) - 1

/-- The function `compare` of `run.c`: the comparison handed to `qsort`, descending by
`prob`. -/
def compare (a b : ProbIndex) : Int :=
  if a.prob > b.prob then -1
  else if a.prob < b.prob then 1
  else 0

/-- The libc `qsort(base, n, size, cmp)`: the buffer is rearranged so that `cmp` never
returns a positive value on an earlier and a later element. The order of elements that
compare equal is not fixed by C; this model keeps it (insertion sort). -/
def qsort {α : Type} (cmp : α → α → Int) (base : List α) : List α :=
  base.insertionSort (fun a b => cmp a b ≤ 0)

/-- The test `probabilities[i] >= cutoff` of `sample_topp`, where
`cutoff = (1.0f - topp) / (n - 1)` is computed in `float`: the difference is rounded,
`n - 1` is converted to `float`, and the quotient is rounded. For `n = 1` the divisor is
zero and `cutoff` is `+inf`, NaN or `-inf` as `1.0f - topp` is positive, zero or negative:
the test succeeds only for `-inf`. -/
def cutoff_le (topp : ℚ) (n : Nat) (p : ℚ) : Bool :=
  if n = 1 then decide (f32 (1 - topp) < 0)
  else decide (f32 (f32 (1 - topp) / f32 (((n : Int) - 1 : Int) : ℚ)) ≤ p)

/-- First loop of `sample_topp`: the candidates `(probabilities[i], i)` that pass the
cutoff, in index order; `rest` holds `probabilities[i..n)`. -/
def topp_candidates (topp : ℚ) (n : Nat) : List ℚ → Nat → List ProbIndex
  | [], _ => []
  | p :: rest, i =>
    if cutoff_le topp n p then { prob := p, index := i } :: topp_candidates topp n rest (i + 1)
    else topp_candidates topp n rest (i + 1)

/-- Truncation loop of `sample_topp`: `rest` holds `probindex[i..n0)`;
`cumulative_prob += probindex[i].prob` rounds the sum to `float`. Returns
`(last_idx, cumulative_prob)` at the `break`, `none` when the loop runs to the end. -/
def topp_truncate_loop (topp : ℚ) : List ProbIndex → Nat → ℚ → Option (Nat × ℚ)
  | [], _, _ => none
  | c :: rest, i, cumulative_prob =>
    if f32 (cumulative_prob + c.prob) > topp then some (i, f32 (cumulative_prob + c.prob))
    else topp_truncate_loop topp rest (i + 1) (f32 (cumulative_prob + c.prob))

/-- The pair `(last_idx, cumulative_prob)` after the truncation loop of `sample_topp`;
without a `break` they are `n0 - 1` and the running sum of all candidates. -/
def topp_truncate (topp : ℚ) (probindex : List ProbIndex) : Int × ℚ :=
  match topp_truncate_loop topp probindex 0 0 with
  | some (i, c) => ((i : Int), c)
  | none => ((probindex.length : Int) - 1, running_sum (probindex.map ProbIndex.prob))

/-- Final loop of `sample_topp`, `for (i = 0; i <= last_idx; i++)`: `rest` holds
`probindex[i..n0)`, `k` counts the iterations that remain; `cdf += probindex[i].prob`
rounds the sum to `float`. -/
def topp_pick_loop (r : ℚ) : List ProbIndex → Nat → ℚ → Option Nat
  | [], _, _ => none
  | _ :: _, 0, _ => none
  | c :: rest, k + 1, cdf =>
    if r < f32 (cdf + c.prob) then some c.index
    else topp_pick_loop r rest k (f32 (cdf + c.prob))

/-- The function `sample_topp(probabilities, n, topp, probindex)`, where `coin` is the
value returned by its call of `random_f32()`. When no candidate passes the cutoff,
`last_idx` is `-1` and the final `probindex[last_idx]` is read outside the buffer. -/
def sample_topp (probabilities : List ℚ) (topp : ℚ) (coin : ℚ) : Option Nat :=
  let probindex := qsort compare (topp_candidates topp probabilities.length probabilities 0)
  let lc := topp_truncate topp probindex
  let r := f32 (coin * lc.2)
  if lc.1 < 0 then none
  else
    match topp_pick_loop r probindex (lc.1.toNat + 1) 0 with
    | some idx => some idx
    | none => (probindex[lc.1.toNat]?).map ProbIndex.index

/-- The function `softmax(x, size)`; `expf` is the libm function. With `size = 0` the
read of `x[0]` is outside the buffer. -/
def softmax {F : Type} [LinearOrderedField F] (expf : F → F) (x : List F) : Option (List F) :=
  match x with
  | [] => none
  | x0 :: rest =>
    let max_val := rest.foldl (fun m xi => if xi > m then xi else m) x0
    let e := x.map (fun xi => expf (xi - max_val))
    let sum := e.foldl (fun s ei => s + ei) 0
    some (e.map (fun ei => ei / sum))

/-- The function `softmax(x, size)` with the rounding of its `float` operations: the
difference `x[i] - max_val`, the value of `expf`, every `sum += x[i]` and every
`x[i] /= sum` are rounded to `float`. A zero `sum` makes the quotients NaN or infinite,
which are not values of the model. -/
def softmax_f32 (expf : ℚ → ℚ) (x : List ℚ) : Option (List ℚ) :=
  match x with
  | [] => none
  | x0 :: rest =>
    let max_val := rest.foldl (fun m xi => if xi > m then xi else m) x0
    let e := x.map (fun xi => f32 (expf (f32 (xi - max_val))))
    let sum := e.foldl (fun s ei => f32 (s + ei)) 0
    if sum = 0 then none else some (e.map (fun ei => f32 (ei / sum)))

/-- The function `sample(sampler, logits, temperature, topp)` with `sampler->vocab_size`
the length of `logits`; returns the token and the state of the generator after the call. -/
def sample (expf : ℚ → ℚ) (logits : List ℚ) (temperature topp : ℚ) (rng_seed : Nat) :
    Option Int × Nat :=
  if temperature = 0 then
    ((sample_argmax logits).map Int.ofNat, rng_seed)
  else
    match softmax expf (logits.map (fun l => l / temperature)) with
    | none => (none, rng_seed)
    | some probs =>
      let rs := random_f32 rng_seed
      if topp ≤ 0 ∨ topp ≥ 1 then (some (sample_mult probs rs.1), rs.2)
      else ((sample_topp probs topp rs.1).map Int.ofNat, rs.2)

/-- The sorted candidate buffer `probindex` of `sample_topp` after its `qsort`. -/
def topp_sorted (probabilities : List ℚ) (topp : ℚ) : List ProbIndex :=
  qsort compare (topp_candidates topp probabilities.length probabilities 0)

/-- The procedure to which C25 compares `sample_topp` (this definition follows the claim,
not the code): the steps of `sample_topp` without the pre-filter, on all `n` candidates
sorted by descending probability. -/
def sample_topp_unfiltered (probabilities : List ℚ) (topp : ℚ) (coin : ℚ) : Option Nat :=
  let probindex := qsort compare
    (probabilities.enum.map fun (ip : Nat × ℚ) => ({ prob := ip.2, index := ip.1 } : ProbIndex))
  let lc := topp_truncate topp probindex
  let r := f32 (coin * lc.2)
  if lc.1 < 0 then none
  else
    match topp_pick_loop r probindex (lc.1.toNat + 1) 0 with
    | some idx => some idx
    | none => (probindex[lc.1.toNat]?).map ProbIndex.index

/-- The position `k` is the first index of `ps` whose prefix sum `ps[0] + ... + ps[k]`
exceeds `r`. -/
def FirstExceeds (r : ℚ) (ps : List ℚ) (k : Nat) : Prop :=
  k < ps.length ∧ r < (ps.take (k + 1)).sum ∧ ∀ m, m < k → ¬ r < (ps.take (m + 1)).sum

/-- The position `k` is the first index of `ps` at which the running sum of
`ps[0], ..., ps[k]`, accumulated in `float`, exceeds `r`. -/
def FirstRunningExceeds (r : ℚ) (ps : List ℚ) (k : Nat) : Prop :=
  k < ps.length ∧ r < running_sum (ps.take (k + 1)) ∧
    ∀ m, m < k → ¬ r < running_sum (ps.take (m + 1))

/-! ## The tokenizer -/

/-- The `Tokenizer` of `run.c`: `vocab[i]` as a C string and `vocab_scores[i]`;
`vocab_size` is the length of `vocab`. The scratch buffers (`byte_piece`, and the
`str_buffer` sized from `max_token_length`) are not part of the model. -/
structure Tokenizer where
  vocab : List (List Nat)
  vocab_scores : List ℚ

/-- The struct `TokenIndex` of `run.c`. -/
structure TokenIndex where
  str : List Nat
  id : Int

/-- The libc `strcmp` on C strings, as a sign: bytes compare as `unsigned char`. -/
def strcmp : List Nat → List Nat → Int
  | [], [] => 0
  | [], _ :: _ => -1
  | _ :: _, [] => 1
  | a :: s1, b :: s2 => if a < b then -1 else if b < a then 1 else strcmp s1 s2

/-- The function `compare_tokens` of `run.c`. -/
def compare_tokens (a b : TokenIndex) : Int := strcmp a.str b.str

/-- The libc `bsearch(key, base, n, size, cmp)` on a buffer sorted by `cmp`: an element
that compares equal to `key`, `NULL` when there is none. Which of several equal elements
is returned is not fixed by C; this model returns the first of the buffer. -/
def bsearch {α : Type} (cmp : α → α → Int) (key : α) (base : List α) : Option α :=
  base.find? (fun e => cmp key e = 0)

/-- The function `str_lookup(str, sorted_vocab, vocab_size)`. -/
def str_lookup (str : List Nat) (sorted_vocab : List TokenIndex) : Int :=
  match bsearch compare_tokens { str := str, id := 0 } sorted_vocab with
  | some res => res.id
  | none => -1

/-- Loop of `encode` filling `sorted_vocab[i] = (vocab[i], i)`, from index `i`. -/
def index_vocab : List (List Nat) → Nat → List TokenIndex
  | [], _ => []
  | s :: rest, i => { str := s, id := (i : Int) } :: index_vocab rest (i + 1)

/-- The `sorted_vocab` that `encode` builds and sorts with `qsort`. -/
def sorted_vocab (t : Tokenizer) : List TokenIndex :=
  qsort compare_tokens (index_vocab t.vocab 0)

/-- The read `t->vocab[token]`. -/
def vocab_at (t : Tokenizer) (token : Int) : Option (List Nat) :=
  if 0 ≤ token then t.vocab[token.toNat]? else none

/-- The read `t->vocab_scores[id]`. -/
def score_at (t : Tokenizer) (id : Int) : Option ℚ :=
  if 0 ≤ id then t.vocab_scores[id.toNat]? else none

/-- The C string held in a `char` buffer: the bytes before the first NUL. -/
def c_str (text : List Nat) : List Nat := text.takeWhile (fun b => b ≠ 0)

/-- The seeding loop of `encode`, `for (c = text; *c != 0; c++)`: the first argument holds
the bytes from `*c` to the end of the string, `str_buffer` the bytes accumulated so far
(`str_len` is its length), `tokens` the ids written so far. -/
def encode_seed_loop (sv : List TokenIndex) : List Nat → List Nat → List Int → List Int
  | [], _, tokens => tokens
  | c :: rest, str_buffer, tokens =>
    let str_buffer := (if (c &&& 0xC0) ≠ 0x80 then [] else str_buffer) ++ [c]
    if (rest.headD 0 &&& 0xC0) = 0x80 ∧ str_buffer.length < 4 then
      encode_seed_loop sv rest str_buffer tokens
    else
      let id := str_lookup str_buffer sv
      if id ≠ -1 then encode_seed_loop sv rest [] (tokens ++ [id])
      else encode_seed_loop sv rest [] (tokens ++ str_buffer.map (fun (b : Nat) => (b : Int) + 3))

/-- The token sequence `encode` has built when it enters the merge loop: the id of `" "`
followed by the ids of the seeding loop. -/
def encode_seed (t : Tokenizer) (text : List Nat) : List Int :=
  encode_seed_loop (sorted_vocab t) (c_str text) [] [str_lookup [32] (sorted_vocab t)]

/-- The running best merge of one scan: `best_score`, `best_id`, `best_idx`. -/
structure Best where
  best_score : ℚ
  best_id : Int
  best_idx : Int
deriving DecidableEq

/-- The inner loop `for (i = 0; i < n_tokens - 1; i++)` of the merge loop: the list holds
`tokens[i..n_tokens)`. -/
def encode_scan (t : Tokenizer) (sv : List TokenIndex) : List Int → Nat → Best → Option Best
  | a :: b :: rest, i, best =>
    match vocab_at t a, vocab_at t b with
    | some sa, some sb =>
      let id := str_lookup (sa ++ sb) sv
      if id ≠ -1 then
        match score_at t id with
        | some sc =>
          if sc > best.best_score then
            encode_scan t sv (b :: rest) (i + 1) { best_score := sc, best_id := id, best_idx := i }
          else encode_scan t sv (b :: rest) (i + 1) best
        | none => none
      else encode_scan t sv (b :: rest) (i + 1) best
    | _, _ => none
  | _, _, best => some best

/-- The merge loop `while (1)` of `encode`. Every pass but the last shortens `tokens` by
one, so `fuel = n_tokens` passes are enough; `none` is a read outside `vocab` or
`vocab_scores`. -/
def encode_merge_loop (t : Tokenizer) (sv : List TokenIndex) :
    Nat → List Int → Option (List Int)
  | 0, _ => none
  | fuel + 1, tokens =>
    match encode_scan t sv tokens 0
        { best_score := -10000000000, best_id := -1, best_idx := -1 } with
    | none => none
    | some best =>
      if best.best_idx = -1 then some tokens
      else
        encode_merge_loop t sv fuel
          (tokens.take best.best_idx.toNat ++ best.best_id :: tokens.drop (best.best_idx.toNat + 2))

/-- The function `encode(t, text, tokens, n_tokens)`: the ids left in
`tokens[0..n_tokens)`. -/
def encode (t : Tokenizer) (text : List Nat) : Option (List Int) :=
  encode_merge_loop t (sorted_vocab t) (encode_seed t text).length (encode_seed t text)

/-- The function `isprint` in the "C" locale. -/
def isprint (c : Nat) : Bool := decide (0x20 ≤ c ∧ c ≤ 0x7E)

/-- The function `isspace` in the "C" locale. -/
def isspace (c : Nat) : Bool := decide (c = 0x20 ∨ (0x09 ≤ c ∧ c ≤ 0x0D))

/-- Value of a hexadecimal digit character. -/
def hex_digit (c : Nat) : Option Nat :=
  if 48 ≤ c ∧ c ≤ 57 then some (c - 48)
  else if 65 ≤ c ∧ c ≤ 70 then some (c - 55)
  else if 97 ≤ c ∧ c ≤ 102 then some (c - 87)
  else none

/-- The conversion `%02X` of `sscanf` on the input that follows the skipped white space:
an optionally signed hexadecimal integer of at most two characters (ISO C 7.21.6.2). A
sign or the prefix `0x` uses up the width; a prefix without a digit is a matching
failure. -/
def scan_hex2 : List Nat → Option Int
  | [] => none
  | [c] => (hex_digit c).map Int.ofNat
  | c1 :: c2 :: _ =>
    if c1 = 43 then (hex_digit c2).map Int.ofNat
    else if c1 = 45 then (hex_digit c2).map (fun v => -(v : Int))
    else if c1 = 48 ∧ (c2 = 120 ∨ c2 = 88) then none
    else
      match hex_digit c1, hex_digit c2 with
      | some a, some b => some ((16 * a + b : Nat) : Int)
      | some a, none => some (a : Int)
      | none, _ => none

/-- The test `sscanf(piece, "<0x%02hhX>", &byte_val) == 1` of `decode`, with the
`byte_val` it stores: the literal `<0x` must match, white space is skipped, then `%02hhX`
converts; the count is 1 whether or not the closing `>` matches. -/
def sscanf_byte (piece : List Nat) : Option Nat :=
  match piece with
  | 60 :: 48 :: 120 :: rest => (scan_hex2 (rest.dropWhile isspace)).map (fun v => (v % 256).toNat)
  | _ => none

/-- The function `decode(t, prev_token, token)`: the C string returned. -/
def decode (t : Tokenizer) (prev_token token : Int) : Option (List Nat) :=
  match vocab_at t token with
  | none => none
  | some piece =>
    let piece := if prev_token = 1 ∧ piece.head? = some 32 then piece.tail else piece
    match sscanf_byte piece with
    | some byte_val => if isprint byte_val ∨ isspace byte_val then some [byte_val] else some piece
    | none => some piece

/-- Concatenation of `decode(prev, id)` over `tokens`, `prev` being the id before. -/
def decode_all (t : Tokenizer) : Int → List Int → Option (List Nat)
  | _, [] => some []
  | prev, id :: rest =>
    match decode t prev id, decode_all t id rest with
    | some piece, some tail => some (piece ++ tail)
    | _, _ => none

/-- The piece has exactly the form `<0xHH>` with two hexadecimal digits. -/
def is_byte_pattern (piece : List Nat) : Bool :=
  match piece with
  | [60, 48, 120, h1, h2, 62] => (hex_digit h1).isSome && (hex_digit h2).isSome
  | _ => false

/-- The piece `<0xHH>` of byte `b`, with upper-case digits as in the Llama vocabulary. -/
def byte_token_piece (b : Nat) : List Nat :=
  let hex := fun d => if d < 10 then 48 + d else 55 + d
  [60, 48, 120, hex (b / 16 % 16), hex (b % 16), 62]

/-- A vocabulary laid out as the Llama one: `<unk>`, `<s>`, `</s>`, the 256 byte pieces
`<0x00>` .. `<0xFF>` at ids 3 .. 258, then `" "`, `"a"`, `"b"`, `"ab"`. -/
def llama_like : Tokenizer where
  vocab := [[60, 117, 110, 107, 62], [60, 115, 62], [60, 47, 115, 62]] ++
    (List.range 256).map byte_token_piece ++ [[32], [97], [98], [97, 98]]
  vocab_scores := List.replicate 259 0 ++ [0, -1, -2, -3]

/-- Concatenation of the vocabulary strings of a token sequence (an id outside the
vocabulary contributes nothing). -/
def text_of (t : Tokenizer) : List Int → List Nat
  | [] => []
  | id :: rest => (vocab_at t id).getD [] ++ text_of t rest

/-- Concatenation of the strings `decode` returns for the tokens of a sequence when the
token before each is not BOS (an id outside the vocabulary contributes nothing). -/
def decoded_text (t : Tokenizer) : List Int → List Nat
  | [] => []
  | id :: rest => (decode t 0 id).getD [] ++ decoded_text t rest

/-- The token that the seeding loop of `encode` writes for a one-byte character `b`: the
id of the string `b` when the vocabulary has it, and the byte token `b + 3` otherwise. -/
def seed_token (sv : List TokenIndex) (b : Nat) : Int :=
  if str_lookup [b] sv ≠ -1 then str_lookup [b] sv else (b : Int) + 3

/-- The vocabulary `llama_like` with further strings appended from id 263 on, each with
score 0. -/
def llama_with (extra : List (List Nat)) : Tokenizer where
  vocab := llama_like.vocab ++ extra
  vocab_scores := llama_like.vocab_scores ++ List.replicate extra.length 0

/-- Every token is an id of the vocabulary whose string is not empty. -/
def ValidTokens (t : Tokenizer) (tokens : List Int) : Prop :=
  ∀ id ∈ tokens, ∃ p, vocab_at t id = some p ∧ p ≠ []

/-- The adjacent pair `(tokens[k], tokens[k+1])` has vocabulary strings whose concatenation
is a vocabulary entry; `id` is the id that `str_lookup` gives for the concatenation and
`sc` the score of that id (this definition follows the words of C26). -/
def MergeablePair (t : Tokenizer) (tokens : List Int) (k : Nat) (id : Int) (sc : ℚ) : Prop :=
  ∃ a b sa sb, tokens[k]? = some a ∧ tokens[k + 1]? = some b ∧ vocab_at t a = some sa ∧
    vocab_at t b = some sb ∧ sa ++ sb ∈ t.vocab ∧
    id = str_lookup (sa ++ sb) (sorted_vocab t) ∧ score_at t id = some sc

/-! ## The checkpoint loader -/

/-- The `Config` header of a checkpoint: seven `int` fields. -/
structure Config where
  dim : Int
  hidden_dim : Int
  n_layers : Int
  n_heads : Int
  n_kv_heads : Int
  vocab_size : Int
  seq_len : Int
deriving DecidableEq

/-- The struct `TransformerWeights`: a view `float*` is the offset, counted in floats from
the start of the weight region, of its first element. -/
structure TransformerWeights where
  token_embedding_table : Int
  rms_att_weight : Int
  rms_ffn_weight : Int
  wq : Int
  wk : Int
  wv : Int
  wo : Int
  w1 : Int
  w2 : Int
  w3 : Int
  rms_final_weight : Int
  wcls : Int
deriving DecidableEq

/-- A product `a * b` of two `int`: signed overflow is undefined behaviour (`none`). -/
def imul (a b : Int) : Option Int :=
  if -2147483648 ≤ a * b ∧ a * b ≤ 2147483647 then some (a * b) else none

/-- A quotient `a / b` of two `int`, rounded towards zero: division by zero and
`INT_MIN / -1` are undefined behaviour (`none`). -/
def idiv (a b : Int) : Option Int :=
  if b = 0 ∨ (a = -2147483648 ∧ b = -1) then none else some (Int.tdiv a b)

/-- The libc `abs` on `int`: `abs(INT_MIN)` is undefined behaviour (`none`). -/
def c_abs (a : Int) : Option Int :=
  if a = -2147483648 then none else some (a.natAbs : Int)

/-- Conversion to `unsigned long long`, and the wrap of its arithmetic: modulo `2^64`. -/
def u64 (x : Int) : Int := x % 18446744073709551616

/-- The function `memory_map_weights(w, p, ptr, shared_weights)`. The products that the
code forms in `int` go through `imul`; those it forms in `unsigned long long` (every one
with the factor `n_layers`) wrap modulo `2^64`. Adding an offset to `ptr` is exact. -/
def memory_map_weights (p : Config) (ptr : Int) (shared_weights : Bool) :
    Option TransformerWeights :=
  (idiv p.dim p.n_heads).bind fun head_size =>
  (imul p.vocab_size p.dim).bind fun embed =>
  (imul p.n_heads head_size).bind fun q_cols =>
  (imul p.n_kv_heads head_size).bind fun kv_cols =>
  (imul p.seq_len head_size).bind fun rope =>
  let n_layers := u64 p.n_layers
  let token_embedding_table := ptr
  let ptr := ptr + embed
  let rms_att_weight := ptr
  let ptr := ptr + u64 (n_layers * u64 p.dim)
  let wq := ptr
  let ptr := ptr + u64 (u64 (n_layers * u64 p.dim) * u64 q_cols)
  let wk := ptr
  let ptr := ptr + u64 (u64 (n_layers * u64 p.dim) * u64 kv_cols)
  let wv := ptr
  let ptr := ptr + u64 (u64 (n_layers * u64 p.dim) * u64 kv_cols)
  let wo := ptr
  let ptr := ptr + u64 (u64 (n_layers * u64 q_cols) * u64 p.dim)
  let rms_ffn_weight := ptr
  let ptr := ptr + u64 (n_layers * u64 p.dim)
  let w1 := ptr
  let ptr := ptr + u64 (u64 (n_layers * u64 p.dim) * u64 p.hidden_dim)
  let w2 := ptr
  let ptr := ptr + u64 (u64 (n_layers * u64 p.hidden_dim) * u64 p.dim)
  let w3 := ptr
  let ptr := ptr + u64 (u64 (n_layers * u64 p.dim) * u64 p.hidden_dim)
  let rms_final_weight := ptr
  let ptr := ptr + p.dim
  let ptr := ptr + Int.tdiv rope 2
  let ptr := ptr + Int.tdiv rope 2
  some
    { token_embedding_table := token_embedding_table
      rms_att_weight := rms_att_weight
      rms_ffn_weight := rms_ffn_weight
      wq := wq
      wk := wk
      wv := wv
      wo := wo
      w1 := w1
      w2 := w2
      w3 := w3
      rms_final_weight := rms_final_weight
      wcls := if shared_weights then token_embedding_table else ptr }

/-- The two lines of `read_checkpoint` that treat the `vocab_size` read from the file:
`shared_weights = vocab_size > 0 ? 1 : 0` and `vocab_size = abs(vocab_size)`. Returns the
stored `vocab_size` and the flag. -/
def read_vocab_size (on_disk : Int) : Option (Int × Bool) :=
  (c_abs on_disk).map fun v => (v, decide (on_disk > 0))

/-- What `read_checkpoint` hands back: the `Config`, the views, the flag it computed and
the file size. -/
structure Checkpoint where
  config : Config
  weights : TransformerWeights
  shared_weights : Bool
  file_size : Nat
deriving DecidableEq

/-- The function `read_checkpoint` on a file that could be opened, whose header (the
seven `int` of `header`) could be read and which could be mapped; `file_size` is its size
in bytes. The views are offsets from `*weights_ptr`, the first float after the header. -/
def read_checkpoint (header : Config) (file_size : Nat) : Option Checkpoint :=
  (read_vocab_size header.vocab_size).bind fun vs =>
  let config := { header with vocab_size := vs.1 }
  (memory_map_weights config 0 vs.2).map fun w =>
    { config := config, weights := w, shared_weights := vs.2, file_size := file_size }

/-- The sizes that `memory_map_weights` computes are representable in the types in which
the code computes them: the fields are non-negative `int`, `n_heads` is not zero, the
`int` products stay below `2^31` and the `unsigned long long` products below `2^64`. -/
def LayoutInRange (p : Config) : Prop :=
  (0 ≤ p.dim ∧ p.dim < 2147483648) ∧ (0 ≤ p.hidden_dim ∧ p.hidden_dim < 2147483648) ∧
  (0 ≤ p.n_layers ∧ p.n_layers < 2147483648) ∧ (0 < p.n_heads ∧ p.n_heads < 2147483648) ∧
  (0 ≤ p.n_kv_heads ∧ p.n_kv_heads < 2147483648) ∧
  (0 ≤ p.vocab_size ∧ p.vocab_size < 2147483648) ∧
  (0 ≤ p.seq_len ∧ p.seq_len < 2147483648) ∧
  p.vocab_size * p.dim < 2147483648 ∧
  p.n_kv_heads * (p.dim / p.n_heads) < 2147483648 ∧
  p.seq_len * (p.dim / p.n_heads) < 2147483648 ∧
  p.n_layers * p.dim * p.dim < 18446744073709551616 ∧
  p.n_layers * p.dim * (p.n_kv_heads * (p.dim / p.n_heads)) < 18446744073709551616 ∧
  p.n_layers * p.dim * p.hidden_dim < 18446744073709551616

/-! ## The forward pass -/

/-- Sequencing of two steps of which the first may fail (`Option.bind`, kept out of line
for the compiler). -/
@[noinline]
def and_then {α β : Type} (o : Option α) (f : α → Option β) : Option β :=
  match o with
  | none => none
  | some a => f a

/-- The libm functions used by `run.c`. -/
structure Libm (F : Type) where
  expf : F → F
  sqrtf : F → F
  powf : F → F → F
  cosf : F → F
  sinf : F → F

/-- The activation buffers of `RunState`. -/
structure Activations (F : Type) where
  x : List F
  xb : List F
  xb2 : List F
  hb : List F
  hb2 : List F
  q : List F
  k : List F
  v : List F
  att : List F
  logits : List F
deriving DecidableEq

/-- The struct `RunState`: the activation buffers and the two caches. -/
structure RunState (F : Type) extends Activations F where
  key_cache : List F
  value_cache : List F
deriving DecidableEq

/-- Read of `buf[off .. off + len)`; nothing is read when `len = 0`. -/
def load {F : Type} (buf : List F) (off : Int) (len : Nat) : Option (List F) :=
  if len = 0 then some []
  else if 0 ≤ off ∧ off + len ≤ buf.length then some ((buf.drop off.toNat).take len)
  else none

/-- Write of `vals` to `buf[off .. off + vals.length)`; nothing is written when `vals` is
empty. -/
def store {F : Type} (buf : List F) (off : Int) (vals : List F) : Option (List F) :=
  if vals.length = 0 then some buf
  else if 0 ≤ off ∧ off + vals.length ≤ buf.length then
    some (buf.take off.toNat ++ vals ++ buf.drop (off.toNat + vals.length))
  else none

/-- The libc `calloc(nmemb, sizeof(float))` for an `int nmemb`: a negative `nmemb` becomes
a huge `size_t` and the allocation fails (`none`). -/
def calloc {F : Type} [Zero F] (nmemb : Int) : Option (List F) :=
  if nmemb < 0 then none else some (List.replicate nmemb.toNat 0)

/-- The function `malloc_run_state(s, p)`; `none` is undefined behaviour in the sizes or
the `exit` after a failed allocation. -/
def malloc_run_state {F : Type} [Zero F] (p : Config) : Option (RunState F) :=
  and_then (imul p.dim p.n_kv_heads) fun dk =>
  and_then (idiv dk p.n_heads) fun kv_dim =>
  and_then (calloc p.dim) fun x =>
  and_then (calloc p.dim) fun xb =>
  and_then (calloc p.dim) fun xb2 =>
  and_then (calloc p.hidden_dim) fun hb =>
  and_then (calloc p.hidden_dim) fun hb2 =>
  and_then (calloc p.dim) fun q =>
  and_then (calloc kv_dim) fun k =>
  and_then (calloc kv_dim) fun v =>
  and_then (imul p.n_heads p.seq_len) fun att_size =>
  and_then (calloc att_size) fun att =>
  and_then (calloc p.vocab_size) fun logits =>
  and_then (imul p.n_layers p.seq_len) fun ls =>
  and_then (imul ls kv_dim) fun cache_size =>
  and_then (calloc cache_size) fun key_cache =>
  and_then (calloc cache_size) fun value_cache =>
  some
    { x := x, xb := xb, xb2 := xb2, hb := hb, hb2 := hb2, q := q, k := k, v := v, att := att,
      logits := logits, key_cache := key_cache, value_cache := value_cache }

/-- The call `memset(buf, 0, n * sizeof(float))` for an `int n`: the new content of `buf`.
A negative `n` becomes a huge `size_t` and the write leaves the buffer. -/
def memset_zero {F : Type} [Zero F] (buf : List F) (n : Int) : Option (List F) :=
  if n < 0 then none else store buf 0 (List.replicate n.toNat 0)

/-- The function `zero_run_state(s, p)`; `none` is a write outside a buffer or an
overflow in a size. -/
def zero_run_state {F : Type} [Zero F] (p : Config) (s : RunState F) : Option (RunState F) :=
  and_then (memset_zero s.x p.dim) fun x =>
  and_then (memset_zero s.xb p.dim) fun xb =>
  and_then (memset_zero s.xb2 p.dim) fun xb2 =>
  and_then (memset_zero s.hb p.hidden_dim) fun hb =>
  and_then (memset_zero s.hb2 p.hidden_dim) fun hb2 =>
  and_then (memset_zero s.q p.dim) fun q =>
  and_then (memset_zero s.k p.dim) fun k =>
  and_then (memset_zero s.v p.dim) fun v =>
  and_then (imul p.n_heads p.seq_len) fun att_size =>
  and_then (memset_zero s.att att_size) fun att =>
  and_then (memset_zero s.logits p.vocab_size) fun logits =>
  and_then (imul p.n_layers p.seq_len) fun ls =>
  and_then (imul ls p.dim) fun cache_size =>
  and_then (memset_zero s.key_cache cache_size) fun key_cache =>
  and_then (memset_zero s.value_cache cache_size) fun value_cache =>
  some
    { x := x, xb := xb, xb2 := xb2, hb := hb, hb2 := hb2, q := q, k := k, v := v, att := att,
      logits := logits, key_cache := key_cache, value_cache := value_cache }

/-- The values `rmsnorm(o, x, weight, size)` writes to `o[0 .. size)`, from `x[0 .. size)`
and `weight[0 .. size)`. -/
def rmsnorm {F : Type} [LinearOrderedField F] (sqrtf : F → F) (x weight : List F) (size : Nat) :
    Option (List F) :=
  and_then (load x 0 size) fun xs =>
  and_then (load weight 0 size) fun ws =>
    let ss := (xs.map (fun v => v * v)).sum / (size : F) + 1 / 100000
    let ss := 1 / sqrtf ss
    some (List.zipWith (fun wj xj => wj * (ss * xj)) ws xs)

/-- The call `rmsnorm(o, x, weight, size)` with `weight` a view at `data + woff`: the new
content of `o`. -/
def rmsnorm_at {F : Type} [LinearOrderedField F] (sqrtf : F → F) (o x data : List F)
    (woff : Int) (size : Int) : Option (List F) :=
  and_then (load data woff size.toNat) fun ws =>
  and_then (rmsnorm sqrtf x ws size.toNat) fun vals =>
  store o 0 vals

/-- The values `matmul(xout, x, w, n, d)` writes to `xout[0 .. d)`:
`xout[i] = sum over j < n of w[i * n + j] * x[j]`. -/
def matmul {F : Type} [LinearOrderedField F] (x w : List F) (n d : Nat) : List F :=
  (List.range d).map fun i => (List.zipWith (fun wij xj => wij * xj) ((w.drop (i * n)).take n) x).sum

/-- The call `matmul(xout, x, w, n, d)` with `w` a view at `data + woff`: the new content
of `xout`. The index `i * n + j` is an `int`; it overflows when `d * n > 2^31`. -/
def matmul_at {F : Type} [LinearOrderedField F] (xout x data : List F) (woff : Int)
    (n d : Int) : Option (List F) :=
  if d ≤ 0 then some xout
  else if 0 < n ∧ 2147483648 < d * n then none
  else
    and_then (load x 0 n.toNat) fun xs =>
    and_then (load data woff (d.toNat * n.toNat)) fun ws =>
    store xout 0 (matmul xs ws n.toNat d.toNat)

/-- The loop `x[i] += y[i]` for `i < n`: the new content of `x`. -/
def add_into {F : Type} [LinearOrderedField F] (x y : List F) (n : Int) : Option (List F) :=
  and_then (load x 0 n.toNat) fun xs =>
  and_then (load y 0 n.toNat) fun ys =>
  store x 0 (List.zipWith (fun xi yi => xi + yi) xs ys)

/-- Rotation of the pair `(vec[i], vec[i+1])` by `(fcr, fci)` in the RoPE loop. -/
def rope_rotate {F : Type} [LinearOrderedField F] (vec : List F) (i : Int) (fcr fci : F) :
    Option (List F) :=
  and_then (load vec i 2) fun v01 =>
    match v01 with
    | [v0, v1] => store vec i [v0 * fcr - v1 * fci, v0 * fci + v1 * fcr]
    | _ => none

/-- One pass of the RoPE loop, at the even index `i`, on the pair `(q, k)`. -/
def rope_step {F : Type} [LinearOrderedField F] (m : Libm F) (head_size kv_dim pos : Int)
    (qk : List F × List F) (i : Int) : Option (List F × List F) :=
  if head_size = 0 then none
  else
    let head_dim := Int.tmod i head_size
    let freq := 1 / m.powf 10000 ((head_dim : F) / (head_size : F))
    let val := (pos : F) * freq
    and_then (rope_rotate qk.1 i (m.cosf val) (m.sinf val)) fun q =>
      if i < kv_dim then
        (rope_rotate qk.2 i (m.cosf val) (m.sinf val)).map fun k => (q, k)
      else some (q, qk.2)

/-- The RoPE loop `for (i = 0; i < dim; i += 2)`: its first `n` passes. -/
def rope_loop {F : Type} [LinearOrderedField F] (m : Libm F) (head_size kv_dim pos : Int) :
    Nat → List F × List F → Option (List F × List F)
  | 0, qk => some qk
  | n + 1, qk =>
    and_then (rope_loop m head_size kv_dim pos n qk) fun qk' =>
      rope_step m head_size kv_dim pos qk' (2 * (n : Int))

/-- First part of a layer of `forward`: attention rmsnorm, the three projections into
`q`, `k`, `v`, and RoPE. -/
def layer_qkv {F : Type} [LinearOrderedField F] (m : Libm F) (p : Config)
    (w : TransformerWeights) (data : List F) (pos kv_dim head_size : Int) (l : Int)
    (a : Activations F) : Option (Activations F) :=
  and_then (rmsnorm_at m.sqrtf a.xb a.x data (w.rms_att_weight + u64 (l * u64 p.dim)) p.dim) fun xb =>
  and_then (matmul_at a.q xb data (w.wq + u64 (u64 (l * u64 p.dim) * u64 p.dim)) p.dim p.dim) fun q =>
  and_then (matmul_at a.k xb data (w.wk + u64 (u64 (l * u64 p.dim) * u64 kv_dim)) p.dim kv_dim) fun k =>
  and_then (matmul_at a.v xb data (w.wv + u64 (u64 (l * u64 p.dim) * u64 kv_dim)) p.dim kv_dim) fun v =>
  (rope_loop m head_size kv_dim pos ((p.dim + 1) / 2).toNat (q, k)).map fun qk =>
    { a with xb := xb, q := qk.1, k := qk.2, v := v }

/-- Conversion of an `unsigned long long` to `int`: modulo `2^32`, into the `int` range. -/
def to_int (x : Int) : Int := (x + 2147483648) % 4294967296 - 2147483648

/-- The read of the `head_size` floats at
`cache + loff + t * kv_dim + (h / kv_mul) * head_size`. -/
def cache_row {F : Type} (cache : List F) (loff kv_dim kv_mul head_size h : Int) (t : Int) :
    Option (List F) :=
  and_then (imul t kv_dim) fun tk =>
  and_then (idiv h kv_mul) fun hk =>
  and_then (imul hk head_size) fun ko =>
  load cache (loff + tk + ko) head_size.toNat

/-- The rows `cache_row` for `t = 0 .. n - 1`. -/
def cache_rows {F : Type} (cache : List F) (loff kv_dim kv_mul head_size h : Int) :
    Nat → Option (List (List F))
  | 0 => some []
  | n + 1 =>
    and_then (cache_rows cache loff kv_dim kv_mul head_size h n) fun rows =>
      (cache_row cache loff kv_dim kv_mul head_size h (n : Int)).map fun r => rows ++ [r]

/-- The call `softmax(buf + off, size)` in place: the new content of `buf`. With
`size <= 0` only `buf[off]` is read. -/
def softmax_at {F : Type} [LinearOrderedField F] (expf : F → F) (buf : List F) (off : Int)
    (size : Int) : Option (List F) :=
  if size ≤ 0 then (load buf off 1).map fun _ => buf
  else
    and_then (load buf off size.toNat) fun xs =>
    and_then (softmax expf xs) fun ys =>
    store buf off ys

/-- The accumulation `xb[i] += a * v[i]` over the rows `v` with their weights `a`, from
`xb = 0`. -/
def weighted_sum {F : Type} [LinearOrderedField F] (head_size : Nat) (rows : List (List F))
    (weights : List F) : List F :=
  (rows.zip weights).foldl
    (fun acc va => List.zipWith (fun xi vi => xi + va.2 * vi) acc va.1)
    (List.replicate head_size 0)

/-- The body of the loop over the heads of `forward`, for head `h`. -/
def attend_head {F : Type} [LinearOrderedField F] (m : Libm F) (p : Config)
    (pos loff kv_dim kv_mul head_size : Int) (key_cache value_cache : List F)
    (a : Activations F) (h : Int) : Option (Activations F) :=
  and_then (imul h head_size) fun qo =>
  and_then (imul h p.seq_len) fun ao =>
  and_then (cache_rows key_cache loff kv_dim kv_mul head_size h (pos + 1).toNat) fun krows =>
  and_then (if (pos + 1).toNat = 0 then some [] else load a.q qo head_size.toNat) fun qh =>
  and_then (store a.att ao
      (krows.map fun kr =>
        (List.zipWith (fun qi ki => qi * ki) qh kr).sum / m.sqrtf (head_size : F))) fun att =>
  and_then (softmax_at m.expf att ao (pos + 1)) fun att =>
  if head_size < 0 then none
  else
    and_then (cache_rows value_cache loff kv_dim kv_mul head_size h (pos + 1).toNat) fun vrows =>
    and_then (load att ao (pos + 1).toNat) fun weights =>
    (store a.xb qo (weighted_sum head_size.toNat vrows weights)).map fun xb =>
      { a with att := att, xb := xb }

/-- The loop over the heads of `forward`: its first `n` passes. -/
def attend_loop {F : Type} [LinearOrderedField F] (m : Libm F) (p : Config)
    (pos loff kv_dim kv_mul head_size : Int) (key_cache value_cache : List F) :
    Nat → Activations F → Option (Activations F)
  | 0, a => some a
  | n + 1, a =>
    and_then (attend_loop m p pos loff kv_dim kv_mul head_size key_cache value_cache n a) fun a' =>
      attend_head m p pos loff kv_dim kv_mul head_size key_cache value_cache a' (n : Int)

/-- Last part of a layer of `forward`: output projection, residual, and the feed-forward
network with its residual. -/
def layer_ffn {F : Type} [LinearOrderedField F] (m : Libm F) (p : Config)
    (w : TransformerWeights) (data : List F) (l : Int) (a : Activations F) :
    Option (Activations F) :=
  and_then (matmul_at a.xb2 a.xb data (w.wo + u64 (u64 (l * u64 p.dim) * u64 p.dim)) p.dim p.dim)
    fun xb2 =>
  and_then (add_into a.x xb2 p.dim) fun x =>
  and_then (rmsnorm_at m.sqrtf a.xb x data (w.rms_ffn_weight + u64 (l * u64 p.dim)) p.dim) fun xb =>
  and_then (matmul_at a.hb xb data (w.w1 + u64 (u64 (l * u64 p.dim) * u64 p.hidden_dim)) p.dim
      p.hidden_dim) fun hb =>
  and_then (matmul_at a.hb2 xb data (w.w3 + u64 (u64 (l * u64 p.dim) * u64 p.hidden_dim)) p.dim
      p.hidden_dim) fun hb2 =>
  and_then (load hb 0 p.hidden_dim.toNat) fun hs =>
  and_then (store hb 0 (hs.map fun hi => hi * (1 / (1 + m.expf (-hi))))) fun hb =>
  and_then (load hb 0 p.hidden_dim.toNat) fun hs =>
  and_then (load hb2 0 p.hidden_dim.toNat) fun h2 =>
  and_then (store hb 0 (List.zipWith (fun hi gi => hi * gi) hs h2)) fun hb =>
  and_then (matmul_at xb hb data (w.w2 + u64 (u64 (l * u64 p.dim) * u64 p.hidden_dim)) p.hidden_dim
      p.dim) fun xb =>
  (add_into x xb p.dim).map fun x =>
    { a with x := x, xb := xb, xb2 := xb2, hb := hb, hb2 := hb2 }

/-- The body of the loop over the layers of `forward`, for layer `l`. -/
def forward_layer {F : Type} [LinearOrderedField F] (m : Libm F) (p : Config)
    (w : TransformerWeights) (data : List F) (pos kv_dim kv_mul head_size : Int)
    (s : RunState F) (l : Int) : Option (RunState F) :=
  and_then (layer_qkv m p w data pos kv_dim head_size l s.toActivations) fun a =>
  and_then (imul pos kv_dim) fun pk =>
  if kv_dim < 0 then none
  else
    and_then (load a.k 0 kv_dim.toNat) fun krow =>
    and_then (store s.key_cache (to_int (u64 (u64 (l * u64 p.seq_len) * u64 kv_dim)) + pk) krow)
      fun key_cache =>
    and_then (load a.v 0 kv_dim.toNat) fun vrow =>
    and_then (store s.value_cache (to_int (u64 (u64 (l * u64 p.seq_len) * u64 kv_dim)) + pk) vrow)
      fun value_cache =>
    and_then (attend_loop m p pos (to_int (u64 (u64 (l * u64 p.seq_len) * u64 kv_dim))) kv_dim kv_mul
        head_size key_cache value_cache p.n_heads.toNat a) fun a =>
    (layer_ffn m p w data l a).map fun a =>
      { toActivations := a, key_cache := key_cache, value_cache := value_cache }

/-- The loop over the layers of `forward`: its first `n` passes. -/
def forward_layers {F : Type} [LinearOrderedField F] (m : Libm F) (p : Config)
    (w : TransformerWeights) (data : List F) (pos kv_dim kv_mul head_size : Int) :
    Nat → RunState F → Option (RunState F)
  | 0, s => some s
  | n + 1, s =>
    and_then (forward_layers m p w data pos kv_dim kv_mul head_size n s) fun s' =>
      forward_layer m p w data pos kv_dim kv_mul head_size s' (n : Int)

/-- The function `forward(token, pos, p, w, s)`, with the weight region `data` into which
the views of `w` point: the `RunState` after the call, whose `logits` the code returns. -/
def forward {F : Type} [LinearOrderedField F] (m : Libm F) (p : Config)
    (w : TransformerWeights) (data : List F) (s : RunState F) (token pos : Int) :
    Option (RunState F) :=
  and_then (imul p.dim p.n_kv_heads) fun dk =>
  and_then (idiv dk p.n_heads) fun kv_dim =>
  and_then (idiv p.n_heads p.n_kv_heads) fun kv_mul =>
  and_then (idiv p.dim p.n_heads) fun head_size =>
  and_then (imul token p.dim) fun row =>
  if p.dim < 0 then none
  else
    and_then (load data (w.token_embedding_table + row) p.dim.toNat) fun content_row =>
    and_then (store s.x 0 content_row) fun x =>
    and_then (forward_layers m p w data pos kv_dim kv_mul head_size (u64 p.n_layers).toNat
        { s with x := x }) fun s =>
    and_then (rmsnorm_at m.sqrtf s.x s.x data w.rms_final_weight p.dim) fun x =>
    (matmul_at s.logits x data w.wcls p.dim p.vocab_size).map fun logits =>
      { s with x := x, logits := logits }

/-- A `Libm` over the rationals on which the model can be evaluated; its functions are
stand-ins for the libm functions, of which the properties below assume nothing. -/
def tiny_libm : Libm ℚ :=
  ⟨fun x => 1 + x * x, fun x => 1 + x, fun _ y => 1 + y, fun _ => 3 / 5, fun _ => 4 / 5⟩

/-- The activation buffers `a` have the sizes `malloc_run_state` gives them for `p`, with
`kv_dim` the size of `k` and `v`. -/
def ActShaped {F : Type} (p : Config) (kv_dim : Int) (a : Activations F) : Prop :=
  (a.x.length : Int) = p.dim ∧ (a.xb.length : Int) = p.dim ∧ (a.xb2.length : Int) = p.dim ∧
  (a.hb.length : Int) = p.hidden_dim ∧ (a.hb2.length : Int) = p.hidden_dim ∧
  (a.q.length : Int) = p.dim ∧ (a.k.length : Int) = kv_dim ∧ (a.v.length : Int) = kv_dim ∧
  (a.att.length : Int) = p.n_heads * p.seq_len ∧ (a.logits.length : Int) = p.vocab_size

/-- The buffers of the `RunState` `s` have the sizes `malloc_run_state` gives them for
`p`. -/
def Shaped {F : Type} (p : Config) (s : RunState F) : Prop :=
  ActShaped p (p.dim * p.n_kv_heads / p.n_heads) s.toActivations ∧
  (s.key_cache.length : Int) = p.n_layers * p.seq_len * (p.dim * p.n_kv_heads / p.n_heads) ∧
  (s.value_cache.length : Int) = p.n_layers * p.seq_len * (p.dim * p.n_kv_heads / p.n_heads)

/-- The conditions on a `Config` under which `forward` is shown to stay in bounds: the
fields are positive, `n_heads` divides `dim` and `n_kv_heads` divides `n_heads`, `dim` and
`kv_dim = dim * n_kv_heads / n_heads` are even (RoPE rotates pairs), and the sizes that
the code computes in `int` are below `2^31`. -/
def ForwardInRange (p : Config) : Prop :=
  (0 < p.dim ∧ 0 < p.hidden_dim ∧ 0 < p.n_layers ∧ 0 < p.n_heads ∧ 0 < p.n_kv_heads ∧
    0 < p.vocab_size ∧ 0 < p.seq_len) ∧
  (p.dim % p.n_heads = 0 ∧ p.n_heads % p.n_kv_heads = 0) ∧
  (p.dim % 2 = 0 ∧ (p.dim * p.n_kv_heads / p.n_heads) % 2 = 0) ∧
  (p.vocab_size * p.dim < 2147483648 ∧ p.dim * p.dim < 2147483648 ∧
    p.dim * p.hidden_dim < 2147483648 ∧ p.n_heads * p.seq_len < 2147483648 ∧
    p.n_layers * p.seq_len * p.dim < 2147483648)

/-- The facts about the sizes used by `forward` that follow from `ForwardInRange`, with
`kv_dim`, `kv_mul` and `head_size` the local variables of `forward`. -/
structure Dims (p : Config) (kv_dim kv_mul head_size : Int) : Prop where
  dim_pos : 0 < p.dim
  hidden_pos : 0 < p.hidden_dim
  layers_pos : 0 < p.n_layers
  heads_pos : 0 < p.n_heads
  kv_heads_pos : 0 < p.n_kv_heads
  vocab_pos : 0 < p.vocab_size
  seq_pos : 0 < p.seq_len
  head_size_pos : 0 < head_size
  kv_mul_pos : 0 < kv_mul
  dim_eq : p.dim = p.n_heads * head_size
  kv_dim_eq : kv_dim = p.n_kv_heads * head_size
  heads_eq : p.n_heads = kv_mul * p.n_kv_heads
  dim_even : p.dim % 2 = 0
  kv_dim_even : kv_dim % 2 = 0
  embed_lt : p.vocab_size * p.dim < 2147483648
  sq_lt : p.dim * p.dim < 2147483648
  ffn_lt : p.dim * p.hidden_dim < 2147483648
  att_lt : p.n_heads * p.seq_len < 2147483648
  cache_lt : p.n_layers * p.seq_len * p.dim < 2147483648

/-- The slices of the weight region `data` that `forward` reads through the views `w` lie
inside `data`. -/
def WeightsFit {F : Type} (p : Config) (kv_dim : Int) (w : TransformerWeights)
    (data : List F) : Prop :=
  (0 ≤ w.token_embedding_table ∧
    w.token_embedding_table + p.vocab_size * p.dim ≤ data.length) ∧
  (0 ≤ w.rms_final_weight ∧ w.rms_final_weight + p.dim ≤ data.length) ∧
  (0 ≤ w.wcls ∧ w.wcls + p.vocab_size * p.dim ≤ data.length) ∧
  ∀ l : Int, 0 ≤ l → l < p.n_layers →
    (0 ≤ w.rms_att_weight + l * p.dim ∧
      w.rms_att_weight + l * p.dim + p.dim ≤ data.length) ∧
    (0 ≤ w.wq + l * p.dim * p.dim ∧
      w.wq + l * p.dim * p.dim + p.dim * p.dim ≤ data.length) ∧
    (0 ≤ w.wk + l * p.dim * kv_dim ∧
      w.wk + l * p.dim * kv_dim + kv_dim * p.dim ≤ data.length) ∧
    (0 ≤ w.wv + l * p.dim * kv_dim ∧
      w.wv + l * p.dim * kv_dim + kv_dim * p.dim ≤ data.length) ∧
    (0 ≤ w.wo + l * p.dim * p.dim ∧
      w.wo + l * p.dim * p.dim + p.dim * p.dim ≤ data.length) ∧
    (0 ≤ w.rms_ffn_weight + l * p.dim ∧
      w.rms_ffn_weight + l * p.dim + p.dim ≤ data.length) ∧
    (0 ≤ w.w1 + l * p.dim * p.hidden_dim ∧
      w.w1 + l * p.dim * p.hidden_dim + p.hidden_dim * p.dim ≤ data.length) ∧
    (0 ≤ w.w2 + l * p.dim * p.hidden_dim ∧
      w.w2 + l * p.dim * p.hidden_dim + p.dim * p.hidden_dim ≤ data.length) ∧
    (0 ≤ w.w3 + l * p.dim * p.hidden_dim ∧
      w.w3 + l * p.dim * p.hidden_dim + p.hidden_dim * p.dim ≤ data.length)

/-- The caches `c1` and `c2` have the same size and hold the same floats at the entries
of the positions `0 .. pos` of every layer: the indices
`l * seq_len * kv_dim + t * kv_dim + j` with `0 <= l < n_layers`, `0 <= t <= pos` and
`0 <= j < kv_dim`. -/
def CacheAgree {F : Type} (p : Config) (kv_dim pos : Int) (c1 c2 : List F) : Prop :=
  c1.length = c2.length ∧
  ∀ l t j : Int, 0 ≤ l → l < p.n_layers → 0 ≤ t → t ≤ pos → 0 ≤ j → j < kv_dim →
    c1[(l * p.seq_len * kv_dim + t * kv_dim + j).toNat]? =
      c2[(l * p.seq_len * kv_dim + t * kv_dim + j).toNat]?

/-- Two `RunState` that differ at most in cache entries of positions after `pos`. -/
def StateAgree {F : Type} (p : Config) (kv_dim pos : Int) (s1 s2 : RunState F) : Prop :=
  s1.toActivations = s2.toActivations ∧ CacheAgree p kv_dim pos s1.key_cache s2.key_cache ∧
  CacheAgree p kv_dim pos s1.value_cache s2.value_cache

/-- Two outcomes are both undefined, or both defined and related by `R`. -/
def OptionRel {α : Type} (R : α → α → Prop) : Option α → Option α → Prop
  | none, none => True
  | some a, some b => R a b
  | _, _ => False

/-- The facts about the sizes of the caches used in the attention loop of `forward`. -/
structure KvDims (p : Config) (kv_dim kv_mul head_size : Int) : Prop where
  layers_pos : 0 < p.n_layers
  seq_pos : 0 < p.seq_len
  heads_pos : 0 < p.n_heads
  kv_heads_pos : 0 < p.n_kv_heads
  head_size_pos : 0 < head_size
  kv_mul_pos : 0 < kv_mul
  kv_dim_eq : kv_dim = p.n_kv_heads * head_size
  heads_eq : p.n_heads = kv_mul * p.n_kv_heads
  cache_kv_lt : p.n_layers * p.seq_len * kv_dim < 2147483648

/-- The angle of C30 for the pair at index `i`: `position / 10000^((i mod head_size) /
head_size)`, with the power taken by `powf` (this definition follows the claim). -/
def rope_angle {F : Type} [LinearOrderedField F] (m : Libm F) (head_size pos : Int) (i : Int) :
    F :=
  (pos : F) / m.powf 10000 (((i % head_size : Int) : F) / (head_size : F))

/-- The part of the body of the layer loop of `forward` up to the end of the loop over the
heads, for layer `l`: attention rmsnorm, the projections, RoPE, the write of the key and
the value to the caches, and the attention of every head. -/
def layer_attention {F : Type} [LinearOrderedField F] (m : Libm F) (p : Config)
    (w : TransformerWeights) (data : List F) (pos kv_dim kv_mul head_size : Int)
    (s : RunState F) (l : Int) : Option (RunState F) :=
  and_then (layer_qkv m p w data pos kv_dim head_size l s.toActivations) fun a =>
  and_then (imul pos kv_dim) fun pk =>
  if kv_dim < 0 then none
  else
    and_then (load a.k 0 kv_dim.toNat) fun krow =>
    and_then (store s.key_cache (to_int (u64 (u64 (l * u64 p.seq_len) * u64 kv_dim)) + pk) krow)
      fun key_cache =>
    and_then (load a.v 0 kv_dim.toNat) fun vrow =>
    and_then (store s.value_cache (to_int (u64 (u64 (l * u64 p.seq_len) * u64 kv_dim)) + pk) vrow)
      fun value_cache =>
    (attend_loop m p pos (to_int (u64 (u64 (l * u64 p.seq_len) * u64 kv_dim))) kv_dim kv_mul
        head_size key_cache value_cache p.n_heads.toNat a).map fun a =>
      { toActivations := a, key_cache := key_cache, value_cache := value_cache }

/-- The entry `cache[l, t, j]` of a cache laid out as `(n_layers, seq_len, kv_dim)` (zero
outside the buffer). -/
def cache_entry {F : Type} [Zero F] (p : Config) (kv_dim : Int) (cache : List F)
    (l t j : Int) : F :=
  cache.getD (l * p.seq_len * kv_dim + t * kv_dim + j).toNat 0

/-- The score of C27 (this definition follows the claim): `score_t = (sum over i of
q[h*head_size + i] * key_cache[l, t, (h/kv_mul)*head_size + i]) / sqrt(head_size)`. -/
def attention_score {F : Type} [LinearOrderedField F] (m : Libm F) (p : Config)
    (kv_dim kv_mul head_size : Int) (q key_cache : List F) (l h t : Int) : F :=
  ((List.range head_size.toNat).map fun (i : Nat) =>
      q.getD (h * head_size + (i : Int)).toNat 0 *
        cache_entry p kv_dim key_cache l t (h / kv_mul * head_size + (i : Int))).sum /
    m.sqrtf (head_size : F)

/-- The attention weights of C27 (this definition follows the claim): the softmax over
`t = 0 .. pos` of `score_t`. -/
def attention_weights {F : Type} [LinearOrderedField F] (m : Libm F) (p : Config)
    (kv_dim kv_mul head_size pos : Int) (q key_cache : List F) (l h : Int) :
    Option (List F) :=
  softmax m.expf ((List.range (pos + 1).toNat).map fun (t : Nat) =>
    attention_score m p kv_dim kv_mul head_size q key_cache l h (t : Int))

/-- The attention output of C27 (this definition follows the claim): the sum over
`t = 0 .. pos` of `a_t * value_cache[l, t, (h/kv_mul)*head_size + i]`. -/
def attention_output {F : Type} [LinearOrderedField F] (p : Config)
    (kv_dim kv_mul head_size pos : Int) (a value_cache : List F) (l h i : Int) : F :=
  ((List.range (pos + 1).toNat).map fun (t : Nat) =>
    a.getD t 0 * cache_entry p kv_dim value_cache l (t : Int) (h / kv_mul * head_size + i)).sum

/-! ## The driver -/

/-- The line `if (steps <= 0) steps = 0;` of the parameter validation of `main`: the value
of `steps` after it. -/
def validate_steps (steps : Int) : Int := if steps ≤ 0 then 0 else steps

/-- The content of `logits[0 .. vocab_size)` after `sample`: with a temperature other
than zero `sample` divides the logits by the temperature and applies `softmax` in
place. -/
def sample_in_place (expf : ℚ → ℚ) (logits : List ℚ) (temperature : ℚ) : List ℚ :=
  if temperature = 0 then logits
  else
    match softmax expf (logits.map (fun l => l / temperature)) with
    | none => logits
    | some probs => probs

/-- The variables of the generation loop of `main`: `token`, `pos`, the `RunState`, the
state `rng_seed` of the generator, and the pieces handed to `printf` so far (`out`). The
field `log` is no variable of the code: it records, for every pass of the loop, the
`token` and `pos` handed to `forward` and the token `next` chosen in that pass. -/
structure GenState where
  token : Int
  pos : Int
  state : RunState ℚ
  rng_seed : Nat
  out : List (List Nat)
  log : List (Int × Int × Int)
deriving DecidableEq

/-- The choice of `next` in one pass of the generation loop: the prompt token at `pos`
while `pos < num_prompt_tokens`, and otherwise the result of `sample` on
`logits[0 .. vocab_size)`. Returns `next`, the content of `logits` and the state of the
generator after the choice. -/
def choose_next (m : Libm ℚ) (p : Config) (prompt_tokens : List Int) (temperature topp : ℚ)
    (logits : List ℚ) (pos : Int) (rng_seed : Nat) : Option (Int × List ℚ × Nat) :=
  if pos < (prompt_tokens.length : Int) then
    if pos < 0 then none
    else (prompt_tokens[pos.toNat]?).map fun next => (next, logits, rng_seed)
  else
    and_then (load logits 0 p.vocab_size.toNat) fun ls =>
    and_then (sample m.expf ls temperature topp rng_seed).1 fun next =>
    (store logits 0 (sample_in_place m.expf ls temperature)).map fun logits =>
      (next, logits, (sample m.expf ls temperature topp rng_seed).2)

/-- One pass of the body of the generation loop `while (pos < steps)` of `main`. Returns
the variables after the pass and whether the pass left the loop by `break`; `none` is
undefined behaviour in `forward`, `sample` or `decode`. The flushing of `stdout` and the
timer are not part of the model. -/
def generate_step (m : Libm ℚ) (p : Config) (w : TransformerWeights) (data : List ℚ)
    (t : Tokenizer) (prompt_tokens : List Int) (temperature topp : ℚ) (g : GenState) :
    Option (Bool × GenState) :=
  and_then (forward m p w data g.state g.token g.pos) fun s =>
  and_then (choose_next m p prompt_tokens temperature topp s.logits g.pos g.rng_seed) fun nlr =>
    if nlr.1 = 1 then
      some (true,
        { token := g.token, pos := g.pos + 1, state := { s with logits := nlr.2.1 },
          rng_seed := nlr.2.2, out := g.out, log := g.log ++ [(g.token, g.pos, nlr.1)] })
    else
      (decode t g.token nlr.1).map fun piece =>
        (false,
          { token := nlr.1, pos := g.pos + 1, state := { s with logits := nlr.2.1 },
            rng_seed := nlr.2.2, out := g.out ++ [piece],
            log := g.log ++ [(g.token, g.pos, nlr.1)] })

/-- Outcome of running a loop for at most a given number of passes. -/
inductive Run (α : Type) where
  | finished (a : α)
  | undefined
  | out_of_fuel
deriving DecidableEq

/-- The generation loop `while (pos < steps) { ... }` of `main`, run for at most `fuel`
passes. -/
def generate_loop (m : Libm ℚ) (p : Config) (w : TransformerWeights) (data : List ℚ)
    (t : Tokenizer) (prompt_tokens : List Int) (temperature topp : ℚ) (steps : Int) :
    Nat → GenState → Run GenState
  | 0, g => if g.pos < steps then Run.out_of_fuel else Run.finished g
  | fuel + 1, g =>
    if g.pos < steps then
      match generate_step m p w data t prompt_tokens temperature topp g with
      | none => Run.undefined
      | some (true, g') => Run.finished g'
      | some (false, g') =>
        generate_loop m p w data t prompt_tokens temperature topp steps fuel g'
    else Run.finished g

/-- The positions at which the generation loop `while (pos < steps) { ... }` of `main`
calls `forward`, in the order of the calls, for at most `fuel` passes: every pass that the
loop condition admits calls `forward(token, pos, ...)` first, also the pass in which
`forward` or a later callee has undefined behaviour, after which no call is recorded. -/
def generate_calls (m : Libm ℚ) (p : Config) (w : TransformerWeights) (data : List ℚ)
    (t : Tokenizer) (prompt_tokens : List Int) (temperature topp : ℚ) (steps : Int) :
    Nat → GenState → List Int
  | 0, _ => []
  | fuel + 1, g =>
    if g.pos < steps then
      g.pos ::
        match generate_step m p w data t prompt_tokens temperature topp g with
        | some (false, g') =>
          generate_calls m p w data t prompt_tokens temperature topp steps fuel g'
        | _ => []
    else []

/-! ## Properties of the sampler -/

theorem sample_argmax_loop_spec (rest : List ℚ) :
    ∀ (pre : List ℚ) (max_i : Nat) (max_p : ℚ),
      pre[max_i]? = some max_p →
      (∀ (j : Nat) (x : ℚ), pre[j]? = some x → x ≤ max_p) →
      (∀ (j : Nat) (x : ℚ), j < max_i → pre[j]? = some x → x < max_p) →
      ∃ m, (pre ++ rest)[sample_argmax_loop rest pre.length max_i max_p]? = some m ∧
        (∀ (j : Nat) (x : ℚ), (pre ++ rest)[j]? = some x → x ≤ m) ∧
        (∀ (j : Nat) (x : ℚ), j < sample_argmax_loop rest pre.length max_i max_p →
          (pre ++ rest)[j]? = some x → x < m) := by
  induction rest with
  | nil =>
    intro pre max_i max_p hm hle hlt
    refine ⟨max_p, ?_, ?_, ?_⟩
    · simpa [sample_argmax_loop] using hm
    · simpa using hle
    · simpa [sample_argmax_loop] using hlt
  | cons p rest ih =>
    intro pre max_i max_p hm hle hlt
    have hlen : (pre ++ [p]).length = pre.length + 1 := by simp
    have hmi : max_i < pre.length := by
      rcases List.getElem?_eq_some_iff.mp hm with ⟨h, _⟩
      exact h
    have key : ∀ (j : Nat) (x : ℚ), (pre ++ [p])[j]? = some x → pre[j]? = some x ∨ (j = pre.length ∧ x = p) := by
      intro j x hx
      rcases Nat.lt_or_ge j pre.length with hj | hj
      · left
        rwa [List.getElem?_append_left hj] at hx
      · right
        rw [List.getElem?_append_right hj] at hx
        rcases Nat.eq_or_lt_of_le hj with h | h
        · subst h
          simp at hx
          exact ⟨rfl, hx.symm⟩
        · have : 1 ≤ j - pre.length := by omega
          rw [List.getElem?_eq_none (by simpa using this)] at hx
          cases hx
    unfold sample_argmax_loop
    by_cases hp : p > max_p
    · rw [if_pos hp]
      have := ih (pre ++ [p]) pre.length p (by simp)
        (by
          intro j x hx
          rcases key j x hx with h | ⟨_, h⟩
          · exact le_of_lt (lt_of_le_of_lt (hle j x h) hp)
          · exact le_of_eq h)
        (by
          intro j x hj hx
          rcases key j x hx with h | ⟨h, _⟩
          · exact lt_of_le_of_lt (hle j x h) hp
          · omega)
      simpa [hlen] using this
    · rw [if_neg hp]
      have := ih (pre ++ [p]) max_i max_p
        (by rw [List.getElem?_append_left hmi]; exact hm)
        (by
          intro j x hx
          rcases key j x hx with h | ⟨_, h⟩
          · exact hle j x h
          · rw [h]; exact not_lt.mp hp)
        (by
          intro j x hj hx
          rcases key j x hx with h | ⟨h, _⟩
          · exact hlt j x hj h
          · omega)
      simpa [hlen] using this

/-- C1: for a non-empty `logits`, any `top_p` and any generator state, `sample` with
`temperature = 0` returns an index `i` of `logits` whose entry is at least every entry
and strictly above every entry before it (the smallest index that attains the maximum);
the generator state is not touched. -/
theorem sample_temperature_zero_is_argmax (expf : ℚ → ℚ) (logits : List ℚ) (topp : ℚ)
    (rng_seed : Nat) (hne : logits ≠ []) :
    ∃ (i : Nat) (m : ℚ), sample expf logits 0 topp rng_seed = (some (i : Int), rng_seed) ∧
      logits[i]? = some m ∧
      (∀ (j : Nat) (x : ℚ), logits[j]? = some x → x ≤ m) ∧
      (∀ (j : Nat) (x : ℚ), j < i → logits[j]? = some x → x < m) := by
  cases logits with
  | nil => exact absurd rfl hne
  | cons p0 rest =>
    obtain ⟨m, h1, h2, h3⟩ := sample_argmax_loop_spec rest [p0] 0 p0 (by simp)
      (by
        intro j x hx
        cases j with
        | zero => simp at hx; exact le_of_eq hx.symm
        | succ j => simp at hx)
      (by intro j x hj; omega)
    refine ⟨sample_argmax_loop rest 1 0 p0, m, ?_, ?_, ?_, ?_⟩
    · simp [sample, sample_argmax]
    · simpa using h1
    · simpa using h2
    · simpa using h3

/-- Witness of C1 on the logits `[1, 3, 3, 2]`. -/
theorem sample_temperature_zero_is_argmax_witness :
    ∃ (i : Nat) (m : ℚ), sample (fun x => x) [1, 3, 3, 2] 0 (9 / 10) 42 = (some (i : Int), 42) ∧
      ([1, 3, 3, 2] : List ℚ)[i]? = some m ∧
      (∀ (j : Nat) (x : ℚ), ([1, 3, 3, 2] : List ℚ)[j]? = some x → x ≤ m) ∧
      (∀ (j : Nat) (x : ℚ), j < i → ([1, 3, 3, 2] : List ℚ)[j]? = some x → x < m) :=
  sample_temperature_zero_is_argmax (fun x => x) [1, 3, 3, 2] (9 / 10) 42 (by simp)

/-! ### Running sums in `float` -/

/-- Values of the rounding `f32`: the float nearest to `0.1`; the two ties `1 + 2^-24` and
`1 + 3 * 2^-24`, which go to the neighbour with an even significand; a value above
`2^24`; and gradual underflow, where the spacing is `2^-149`. -/
theorem f32_values :
    f32 (1 / 10) = 13421773 / 134217728 ∧
    f32 (1 + 1 / 16777216) = 1 ∧
    f32 (1 + 3 / 16777216) = 1 + 1 / 4194304 ∧
    f32 16777217 = 16777216 ∧
    f32 (-(1 / 3)) = -(11184811 / 33554432) ∧
    f32 (3 * pow2 (-150)) = pow2 (-148) ∧
    f32 (pow2 (-150)) = 0 ∧
    f32 (5 * pow2 (-151)) = pow2 (-149) := by
  refine ⟨by decide!, by decide!, by decide!, by decide!, by decide!, by decide!, by decide!,
    by decide!⟩

theorem running_from_append (acc : ℚ) (l : List ℚ) (x : ℚ) :
    running_from acc (l ++ [x]) = f32 (running_from acc l + x) := by
  simp [running_from, List.foldl_append]

/-- When every prefix sum of `ps` is a `float`, no addition of the accumulator rounds and
the running sums are the prefix sums. -/
theorem running_sum_exact (ps : List ℚ)
    (h : ∀ i, i < ps.length → f32 ((ps.take (i + 1)).sum) = (ps.take (i + 1)).sum) :
    ∀ i, i < ps.length → running_sum (ps.take (i + 1)) = (ps.take (i + 1)).sum := by
  intro i
  induction i with
  | zero =>
    intro hi
    have h0 := h 0 hi
    cases ps with
    | nil => simp at hi
    | cons p rest =>
      simp only [List.take_succ_cons, List.take_zero, List.sum_cons, List.sum_nil,
        add_zero] at h0 ⊢
      simp only [running_sum, running_from, List.foldl_cons, List.foldl_nil, zero_add]
      exact h0
  | succ i ih =>
    intro hi
    have h1 := ih (by omega)
    have h2 := h (i + 1) hi
    have htake : ps.take (i + 1 + 1) = ps.take (i + 1) ++ [ps[i + 1]] := by
      rw [List.take_succ, List.getElem?_eq_getElem hi]
      rfl
    have hsum : (ps.take (i + 1 + 1)).sum = (ps.take (i + 1)).sum + ps[i + 1] := by
      rw [htake, List.sum_append, List.sum_singleton]
    have hrun : running_sum (ps.take (i + 1 + 1)) =
        f32 (running_sum (ps.take (i + 1)) + ps[i + 1]) := by
      rw [htake, running_sum, running_from_append]
      rfl
    rw [hrun, h1, ← hsum]
    exact h2

/-! ### `sample_mult` -/

theorem FirstExceeds.unique {r : ℚ} {ps : List ℚ} {k k' : Nat}
    (h : FirstExceeds r ps k) (h' : FirstExceeds r ps k') : k = k' := by
  rcases Nat.lt_trichotomy k k' with hlt | heq | hgt
  · exact absurd h.2.1 (h'.2.2 k hlt)
  · exact heq
  · exact absurd h'.2.1 (h.2.2 k' hgt)

theorem first_running_exceeds_unique {r : ℚ} {ps : List ℚ} {k k' : Nat}
    (h : FirstRunningExceeds r ps k) (h' : FirstRunningExceeds r ps k') : k = k' := by
  rcases Nat.lt_trichotomy k k' with hlt | heq | hgt
  · exact absurd h.2.1 (h'.2.2 k hlt)
  · exact heq
  · exact absurd h'.2.1 (h.2.2 k' hgt)

theorem sample_mult_loop_some (r : ℚ) (rest : List ℚ) :
    ∀ (i : Nat) (cdf : ℚ) (k : Nat), sample_mult_loop r rest i cdf = some k →
      ∃ d, k = i + d ∧ d < rest.length ∧ r < running_from cdf (rest.take (d + 1)) ∧
        ∀ m, m < d → ¬ r < running_from cdf (rest.take (m + 1)) := by
  induction rest with
  | nil => intro i cdf k h; simp [sample_mult_loop] at h
  | cons p rest ih =>
    intro i cdf k h
    unfold sample_mult_loop at h
    by_cases hp : r < f32 (cdf + p)
    · rw [if_pos hp] at h
      refine ⟨0, by simpa using h.symm, by simp, ?_, ?_⟩
      · simpa [running_from] using hp
      · intro m hm; omega
    · rw [if_neg hp] at h
      obtain ⟨d, hk, hlen, hex, hfirst⟩ := ih (i + 1) (f32 (cdf + p)) k h
      refine ⟨d + 1, by omega, by simpa using hlen, ?_, ?_⟩
      · simpa [running_from] using hex
      · intro m hm
        cases m with
        | zero => simpa [running_from] using hp
        | succ m =>
          have := hfirst m (by omega)
          simpa [running_from] using this

theorem sample_mult_loop_none (r : ℚ) (rest : List ℚ) :
    ∀ (i : Nat) (cdf : ℚ), sample_mult_loop r rest i cdf = none →
      ∀ d, d < rest.length → ¬ r < running_from cdf (rest.take (d + 1)) := by
  induction rest with
  | nil => intro i cdf _ d hd; simp at hd
  | cons p rest ih =>
    intro i cdf h d hd
    unfold sample_mult_loop at h
    by_cases hp : r < f32 (cdf + p)
    · rw [if_pos hp] at h; cases h
    · rw [if_neg hp] at h
      cases d with
      | zero => simpa [running_from] using hp
      | succ d =>
        have := ih (i + 1) (f32 (cdf + p)) h d (by simpa using hd)
        simpa [running_from] using this

/-- What `sample_mult` returns, in terms of the running sums of its `float` accumulator. -/
theorem sample_mult_spec (probabilities : List ℚ) (r : ℚ) :
    (∀ i, FirstRunningExceeds r probabilities i → sample_mult probabilities r = (i : Int)) ∧
    ((∀ i, i < probabilities.length → ¬ r < running_sum (probabilities.take (i + 1))) →
      sample_mult probabilities r = (probabilities.length : Int) - 1) := by
  constructor
  · intro i hi
    unfold sample_mult
    cases hloop : sample_mult_loop r probabilities 0 0 with
    | none =>
      exact absurd hi.2.1 (sample_mult_loop_none r probabilities 0 0 hloop i hi.1)
    | some k =>
      obtain ⟨d, hk, hd⟩ := sample_mult_loop_some r probabilities 0 0 k hloop
      have : d = i := first_running_exceeds_unique hd hi
      simp only [Nat.cast_inj]
      omega
  · intro hnone
    unfold sample_mult
    cases hloop : sample_mult_loop r probabilities 0 0 with
    | none => rfl
    | some k =>
      obtain ⟨d, hk, hd⟩ := sample_mult_loop_some r probabilities 0 0 k hloop
      exact absurd hd.2.1 (hnone d hd.1)

/-- C4, amended: `sample_mult` returns the first index at which its accumulator `cdf`,
the running sum of `probabilities[0], ..., probabilities[i]` with every addition rounded
to `float`, exceeds the draw `r`, and the last index `n - 1` when the accumulator never
exceeds `r`. When every prefix sum is a `float` (no addition rounds), this is the first
index whose prefix sum exceeds `r`, and `n - 1` when no prefix sum exceeds `r`. -/
theorem sample_mult_first_running_exceeding (probabilities : List ℚ) (r : ℚ) :
    (∀ i, FirstRunningExceeds r probabilities i → sample_mult probabilities r = (i : Int)) ∧
    ((∀ i, i < probabilities.length → ¬ r < running_sum (probabilities.take (i + 1))) →
      sample_mult probabilities r = (probabilities.length : Int) - 1) ∧
    ((∀ i, i < probabilities.length →
        f32 ((probabilities.take (i + 1)).sum) = (probabilities.take (i + 1)).sum) →
      (∀ i, FirstExceeds r probabilities i → sample_mult probabilities r = (i : Int)) ∧
      ((∀ i, i < probabilities.length → ¬ r < (probabilities.take (i + 1)).sum) →
        sample_mult probabilities r = (probabilities.length : Int) - 1)) := by
  refine ⟨(sample_mult_spec probabilities r).1, (sample_mult_spec probabilities r).2, ?_⟩
  intro hexact
  have hrun := running_sum_exact probabilities hexact
  constructor
  · intro i hi
    apply (sample_mult_spec probabilities r).1
    refine ⟨hi.1, ?_, ?_⟩
    · rw [hrun i hi.1]; exact hi.2.1
    · intro m hm
      rw [hrun m (by have := hi.1; omega)]
      exact hi.2.2 m hm
  · intro hnone
    apply (sample_mult_spec probabilities r).2
    intro i hi
    rw [hrun i hi]
    exact hnone i hi

/-- Witness of C4, amended: on `[1/4, 1/4, 1/2]`, whose prefix sums are floats, the draw
`3/10` selects index 1, the first whose prefix sum exceeds it, and on `[1/4, 1/4]` the
draw `3/5`, which no running sum exceeds, selects the last index. -/
theorem sample_mult_first_running_exceeding_witness :
    sample_mult [1 / 4, 1 / 4, 1 / 2] (3 / 10) = ((1 : Nat) : Int) ∧
    sample_mult [1 / 4, 1 / 4] (3 / 5) = (([1 / 4, 1 / 4] : List ℚ).length : Int) - 1 :=
  ⟨((sample_mult_first_running_exceeding [1 / 4, 1 / 4, 1 / 2] (3 / 10)).2.2 (by
      intro i hi
      simp at hi
      interval_cases i <;> decide!)).1 1
      ⟨by simp, by norm_num, by
        intro m hm
        interval_cases m
        norm_num⟩,
    (sample_mult_first_running_exceeding [1 / 4, 1 / 4] (3 / 5)).2.1 (by
      intro i hi
      simp at hi
      interval_cases i <;> decide!)⟩

/-- Counterexample to C4 as stated: on the probabilities `[1/2, 2^-25, 1/2 - 2^-25]`
(floats, summing to 1) and the draw `r = 1/2` the first index whose prefix sum exceeds
`r` is 1, since `1/2 + 2^-25 > 1/2`; in `float` the sum `0.5f + 2^-25` rounds to `0.5f`,
the accumulator exceeds `r` only at index 2 and `sample_mult` returns 2. -/
theorem sample_mult_rounding_counterexample :
    sample_mult [1 / 2, 1 / 33554432, 1 / 2 - 1 / 33554432] (1 / 2) = 2 ∧
    FirstExceeds (1 / 2) [1 / 2, 1 / 33554432, 1 / 2 - 1 / 33554432] 1 ∧
    ([1 / 2, 1 / 33554432, 1 / 2 - 1 / 33554432] : List ℚ).sum = 1 ∧
    (∀ p ∈ ([1 / 2, 1 / 33554432, 1 / 2 - 1 / 33554432] : List ℚ), 0 ≤ p ∧ f32 p = p) ∧
    running_sum [1 / 2, 1 / 33554432] = 1 / 2 ∧
    (0 : ℚ) ≤ 1 / 2 ∧ (1 / 2 : ℚ) < 1 := by
  refine ⟨by decide!, ⟨by decide!, by decide!, ?_⟩, by decide!, by decide!, by decide!,
    by decide!, by decide!⟩
  intro m hm
  interval_cases m
  decide!

/-! ### `sample_topp` -/

theorem compare_le_zero_iff (a b : ProbIndex) : compare a b ≤ 0 ↔ b.prob ≤ a.prob := by
  unfold compare
  split_ifs with h1 h2
  · exact ⟨fun _ => le_of_lt h1, fun _ => by decide⟩
  · exact ⟨fun h => absurd h (by decide), fun h => absurd h2 (not_lt.mpr h)⟩
  · exact ⟨fun _ => not_lt.mp h2, fun _ => le_refl 0⟩

theorem qsort_perm {α : Type} (cmp : α → α → Int) (base : List α) :
    (qsort cmp base).Perm base :=
  List.perm_insertionSort _ base

theorem qsort_compare_sorted (base : List ProbIndex) :
    List.Sorted (fun a b => b.prob ≤ a.prob) (qsort compare base) := by
  haveI : IsTotal ProbIndex (fun a b => compare a b ≤ 0) :=
    ⟨fun a b => by simp only [compare_le_zero_iff]; exact le_total _ _⟩
  haveI : IsTrans ProbIndex (fun a b => compare a b ≤ 0) :=
    ⟨fun a b c => by simp only [compare_le_zero_iff]; exact fun h1 h2 => le_trans h2 h1⟩
  have h := List.sorted_insertionSort (fun a b => compare a b ≤ 0) base
  exact List.Pairwise.imp (fun {a b} hab => (compare_le_zero_iff a b).mp hab) h

theorem topp_candidates_mem (topp : ℚ) (n : Nat) (ps : List ℚ) :
    ∀ (i : Nat) (c : ProbIndex), c ∈ topp_candidates topp n ps i →
      ∃ j, c.index = i + j ∧ ps[j]? = some c.prob ∧ cutoff_le topp n c.prob = true := by
  induction ps with
  | nil => intro i c h; simp [topp_candidates] at h
  | cons p rest ih =>
    intro i c h
    unfold topp_candidates at h
    by_cases hp : cutoff_le topp n p = true
    · rw [if_pos hp] at h
      rcases List.mem_cons.mp h with h | h
      · subst h
        exact ⟨0, rfl, by simp, hp⟩
      · obtain ⟨j, h1, h2, h3⟩ := ih (i + 1) c h
        exact ⟨j + 1, by omega, by simpa using h2, h3⟩
    · rw [if_neg hp] at h
      obtain ⟨j, h1, h2, h3⟩ := ih (i + 1) c h
      exact ⟨j + 1, by omega, by simpa using h2, h3⟩

theorem topp_truncate_loop_some (topp : ℚ) (rest : List ProbIndex) :
    ∀ (i : Nat) (cum : ℚ) (k : Nat) (c : ℚ), topp_truncate_loop topp rest i cum = some (k, c) →
      ∃ d, k = i + d ∧ d < rest.length ∧
        topp < running_from cum ((rest.map ProbIndex.prob).take (d + 1)) ∧
        (∀ m, m < d → ¬ topp < running_from cum ((rest.map ProbIndex.prob).take (m + 1))) ∧
        c = running_from cum ((rest.map ProbIndex.prob).take (d + 1)) := by
  induction rest with
  | nil => intro i cum k c h; simp [topp_truncate_loop] at h
  | cons e rest ih =>
    intro i cum k c h
    unfold topp_truncate_loop at h
    by_cases hp : f32 (cum + e.prob) > topp
    · rw [if_pos hp] at h
      simp only [Option.some.injEq, Prod.mk.injEq] at h
      refine ⟨0, by omega, by simp, ?_, ?_, ?_⟩
      · simpa [running_from] using hp
      · intro m hm; omega
      · simp [running_from, ← h.2]
    · rw [if_neg hp] at h
      obtain ⟨d, hk, hlen, hex, hfirst, hc⟩ := ih (i + 1) (f32 (cum + e.prob)) k c h
      refine ⟨d + 1, by omega, by simpa using hlen, ?_, ?_, ?_⟩
      · simpa [running_from] using hex
      · intro m hm
        cases m with
        | zero => simpa [running_from] using hp
        | succ m =>
          have := hfirst m (by omega)
          simpa [running_from] using this
      · simpa [running_from] using hc

theorem topp_truncate_loop_none (topp : ℚ) (rest : List ProbIndex) :
    ∀ (i : Nat) (cum : ℚ), topp_truncate_loop topp rest i cum = none →
      ∀ d, d < rest.length →
        ¬ topp < running_from cum ((rest.map ProbIndex.prob).take (d + 1)) := by
  induction rest with
  | nil => intro i cum _ d hd; simp at hd
  | cons e rest ih =>
    intro i cum h d hd
    unfold topp_truncate_loop at h
    by_cases hp : f32 (cum + e.prob) > topp
    · rw [if_pos hp] at h; cases h
    · rw [if_neg hp] at h
      cases d with
      | zero => simpa [running_from] using hp
      | succ d =>
        have := ih (i + 1) (f32 (cum + e.prob)) h d (by simpa using hd)
        simpa [running_from] using this

theorem topp_pick_loop_some (r : ℚ) (rest : List ProbIndex) :
    ∀ (bound : Nat) (cdf : ℚ) (idx : Nat), topp_pick_loop r rest bound cdf = some idx →
      ∃ d c, d < bound ∧ rest[d]? = some c ∧ c.index = idx ∧ d < rest.length ∧
        r < running_from cdf ((rest.map ProbIndex.prob).take (d + 1)) ∧
        ∀ m, m < d → ¬ r < running_from cdf ((rest.map ProbIndex.prob).take (m + 1)) := by
  induction rest with
  | nil => intro bound cdf idx h; simp [topp_pick_loop] at h
  | cons e rest ih =>
    intro bound cdf idx h
    cases bound with
    | zero => simp [topp_pick_loop] at h
    | succ bound =>
      unfold topp_pick_loop at h
      by_cases hp : r < f32 (cdf + e.prob)
      · rw [if_pos hp] at h
        refine ⟨0, e, by omega, by simp, by simpa using h, by simp, ?_, ?_⟩
        · simpa [running_from] using hp
        · intro m hm; omega
      · rw [if_neg hp] at h
        obtain ⟨d, c, hd, hget, hidx, hlen, hex, hfirst⟩ :=
          ih bound (f32 (cdf + e.prob)) idx h
        refine ⟨d + 1, c, by omega, by simpa using hget, hidx, by simpa using hlen, ?_, ?_⟩
        · simpa [running_from] using hex
        · intro m hm
          cases m with
          | zero => simpa [running_from] using hp
          | succ m =>
            have := hfirst m (by omega)
            simpa [running_from] using this

theorem topp_pick_loop_none (r : ℚ) (rest : List ProbIndex) :
    ∀ (bound : Nat) (cdf : ℚ), topp_pick_loop r rest bound cdf = none →
      ∀ d, d < bound → d < rest.length →
        ¬ r < running_from cdf ((rest.map ProbIndex.prob).take (d + 1)) := by
  induction rest with
  | nil => intro bound cdf _ d _ hd; simp at hd
  | cons e rest ih =>
    intro bound cdf h d hb hd
    cases bound with
    | zero => omega
    | succ bound =>
      unfold topp_pick_loop at h
      by_cases hp : r < f32 (cdf + e.prob)
      · rw [if_pos hp] at h; cases h
      · rw [if_neg hp] at h
        cases d with
        | zero => simpa [running_from] using hp
        | succ d =>
          have := ih bound (f32 (cdf + e.prob)) h d (by omega) (by simpa using hd)
          simpa [running_from] using this

/-- Whatever `sample_topp` returns is the `index` field of one of the sorted candidates. -/
theorem sample_topp_returns_candidate (probabilities : List ℚ) (topp coin : ℚ) (idx : Nat)
    (h : sample_topp probabilities topp coin = some idx) :
    ∃ c, c ∈ qsort compare (topp_candidates topp probabilities.length probabilities 0) ∧
      c.index = idx := by
  unfold sample_topp at h
  simp only at h
  split_ifs at h with hneg
  split at h
  · rename_i i hpick
    obtain ⟨d, c, _, hget, hidx, _⟩ := topp_pick_loop_some _ _ _ _ _ hpick
    cases h
    exact ⟨c, List.getElem?_mem hget, hidx⟩
  · rcases Option.map_eq_some'.mp h with ⟨c, hget, hidx⟩
    exact ⟨c, List.getElem?_mem hget, hidx⟩

/-- The truncation of `sample_topp` on a non-empty candidate buffer: `last_idx` is the
first position at which the running sum exceeds `top_p`, or the last position of the
buffer when no running sum does, and `cumulative_prob` is the running sum up to it. -/
theorem topp_truncate_spec (topp : ℚ) (probindex : List ProbIndex) (hne : probindex ≠ []) :
    ∃ last : Nat, last < probindex.length ∧
      topp_truncate topp probindex =
        ((last : Int), running_sum ((probindex.map ProbIndex.prob).take (last + 1))) ∧
      (FirstRunningExceeds topp (probindex.map ProbIndex.prob) last ∨
        ((∀ i, i < (probindex.map ProbIndex.prob).length →
            ¬ topp < running_sum ((probindex.map ProbIndex.prob).take (i + 1))) ∧
          last + 1 = (probindex.map ProbIndex.prob).length)) := by
  have hpos : 0 < probindex.length := List.length_pos.mpr hne
  cases hloop : topp_truncate_loop topp probindex 0 0 with
  | none =>
    refine ⟨probindex.length - 1, by omega, ?_, Or.inr ⟨?_, by simp; omega⟩⟩
    · simp only [topp_truncate, hloop]
      rw [Nat.sub_add_cancel hpos, List.take_of_length_le (by simp)]
      congr 1
      omega
    · intro i hi
      exact topp_truncate_loop_none topp probindex 0 0 hloop i (by simpa using hi)
  | some kc =>
    obtain ⟨last, cum⟩ := kc
    obtain ⟨d, hd, hlen, hex, hfirst, hcum⟩ :=
      topp_truncate_loop_some topp probindex 0 0 last cum hloop
    have hd' : d = last := by omega
    subst hd'
    refine ⟨d, hlen, ?_, Or.inl ⟨by simpa using hlen, hex, hfirst⟩⟩
    simp only [topp_truncate, hloop, hcum]
    rfl

/-- What `sample_topp` computes when at least one candidate passes the cutoff. -/
theorem sample_topp_spec (probabilities : List ℚ) (topp coin : ℚ)
    (hcand : topp_candidates topp probabilities.length probabilities 0 ≠ []) :
    ∃ (last k : Nat) (c : ProbIndex),
      (FirstRunningExceeds topp ((topp_sorted probabilities topp).map ProbIndex.prob) last ∨
        ((∀ i, i < ((topp_sorted probabilities topp).map ProbIndex.prob).length →
            ¬ topp < running_sum
              (((topp_sorted probabilities topp).map ProbIndex.prob).take (i + 1))) ∧
          last + 1 = ((topp_sorted probabilities topp).map ProbIndex.prob).length)) ∧
      k ≤ last ∧
      (FirstRunningExceeds
          (f32 (coin * running_sum
            (((topp_sorted probabilities topp).map ProbIndex.prob).take (last + 1))))
          ((topp_sorted probabilities topp).map ProbIndex.prob) k ∨
        ((∀ i, i ≤ last →
            ¬ f32 (coin * running_sum
                (((topp_sorted probabilities topp).map ProbIndex.prob).take (last + 1))) <
              running_sum
                (((topp_sorted probabilities topp).map ProbIndex.prob).take (i + 1))) ∧
          k = last)) ∧
      (topp_sorted probabilities topp)[k]? = some c ∧
      sample_topp probabilities topp coin = some c.index := by
  have hne : topp_sorted probabilities topp ≠ [] := by
    intro h
    have hp := qsort_perm compare (topp_candidates topp probabilities.length probabilities 0)
    have hfold : qsort compare (topp_candidates topp probabilities.length probabilities 0) =
        topp_sorted probabilities topp := rfl
    rw [hfold, h] at hp
    exact hcand (List.Perm.nil_eq hp).symm
  obtain ⟨last, hlast, htrunc, hA⟩ := topp_truncate_spec topp _ hne
  have hfold : qsort compare (topp_candidates topp probabilities.length probabilities 0) =
      topp_sorted probabilities topp := rfl
  cases hpick : topp_pick_loop
      (f32 (coin * running_sum
        (((topp_sorted probabilities topp).map ProbIndex.prob).take (last + 1))))
      (topp_sorted probabilities topp) (last + 1) 0 with
  | none =>
    have hnone := topp_pick_loop_none _ _ _ _ hpick
    refine ⟨last, last, (topp_sorted probabilities topp)[last], hA, le_refl _,
      Or.inr ⟨fun i hi => hnone i (by omega) (by omega), rfl⟩,
      List.getElem?_eq_getElem hlast, ?_⟩
    simp [sample_topp, hfold, htrunc, hpick, List.getElem?_eq_getElem hlast]
  | some idx =>
    obtain ⟨k, c, hk, hget, hidx, hklen, hkex, hkfirst⟩ := topp_pick_loop_some _ _ _ _ _ hpick
    refine ⟨last, k, c, hA, by omega, Or.inl ⟨by simpa using hklen, hkex, hkfirst⟩, hget, ?_⟩
    simp [sample_topp, hfold, htrunc, hpick, hidx]

/-- C2, amended: whenever at least one probability passes the test
`probabilities[i] >= cutoff`, `sample_topp` returns an index of `probabilities` whose
entry passes that test, so it is never below the cutoff the code computes in `float`,
`fl(fl(1 - top_p) / fl(n - 1))`. When the three operations do not round, this is the
cutoff `(1 - top_p) / (n - 1)` of the claim. -/
theorem sample_topp_at_least_float_cutoff (probabilities : List ℚ) (topp coin : ℚ)
    (hcand : topp_candidates topp probabilities.length probabilities 0 ≠ []) :
    ∃ (idx : Nat) (p : ℚ), sample_topp probabilities topp coin = some idx ∧
      probabilities[idx]? = some p ∧
      cutoff_le topp probabilities.length p = true ∧
      (probabilities.length ≠ 1 →
        f32 (f32 (1 - topp) / f32 ((((probabilities.length : Int) - 1 : Int)) : ℚ)) ≤ p) ∧
      (probabilities.length ≠ 1 → f32 (1 - topp) = 1 - topp →
        f32 ((((probabilities.length : Int) - 1 : Int)) : ℚ) = (probabilities.length : ℚ) - 1 →
        f32 ((1 - topp) / ((probabilities.length : ℚ) - 1)) =
          (1 - topp) / ((probabilities.length : ℚ) - 1) →
        ¬ p < (1 - topp) / ((probabilities.length : ℚ) - 1)) := by
  obtain ⟨_, k, c, _, _, _, hget, hret⟩ := sample_topp_spec probabilities topp coin hcand
  have hmem : c ∈ topp_candidates topp probabilities.length probabilities 0 :=
    (qsort_perm compare _).mem_iff.mp (List.getElem?_mem hget)
  obtain ⟨j, hj, hpj, hcut⟩ := topp_candidates_mem topp _ probabilities 0 c hmem
  have hfloat : probabilities.length ≠ 1 →
      f32 (f32 (1 - topp) / f32 ((((probabilities.length : Int) - 1 : Int)) : ℚ)) ≤ c.prob := by
    intro hn
    simpa [cutoff_le, hn] using hcut
  refine ⟨c.index, c.prob, hret, ?_, hcut, hfloat, ?_⟩
  · rw [hj, Nat.zero_add]; exact hpj
  · intro hn h1 h2 h3
    have := hfloat hn
    rw [h1, h2, h3] at this
    exact not_lt.mpr this

/-- Witness of C2, amended: on `[1/2, 1/4, 1/4]` with `top_p = 1/2` every probability
passes the cutoff `1/4`, which is computed without rounding, and with the draw `3/4` the
sampler returns index 1. -/
theorem sample_topp_at_least_float_cutoff_witness :
    sample_topp [1 / 2, 1 / 4, 1 / 4] (1 / 2) (3 / 4) = some 1 ∧
    ∃ (idx : Nat) (p : ℚ), sample_topp [1 / 2, 1 / 4, 1 / 4] (1 / 2) (3 / 4) = some idx ∧
      ([1 / 2, 1 / 4, 1 / 4] : List ℚ)[idx]? = some p ∧
      cutoff_le (1 / 2) ([1 / 2, 1 / 4, 1 / 4] : List ℚ).length p = true ∧
      (([1 / 2, 1 / 4, 1 / 4] : List ℚ).length ≠ 1 →
        f32 (f32 (1 - 1 / 2) /
          f32 ((((([1 / 2, 1 / 4, 1 / 4] : List ℚ).length : Int) - 1 : Int)) : ℚ)) ≤ p) ∧
      (([1 / 2, 1 / 4, 1 / 4] : List ℚ).length ≠ 1 → f32 (1 - 1 / 2) = 1 - 1 / 2 →
        f32 ((((([1 / 2, 1 / 4, 1 / 4] : List ℚ).length : Int) - 1 : Int)) : ℚ) =
          (([1 / 2, 1 / 4, 1 / 4] : List ℚ).length : ℚ) - 1 →
        f32 ((1 - 1 / 2) / ((([1 / 2, 1 / 4, 1 / 4] : List ℚ).length : ℚ) - 1)) =
          (1 - 1 / 2) / ((([1 / 2, 1 / 4, 1 / 4] : List ℚ).length : ℚ) - 1) →
        ¬ p < (1 - 1 / 2) / ((([1 / 2, 1 / 4, 1 / 4] : List ℚ).length : ℚ) - 1)) :=
  ⟨by decide!,
    sample_topp_at_least_float_cutoff [1 / 2, 1 / 4, 1 / 4] (1 / 2) (3 / 4) (by decide!)⟩

/-- Counterexample to C2 as stated. First input: the probabilities
`[3/4 - 2^-23, 1/4 + 2^-23]` (floats, summing to 1) with `top_p = 1/4 + 3 * 2^-25` (a
float). The cutoff `(1 - top_p) / (n - 1)` is `3/4 - 3 * 2^-25`; in `float` the
difference `1.0f - top_p` rounds to `3/4 - 2^-23`, so the first probability passes the
test and `sample_topp` returns index 0, whose probability is strictly below
`(1 - top_p) / (n - 1)`. Second input: five probabilities `fl(0.175)` and one `0.125`
with `top_p = 0.125`; the code's cutoff is `fl(0.175)`, below `0.175`, and index 0 is
returned. Third input: `[1/2, 1/2]` with `top_p = 1/10`, where no candidate passes the
cutoff `0.9` and the function returns `probindex[-1].index`, read before the start of the
buffer. -/
theorem sample_topp_cutoff_counterexample :
    (sample_topp [3 / 4 - 1 / 8388608, 1 / 4 + 1 / 8388608] (1 / 4 + 3 / 33554432) (1 / 2) =
        some 0 ∧
      (3 / 4 - 1 / 8388608 : ℚ) <
        (1 - (1 / 4 + 3 / 33554432)) /
          ((([3 / 4 - 1 / 8388608, 1 / 4 + 1 / 8388608] : List ℚ).length : ℚ) - 1) ∧
      ([3 / 4 - 1 / 8388608, 1 / 4 + 1 / 8388608] : List ℚ).sum = 1 ∧
      (∀ p ∈ ([3 / 4 - 1 / 8388608, 1 / 4 + 1 / 8388608] : List ℚ), 0 ≤ p ∧ f32 p = p) ∧
      f32 (1 / 4 + 3 / 33554432) = 1 / 4 + 3 / 33554432 ∧
      f32 (1 - (1 / 4 + 3 / 33554432)) = 3 / 4 - 1 / 8388608) ∧
    (sample_topp [f32 (7 / 40), f32 (7 / 40), f32 (7 / 40), f32 (7 / 40), f32 (7 / 40), 1 / 8]
        (1 / 8) 0 = some 0 ∧
      f32 (7 / 40) < (1 - 1 / 8) / ((6 : ℚ) - 1)) ∧
    sample_topp [1 / 2, 1 / 2] (1 / 10) (1 / 2) = none := by
  refine ⟨⟨by decide!, by decide!, by decide!, by decide!, by decide!, by decide!⟩,
    ⟨by decide!, by decide!⟩, by decide!⟩

/-- C3, amended: the candidate buffer of `sample_topp` is the candidates sorted by
descending probability, and whenever at least one candidate passes the cutoff the function
returns the index of the candidate at a position `k <= last` of it. Here `last` is the
first position at which the running sum of the sorted probabilities, accumulated in
`float`, exceeds `top_p`, or the last position of the buffer when no running sum does;
`r` is the `float` product of the draw and the running sum up to `last`; and `k` is the
first position at which the running sum exceeds `r`, or `last` when none up to `last`
does. -/
theorem sample_topp_picks_within_float_kept (probabilities : List ℚ) (topp coin : ℚ)
    (hcand : topp_candidates topp probabilities.length probabilities 0 ≠ []) :
    List.Sorted (fun a b => b.prob ≤ a.prob) (topp_sorted probabilities topp) ∧
    (topp_sorted probabilities topp).Perm
      (topp_candidates topp probabilities.length probabilities 0) ∧
    ∃ (last k : Nat) (c : ProbIndex),
      (FirstRunningExceeds topp ((topp_sorted probabilities topp).map ProbIndex.prob) last ∨
        ((∀ i, i < ((topp_sorted probabilities topp).map ProbIndex.prob).length →
            ¬ topp < running_sum
              (((topp_sorted probabilities topp).map ProbIndex.prob).take (i + 1))) ∧
          last + 1 = ((topp_sorted probabilities topp).map ProbIndex.prob).length)) ∧
      k ≤ last ∧
      (FirstRunningExceeds
          (f32 (coin * running_sum
            (((topp_sorted probabilities topp).map ProbIndex.prob).take (last + 1))))
          ((topp_sorted probabilities topp).map ProbIndex.prob) k ∨
        ((∀ i, i ≤ last →
            ¬ f32 (coin * running_sum
                (((topp_sorted probabilities topp).map ProbIndex.prob).take (last + 1))) <
              running_sum
                (((topp_sorted probabilities topp).map ProbIndex.prob).take (i + 1))) ∧
          k = last)) ∧
      (topp_sorted probabilities topp)[k]? = some c ∧
      sample_topp probabilities topp coin = some c.index :=
  ⟨qsort_compare_sorted _, qsort_perm compare _,
    sample_topp_spec probabilities topp coin hcand⟩

/-- Witness of C3, amended, on `[1/2, 1/4, 1/4]` with `top_p = 1/2` and the draw `3/4`:
all three candidates pass the cutoff `1/4`, the running sums are `1/2, 3/4, 1`, so
`last = 1`, `r = 9/16` and the sampler returns index 1. -/
theorem sample_topp_picks_within_float_kept_witness :
    sample_topp [1 / 2, 1 / 4, 1 / 4] (1 / 2) (3 / 4) = some 1 ∧
    FirstRunningExceeds (1 / 2)
      ((topp_sorted [1 / 2, 1 / 4, 1 / 4] (1 / 2)).map ProbIndex.prob) 1 ∧
    ∃ (last k : Nat) (c : ProbIndex),
      (FirstRunningExceeds (1 / 2)
          ((topp_sorted [1 / 2, 1 / 4, 1 / 4] (1 / 2)).map ProbIndex.prob) last ∨
        ((∀ i, i < ((topp_sorted [1 / 2, 1 / 4, 1 / 4] (1 / 2)).map ProbIndex.prob).length →
            ¬ (1 / 2 : ℚ) < running_sum
              (((topp_sorted [1 / 2, 1 / 4, 1 / 4] (1 / 2)).map ProbIndex.prob).take (i + 1))) ∧
          last + 1 = ((topp_sorted [1 / 2, 1 / 4, 1 / 4] (1 / 2)).map ProbIndex.prob).length)) ∧
      k ≤ last ∧
      (FirstRunningExceeds
          (f32 (3 / 4 * running_sum
            (((topp_sorted [1 / 2, 1 / 4, 1 / 4] (1 / 2)).map ProbIndex.prob).take (last + 1))))
          ((topp_sorted [1 / 2, 1 / 4, 1 / 4] (1 / 2)).map ProbIndex.prob) k ∨
        ((∀ i, i ≤ last →
            ¬ f32 (3 / 4 * running_sum
                (((topp_sorted [1 / 2, 1 / 4, 1 / 4] (1 / 2)).map ProbIndex.prob).take
                  (last + 1))) <
              running_sum
                (((topp_sorted [1 / 2, 1 / 4, 1 / 4] (1 / 2)).map ProbIndex.prob).take (i + 1))) ∧
          k = last)) ∧
      (topp_sorted [1 / 2, 1 / 4, 1 / 4] (1 / 2))[k]? = some c ∧
      sample_topp [1 / 2, 1 / 4, 1 / 4] (1 / 2) (3 / 4) = some c.index :=
  ⟨by decide!,
    ⟨by decide!, by decide!, by
      intro m hm
      interval_cases m
      decide!⟩,
    (sample_topp_picks_within_float_kept [1 / 2, 1 / 4, 1 / 4] (1 / 2) (3 / 4)
      (by decide!)).2.2⟩

/-- Counterexample to C3 as stated. First input: the probabilities
`[1 - 2^-23, 2^-24 + 2^-27, 2^-24 - 2^-27]` (floats, summing to 1) with
`top_p = 1 - 2^-24` and the draw `U = 1 - 2^-24` (floats). All three pass the cutoff and
are sorted as given. The cumulative sum exceeds `top_p` first at position 1, so the kept
prefix of the claim is the positions 0 and 1. In `float` the sum of the first two rounds
to `1 - 2^-24`, which does not exceed `top_p`; the code keeps all three candidates and
returns the candidate at position 2, index 2. Second input: `[1/2, 1/2]` with
`top_p = 1/10`, where no candidate passes the cutoff and the function returns
`probindex[-1].index`, read before the start of the buffer. -/
theorem sample_topp_kept_counterexample :
    (sample_topp [1 - 1 / 8388608, 1 / 16777216 + 1 / 134217728, 1 / 16777216 - 1 / 134217728]
        (1 - 1 / 16777216) (1 - 1 / 16777216) = some 2 ∧
      (topp_sorted [1 - 1 / 8388608, 1 / 16777216 + 1 / 134217728,
          1 / 16777216 - 1 / 134217728] (1 - 1 / 16777216)).map ProbIndex.index = [0, 1, 2] ∧
      FirstExceeds (1 - 1 / 16777216)
        ((topp_sorted [1 - 1 / 8388608, 1 / 16777216 + 1 / 134217728,
          1 / 16777216 - 1 / 134217728] (1 - 1 / 16777216)).map ProbIndex.prob) 1 ∧
      ([1 - 1 / 8388608, 1 / 16777216 + 1 / 134217728,
          1 / 16777216 - 1 / 134217728] : List ℚ).sum = 1 ∧
      (∀ p ∈ ([1 - 1 / 8388608, 1 / 16777216 + 1 / 134217728,
          1 / 16777216 - 1 / 134217728] : List ℚ), 0 ≤ p ∧ f32 p = p) ∧
      f32 (1 - 1 / 16777216) = 1 - 1 / 16777216) ∧
    (sample_topp [1 / 2, 1 / 2] (1 / 10) (1 / 2) = none ∧
      topp_sorted [1 / 2, 1 / 2] (1 / 10) = []) := by
  refine ⟨⟨by decide!, by decide!, ⟨by decide!, by decide!, ?_⟩, by decide!, by decide!,
    by decide!⟩, by decide!, by decide!⟩
  intro m hm
  interval_cases m
  decide!

/-! ## Properties of the tokenizer -/

theorem strcmp_eq_zero_iff (a : List Nat) : ∀ b : List Nat, strcmp a b = 0 ↔ a = b := by
  induction a with
  | nil =>
    intro b
    cases b with
    | nil => simp [strcmp]
    | cons y ys => simp [strcmp]
  | cons x xs ih =>
    intro b
    cases b with
    | nil => simp [strcmp]
    | cons y ys =>
      unfold strcmp
      split_ifs with h1 h2
      · simp; intro h; omega
      · simp; intro h; omega
      · have hxy : x = y := by omega
        simp [ih ys, hxy]

theorem index_vocab_mem (vocab : List (List Nat)) :
    ∀ (i : Nat) (e : TokenIndex), e ∈ index_vocab vocab i →
      ∃ j : Nat, e.id = ((i + j : Nat) : Int) ∧ vocab[j]? = some e.str := by
  induction vocab with
  | nil => intro i e h; simp [index_vocab] at h
  | cons s rest ih =>
    intro i e h
    unfold index_vocab at h
    rcases List.mem_cons.mp h with h | h
    · subst h
      exact ⟨0, by simp, by simp⟩
    · obtain ⟨j, h1, h2⟩ := ih (i + 1) e h
      refine ⟨j + 1, ?_, by simpa using h2⟩
      rw [h1]
      congr 1
      omega

theorem index_vocab_str (vocab : List (List Nat)) :
    ∀ (i : Nat) (s : List Nat), s ∈ vocab → ∃ e, e ∈ index_vocab vocab i ∧ e.str = s := by
  induction vocab with
  | nil => intro i s h; simp at h
  | cons s0 rest ih =>
    intro i s h
    unfold index_vocab
    rcases List.mem_cons.mp h with h | h
    · subst h
      exact ⟨_, List.mem_cons_self _ _, rfl⟩
    · obtain ⟨e, he, hs⟩ := ih (i + 1) s h
      exact ⟨e, List.mem_cons_of_mem _ he, hs⟩

/-- An id returned by `str_lookup` other than `-1` is an index of `vocab` that holds the
string looked up. -/
theorem str_lookup_spec (t : Tokenizer) (str : List Nat) (h : str_lookup str (sorted_vocab t) ≠ -1) :
    vocab_at t (str_lookup str (sorted_vocab t)) = some str := by
  unfold str_lookup bsearch at h ⊢
  cases hfind : List.find? (fun e => decide (compare_tokens { str := str, id := 0 } e = 0))
      (sorted_vocab t) with
  | none => simp [hfind] at h
  | some res =>
    simp only [hfind]
    have hmem : res ∈ sorted_vocab t := List.mem_of_find?_eq_some hfind
    have hcmp := List.find?_some hfind
    simp only [compare_tokens, decide_eq_true_eq] at hcmp
    have hstr : str = res.str := (strcmp_eq_zero_iff _ _).mp hcmp
    have hmem' : res ∈ index_vocab t.vocab 0 := (qsort_perm compare_tokens _).mem_iff.mp hmem
    obtain ⟨j, hid, hget⟩ := index_vocab_mem t.vocab 0 res hmem'
    rw [hid, hstr]
    simp [vocab_at, hget]

/-- A string of the vocabulary is found by `str_lookup`. -/
theorem str_lookup_found (t : Tokenizer) (str : List Nat) (h : str ∈ t.vocab) :
    str_lookup str (sorted_vocab t) ≠ -1 := by
  obtain ⟨e, he, hs⟩ := index_vocab_str t.vocab 0 str h
  have hmem : e ∈ sorted_vocab t := (qsort_perm compare_tokens _).mem_iff.mpr he
  unfold str_lookup bsearch
  cases hfind : List.find? (fun e => decide (compare_tokens { str := str, id := 0 } e = 0))
      (sorted_vocab t) with
  | none =>
    have := List.find?_eq_none.mp hfind e hmem
    simp only [compare_tokens, decide_eq_true_eq] at this
    exact absurd ((strcmp_eq_zero_iff _ _).mpr hs.symm) this
  | some res =>
    simp only
    have hmem' : res ∈ index_vocab t.vocab 0 :=
      (qsort_perm compare_tokens _).mem_iff.mp (List.mem_of_find?_eq_some hfind)
    obtain ⟨j, hid, _⟩ := index_vocab_mem t.vocab 0 res hmem'
    rw [hid]
    omega

/-- A string that `str_lookup` finds is a string of the vocabulary. -/
theorem str_lookup_mem (t : Tokenizer) (str : List Nat) (h : str_lookup str (sorted_vocab t) ≠ -1) :
    str ∈ t.vocab := by
  have := str_lookup_spec t str h
  unfold vocab_at at this
  split_ifs at this
  exact List.getElem?_mem this

theorem vocab_at_lt (t : Tokenizer) (id : Int) (s : List Nat) (h : vocab_at t id = some s) :
    0 ≤ id ∧ id < (t.vocab.length : Int) := by
  unfold vocab_at at h
  split_ifs at h with h0
  have := (List.getElem?_eq_some_iff.mp h).1
  omega

theorem encode_seed_loop_append (sv : List TokenIndex) (text : List Nat) :
    ∀ (str_buffer : List Nat) (tokens : List Int),
      ∃ more, encode_seed_loop sv text str_buffer tokens = tokens ++ more := by
  induction text with
  | nil => intro b tokens; exact ⟨[], by simp [encode_seed_loop]⟩
  | cons c rest ih =>
    intro b tokens
    unfold encode_seed_loop
    simp only
    generalize (if (c &&& 0xC0) ≠ 0x80 then [] else b) ++ [c] = sb
    split_ifs
    · exact ih _ _
    · obtain ⟨more, h⟩ := ih [] (tokens ++ [str_lookup sb sv])
      exact ⟨str_lookup sb sv :: more, by rw [h]; simp⟩
    · obtain ⟨more, h⟩ := ih [] (tokens ++ sb.map (fun (b : Nat) => (b : Int) + 3))
      exact ⟨sb.map (fun (b : Nat) => (b : Int) + 3) ++ more, by rw [h]; simp⟩

/-- C8 (amended): for a vocabulary that has an entry `" "`, the token sequence `encode`
builds before merging starts with an id in `[0, vocab_size)` whose vocabulary string is
`" "`; for the empty text the output of `encode` is exactly that one id. -/
theorem encode_starts_with_space_id (t : Tokenizer) (text : List Nat) (h : [32] ∈ t.vocab) :
    ∃ (id : Int) (rest : List Int), encode_seed t text = id :: rest ∧
      0 ≤ id ∧ id < (t.vocab.length : Int) ∧ vocab_at t id = some [32] ∧
      (c_str text = [] → encode t text = some [id]) := by
  have hne := str_lookup_found t [32] h
  have hat := str_lookup_spec t [32] hne
  obtain ⟨more, hmore⟩ := encode_seed_loop_append (sorted_vocab t) (c_str text) []
    [str_lookup [32] (sorted_vocab t)]
  refine ⟨str_lookup [32] (sorted_vocab t), more, by simpa [encode_seed] using hmore,
    (vocab_at_lt t _ _ hat).1, (vocab_at_lt t _ _ hat).2, hat, ?_⟩
  intro hempty
  simp [encode, encode_seed, hempty, encode_seed_loop, encode_merge_loop, encode_scan]

/-- Witness of C8 (amended) on the vocabulary `llama_like` and the text `"ab"`. -/
theorem encode_starts_with_space_id_witness :
    ∃ (id : Int) (rest : List Int), encode_seed llama_like [97, 98] = id :: rest ∧
      0 ≤ id ∧ id < (llama_like.vocab.length : Int) ∧ vocab_at llama_like id = some [32] ∧
      (c_str [97, 98] = [] → encode llama_like [97, 98] = some [id]) :=
  encode_starts_with_space_id llama_like [97, 98] (by decide!)

/-- C8 as stated fails: with the one-entry vocabulary `["a"]`, which has no `" "`, the
first id `encode` writes is `-1`, which is no valid id. -/
theorem encode_without_space_entry_counterexample :
    encode { vocab := [[97]], vocab_scores := [0] } [] = some [-1] ∧
    ¬ ∃ (id : Int) (rest : List Int),
      encode_seed { vocab := [[97]], vocab_scores := [0] } [] = id :: rest ∧
        0 ≤ id ∧ id < 1 := by
  refine ⟨by decide!, ?_⟩
  rintro ⟨id, rest, h, h0, _⟩
  have he : encode_seed { vocab := [[97]], vocab_scores := [0] } [] = [-1] := by decide!
  rw [he] at h
  injection h with h1 _
  omega

theorem c_str_of_nonzero (text : List Nat) (h : ∀ b ∈ text, b ≠ 0) : c_str text = text := by
  induction text with
  | nil => rfl
  | cons b rest ih =>
    have hb : b ≠ 0 := h b (List.mem_cons_self _ _)
    have := ih (fun x hx => h x (List.mem_cons_of_mem _ hx))
    unfold c_str at this ⊢
    simp only [List.takeWhile, hb, ne_eq, not_false_eq_true, decide_True, this]

theorem encode_seed_loop_continuation (sv : List TokenIndex) (rest : List Nat) :
    ∀ (str_buffer : List Nat) (tokens : List Int), rest ≠ [] →
      (∀ b ∈ rest, b &&& 0xC0 = 0x80) → str_buffer.length + rest.length ≤ 4 →
      encode_seed_loop sv rest str_buffer tokens =
        if str_lookup (str_buffer ++ rest) sv ≠ -1 then
          tokens ++ [str_lookup (str_buffer ++ rest) sv]
        else tokens ++ (str_buffer ++ rest).map (fun (b : Nat) => (b : Int) + 3) := by
  induction rest with
  | nil => intro _ _ h; exact absurd rfl h
  | cons c rest ih =>
    intro buf tokens _ hcont hlen
    have hc : c &&& 0xC0 = 0x80 := hcont c (List.mem_cons_self _ _)
    unfold encode_seed_loop
    simp only [hc, ne_eq, not_true_eq_false, if_false]
    cases rest with
    | nil =>
      have h0 : ¬ ((0 : Nat) &&& 0xC0 = 0x80) := by decide
      simp only [List.headD_nil, h0, false_and, if_false]
      split_ifs <;> simp [encode_seed_loop]
    | cons c2 rest2 =>
      have hc2 : c2 &&& 0xC0 = 0x80 := hcont c2 (by simp)
      have hl : (buf ++ [c]).length < 4 := by
        simp only [List.length_append, List.length_cons, List.length_nil] at hlen ⊢
        omega
      simp only [List.headD_cons, hc2, hl, and_self, if_true]
      rw [ih (buf ++ [c]) tokens (by simp)
        (fun b hb => hcont b (List.mem_cons_of_mem _ hb))
        (by
          simp only [List.length_append, List.length_cons, List.length_nil] at hlen ⊢
          omega)]
      simp

/-- C6 (amended): for a text that is one codepoint of 1 to 4 bytes, a first byte other
than NUL followed by up to three continuation bytes, whose string has no vocabulary
entry, the token sequence `encode` builds before merging is the dummy-prefix id followed
by exactly the ids `b + 3` of its bytes, in order. -/
theorem encode_seed_byte_fallback (t : Tokenizer) (b1 : Nat) (rest : List Nat) (hb1 : b1 ≠ 0)
    (hrest : ∀ b ∈ rest, b &&& 0xC0 = 0x80) (hlen : rest.length ≤ 3)
    (hno : str_lookup (b1 :: rest) (sorted_vocab t) = -1) :
    encode_seed t (b1 :: rest) =
      str_lookup [32] (sorted_vocab t) :: (b1 :: rest).map (fun (b : Nat) => (b : Int) + 3) := by
  have hstr : c_str (b1 :: rest) = b1 :: rest := by
    apply c_str_of_nonzero
    intro b hb
    rcases List.mem_cons.mp hb with h | h
    · rw [h]; exact hb1
    · intro h0
      have := hrest b h
      rw [h0] at this
      exact absurd this (by decide)
  unfold encode_seed
  rw [hstr]
  unfold encode_seed_loop
  simp only [ite_self, List.nil_append]
  cases rest with
  | nil =>
    have h0 : ¬ ((0 : Nat) &&& 0xC0 = 0x80) := by decide
    simp only [List.headD_nil, h0, false_and, if_false]
    simp [hno, encode_seed_loop]
  | cons c2 rest2 =>
    have hc2 : c2 &&& 0xC0 = 0x80 := hrest c2 (by simp)
    simp only [List.headD_cons, hc2, List.length_singleton, true_and]
    rw [if_pos (by decide)]
    rw [encode_seed_loop_continuation _ _ _ _ (by simp) hrest
      (by simp only [List.length_cons, List.length_nil] at hlen ⊢; omega)]
    simp [hno]

/-- Witness of C6 (amended): U+1F600, the bytes `F0 9F 98 80`, is seeded as the
dummy-prefix id and the four ids `0xF0 + 3, 0x9F + 3, 0x98 + 3, 0x80 + 3`. -/
theorem encode_seed_byte_fallback_witness :
    encode_seed llama_like (0xF0 :: [0x9F, 0x98, 0x80]) =
      str_lookup [32] (sorted_vocab llama_like) ::
        (0xF0 :: [0x9F, 0x98, 0x80]).map (fun (b : Nat) => (b : Int) + 3) :=
  encode_seed_byte_fallback llama_like 0xF0 [0x9F, 0x98, 0x80] (by decide) (by decide)
    (by decide) (by decide!)

/-- C6 as stated fails at the byte `0`: the text made of that byte is the empty C string,
it has no vocabulary entry, and `encode` writes the dummy-prefix id alone, no id `0 + 3`. -/
theorem encode_seed_nul_byte_counterexample :
    str_lookup [0] (sorted_vocab llama_like) = -1 ∧
    encode_seed llama_like [0] = [259] ∧
    encode_seed llama_like [0] ≠
      str_lookup [32] (sorted_vocab llama_like) :: [0].map (fun (b : Nat) => (b : Int) + 3) := by
  decide!

/-! ### `decode` -/

/-- C9 (amended): `decode` removes one leading space exactly when `prev_token = 1` and the
piece begins with a space, and the raw-byte test is made on the piece that is left. When
that test fails on the piece left, `decode` returns the piece with the space removed
(first part) or the piece unchanged (second part). -/
theorem decode_strips_one_leading_space (t : Tokenizer) (prev_token token : Int)
    (piece : List Nat) (h : vocab_at t token = some piece) :
    (prev_token = 1 → ∀ rest, piece = 32 :: rest → sscanf_byte rest = none →
      decode t prev_token token = some rest) ∧
    ((prev_token ≠ 1 ∨ piece.head? ≠ some 32) → sscanf_byte piece = none →
      decode t prev_token token = some piece) := by
  constructor
  · intro hprev rest hpiece hscan
    subst hpiece
    simp [decode, h, hprev, hscan]
  · intro hcond hscan
    have hnot : ¬ (prev_token = 1 ∧ piece.head? = some 32) := by
      rintro ⟨h1, h2⟩
      rcases hcond with hc | hc
      · exact hc h1
      · exact hc h2
    simp [decode, h, hnot, hscan]

/-- Witness of C9 (amended): after BOS the piece `" "` is decoded as the empty string,
and after the token `" "` the piece `"a"` is decoded unchanged. -/
theorem decode_strips_one_leading_space_witness :
    decode llama_like 1 259 = some [] ∧ decode llama_like 259 260 = some [97] :=
  ⟨(decode_strips_one_leading_space llama_like 1 259 [32] (by decide!)).1 rfl [] rfl
      (by decide),
    (decode_strips_one_leading_space llama_like 259 260 [97] (by decide!)).2
      (Or.inl (by decide)) (by decide)⟩

/-- C9 as stated fails: the piece `" <0x41>"` does not have the form `<0xHH>`, yet after
BOS `decode` returns `"A"` and not the piece with its leading space removed. -/
theorem decode_space_then_byte_counterexample :
    is_byte_pattern [32, 60, 48, 120, 52, 49, 62] = false ∧
    decode { vocab := [[32, 60, 48, 120, 52, 49, 62]], vocab_scores := [0] } 1 0 = some [65] ∧
    ([65] : List Nat) ≠ [60, 48, 120, 52, 49, 62] := by
  decide!

theorem hex_digit_lt (c v : Nat) (h : hex_digit c = some v) :
    v < 16 ∧ c ≠ 43 ∧ c ≠ 45 ∧ c ≠ 120 ∧ c ≠ 88 ∧ isspace c = false := by
  unfold hex_digit at h
  unfold isspace
  split_ifs at h with h1 h2 h3 <;> simp only [Option.some.injEq] at h <;>
    simp only [decide_eq_false_iff_not] <;> omega

/-- What `decode` returns for a piece of the exact form `<0xHH>`: the one-byte string of
the byte `HH` when it is printable or white space, and otherwise the piece itself. -/
theorem decode_byte_piece (t : Tokenizer) (prev_token token : Int) (h1 h2 a b : Nat)
    (ha : hex_digit h1 = some a) (hb : hex_digit h2 = some b)
    (h : vocab_at t token = some [60, 48, 120, h1, h2, 62]) :
    decode t prev_token token =
      some (if isprint (16 * a + b) ∨ isspace (16 * a + b) then [16 * a + b]
        else [60, 48, 120, h1, h2, 62]) := by
  obtain ⟨ha16, ha43, ha45, _, _, hasp⟩ := hex_digit_lt h1 a ha
  obtain ⟨hb16, _, _, hb120, hb88, _⟩ := hex_digit_lt h2 b hb
  have hscan : sscanf_byte [60, 48, 120, h1, h2, 62] = some (16 * a + b) := by
    simp only [sscanf_byte, List.dropWhile, hasp, scan_hex2, ha43, ha45, hb120, hb88, ha, hb,
      if_false, or_self, and_false, Option.map_some']
    congr 1
    omega
  have h60 : ¬ ((60 : Nat) = 32) := by decide
  simp only [decode, h, List.head?_cons, Option.some.injEq, h60, and_false, if_false, hscan]
  split_ifs <;> rfl

/-- C10 at the failing input: the piece of token 4 of `llama_like` is `<0x01>`, the byte
`0x01` is neither printable nor white space, and `decode` returns the six characters
`<0x01>`, not the empty string. -/
theorem decode_unprintable_byte_returns_piece :
    vocab_at llama_like 4 = some [60, 48, 120, 48, 49, 62] ∧
    is_byte_pattern [60, 48, 120, 48, 49, 62] = true ∧
    isprint 1 = false ∧ isspace 1 = false ∧
    decode llama_like 259 4 = some [60, 48, 120, 48, 49, 62] ∧
    decode llama_like 259 4 ≠ some [] := by
  decide!

/-! ### The merge loop of `encode` -/

/-- A scan that ends with `best_idx = -1` has updated nothing: every adjacent pair it
visited has no entry for its concatenation, or an entry whose score is not above
`best_score`. -/
theorem encode_scan_no_merge (t : Tokenizer) (sv : List TokenIndex) (tokens : List Int) :
    ∀ (i : Nat) (best r : Best), encode_scan t sv tokens i best = some r → r.best_idx = -1 →
      r = best ∧
      ∀ (k : Nat) (a b : Int), tokens[k]? = some a → tokens[k + 1]? = some b →
        ∃ sa sb, vocab_at t a = some sa ∧ vocab_at t b = some sb ∧
          (str_lookup (sa ++ sb) sv = -1 ∨
            ∃ sc, score_at t (str_lookup (sa ++ sb) sv) = some sc ∧ sc ≤ best.best_score) := by
  induction tokens with
  | nil =>
    intro i best r h _
    simp only [encode_scan, Option.some.injEq] at h
    exact ⟨h.symm, fun k a b hk => by simp at hk⟩
  | cons a0 rest ih =>
    intro i best r h hidx
    cases rest with
    | nil =>
      simp only [encode_scan, Option.some.injEq] at h
      exact ⟨h.symm, fun k a b _ hk => by simp at hk⟩
    | cons b0 rest2 =>
      unfold encode_scan at h
      cases hsa : vocab_at t a0 with
      | none => simp [hsa] at h
      | some sa =>
        cases hsb : vocab_at t b0 with
        | none => simp [hsa, hsb] at h
        | some sb =>
          simp only [hsa, hsb] at h
          have pairs : ∀ (best' : Best), r = best' →
              (str_lookup (sa ++ sb) sv = -1 ∨
                ∃ sc, score_at t (str_lookup (sa ++ sb) sv) = some sc ∧ sc ≤ best.best_score) →
              (∀ (k : Nat) (a b : Int), (b0 :: rest2)[k]? = some a →
                (b0 :: rest2)[k + 1]? = some b →
                ∃ sa sb, vocab_at t a = some sa ∧ vocab_at t b = some sb ∧
                  (str_lookup (sa ++ sb) sv = -1 ∨
                    ∃ sc, score_at t (str_lookup (sa ++ sb) sv) = some sc ∧
                      sc ≤ best.best_score)) →
              ∀ (k : Nat) (a b : Int), (a0 :: b0 :: rest2)[k]? = some a →
                (a0 :: b0 :: rest2)[k + 1]? = some b →
                ∃ sa sb, vocab_at t a = some sa ∧ vocab_at t b = some sb ∧
                  (str_lookup (sa ++ sb) sv = -1 ∨
                    ∃ sc, score_at t (str_lookup (sa ++ sb) sv) = some sc ∧
                      sc ≤ best.best_score) := by
            intro _ _ hhead htail k a b hka hkb
            cases k with
            | zero =>
              simp only [List.getElem?_cons_zero, Option.some.injEq, zero_add,
                List.getElem?_cons_succ] at hka hkb
              subst hka hkb
              exact ⟨sa, sb, hsa, hsb, hhead⟩
            | succ k => exact htail k a b (by simpa using hka) (by simpa using hkb)
          by_cases hid : str_lookup (sa ++ sb) sv ≠ -1
          · rw [if_pos hid] at h
            cases hsc : score_at t (str_lookup (sa ++ sb) sv) with
            | none => simp [hsc] at h
            | some sc =>
              simp only [hsc] at h
              by_cases hgt : sc > best.best_score
              · rw [if_pos hgt] at h
                have := (ih (i + 1) _ r h hidx).1
                rw [this] at hidx
                simp only at hidx
                omega
              · rw [if_neg hgt] at h
                obtain ⟨hr, htail⟩ := ih (i + 1) best r h hidx
                exact ⟨hr, pairs best hr (Or.inr ⟨sc, hsc, not_lt.mp hgt⟩) htail⟩
          · rw [if_neg hid] at h
            obtain ⟨hr, htail⟩ := ih (i + 1) best r h hidx
            exact ⟨hr, pairs best hr (Or.inl (not_not.mp hid)) htail⟩

/-- The output of the merge loop is a token list on which a scan finds no merge. -/
theorem encode_merge_loop_final (t : Tokenizer) (sv : List TokenIndex) (fuel : Nat) :
    ∀ (tokens out : List Int), encode_merge_loop t sv fuel tokens = some out →
      ∃ r, encode_scan t sv out 0
          { best_score := -10000000000, best_id := -1, best_idx := -1 } = some r ∧
        r.best_idx = -1 := by
  induction fuel with
  | zero => intro tokens out h; simp [encode_merge_loop] at h
  | succ fuel ih =>
    intro tokens out h
    unfold encode_merge_loop at h
    cases hscan : encode_scan t sv tokens 0
        { best_score := -10000000000, best_id := -1, best_idx := -1 } with
    | none => simp [hscan] at h
    | some best =>
      simp only [hscan] at h
      by_cases hidx : best.best_idx = -1
      · rw [if_pos hidx] at h
        cases h
        exact ⟨best, hscan, hidx⟩
      · rw [if_neg hidx] at h
        exact ih _ out h

/-- C7 (amended): when `encode` returns, every adjacent pair of its output has vocabulary
strings whose concatenation either is no vocabulary entry, or is one whose looked-up
entry has a score not above `-1e10`, the initial `best_score` of the merge loop. With
all scores above `-1e10`, no adjacent pair has a concatenation that is a vocabulary
entry. -/
theorem encode_output_has_no_merge (t : Tokenizer) (text : List Nat) (out : List Int)
    (h : encode t text = some out) :
    ∀ (k : Nat) (a b : Int), out[k]? = some a → out[k + 1]? = some b →
      ∃ sa sb, vocab_at t a = some sa ∧ vocab_at t b = some sb ∧
        (sa ++ sb ∉ t.vocab ∨
          ∃ sc, score_at t (str_lookup (sa ++ sb) (sorted_vocab t)) = some sc ∧
            sc ≤ -10000000000) ∧
        ((∀ sc ∈ t.vocab_scores, -10000000000 < sc) → sa ++ sb ∉ t.vocab) := by
  intro k a b hka hkb
  obtain ⟨r, hscan, hidx⟩ := encode_merge_loop_final t (sorted_vocab t) _ _ out h
  obtain ⟨sa, sb, hsa, hsb, hpair⟩ :=
    (encode_scan_no_merge t (sorted_vocab t) out 0 _ r hscan hidx).2 k a b hka hkb
  have hmain : sa ++ sb ∉ t.vocab ∨
      ∃ sc, score_at t (str_lookup (sa ++ sb) (sorted_vocab t)) = some sc ∧
        sc ≤ -10000000000 := by
    rcases hpair with hp | hp
    · exact Or.inl (fun hmem => str_lookup_found t _ hmem hp)
    · exact Or.inr hp
  refine ⟨sa, sb, hsa, hsb, hmain, ?_⟩
  intro hall
  rcases hmain with hp | ⟨sc, hsc, hle⟩
  · exact hp
  · unfold score_at at hsc
    split_ifs at hsc
    have := hall sc (List.getElem?_mem hsc)
    linarith

/-- Witness of C7 (amended): the last two tokens of the output `[259, 262, 261]`
(`" "`, `"ab"`, `"b"`) of `encode` for the text `"abb"` over `llama_like`. -/
theorem encode_output_has_no_merge_witness :
    ∃ sa sb, vocab_at llama_like 262 = some sa ∧ vocab_at llama_like 261 = some sb ∧
      (sa ++ sb ∉ llama_like.vocab ∨
        ∃ sc, score_at llama_like (str_lookup (sa ++ sb) (sorted_vocab llama_like)) = some sc ∧
          sc ≤ -10000000000) ∧
      ((∀ sc ∈ llama_like.vocab_scores, -10000000000 < sc) → sa ++ sb ∉ llama_like.vocab) :=
  encode_output_has_no_merge llama_like [97, 98, 98] [259, 262, 261] (by decide!) 1 262 261
    rfl rfl

/-- C7 as stated fails: with the vocabulary `" "`, `"a"`, `"aa"` where `"aa"` has the
score `-2e10`, `encode` returns `" " a a` for the text `"aa"`, although the concatenation
of the strings of its last two tokens is the vocabulary entry `"aa"`. -/
theorem encode_low_score_pair_counterexample :
    encode { vocab := [[32], [97], [97, 97]], vocab_scores := [0, 0, -20000000000] } [97, 97] =
      some [0, 1, 1] ∧
    vocab_at { vocab := [[32], [97], [97, 97]], vocab_scores := [0, 0, -20000000000] } 1 =
      some [97] ∧
    [97] ++ [97] ∈
      (Tokenizer.mk [[32], [97], [97, 97]] [0, 0, -20000000000]).vocab := by
  decide!

/-! ### Round trip of `encode` and `decode` -/

theorem ascii_not_continuation : ∀ b, b < 128 → b &&& 0xC0 ≠ 0x80 := by decide

theorem text_of_append (t : Tokenizer) (l1 l2 : List Int) :
    text_of t (l1 ++ l2) = text_of t l1 ++ text_of t l2 := by
  induction l1 with
  | nil => simp [text_of]
  | cons a l1 ih => simp [text_of, ih]

theorem text_of_contains (t : Tokenizer) (tokens : List Int) (id : Int) (p : List Nat)
    (hmem : id ∈ tokens) (hp : vocab_at t id = some p) : p <:+: text_of t tokens := by
  obtain ⟨pre, post, rfl⟩ := List.append_of_mem hmem
  refine ⟨text_of t pre, text_of t post, ?_⟩
  rw [text_of_append]
  simp [text_of, hp]

theorem score_at_of_vocab_at (t : Tokenizer) (hsc : t.vocab_scores.length = t.vocab.length)
    (id : Int) (p : List Nat) (h : vocab_at t id = some p) : ∃ sc, score_at t id = some sc := by
  obtain ⟨h0, hlt⟩ := vocab_at_lt t id p h
  have hlt' : id.toNat < t.vocab_scores.length := by omega
  exact ⟨t.vocab_scores[id.toNat], by simp [score_at, h0, List.getElem?_eq_getElem hlt']⟩

/-- A scan over tokens that are ids of the vocabulary reads inside `vocab` and
`vocab_scores`. -/
theorem encode_scan_total (t : Tokenizer) (hsc : t.vocab_scores.length = t.vocab.length)
    (tokens : List Int) :
    ∀ (i : Nat) (best : Best), (∀ id ∈ tokens, ∃ p, vocab_at t id = some p) →
      ∃ r, encode_scan t (sorted_vocab t) tokens i best = some r := by
  induction tokens with
  | nil => intro i best _; exact ⟨best, by simp [encode_scan]⟩
  | cons a0 rest ih =>
    intro i best hv
    cases rest with
    | nil => exact ⟨best, by simp [encode_scan]⟩
    | cons b0 rest2 =>
      obtain ⟨sa, hsa⟩ := hv a0 (by simp)
      obtain ⟨sb, hsb⟩ := hv b0 (by simp)
      have hv' : ∀ id ∈ b0 :: rest2, ∃ p, vocab_at t id = some p :=
        fun id hid => hv id (List.mem_cons_of_mem _ hid)
      unfold encode_scan
      simp only [hsa, hsb]
      by_cases hid : str_lookup (sa ++ sb) (sorted_vocab t) ≠ -1
      · rw [if_pos hid]
        obtain ⟨sc, hscore⟩ := score_at_of_vocab_at t hsc _ _ (str_lookup_spec t _ hid)
        simp only [hscore]
        split_ifs
        · exact ih (i + 1) _ hv'
        · exact ih (i + 1) _ hv'
      · rw [if_neg hid]
        exact ih (i + 1) _ hv'

/-- The result of a scan is the initial `best`, or it records an adjacent pair whose
concatenation was found in the vocabulary. -/
theorem encode_scan_merge (t : Tokenizer) (sv : List TokenIndex) (tokens : List Int) :
    ∀ (i : Nat) (best r : Best), encode_scan t sv tokens i best = some r →
      r = best ∨
      ∃ (k : Nat) (a b : Int) (sa sb : List Nat), tokens[k]? = some a ∧
        tokens[k + 1]? = some b ∧ vocab_at t a = some sa ∧ vocab_at t b = some sb ∧
        r.best_idx = ((i + k : Nat) : Int) ∧ r.best_id = str_lookup (sa ++ sb) sv ∧
        str_lookup (sa ++ sb) sv ≠ -1 := by
  induction tokens with
  | nil => intro i best r h; simp only [encode_scan, Option.some.injEq] at h; exact Or.inl h.symm
  | cons a0 rest ih =>
    intro i best r h
    cases rest with
    | nil => simp only [encode_scan, Option.some.injEq] at h; exact Or.inl h.symm
    | cons b0 rest2 =>
      have shift : ∀ best' : Best,
          (r = best' ∨
            ∃ (k : Nat) (a b : Int) (sa sb : List Nat), (b0 :: rest2)[k]? = some a ∧
              (b0 :: rest2)[k + 1]? = some b ∧ vocab_at t a = some sa ∧
              vocab_at t b = some sb ∧ r.best_idx = ((i + 1 + k : Nat) : Int) ∧
              r.best_id = str_lookup (sa ++ sb) sv ∧ str_lookup (sa ++ sb) sv ≠ -1) →
          r = best' ∨
            ∃ (k : Nat) (a b : Int) (sa sb : List Nat), (a0 :: b0 :: rest2)[k]? = some a ∧
              (a0 :: b0 :: rest2)[k + 1]? = some b ∧ vocab_at t a = some sa ∧
              vocab_at t b = some sb ∧ r.best_idx = ((i + k : Nat) : Int) ∧
              r.best_id = str_lookup (sa ++ sb) sv ∧ str_lookup (sa ++ sb) sv ≠ -1 := by
        intro best' hcase
        rcases hcase with hr | ⟨k, a, b, sa, sb, h1, h2, h3, h4, h5, h6, h7⟩
        · exact Or.inl hr
        · refine Or.inr ⟨k + 1, a, b, sa, sb, by simpa using h1, by simpa using h2, h3, h4, ?_,
            h6, h7⟩
          rw [h5]
          congr 1
          omega
      unfold encode_scan at h
      cases hsa : vocab_at t a0 with
      | none => simp [hsa] at h
      | some sa =>
        cases hsb : vocab_at t b0 with
        | none => simp [hsa, hsb] at h
        | some sb =>
          simp only [hsa, hsb] at h
          by_cases hid : str_lookup (sa ++ sb) sv ≠ -1
          · rw [if_pos hid] at h
            cases hsc : score_at t (str_lookup (sa ++ sb) sv) with
            | none => simp [hsc] at h
            | some sc =>
              simp only [hsc] at h
              by_cases hgt : sc > best.best_score
              · rw [if_pos hgt] at h
                rcases shift _ (ih (i + 1) _ r h) with hr | hr
                · refine Or.inr ⟨0, a0, b0, sa, sb, by simp, by simp, hsa, hsb, ?_, ?_, hid⟩
                  · rw [hr]; simp
                  · rw [hr]
                · exact Or.inr hr
              · rw [if_neg hgt] at h
                exact shift _ (ih (i + 1) best r h)
          · rw [if_neg hid] at h
            exact shift _ (ih (i + 1) best r h)

theorem list_split_pair (tokens : List Int) :
    ∀ (k : Nat) (a b : Int), tokens[k]? = some a → tokens[k + 1]? = some b →
      tokens = tokens.take k ++ a :: b :: tokens.drop (k + 2) := by
  induction tokens with
  | nil => intro k a b h; simp at h
  | cons x rest ih =>
    intro k a b hka hkb
    cases k with
    | zero =>
      cases rest with
      | nil => simp at hkb
      | cons y rest2 =>
        simp only [List.getElem?_cons_zero, Option.some.injEq, zero_add,
          List.getElem?_cons_succ] at hka hkb
        simp [hka, hkb]
    | succ k =>
      have := ih k a b (by simpa using hka) (by simpa using hkb)
      simp only [List.take_succ_cons, List.drop_succ_cons, List.cons_append]
      rw [← this]

/-- One merge keeps the tokens valid, keeps the concatenation of their strings and
shortens the sequence by one. -/
theorem merge_step (t : Tokenizer) (tokens : List Int) (k : Nat) (a b : Int)
    (sa sb : List Nat) (hka : tokens[k]? = some a) (hkb : tokens[k + 1]? = some b)
    (hsa : vocab_at t a = some sa) (hsb : vocab_at t b = some sb)
    (hid : str_lookup (sa ++ sb) (sorted_vocab t) ≠ -1) (hvalid : ValidTokens t tokens) :
    ValidTokens t
        (tokens.take k ++ str_lookup (sa ++ sb) (sorted_vocab t) :: tokens.drop (k + 2)) ∧
      text_of t
        (tokens.take k ++ str_lookup (sa ++ sb) (sorted_vocab t) :: tokens.drop (k + 2)) =
        text_of t tokens ∧
      (tokens.take k ++ str_lookup (sa ++ sb) (sorted_vocab t) :: tokens.drop (k + 2)).length + 1 =
        tokens.length := by
  have hsplit := list_split_pair tokens k a b hka hkb
  have hnew := str_lookup_spec t (sa ++ sb) hid
  have hklt : k + 1 < tokens.length := (List.getElem?_eq_some_iff.mp hkb).1
  refine ⟨?_, ?_, ?_⟩
  · intro id hmem
    rcases List.mem_append.mp hmem with h | h
    · exact hvalid id (List.mem_of_mem_take h)
    · rcases List.mem_cons.mp h with h | h
      · obtain ⟨p, hp, hne⟩ := hvalid a (List.getElem?_mem hka)
        rw [hsa] at hp
        cases hp
        exact ⟨sa ++ sb, by rw [h]; exact hnew, by simp [hne]⟩
      · exact hvalid id (List.mem_of_mem_drop h)
  · conv_rhs => rw [hsplit]
    simp [text_of_append, text_of, hnew, hsa, hsb]
  · simp only [List.length_append, List.length_take, List.length_cons, List.length_drop]
    omega

/-- On valid tokens the merge loop with `fuel = n_tokens` returns; its output is valid
and spells the same text. -/
theorem encode_merge_loop_spec (t : Tokenizer) (hsc : t.vocab_scores.length = t.vocab.length)
    (fuel : Nat) :
    ∀ tokens : List Int, ValidTokens t tokens → tokens ≠ [] → tokens.length ≤ fuel →
      ∃ out, encode_merge_loop t (sorted_vocab t) fuel tokens = some out ∧
        ValidTokens t out ∧ text_of t out = text_of t tokens := by
  induction fuel with
  | zero =>
    intro tokens _ hne hlen
    exact absurd (List.length_eq_zero.mp (Nat.le_zero.mp hlen)) hne
  | succ fuel ih =>
    intro tokens hvalid hne hlen
    obtain ⟨r, hscan⟩ := encode_scan_total t hsc tokens 0
      { best_score := -10000000000, best_id := -1, best_idx := -1 }
      (fun id hid => (hvalid id hid).imp fun p hp => hp.1)
    unfold encode_merge_loop
    simp only [hscan]
    by_cases hidx : r.best_idx = -1
    · rw [if_pos hidx]
      exact ⟨tokens, rfl, hvalid, rfl⟩
    · rw [if_neg hidx]
      rcases encode_scan_merge t _ tokens 0 _ r hscan with hr | ⟨k, a, b, sa, sb, hka, hkb, hsa,
        hsb, hk, hbid, hid⟩
      · rw [hr] at hidx
        exact absurd rfl hidx
      · have hk' : r.best_idx.toNat = k := by rw [hk]; simp
        rw [hk', hbid]
        obtain ⟨hv, htext, hl⟩ := merge_step t tokens k a b sa sb hka hkb hsa hsb hid hvalid
        obtain ⟨out, hout, hvout, htout⟩ := ih _ hv (by simp) (by omega)
        exact ⟨out, hout, hvout, htout.trans htext⟩

theorem decode_plain (t : Tokenizer) (prev_token token : Int) (piece : List Nat)
    (h : vocab_at t token = some piece) (hprev : prev_token ≠ 1)
    (hscan : sscanf_byte piece = none) : decode t prev_token token = some piece := by
  simp [decode, h, hprev, hscan]

theorem sscanf_byte_single (c : Nat) : sscanf_byte [c] = none := by
  unfold sscanf_byte
  split
  · rename_i h; cases h
  · rfl

theorem sscanf_byte_nil : sscanf_byte [] = none := rfl

theorem sscanf_byte_space (p : List Nat) : sscanf_byte (32 :: p) = none := by
  unfold sscanf_byte
  split
  · rename_i h; cases h
  · rfl

theorem sscanf_byte_token_piece : ∀ b, b < 128 → sscanf_byte (byte_token_piece b) = some b := by
  decide

theorem byte_token_piece_ne_nil (b : Nat) : byte_token_piece b ≠ [] := by
  simp [byte_token_piece]

theorem byte_token_piece_head (b : Nat) : (byte_token_piece b).head? = some 60 := by
  simp [byte_token_piece]

theorem vocab_at_mem (t : Tokenizer) (id : Int) (p : List Nat) (h : vocab_at t id = some p) :
    p ∈ t.vocab := by
  unfold vocab_at at h
  split_ifs at h
  exact List.getElem?_mem h

theorem decode_prev_not_bos (t : Tokenizer) (prev_token token : Int) (h : prev_token ≠ 1) :
    decode t prev_token token = decode t 0 token := by
  simp [decode, h]

theorem decode_some (t : Tokenizer) (prev_token token : Int) (p : List Nat)
    (h : vocab_at t token = some p) : ∃ q, decode t prev_token token = some q := by
  simp only [decode, h]
  split
  · split_ifs <;> exact ⟨_, rfl⟩
  · exact ⟨_, rfl⟩

theorem decoded_text_append (t : Tokenizer) (l1 l2 : List Int) :
    decoded_text t (l1 ++ l2) = decoded_text t l1 ++ decoded_text t l2 := by
  induction l1 with
  | nil => simp [decoded_text]
  | cons a l1 ih => simp [decoded_text, ih]

/-- When no token is BOS, the concatenation of the decoded tokens is `decoded_text`. -/
theorem decode_all_eq_decoded_text (t : Tokenizer) (tokens : List Int) :
    ∀ prev : Int, prev ≠ 1 →
      (∀ id ∈ tokens, id ≠ 1 ∧ ∃ p, vocab_at t id = some p) →
      decode_all t prev tokens = some (decoded_text t tokens) := by
  induction tokens with
  | nil => intro prev _ _; rfl
  | cons id rest ih =>
    intro prev hprev hall
    obtain ⟨hid, p, hp⟩ := hall id (List.mem_cons_self _ _)
    have hrest := ih id hid (fun x hx => hall x (List.mem_cons_of_mem _ hx))
    obtain ⟨q, hq⟩ := decode_some t 0 id p hp
    simp [decode_all, decode_prev_not_bos t prev id hprev, hq, hrest, decoded_text]

/-- On ASCII text the seeding loop writes one token per byte. -/
theorem encode_seed_loop_bytes (sv : List TokenIndex) (text : List Nat) :
    ∀ tokens : List Int, (∀ b ∈ text, b < 128) →
      encode_seed_loop sv text [] tokens = tokens ++ text.map (seed_token sv) := by
  induction text with
  | nil => intro tokens _; simp [encode_seed_loop]
  | cons c rest ih =>
    intro tokens hascii
    have hc : c &&& 0xC0 ≠ 0x80 := ascii_not_continuation c (hascii c (List.mem_cons_self _ _))
    have hnext : ¬ (rest.headD 0 &&& 0xC0 = 0x80 ∧ ([c] : List Nat).length < 4) := by
      rintro ⟨h, _⟩
      cases rest with
      | nil => exact absurd h (by decide)
      | cons c2 rest2 => exact ascii_not_continuation c2 (hascii c2 (by simp)) h
    unfold encode_seed_loop
    simp only [if_pos hc, List.nil_append, if_neg hnext]
    by_cases hfound : str_lookup [c] sv ≠ -1
    · rw [if_pos hfound, ih _ (fun b hb => hascii b (List.mem_cons_of_mem _ hb))]
      simp [seed_token, hfound]
    · rw [if_neg hfound, ih _ (fun b hb => hascii b (List.mem_cons_of_mem _ hb))]
      simp [seed_token, hfound]

/-- The merge loop keeps every property of the token sequence that each single merge
keeps. -/
theorem encode_merge_loop_invariant (t : Tokenizer)
    (hsc : t.vocab_scores.length = t.vocab.length) (P : List Int → Prop)
    (hP : ∀ (tokens : List Int) (k : Nat) (a b : Int) (sa sb : List Nat),
      ValidTokens t tokens → P tokens → tokens[k]? = some a → tokens[k + 1]? = some b →
      vocab_at t a = some sa → vocab_at t b = some sb →
      str_lookup (sa ++ sb) (sorted_vocab t) ≠ -1 →
      P (tokens.take k ++ str_lookup (sa ++ sb) (sorted_vocab t) :: tokens.drop (k + 2)))
    (fuel : Nat) :
    ∀ tokens : List Int, ValidTokens t tokens → P tokens → tokens ≠ [] →
      tokens.length ≤ fuel →
      ∃ out, encode_merge_loop t (sorted_vocab t) fuel tokens = some out ∧
        ValidTokens t out ∧ text_of t out = text_of t tokens ∧ P out := by
  induction fuel with
  | zero =>
    intro tokens _ _ hne hlen
    exact absurd (List.length_eq_zero.mp (Nat.le_zero.mp hlen)) hne
  | succ fuel ih =>
    intro tokens hvalid hPt hne hlen
    obtain ⟨r, hscan⟩ := encode_scan_total t hsc tokens 0
      { best_score := -10000000000, best_id := -1, best_idx := -1 }
      (fun id hid => (hvalid id hid).imp fun p hp => hp.1)
    unfold encode_merge_loop
    simp only [hscan]
    by_cases hidx : r.best_idx = -1
    · rw [if_pos hidx]
      exact ⟨tokens, rfl, hvalid, rfl, hPt⟩
    · rw [if_neg hidx]
      rcases encode_scan_merge t _ tokens 0 _ r hscan with hr | ⟨k, a, b, sa, sb, hka, hkb, hsa,
        hsb, hk, hbid, hid⟩
      · rw [hr] at hidx
        exact absurd rfl hidx
      · have hk' : r.best_idx.toNat = k := by rw [hk]; simp
        rw [hk', hbid]
        obtain ⟨hv, htext, hl⟩ := merge_step t tokens k a b sa sb hka hkb hsa hsb hid hvalid
        have hPn := hP tokens k a b sa sb hvalid hPt hka hkb hsa hsb hid
        obtain ⟨out, hout, hvout, htout, hPout⟩ := ih _ hv hPn (by simp) (by omega)
        exact ⟨out, hout, hvout, htout.trans htext, hPout⟩

theorem decoded_text_map (t : Tokenizer) (f : Nat → Int) (s : List Nat)
    (h : ∀ b ∈ s, decode t 0 (f b) = some [b]) : decoded_text t (s.map f) = s := by
  induction s with
  | nil => rfl
  | cons b rest ih =>
    simp [decoded_text, h b (List.mem_cons_self _ _),
      ih (fun x hx => h x (List.mem_cons_of_mem _ hx))]

/-- What the seeding loop writes for a byte that has a one-character entry or, failing
that, a byte token that `decode` gives back. -/
theorem seed_token_spec (t : Tokenizer) (b : Nat) (hb : b < 128)
    (h : [b] ∈ t.vocab ∨
      (vocab_at t ((b : Int) + 3) = some (byte_token_piece b) ∧
        (isprint b = true ∨ isspace b = true))) :
    ∃ p, vocab_at t (seed_token (sorted_vocab t) b) = some p ∧ p ≠ [] ∧
      decode t 0 (seed_token (sorted_vocab t) b) = some [b] ∧
      (p.head? = some 32 → sscanf_byte p.tail = none) ∧
      (p = [b] ∨ seed_token (sorted_vocab t) b = (b : Int) + 3) := by
  by_cases hf : str_lookup [b] (sorted_vocab t) ≠ -1
  · have hv := str_lookup_spec t [b] hf
    have hst : seed_token (sorted_vocab t) b = str_lookup [b] (sorted_vocab t) := by
      simp [seed_token, hf]
    rw [hst]
    exact ⟨[b], hv, by simp, decode_plain t 0 _ [b] hv (by decide) (sscanf_byte_single b),
      fun _ => rfl, Or.inl rfl⟩
  · have hst : seed_token (sorted_vocab t) b = (b : Int) + 3 := by
      simp [seed_token, hf]
    rcases h with h | ⟨hv, hpr⟩
    · exact absurd (str_lookup_found t [b] h) hf
    · rw [hst]
      refine ⟨byte_token_piece b, hv, byte_token_piece_ne_nil b, ?_, ?_, Or.inr rfl⟩
      · have h60 : (byte_token_piece b).head? ≠ some 32 := by
          rw [byte_token_piece_head]; decide
        have hpr' : isprint b = true ∨ isspace b = true := hpr
        simp only [decode, hv]
        simp only [h60, and_false, if_false]
        rw [sscanf_byte_token_piece b hb]
        simp [hpr']
      · intro h32
        rw [byte_token_piece_head] at h32
        exact absurd h32 (by decide)

/-- C5, amended. Take a vocabulary with as many scores as strings that has an entry
`" "`, and a string `s` of ASCII bytes (1..127) each of which either has a one-character
vocabulary entry or is printable or white space with its byte token `<0xHH>` at id
`byte + 3` (the Llama layout). Let `T` be the concatenation of the vocabulary strings of
the tokens that `encode` starts from. Assume that the BOS piece `vocab[1]`, if it occurs
in `T`, is neither a single character nor the concatenation of two vocabulary entries, and
that every vocabulary entry that occurs in `T` and is the concatenation of two vocabulary
entries is not scanned by `decode` as a raw byte `<0x..`, nor are its two parts, nor what
remains of it after a leading space. Then `encode` returns, and the concatenation of
`decode(prev, id)` over its ids, with `prev` starting at BOS (1) and then the previous
id, is `s`. -/
theorem encode_decode_round_trip_ascii (t : Tokenizer) (s : List Nat)
    (hsc : t.vocab_scores.length = t.vocab.length) (hsp : [32] ∈ t.vocab)
    (hbytes : ∀ b ∈ s, b ≠ 0 ∧ b < 128 ∧
      ([b] ∈ t.vocab ∨
        (vocab_at t ((b : Int) + 3) = some (byte_token_piece b) ∧
          (isprint b = true ∨ isspace b = true))))
    (hbos : ∀ p, vocab_at t 1 = some p → p <:+: text_of t (encode_seed t s) →
      p.length ≠ 1 ∧
        ∀ k, k < p.length → ¬ (0 < k ∧ p.take k ∈ t.vocab ∧ p.drop k ∈ t.vocab))
    (hraw : ∀ z ∈ t.vocab, z <:+: text_of t (encode_seed t s) →
      ∀ k, k < z.length → 0 < k ∧ z.take k ∈ t.vocab ∧ z.drop k ∈ t.vocab →
        sscanf_byte (z.take k) = none ∧ sscanf_byte (z.drop k) = none ∧
        sscanf_byte z = none ∧ (z.head? = some 32 → sscanf_byte z.tail = none)) :
    ∃ out, encode t s = some out ∧ decode_all t 1 out = some s := by
  have hspace := str_lookup_found t [32] hsp
  have hspv := str_lookup_spec t [32] hspace
  have hseed : encode_seed t s = str_lookup [32] (sorted_vocab t) ::
      s.map (seed_token (sorted_vocab t)) := by
    unfold encode_seed
    rw [c_str_of_nonzero s (fun b hb => (hbytes b hb).1),
      encode_seed_loop_bytes _ s _ (fun b hb => (hbytes b hb).2.1)]
    rfl
  have hspec : ∀ b ∈ s, ∃ p, vocab_at t (seed_token (sorted_vocab t) b) = some p ∧ p ≠ [] ∧
      decode t 0 (seed_token (sorted_vocab t) b) = some [b] ∧
      (p.head? = some 32 → sscanf_byte p.tail = none) ∧
      (p = [b] ∨ seed_token (sorted_vocab t) b = (b : Int) + 3) :=
    fun b hb => seed_token_spec t b (hbytes b hb).2.1 (hbytes b hb).2.2
  have hvalid0 : ValidTokens t (encode_seed t s) := by
    intro id hid
    rw [hseed] at hid
    rcases List.mem_cons.mp hid with h | h
    · exact ⟨[32], by rw [h]; exact hspv, by simp⟩
    · obtain ⟨b, hb, hbid⟩ := List.mem_map.mp h
      obtain ⟨p, hp, hne, _⟩ := hspec b hb
      exact ⟨p, by rw [← hbid]; exact hp, hne⟩
  have hhead : ∃ rest, text_of t (encode_seed t s) = 32 :: rest := by
    rw [hseed]
    exact ⟨text_of t (s.map (seed_token (sorted_vocab t))), by simp [text_of, hspv]⟩
  have hne1 : ∀ id ∈ encode_seed t s, id ≠ 1 := by
    intro id hid h1
    have hmem := hid
    rw [hseed] at hid
    rcases List.mem_cons.mp hid with h | h
    · have hv1 : vocab_at t 1 = some [32] := by rw [← h1, h]; exact hspv
      have hin := text_of_contains t (encode_seed t s) id [32] hmem (by rw [h1]; exact hv1)
      exact (hbos [32] hv1 hin).1 rfl
    · obtain ⟨b, hb, hbid⟩ := List.mem_map.mp h
      obtain ⟨p, hp, _, _, _, hor⟩ := hspec b hb
      rcases hor with hpb | hfb
      · have hv1 : vocab_at t 1 = some [b] := by rw [← h1, ← hbid, ← hpb]; exact hp
        have hin := text_of_contains t (encode_seed t s) id [b] hmem (by rw [h1]; exact hv1)
        exact (hbos [b] hv1 hin).1 rfl
      · rw [← hbid, hfb] at h1
        omega
  have hP0 : text_of t (encode_seed t s) = text_of t (encode_seed t s) ∧
      (∀ id ∈ encode_seed t s, id ≠ 1 ∧ ∀ p, vocab_at t id = some p → p.head? = some 32 →
        sscanf_byte p.tail = none) ∧
      decoded_text t (encode_seed t s) = 32 :: s := by
    refine ⟨rfl, ?_, ?_⟩
    · intro id hid
      refine ⟨hne1 id hid, ?_⟩
      intro p hp h32
      rw [hseed] at hid
      rcases List.mem_cons.mp hid with h | h
      · rw [h, hspv] at hp
        cases hp
        rfl
      · obtain ⟨b, hb, hbid⟩ := List.mem_map.mp h
        obtain ⟨q, hq, _, _, htail, _⟩ := hspec b hb
        rw [← hbid, hq] at hp
        cases hp
        exact htail h32
    · rw [hseed]
      simp only [decoded_text]
      rw [decode_plain t 0 _ [32] hspv (by decide) (sscanf_byte_single 32),
        decoded_text_map t _ s (fun b hb => (hspec b hb).choose_spec.2.2.1)]
      rfl
  obtain ⟨out, hout, hvalid, htext, -, hQ, hdec⟩ := encode_merge_loop_invariant t hsc
    (fun tokens => text_of t tokens = text_of t (encode_seed t s) ∧
      (∀ id ∈ tokens, id ≠ 1 ∧ ∀ p, vocab_at t id = some p → p.head? = some 32 →
        sscanf_byte p.tail = none) ∧
      decoded_text t tokens = 32 :: s)
    (by
      intro tokens k a b sa sb hv ⟨hT, hQ, hD⟩ hka hkb hsa hsb hid
      obtain ⟨hv', htext', -⟩ := merge_step t tokens k a b sa sb hka hkb hsa hsb hid hv
      have hnew := str_lookup_spec t (sa ++ sb) hid
      have hzmem : sa ++ sb ∈ t.vocab := str_lookup_mem t (sa ++ sb) hid
      have hsane : sa ≠ [] := by
        obtain ⟨p, hp, hne⟩ := hv a (List.getElem?_mem hka)
        rw [hsa] at hp; cases hp; exact hne
      have hsbne : sb ≠ [] := by
        obtain ⟨p, hp, hne⟩ := hv b (List.getElem?_mem hkb)
        rw [hsb] at hp; cases hp; exact hne
      have hzin : sa ++ sb <:+: text_of t (encode_seed t s) := by
        rw [← hT, ← htext']
        exact text_of_contains t _ _ (sa ++ sb) (by simp) hnew
      have hk1 : sa.length < (sa ++ sb).length := by
        have := List.length_pos.mpr hsbne
        simp only [List.length_append]
        omega
      have hk0 : 0 < sa.length := List.length_pos.mpr hsane
      have htake : (sa ++ sb).take sa.length = sa := List.take_left _ _
      have hdrop : (sa ++ sb).drop sa.length = sb := List.drop_left _ _
      have hsam : sa ∈ t.vocab := vocab_at_mem t a sa hsa
      have hsbm : sb ∈ t.vocab := vocab_at_mem t b sb hsb
      obtain ⟨hpa, hpb, hpz, hptail⟩ := hraw (sa ++ sb) hzmem hzin sa.length hk1
        ⟨hk0, by rw [htake]; exact hsam, by rw [hdrop]; exact hsbm⟩
      rw [htake] at hpa
      rw [hdrop] at hpb
      refine ⟨htext'.trans hT, ?_, ?_⟩
      · intro id hmem
        rcases List.mem_append.mp hmem with h | h
        · exact hQ id (List.mem_of_mem_take h)
        · rcases List.mem_cons.mp h with h | h
          · rw [h]
            constructor
            · intro h1
              rw [h1] at hnew
              exact (hbos (sa ++ sb) hnew hzin).2 sa.length hk1
                ⟨hk0, by rw [htake]; exact hsam, by rw [hdrop]; exact hsbm⟩
            · intro p hp h32
              rw [hnew] at hp
              cases hp
              exact hptail h32
          · exact hQ id (List.mem_of_mem_drop h)
      · have hsplit := list_split_pair tokens k a b hka hkb
        rw [hsplit] at hD
        rw [decoded_text_append] at hD ⊢
        simp only [decoded_text] at hD ⊢
        rw [decode_plain t 0 a sa hsa (by decide) hpa,
          decode_plain t 0 b sb hsb (by decide) hpb] at hD
        rw [decode_plain t 0 _ (sa ++ sb) hnew (by decide) hpz]
        simpa using hD)
    _ (encode_seed t s) hvalid0 hP0 (by rw [hseed]; simp) (le_refl _)
  refine ⟨out, hout, ?_⟩
  obtain ⟨T', hT'⟩ := hhead
  rw [hT'] at htext
  cases out with
  | nil => simp [text_of] at htext
  | cons id0 rest =>
    obtain ⟨p0, hp0, hp0ne⟩ := hvalid id0 (List.mem_cons_self _ _)
    have htext' : p0 ++ text_of t rest = 32 :: T' := by
      simpa [text_of, hp0] using htext
    cases p0 with
    | nil => exact absurd rfl hp0ne
    | cons x p0' =>
      simp only [List.cons_append, List.cons.injEq] at htext'
      obtain ⟨hx, -⟩ := htext'
      subst hx
      have hscan0 : sscanf_byte p0' = none := (hQ id0 (List.mem_cons_self _ _)).2 _ hp0 rfl
      have hd0 : decode t 1 id0 = some p0' := by
        simp [decode, hp0, hscan0]
      have hd0' : decode t 0 id0 = some (32 :: p0') :=
        decode_plain t 0 id0 _ hp0 (by decide) (sscanf_byte_space p0')
      have hrest : decode_all t id0 rest = some (decoded_text t rest) := by
        apply decode_all_eq_decoded_text t rest id0 (hQ id0 (List.mem_cons_self _ _)).1
        intro id hid
        have hmem : id ∈ id0 :: rest := List.mem_cons_of_mem _ hid
        obtain ⟨p, hp, _⟩ := hvalid id hmem
        exact ⟨(hQ id hmem).1, p, hp⟩
      simp only [decoded_text, hd0', Option.getD_some, List.cons_append, List.cons.injEq,
        true_and] at hdec
      simp [decode_all, hd0, hrest, hdec]

/-- The strings of the tokens from which `encode` starts on `"Hello ab"` over
`llama_like`: the dummy prefix, the byte pieces of `H`, `e`, `l`, `l`, `o`, and the entries
`" "`, `a`, `b`. -/
theorem hello_ab_seed_text :
    text_of llama_like (encode_seed llama_like [72, 101, 108, 108, 111, 32, 97, 98]) =
      [32, 60, 48, 120, 52, 56, 62, 60, 48, 120, 54, 53, 62, 60, 48, 120, 54, 67, 62,
      60, 48, 120, 54, 67, 62, 60, 48, 120, 54, 70, 62, 32, 97, 98] := by
  decide!

theorem hello_ab_merge_left :
    ∀ z ∈ llama_like.vocab,
      z <:+: ([32, 60, 48, 120, 52, 56, 62, 60, 48, 120, 54, 53, 62, 60, 48, 120, 54, 67, 62,
      60, 48, 120, 54, 67, 62, 60, 48, 120, 54, 70, 62, 32, 97, 98] : List Nat) →
      ∀ k, k < z.length →
        0 < k ∧ z.take k ∈ llama_like.vocab ∧ z.drop k ∈ llama_like.vocab →
        sscanf_byte (z.take k) = none := by
  decide!

theorem hello_ab_merge_right :
    ∀ z ∈ llama_like.vocab,
      z <:+: ([32, 60, 48, 120, 52, 56, 62, 60, 48, 120, 54, 53, 62, 60, 48, 120, 54, 67, 62,
      60, 48, 120, 54, 67, 62, 60, 48, 120, 54, 70, 62, 32, 97, 98] : List Nat) →
      ∀ k, k < z.length →
        0 < k ∧ z.take k ∈ llama_like.vocab ∧ z.drop k ∈ llama_like.vocab →
        sscanf_byte (z.drop k) = none := by
  decide!

theorem hello_ab_merge_whole :
    ∀ z ∈ llama_like.vocab,
      z <:+: ([32, 60, 48, 120, 52, 56, 62, 60, 48, 120, 54, 53, 62, 60, 48, 120, 54, 67, 62,
      60, 48, 120, 54, 67, 62, 60, 48, 120, 54, 70, 62, 32, 97, 98] : List Nat) →
      ∀ k, k < z.length →
        0 < k ∧ z.take k ∈ llama_like.vocab ∧ z.drop k ∈ llama_like.vocab →
        sscanf_byte z = none := by
  decide!

theorem hello_ab_merge_tail :
    ∀ z ∈ llama_like.vocab,
      z <:+: ([32, 60, 48, 120, 52, 56, 62, 60, 48, 120, 54, 53, 62, 60, 48, 120, 54, 67, 62,
      60, 48, 120, 54, 67, 62, 60, 48, 120, 54, 70, 62, 32, 97, 98] : List Nat) →
      ∀ k, k < z.length →
        0 < k ∧ z.take k ∈ llama_like.vocab ∧ z.drop k ∈ llama_like.vocab →
        z.head? = some 32 → sscanf_byte z.tail = none := by
  decide!

/-- Witness of C5, amended: the text `"Hello ab"` over the vocabulary `llama_like`, whose
BOS piece is `<s>`. The letters of `Hello` have no entry and are encoded as byte tokens,
`a` and `b` have entries and are merged to `ab`. -/
theorem encode_decode_round_trip_ascii_witness :
    encode llama_like [72, 101, 108, 108, 111, 32, 97, 98] =
      some [259, 75, 104, 111, 111, 114, 259, 262] ∧
    ∃ out, encode llama_like [72, 101, 108, 108, 111, 32, 97, 98] = some out ∧
      decode_all llama_like 1 out = some [72, 101, 108, 108, 111, 32, 97, 98] :=
  ⟨by decide!,
    encode_decode_round_trip_ascii llama_like [72, 101, 108, 108, 111, 32, 97, 98]
      (by decide!) (by decide!) (by decide!)
      (by
        intro p hp
        have h1 : vocab_at llama_like 1 = some [60, 115, 62] := by decide!
        rw [h1] at hp
        cases hp
        rw [hello_ab_seed_text]
        decide)
      (by
        intro z hz hin k hk hsplit
        rw [hello_ab_seed_text] at hin
        exact ⟨hello_ab_merge_left z hz hin k hk hsplit,
          hello_ab_merge_right z hz hin k hk hsplit,
          hello_ab_merge_whole z hz hin k hk hsplit,
          hello_ab_merge_tail z hz hin k hk hsplit⟩)⟩

/-- Counterexamples to C5 as stated, on printable ASCII strings over vocabularies laid
out as the Llama one. (1) With the further entries `<`, `s`, `>`, `<s`, the text `<s> a`
is merged into the BOS token 1, after which `decode` drops the space: the ids
`[259, 1, 259, 260]` decode to `<s>a`. (2) With the further entries `<`, `0`, `x`, `4`,
`1`, `>`, `<0`, `<0x`, `41`, `41>`, the text `<0x41>` is merged into the byte token
`<0x41>` (id 68), which decodes to `A`. (3) Over a vocabulary without the 256 byte tokens
the letter `b`, which has no entry, is encoded as the id `98 + 3` outside the
vocabulary, and the merge loop reads `vocab[101]` outside the array. (4) Over a vocabulary
without an entry `" "` the first id is `-1` and the merge loop reads `vocab[-1]`. In no
case does an output of `encode` decode to the text. -/
theorem encode_decode_printable_counterexample :
    (encode (llama_with [[60], [115], [62], [60, 115]]) [60, 115, 62, 32, 97] =
        some [259, 1, 259, 260] ∧
      decode_all (llama_with [[60], [115], [62], [60, 115]]) 1 [259, 1, 259, 260] =
        some [60, 115, 62, 97] ∧
      ¬ ∃ out, encode (llama_with [[60], [115], [62], [60, 115]]) [60, 115, 62, 32, 97] =
          some out ∧
        decode_all (llama_with [[60], [115], [62], [60, 115]]) 1 out =
          some [60, 115, 62, 32, 97]) ∧
    (encode (llama_with [[60], [48], [120], [52], [49], [62], [60, 48], [60, 48, 120],
          [52, 49], [52, 49, 62]]) [60, 48, 120, 52, 49, 62] = some [259, 68] ∧
      decode_all (llama_with [[60], [48], [120], [52], [49], [62], [60, 48], [60, 48, 120],
          [52, 49], [52, 49, 62]]) 1 [259, 68] = some [65] ∧
      ¬ ∃ out, encode (llama_with [[60], [48], [120], [52], [49], [62], [60, 48],
          [60, 48, 120], [52, 49], [52, 49, 62]]) [60, 48, 120, 52, 49, 62] = some out ∧
        decode_all (llama_with [[60], [48], [120], [52], [49], [62], [60, 48],
          [60, 48, 120], [52, 49], [52, 49, 62]]) 1 out = some [60, 48, 120, 52, 49, 62]) ∧
    encode { vocab := [[60, 117, 110, 107, 62], [60, 115, 62], [60, 47, 115, 62], [32], [97]],
             vocab_scores := [0, 0, 0, 0, 0] } [97, 98] = none ∧
    (encode_seed { vocab := [[60, 117, 110, 107, 62], [60, 115, 62], [60, 47, 115, 62], [97]],
                   vocab_scores := [0, 0, 0, 0] } [97] = [-1, 3] ∧
      encode { vocab := [[60, 117, 110, 107, 62], [60, 115, 62], [60, 47, 115, 62], [97]],
               vocab_scores := [0, 0, 0, 0] } [97] = none) ∧
    (∀ b ∈ ([60, 115, 62, 32, 97, 60, 48, 120, 52, 49, 62, 98] : List Nat),
      isprint b = true) := by
  have he1 : encode (llama_with [[60], [115], [62], [60, 115]]) [60, 115, 62, 32, 97] =
      some [259, 1, 259, 260] := by decide!
  have hd1 : decode_all (llama_with [[60], [115], [62], [60, 115]]) 1 [259, 1, 259, 260] =
      some [60, 115, 62, 97] := by decide!
  have he2 : encode (llama_with [[60], [48], [120], [52], [49], [62], [60, 48], [60, 48, 120],
      [52, 49], [52, 49, 62]]) [60, 48, 120, 52, 49, 62] = some [259, 68] := by decide!
  have hd2 : decode_all (llama_with [[60], [48], [120], [52], [49], [62], [60, 48],
      [60, 48, 120], [52, 49], [52, 49, 62]]) 1 [259, 68] = some [65] := by decide!
  refine ⟨⟨he1, hd1, ?_⟩, ⟨he2, hd2, ?_⟩, by decide!, ⟨by decide!, by decide!⟩, by decide!⟩
  · rintro ⟨out, hout, hdec⟩
    rw [he1] at hout
    cases hout
    rw [hd1] at hdec
    exact absurd hdec (by decide)
  · rintro ⟨out, hout, hdec⟩
    rw [he2] at hout
    cases hout
    rw [hd2] at hdec
    exact absurd hdec (by decide)

/-! ## Properties of the checkpoint loader -/

theorem imul_of_range (a b : Int) (h0 : 0 ≤ a * b) (h1 : a * b < 2147483648) :
    imul a b = some (a * b) := by
  unfold imul
  rw [if_pos ⟨by omega, by omega⟩]

theorem idiv_of_pos (a b : Int) (ha : 0 ≤ a) (hb : 0 < b) : idiv a b = some (a / b) := by
  unfold idiv
  rw [if_neg (by omega), Int.tdiv_eq_ediv ha (le_of_lt hb)]

theorem u64_of_range (x : Int) (h0 : 0 ≤ x) (h1 : x < 18446744073709551616) : u64 x = x := by
  unfold u64
  exact Int.emod_eq_of_lt h0 h1

theorem mul_lt_two_pow_62 (a b : Int) (ha0 : 0 ≤ a) (ha : a < 2147483648)
    (hb : b < 2147483648) : a * b < 4611686018427387904 := by
  nlinarith

/-- The views `memory_map_weights` computes when the sizes are in range, in closed form. -/
theorem memory_map_weights_eq (p : Config) (ptr : Int) (shared_weights : Bool)
    (h : LayoutInRange p) :
    memory_map_weights p ptr shared_weights = some
      { token_embedding_table := ptr
        rms_att_weight := ptr + p.vocab_size * p.dim
        rms_ffn_weight := ptr + p.vocab_size * p.dim + p.n_layers * p.dim +
          p.n_layers * p.dim * (p.n_heads * (p.dim / p.n_heads)) +
          p.n_layers * p.dim * (p.n_kv_heads * (p.dim / p.n_heads)) +
          p.n_layers * p.dim * (p.n_kv_heads * (p.dim / p.n_heads)) +
          p.n_layers * (p.n_heads * (p.dim / p.n_heads)) * p.dim
        wq := ptr + p.vocab_size * p.dim + p.n_layers * p.dim
        wk := ptr + p.vocab_size * p.dim + p.n_layers * p.dim +
          p.n_layers * p.dim * (p.n_heads * (p.dim / p.n_heads))
        wv := ptr + p.vocab_size * p.dim + p.n_layers * p.dim +
          p.n_layers * p.dim * (p.n_heads * (p.dim / p.n_heads)) +
          p.n_layers * p.dim * (p.n_kv_heads * (p.dim / p.n_heads))
        wo := ptr + p.vocab_size * p.dim + p.n_layers * p.dim +
          p.n_layers * p.dim * (p.n_heads * (p.dim / p.n_heads)) +
          p.n_layers * p.dim * (p.n_kv_heads * (p.dim / p.n_heads)) +
          p.n_layers * p.dim * (p.n_kv_heads * (p.dim / p.n_heads))
        w1 := ptr + p.vocab_size * p.dim + p.n_layers * p.dim +
          p.n_layers * p.dim * (p.n_heads * (p.dim / p.n_heads)) +
          p.n_layers * p.dim * (p.n_kv_heads * (p.dim / p.n_heads)) +
          p.n_layers * p.dim * (p.n_kv_heads * (p.dim / p.n_heads)) +
          p.n_layers * (p.n_heads * (p.dim / p.n_heads)) * p.dim + p.n_layers * p.dim
        w2 := ptr + p.vocab_size * p.dim + p.n_layers * p.dim +
          p.n_layers * p.dim * (p.n_heads * (p.dim / p.n_heads)) +
          p.n_layers * p.dim * (p.n_kv_heads * (p.dim / p.n_heads)) +
          p.n_layers * p.dim * (p.n_kv_heads * (p.dim / p.n_heads)) +
          p.n_layers * (p.n_heads * (p.dim / p.n_heads)) * p.dim + p.n_layers * p.dim +
          p.n_layers * p.dim * p.hidden_dim
        w3 := ptr + p.vocab_size * p.dim + p.n_layers * p.dim +
          p.n_layers * p.dim * (p.n_heads * (p.dim / p.n_heads)) +
          p.n_layers * p.dim * (p.n_kv_heads * (p.dim / p.n_heads)) +
          p.n_layers * p.dim * (p.n_kv_heads * (p.dim / p.n_heads)) +
          p.n_layers * (p.n_heads * (p.dim / p.n_heads)) * p.dim + p.n_layers * p.dim +
          p.n_layers * p.dim * p.hidden_dim + p.n_layers * p.hidden_dim * p.dim
        rms_final_weight := ptr + p.vocab_size * p.dim + p.n_layers * p.dim +
          p.n_layers * p.dim * (p.n_heads * (p.dim / p.n_heads)) +
          p.n_layers * p.dim * (p.n_kv_heads * (p.dim / p.n_heads)) +
          p.n_layers * p.dim * (p.n_kv_heads * (p.dim / p.n_heads)) +
          p.n_layers * (p.n_heads * (p.dim / p.n_heads)) * p.dim + p.n_layers * p.dim +
          p.n_layers * p.dim * p.hidden_dim + p.n_layers * p.hidden_dim * p.dim +
          p.n_layers * p.dim * p.hidden_dim
        wcls := if shared_weights then ptr else
          ptr + p.vocab_size * p.dim + p.n_layers * p.dim +
          p.n_layers * p.dim * (p.n_heads * (p.dim / p.n_heads)) +
          p.n_layers * p.dim * (p.n_kv_heads * (p.dim / p.n_heads)) +
          p.n_layers * p.dim * (p.n_kv_heads * (p.dim / p.n_heads)) +
          p.n_layers * (p.n_heads * (p.dim / p.n_heads)) * p.dim + p.n_layers * p.dim +
          p.n_layers * p.dim * p.hidden_dim + p.n_layers * p.hidden_dim * p.dim +
          p.n_layers * p.dim * p.hidden_dim + p.dim +
          (p.seq_len * (p.dim / p.n_heads)) / 2 + (p.seq_len * (p.dim / p.n_heads)) / 2 } := by
  obtain ⟨⟨hd0, hd1⟩, ⟨hh0, hh1⟩, ⟨hl0, hl1⟩, ⟨hn0, hn1⟩, ⟨hk0, hk1⟩, ⟨hv0, hv1⟩, ⟨hs0, hs1⟩,
    hvd, hkv, hsl, hldd, hldk, hldh⟩ := h
  have hhs0 : 0 ≤ p.dim / p.n_heads := Int.ediv_nonneg hd0 (le_of_lt hn0)
  have hq : p.n_heads * (p.dim / p.n_heads) ≤ p.dim := Int.mul_ediv_self_le (ne_of_gt hn0)
  have hq0 : 0 ≤ p.n_heads * (p.dim / p.n_heads) := mul_nonneg (le_of_lt hn0) hhs0
  have hkv0 : 0 ≤ p.n_kv_heads * (p.dim / p.n_heads) := mul_nonneg hk0 hhs0
  have hld0 : 0 ≤ p.n_layers * p.dim := mul_nonneg hl0 hd0
  have hlq0 : 0 ≤ p.n_layers * (p.n_heads * (p.dim / p.n_heads)) := mul_nonneg hl0 hq0
  have hlh0 : 0 ≤ p.n_layers * p.hidden_dim := mul_nonneg hl0 hh0
  have e1 := idiv_of_pos p.dim p.n_heads hd0 hn0
  have e2 := imul_of_range p.vocab_size p.dim (mul_nonneg hv0 hd0) hvd
  have e3 := imul_of_range p.n_heads (p.dim / p.n_heads) hq0 (by omega)
  have e4 := imul_of_range p.n_kv_heads (p.dim / p.n_heads) hkv0 hkv
  have e5 := imul_of_range p.seq_len (p.dim / p.n_heads) (mul_nonneg hs0 hhs0) hsl
  have ul := u64_of_range p.n_layers hl0 (by omega)
  have ud := u64_of_range p.dim hd0 (by omega)
  have uh := u64_of_range p.hidden_dim hh0 (by omega)
  have uq := u64_of_range _ hq0 (by omega)
  have uk := u64_of_range _ hkv0 (by omega)
  have uld := u64_of_range _ hld0
    (by have := mul_lt_two_pow_62 p.n_layers p.dim hl0 hl1 hd1; omega)
  have ulq := u64_of_range _ hlq0
    (by have := mul_lt_two_pow_62 p.n_layers (p.n_heads * (p.dim / p.n_heads)) hl0 hl1 (by omega); omega)
  have ulh := u64_of_range _ hlh0
    (by have := mul_lt_two_pow_62 p.n_layers p.hidden_dim hl0 hl1 hh1; omega)
  have hldq : p.n_layers * p.dim * (p.n_heads * (p.dim / p.n_heads)) ≤
      p.n_layers * p.dim * p.dim := mul_le_mul_of_nonneg_left hq hld0
  have uldq := u64_of_range _ (mul_nonneg hld0 hq0) (by omega)
  have uldk := u64_of_range _ (mul_nonneg hld0 hkv0) hldk
  have ulqd := u64_of_range (p.n_layers * (p.n_heads * (p.dim / p.n_heads)) * p.dim)
    (mul_nonneg hlq0 hd0) (by
      have : p.n_layers * (p.n_heads * (p.dim / p.n_heads)) * p.dim =
          p.n_layers * p.dim * (p.n_heads * (p.dim / p.n_heads)) := by ring
      omega)
  have uldh := u64_of_range _ (mul_nonneg hld0 hh0) hldh
  have ulhd := u64_of_range (p.n_layers * p.hidden_dim * p.dim) (mul_nonneg hlh0 hd0) (by
      have : p.n_layers * p.hidden_dim * p.dim = p.n_layers * p.dim * p.hidden_dim := by ring
      omega)
  have t2 : Int.tdiv (p.seq_len * (p.dim / p.n_heads)) 2 = p.seq_len * (p.dim / p.n_heads) / 2 :=
    Int.tdiv_eq_ediv (mul_nonneg hs0 hhs0) (by decide)
  simp only [memory_map_weights, e1, e2, e3, e4, e5, Option.some_bind, ul, ud, uh, uq, uk, uld,
    ulq, ulh, uldq, uldk, ulqd, uldh, ulhd, t2]

/-- C17 (amended): for a `Config` whose sizes are in range (`LayoutInRange`: non-negative
fields, `n_heads > 0`, no overflow of the products the code forms), `memory_map_weights`
returns the eleven views in the on-disk order, the first at the weight base and each
next one at the previous view plus the element count of the previous tensor, the product
of its dimensions in the layout table; the counts are non-negative, so the views are
contiguous and do not overlap. -/
theorem memory_map_weights_layout (p : Config) (ptr : Int) (shared_weights : Bool)
    (h : LayoutInRange p) :
    ∃ w, memory_map_weights p ptr shared_weights = some w ∧
      w.token_embedding_table = ptr ∧
      w.rms_att_weight = w.token_embedding_table + p.vocab_size * p.dim ∧
      w.wq = w.rms_att_weight + p.n_layers * p.dim ∧
      w.wk = w.wq + p.n_layers * p.dim * (p.n_heads * (p.dim / p.n_heads)) ∧
      w.wv = w.wk + p.n_layers * p.dim * (p.n_kv_heads * (p.dim / p.n_heads)) ∧
      w.wo = w.wv + p.n_layers * p.dim * (p.n_kv_heads * (p.dim / p.n_heads)) ∧
      w.rms_ffn_weight = w.wo + p.n_layers * (p.n_heads * (p.dim / p.n_heads)) * p.dim ∧
      w.w1 = w.rms_ffn_weight + p.n_layers * p.dim ∧
      w.w2 = w.w1 + p.n_layers * p.hidden_dim * p.dim ∧
      w.w3 = w.w2 + p.n_layers * p.dim * p.hidden_dim ∧
      w.rms_final_weight = w.w3 + p.n_layers * p.hidden_dim * p.dim ∧
      0 ≤ p.vocab_size * p.dim ∧ 0 ≤ p.n_layers * p.dim ∧
      0 ≤ p.n_layers * p.dim * (p.n_heads * (p.dim / p.n_heads)) ∧
      0 ≤ p.n_layers * p.dim * (p.n_kv_heads * (p.dim / p.n_heads)) ∧
      0 ≤ p.n_layers * (p.n_heads * (p.dim / p.n_heads)) * p.dim ∧
      0 ≤ p.n_layers * p.hidden_dim * p.dim ∧ 0 ≤ p.n_layers * p.dim * p.hidden_dim := by
  refine ⟨_, memory_map_weights_eq p ptr shared_weights h, ?_⟩
  obtain ⟨⟨hd0, _⟩, ⟨hh0, _⟩, ⟨hl0, _⟩, ⟨hn0, _⟩, ⟨hk0, _⟩, ⟨hv0, _⟩, _⟩ := h
  have hhs0 : 0 ≤ p.dim / p.n_heads := Int.ediv_nonneg hd0 (le_of_lt hn0)
  have hq0 : 0 ≤ p.n_heads * (p.dim / p.n_heads) := mul_nonneg (le_of_lt hn0) hhs0
  have hkv0 : 0 ≤ p.n_kv_heads * (p.dim / p.n_heads) := mul_nonneg hk0 hhs0
  have hld0 : 0 ≤ p.n_layers * p.dim := mul_nonneg hl0 hd0
  refine ⟨rfl, rfl, rfl, rfl, rfl, rfl, rfl, rfl, ?_, ?_, ?_, mul_nonneg hv0 hd0, hld0,
    mul_nonneg hld0 hq0, mul_nonneg hld0 hkv0, mul_nonneg (mul_nonneg hl0 hq0) hd0,
    mul_nonneg (mul_nonneg hl0 hh0) hd0, mul_nonneg hld0 hh0⟩
  · dsimp only; ring
  · dsimp only; ring
  · dsimp only; ring

/-- Witness of C17 (amended) on a small `Config` (dim 4, hidden_dim 6, 2 layers, 2 heads,
1 kv head, 5 tokens, 3 positions). -/
theorem memory_map_weights_layout_witness :
    ∃ w, memory_map_weights ⟨4, 6, 2, 2, 1, 5, 3⟩ 0 true = some w ∧
      w.token_embedding_table = 0 ∧
      w.rms_att_weight = w.token_embedding_table + 5 * 4 ∧
      w.wq = w.rms_att_weight + 2 * 4 ∧
      w.wk = w.wq + 2 * 4 * (2 * (4 / 2)) ∧
      w.wv = w.wk + 2 * 4 * (1 * (4 / 2)) ∧
      w.wo = w.wv + 2 * 4 * (1 * (4 / 2)) ∧
      w.rms_ffn_weight = w.wo + 2 * (2 * (4 / 2)) * 4 ∧
      w.w1 = w.rms_ffn_weight + 2 * 4 ∧
      w.w2 = w.w1 + 2 * 6 * 4 ∧
      w.w3 = w.w2 + 2 * 4 * 6 ∧
      w.rms_final_weight = w.w3 + 2 * 6 * 4 ∧
      (0 : Int) ≤ 5 * 4 ∧ (0 : Int) ≤ 2 * 4 ∧
      (0 : Int) ≤ 2 * 4 * (2 * (4 / 2)) ∧
      (0 : Int) ≤ 2 * 4 * (1 * (4 / 2)) ∧
      (0 : Int) ≤ 2 * (2 * (4 / 2)) * 4 ∧
      (0 : Int) ≤ 2 * 6 * 4 ∧ (0 : Int) ≤ 2 * 4 * 6 :=
  memory_map_weights_layout ⟨4, 6, 2, 2, 1, 5, 3⟩ 0 true (by unfold LayoutInRange; decide)

/-- C17 as stated fails: the `Config` with `n_heads = 0` has non-negative fields, and
`memory_map_weights` divides `dim` by `n_heads` before it places any view. -/
theorem memory_map_weights_zero_heads_counterexample :
    memory_map_weights ⟨1, 1, 1, 0, 1, 1, 1⟩ 0 true = none := by
  decide

/-- C18 (amended): for a `Config` whose sizes are in range, `memory_map_weights` sets
`wcls` to the `token_embedding_table` view when the classifier is shared, and otherwise
to the end-of-walk cursor, which lies `dim + 2 * ((seq_len * head_size) / 2)` floats after
the start of `rms_final_weight`: each of the two skipped tables is
`(seq_len * head_size) / 2` floats, rounded down. That is `dim + seq_len * head_size` when
`seq_len * head_size` is even. -/
theorem memory_map_weights_wcls (p : Config) (ptr : Int) (shared_weights : Bool)
    (h : LayoutInRange p) :
    ∃ w, memory_map_weights p ptr shared_weights = some w ∧
      (shared_weights = true → w.wcls = w.token_embedding_table) ∧
      (shared_weights = false →
        w.wcls = w.rms_final_weight + (p.dim + 2 * (p.seq_len * (p.dim / p.n_heads) / 2)) ∧
        (p.seq_len * (p.dim / p.n_heads) % 2 = 0 →
          w.wcls = w.rms_final_weight + (p.dim + p.seq_len * (p.dim / p.n_heads)))) := by
  refine ⟨_, memory_map_weights_eq p ptr shared_weights h, ?_, ?_⟩
  · intro hs
    simp [hs]
  · intro hs
    simp only [hs, Bool.false_eq_true, if_false]
    constructor
    · ring
    · intro heven
      have : 2 * (p.seq_len * (p.dim / p.n_heads) / 2) = p.seq_len * (p.dim / p.n_heads) := by
        omega
      linarith

/-- Witness of C18 (amended): a separate classifier on a small `Config` with
`seq_len * head_size = 6`. -/
theorem memory_map_weights_wcls_witness :
    ∃ w, memory_map_weights ⟨4, 6, 2, 2, 1, 5, 3⟩ 0 false = some w ∧
      (false = true → w.wcls = w.token_embedding_table) ∧
      (false = false →
        w.wcls = w.rms_final_weight + (4 + 2 * (3 * (4 / 2) / 2)) ∧
        ((3 : Int) * (4 / 2) % 2 = 0 →
          w.wcls = w.rms_final_weight + (4 + 3 * (4 / 2)))) :=
  memory_map_weights_wcls ⟨4, 6, 2, 2, 1, 5, 3⟩ 0 false (by unfold LayoutInRange; decide)

/-- C18 as stated fails: with every field equal to 1 and a separate classifier,
`seq_len * head_size = 1`, both skipped tables are `1 / 2 = 0` floats and `wcls` lies 1
float after the start of `rms_final_weight`, not `dim + seq_len * head_size = 2`. -/
theorem memory_map_weights_odd_rope_counterexample :
    (memory_map_weights ⟨1, 1, 1, 1, 1, 1, 1⟩ 0 false).map
      (fun w => w.wcls - w.rms_final_weight) = some 1 ∧
    (1 : Int) ≠ 1 + 1 * (1 / 1) := by
  decide

/-- C19 (amended): `read_checkpoint` does not compare the weight walk with the size of
the file: when it returns for a header, it returns the same `Config`, views and flag
for every other file size. -/
theorem read_checkpoint_ignores_file_size (header : Config) (file_size file_size' : Nat)
    (r : Checkpoint) (h : read_checkpoint header file_size = some r) :
    read_checkpoint header file_size' = some { r with file_size := file_size' } := by
  unfold read_checkpoint at h ⊢
  cases hv : read_vocab_size header.vocab_size with
  | none => simp [hv] at h
  | some vs =>
    simp only [hv, Option.some_bind] at h ⊢
    cases hw : memory_map_weights { header with vocab_size := vs.1 } 0 vs.2 with
    | none => simp [hw] at h
    | some w =>
      simp only [hw, Option.map_some', Option.some.injEq] at h ⊢
      rw [← h]

/-- Witness of C19 (amended): the header with every field 1, read from a file of 28 bytes
and from a file of 60 bytes. -/
theorem read_checkpoint_ignores_file_size_witness :
    read_checkpoint ⟨1, 1, 1, 1, 1, 1, 1⟩ 60 =
      some { config := ⟨1, 1, 1, 1, 1, 1, 1⟩
             weights := ⟨0, 1, 6, 2, 3, 4, 5, 7, 8, 9, 10, 0⟩
             shared_weights := true
             file_size := 60 } :=
  read_checkpoint_ignores_file_size ⟨1, 1, 1, 1, 1, 1, 1⟩ 28 60
    { config := ⟨1, 1, 1, 1, 1, 1, 1⟩
      weights := ⟨0, 1, 6, 2, 3, 4, 5, 7, 8, 9, 10, 0⟩
      shared_weights := true
      file_size := 28 } (by decide)

/-- C19 as stated fails: a file of 28 bytes holds the header and nothing else, yet for
the header with every field 1 `read_checkpoint` returns views; the last one,
`rms_final_weight`, starts 10 floats after the header, past the end of the file. -/
theorem read_checkpoint_truncated_file_counterexample :
    (read_checkpoint ⟨1, 1, 1, 1, 1, 1, 1⟩ 28).map
      (fun r => (r.weights.token_embedding_table, r.weights.rms_final_weight, r.file_size)) =
      some (0, 10, 28) ∧
    (28 : Int) < 28 + 4 * (10 + 1) := by
  decide

/-- C16 (amended): for every on-disk `vocab_size` other than `-2^31`, the stored
`vocab_size` is its absolute value, which is non-negative, and the shared-classifier flag
is true exactly when the on-disk value is positive. -/
theorem read_vocab_size_abs (on_disk : Int) (h : on_disk ≠ -2147483648) :
    read_vocab_size on_disk = some (|on_disk|, decide (0 < on_disk)) ∧ 0 ≤ |on_disk| := by
  refine ⟨?_, abs_nonneg _⟩
  simp [read_vocab_size, c_abs, h, Int.natCast_natAbs]

/-- Witness of C16 (amended) on the on-disk value `-32000`. -/
theorem read_vocab_size_abs_witness :
    read_vocab_size (-32000) = some (|(-32000 : Int)|, decide ((0 : Int) < -32000)) ∧
      0 ≤ |(-32000 : Int)| :=
  read_vocab_size_abs (-32000) (by decide)

/-- C16 as stated fails at the on-disk value `-2^31`: its absolute value is no `int`,
`abs` is undefined there and no non-negative `vocab_size` is stored. -/
theorem read_vocab_size_int_min_counterexample :
    read_vocab_size (-2147483648) = none ∧
    read_checkpoint ⟨1, 1, 1, 1, 1, -2147483648, 1⟩ 28 = none := by
  decide

/-- C11 at the failing input: the piece `<0x41` has no closing `>` and is not of the form
`<0xHH>`, yet `decode` returns the one-byte string `"A"` and not the piece. -/
theorem decode_unclosed_byte_piece :
    is_byte_pattern [60, 48, 120, 52, 49] = false ∧
    decode { vocab := [[60, 48, 120, 52, 49]], vocab_scores := [0] } 0 0 = some [65] ∧
    decode { vocab := [[60, 48, 120, 52, 49]], vocab_scores := [0] } 0 0 ≠
      some [60, 48, 120, 52, 49] := by
  decide!

theorem xor_mod_two_pow (a b n : Nat) : (a ^^^ b) % 2 ^ n = (a % 2 ^ n) ^^^ (b % 2 ^ n) := by
  apply Nat.eq_of_testBit_eq
  intro i
  simp only [Nat.testBit_mod_two_pow, Nat.testBit_xor]
  by_cases hi : i < n <;> simp [hi]

/-- C20: for every 64-bit state `s`, `random_u32` replaces the state by `s'`, obtained by
`s ^= s >> 12; s ^= s << 25; s ^= s >> 27` with the result of the left shift cut to 64
bits, and returns the upper 32 bits of `s' * 0x2545F4914F6CDD1D mod 2^64`; the new state is
again a 64-bit value and the output a 32-bit value. -/
theorem random_u32_xorshift (s : Nat) (hs : s < 2 ^ 64) :
    random_u32 s =
      ((((((s ^^^ s / 2 ^ 12) ^^^ (s ^^^ s / 2 ^ 12) * 2 ^ 25) % 2 ^ 64) ^^^
            (((s ^^^ s / 2 ^ 12) ^^^ (s ^^^ s / 2 ^ 12) * 2 ^ 25) % 2 ^ 64) / 2 ^ 27) *
          0x2545F4914F6CDD1D) % 2 ^ 64 / 2 ^ 32,
        (((s ^^^ s / 2 ^ 12) ^^^ (s ^^^ s / 2 ^ 12) * 2 ^ 25) % 2 ^ 64) ^^^
          (((s ^^^ s / 2 ^ 12) ^^^ (s ^^^ s / 2 ^ 12) * 2 ^ 25) % 2 ^ 64) / 2 ^ 27) ∧
    (random_u32 s).1 < 2 ^ 32 ∧ (random_u32 s).2 < 2 ^ 64 := by
  have h1 : s ^^^ s / 2 ^ 12 < 2 ^ 64 :=
    Nat.xor_lt_two_pow hs (lt_of_le_of_lt (Nat.div_le_self _ _) hs)
  have h2 : ((s ^^^ s / 2 ^ 12) ^^^ (s ^^^ s / 2 ^ 12) * 2 ^ 25) % 2 ^ 64 =
      (s ^^^ s / 2 ^ 12) ^^^ ((s ^^^ s / 2 ^ 12) * 2 ^ 25) % 2 ^ 64 := by
    rw [xor_mod_two_pow, Nat.mod_eq_of_lt h1]
  have heq : random_u32 s =
      ((((((s ^^^ s / 2 ^ 12) ^^^ (s ^^^ s / 2 ^ 12) * 2 ^ 25) % 2 ^ 64) ^^^
            (((s ^^^ s / 2 ^ 12) ^^^ (s ^^^ s / 2 ^ 12) * 2 ^ 25) % 2 ^ 64) / 2 ^ 27) *
          0x2545F4914F6CDD1D) % 2 ^ 64 / 2 ^ 32,
        (((s ^^^ s / 2 ^ 12) ^^^ (s ^^^ s / 2 ^ 12) * 2 ^ 25) % 2 ^ 64) ^^^
          (((s ^^^ s / 2 ^ 12) ^^^ (s ^^^ s / 2 ^ 12) * 2 ^ 25) % 2 ^ 64) / 2 ^ 27) := by
    rw [h2]
    simp only [random_u32, Nat.shiftRight_eq_div_pow, Nat.shiftLeft_eq]
  refine ⟨heq, ?_, ?_⟩
  · rw [heq]
    simp only
    have := Nat.mod_lt (((((s ^^^ s / 2 ^ 12) ^^^ (s ^^^ s / 2 ^ 12) * 2 ^ 25) % 2 ^ 64) ^^^
            (((s ^^^ s / 2 ^ 12) ^^^ (s ^^^ s / 2 ^ 12) * 2 ^ 25) % 2 ^ 64) / 2 ^ 27) *
          0x2545F4914F6CDD1D) (show 2 ^ 64 > 0 by decide)
    omega
  · rw [heq]
    simp only
    have hm := Nat.mod_lt ((s ^^^ s / 2 ^ 12) ^^^ (s ^^^ s / 2 ^ 12) * 2 ^ 25)
      (show 2 ^ 64 > 0 by decide)
    exact Nat.xor_lt_two_pow hm (lt_of_le_of_lt (Nat.div_le_self _ _) hm)

/-- Witness of C20 on the state 42. -/
theorem random_u32_xorshift_witness :
    random_u32 42 =
      ((((((42 ^^^ 42 / 2 ^ 12) ^^^ (42 ^^^ 42 / 2 ^ 12) * 2 ^ 25) % 2 ^ 64) ^^^
            (((42 ^^^ 42 / 2 ^ 12) ^^^ (42 ^^^ 42 / 2 ^ 12) * 2 ^ 25) % 2 ^ 64) / 2 ^ 27) *
          0x2545F4914F6CDD1D) % 2 ^ 64 / 2 ^ 32,
        (((42 ^^^ 42 / 2 ^ 12) ^^^ (42 ^^^ 42 / 2 ^ 12) * 2 ^ 25) % 2 ^ 64) ^^^
          (((42 ^^^ 42 / 2 ^ 12) ^^^ (42 ^^^ 42 / 2 ^ 12) * 2 ^ 25) % 2 ^ 64) / 2 ^ 27) ∧
    (random_u32 42).1 < 2 ^ 32 ∧ (random_u32 42).2 < 2 ^ 64 :=
  random_u32_xorshift 42 (by decide)

/-! ## Properties of the numeric kernels -/

theorem foldl_add_eq_sum {F : Type} [LinearOrderedField F] (l : List F) :
    ∀ a : F, l.foldl (fun s e => s + e) a = a + l.sum := by
  induction l with
  | nil => intro a; simp
  | cons x rest ih => intro a; simp [ih, add_assoc]

theorem sum_map_div {F : Type} [LinearOrderedField F] (l : List F) (c : F) :
    (l.map (fun e => e / c)).sum = l.sum / c := by
  induction l with
  | nil => simp
  | cons x rest ih => simp [ih, add_div]

theorem foldl_max_mem {F : Type} [LinearOrderedField F] (rest : List F) :
    ∀ x0 : F, rest.foldl (fun m xi => if xi > m then xi else m) x0 ∈ x0 :: rest := by
  induction rest with
  | nil => intro x0; simp
  | cons y rest ih =>
    intro x0
    simp only [List.foldl_cons]
    split_ifs
    · exact List.mem_cons_of_mem _ (ih y)
    · rcases List.mem_cons.mp (ih x0) with h | h
      · rw [h]; exact List.mem_cons_self _ _
      · exact List.mem_cons_of_mem _ (List.mem_cons_of_mem _ h)

/-- C14, amended: for an input of positive length, whatever its entries, and an `expf`
whose values are non-negative and which is positive at 0 (as the exponential is, and as
its `float` version is, which underflows to 0), `softmax` in exact arithmetic returns a
vector of the same length whose entries are non-negative and whose sum is exactly 1 in the
field of the computation (the rationals, or the reals with `expf = exp`). -/
theorem softmax_exact_sums_to_one {F : Type} [LinearOrderedField F] (expf : F → F)
    (hexp : ∀ v, 0 ≤ expf v) (hexp0 : 0 < expf 0) (x : List F) (hx : x ≠ []) :
    ∃ y, softmax expf x = some y ∧ y.length = x.length ∧ (∀ v ∈ y, 0 ≤ v) ∧ y.sum = 1 := by
  cases x with
  | nil => exact absurd rfl hx
  | cons x0 rest =>
    have hnn : ∀ y ∈ (x0 :: rest).map (fun xi =>
        expf (xi - rest.foldl (fun m xi => if xi > m then xi else m) x0)), 0 ≤ y := by
      intro y hy
      obtain ⟨z, _, hz⟩ := List.mem_map.mp hy
      rw [← hz]
      exact hexp _
    have hpos : 0 < ((x0 :: rest).map (fun xi =>
        expf (xi - rest.foldl (fun m xi => if xi > m then xi else m) x0))).sum := by
      have hmem : expf 0 ∈ (x0 :: rest).map (fun xi =>
          expf (xi - rest.foldl (fun m xi => if xi > m then xi else m) x0)) :=
        List.mem_map.mpr ⟨_, foldl_max_mem rest x0, by rw [sub_self]⟩
      exact lt_of_lt_of_le hexp0 (List.single_le_sum hnn _ hmem)
    refine ⟨_, rfl, by simp, ?_, ?_⟩
    · intro v hv
      simp only [List.mem_map] at hv
      obtain ⟨e, ⟨xi, _, hxi⟩, hev⟩ := hv
      rw [← hev, ← hxi, foldl_add_eq_sum, zero_add]
      exact div_nonneg (hexp _) (le_of_lt hpos)
    · rw [sum_map_div, foldl_add_eq_sum, zero_add]
      exact div_self (ne_of_gt hpos)

/-- Witness of C14, amended: over the reals, with the real exponential, on
`[1000, -1000, 3]`; and over the rationals on the same input with a stand-in for `expf`
that is 0 below `-104`, as the `float` exponential is. -/
theorem softmax_exact_sums_to_one_witness :
    (∃ y, softmax Real.exp [1000, -1000, 3] = some y ∧
      y.length = ([1000, -1000, 3] : List ℝ).length ∧ (∀ v ∈ y, 0 ≤ v) ∧ y.sum = 1) ∧
    (∃ y, softmax (fun v : ℚ => if v < -104 then 0 else 1 / (1 + v * v)) [1000, -1000, 3] =
        some y ∧
      y.length = ([1000, -1000, 3] : List ℚ).length ∧ (∀ v ∈ y, 0 ≤ v) ∧ y.sum = 1) :=
  ⟨softmax_exact_sums_to_one Real.exp (fun v => (Real.exp_pos v).le) (Real.exp_pos 0)
      [1000, -1000, 3] (by simp),
    softmax_exact_sums_to_one (fun v : ℚ => if v < -104 then 0 else 1 / (1 + v * v))
      (fun v => by
        show (0 : ℚ) ≤ if v < -104 then 0 else 1 / (1 + v * v)
        split_ifs
        · exact le_refl 0
        · exact div_nonneg zero_le_one (by nlinarith [mul_self_nonneg v]))
      (by norm_num) [1000, -1000, 3] (by simp)⟩

/-- Counterexample to the `float` half of C14: the input of length 301 with one entry 0
and 300 entries `-17`. The stand-in for `expf` has the values of the `float` exponential
at the two arguments that occur, `expf(0) = 1` and `expf(-17) = 11652889 * 2^-48`, about
`4.14e-8`. This is less than half the spacing `2^-23` of the floats above 1, so every
`sum += x[i]` leaves the sum at 1, the entries are divided by 1, and the vector that
`softmax` produces sums to `1 + 300 * 11652889 * 2^-48`, more than `1 + 1e-5`. -/
theorem softmax_float_sum_counterexample :
    softmax_f32 (fun v => if v = 0 then 1 else 11652889 / 281474976710656)
        (0 :: List.replicate 300 (-17)) =
      some (1 :: List.replicate 300 (11652889 / 281474976710656)) ∧
    1 + 1 / 100000 < (1 :: List.replicate 300 (11652889 / 281474976710656 : ℚ)).sum ∧
    f32 (1 + 11652889 / 281474976710656) = 1 ∧
    f32 (11652889 / 281474976710656) = 11652889 / 281474976710656 ∧
    f32 (-17) = -17 := by
  refine ⟨by decide!, by decide!, by decide!, by decide!, by decide!⟩

theorem and_then_some {α β : Type} (a : α) (f : α → Option β) : and_then (some a) f = f a := rfl

theorem and_then_none {α β : Type} (f : α → Option β) : and_then none f = none := rfl

theorem and_then_eq_some {α β : Type} (o : Option α) (f : α → Option β) (b : β) :
    and_then o f = some b ↔ ∃ a, o = some a ∧ f a = some b := by
  cases o with
  | none => simp [and_then]
  | some a => simp [and_then]

theorem load_length {F : Type} (buf : List F) (off : Int) (len : Nat) (v : List F)
    (h : load buf off len = some v) : v.length = len := by
  unfold load at h
  split_ifs at h with h0 h1
  · cases h; simp [h0]
  · cases h
    simp only [List.length_take, List.length_drop]
    omega

theorem load_some {F : Type} (buf : List F) (off : Int) (len : Nat) (h0 : 0 ≤ off)
    (h1 : off + len ≤ buf.length) : ∃ v, load buf off len = some v ∧ v.length = len := by
  unfold load
  split_ifs with hz hb
  · exact ⟨[], rfl, by simp [hz]⟩
  · refine ⟨_, rfl, ?_⟩
    simp only [List.length_take, List.length_drop]
    omega
  · exact absurd ⟨h0, h1⟩ hb

theorem load_full {F : Type} (buf : List F) : load buf 0 buf.length = some buf := by
  unfold load
  split_ifs with hz h1
  · rw [List.length_eq_zero.mp hz]
  · simp
  · exact absurd ⟨le_refl 0, by simp⟩ h1

theorem store_length {F : Type} (buf : List F) (off : Int) (vals b : List F)
    (h : store buf off vals = some b) : b.length = buf.length := by
  unfold store at h
  split_ifs at h with h0 h1
  · cases h; rfl
  · cases h
    simp only [List.length_append, List.length_take, List.length_drop]
    omega

theorem store_some {F : Type} (buf : List F) (off : Int) (vals : List F) (h0 : 0 ≤ off)
    (h1 : off + vals.length ≤ buf.length) :
    ∃ b, store buf off vals = some b ∧ b.length = buf.length := by
  unfold store
  split_ifs with hz hb
  · exact ⟨buf, rfl, rfl⟩
  · refine ⟨_, rfl, ?_⟩
    simp only [List.length_append, List.length_take, List.length_drop]
    omega
  · exact absurd ⟨h0, h1⟩ hb

theorem sum_map_scaled_sq (x : List ℝ) (α : ℝ) :
    ((x.map (fun v => α * v)).map (fun v => v * v)).sum =
      α ^ 2 * (x.map (fun v => v * v)).sum := by
  induction x with
  | nil => simp
  | cons a rest ih =>
    simp only [List.map_cons, List.sum_cons, ih]
    ring

/-- C15 (amended): over the reals, `rmsnorm(x, w)_i = w_i * x_i / sqrt(mean(x^2) + 1e-5)`,
and for every `alpha > 0`
`rmsnorm(alpha * x, w)_i = w_i * x_i / sqrt(mean(x^2) + 1e-5 / alpha^2)`: scaling the
input by `alpha` acts as dividing the epsilon by `alpha^2`. -/
theorem rmsnorm_scaled (x w : List ℝ) (α : ℝ) (hα : 0 < α) (hlen : w.length = x.length) :
    rmsnorm Real.sqrt x w x.length =
      some (List.zipWith (fun wj xj =>
        wj * xj / Real.sqrt ((x.map (fun v => v * v)).sum / (x.length : ℝ) + 1 / 100000)) w x) ∧
    rmsnorm Real.sqrt (x.map (fun v => α * v)) w x.length =
      some (List.zipWith (fun wj xj =>
        wj * xj / Real.sqrt ((x.map (fun v => v * v)).sum / (x.length : ℝ) +
          1 / 100000 / α ^ 2)) w x) := by
  have hw : load w 0 x.length = some w := by rw [← hlen]; exact load_full w
  constructor
  · unfold rmsnorm
    rw [load_full, hw]
    simp only [and_then_some, Option.some.injEq]
    congr 1
    funext wj xj
    ring
  · have hx : load (x.map (fun v => α * v)) 0 x.length = some (x.map (fun v => α * v)) := by
      have := load_full (x.map (fun v => α * v))
      rwa [List.length_map] at this
    unfold rmsnorm
    rw [hx, hw]
    simp only [and_then_some, Option.some.injEq, sum_map_scaled_sq]
    have hsq : α ^ 2 * (x.map (fun v => v * v)).sum / (x.length : ℝ) + 1 / 100000 =
        α ^ 2 * ((x.map (fun v => v * v)).sum / (x.length : ℝ) + 1 / 100000 / α ^ 2) := by
      have hα2 : α ^ 2 ≠ 0 := pow_ne_zero 2 (ne_of_gt hα)
      rw [mul_add, mul_div_assoc, mul_div_cancel₀ _ hα2]
    have hpos : 0 < (x.map (fun v => v * v)).sum / (x.length : ℝ) + 1 / 100000 / α ^ 2 := by
      have h1 : 0 ≤ (x.map (fun v => v * v)).sum / (x.length : ℝ) := by
        apply div_nonneg _ (Nat.cast_nonneg _)
        apply List.sum_nonneg
        intro y hy
        obtain ⟨z, _, hz⟩ := List.mem_map.mp hy
        rw [← hz]
        exact mul_self_nonneg z
      have h2 : 0 < 1 / 100000 / α ^ 2 := by positivity
      linarith
    rw [hsq, Real.sqrt_mul (sq_nonneg α), Real.sqrt_sq (le_of_lt hα), List.zipWith_map_right]
    congr 1
    funext wj xj
    have hs : Real.sqrt ((x.map (fun v => v * v)).sum / (x.length : ℝ) + 1 / 100000 / α ^ 2) ≠ 0 :=
      ne_of_gt (Real.sqrt_pos.mpr hpos)
    generalize Real.sqrt ((x.map (fun v => v * v)).sum / (x.length : ℝ) + 1 / 100000 / α ^ 2) = r
      at hs
    have hα0 : α ≠ 0 := ne_of_gt hα
    field_simp
    ring

/-- Closed form of `rmsnorm` on whole lists. -/
theorem rmsnorm_eq {F : Type} [LinearOrderedField F] (sqrtf : F → F) (x w : List F)
    (hlen : w.length = x.length) :
    rmsnorm sqrtf x w x.length = some (List.zipWith (fun wj xj =>
      wj * (1 / sqrtf ((x.map (fun v => v * v)).sum / (x.length : F) + 1 / 100000) * xj)) w x) := by
  have hw : load w 0 x.length = some w := by rw [← hlen]; exact load_full w
  unfold rmsnorm
  rw [load_full, hw]
  rfl

/-- Witness of C15 (amended) at `x = [3, 4]`, `w = [1, 2]`, `alpha = 2`. -/
theorem rmsnorm_scaled_witness :
    rmsnorm Real.sqrt [3, 4] [1, 2] ([3, 4] : List ℝ).length =
      some (List.zipWith (fun wj xj =>
        wj * xj / Real.sqrt ((([3, 4] : List ℝ).map (fun v => v * v)).sum /
          ((([3, 4] : List ℝ).length : ℕ) : ℝ) + 1 / 100000)) [1, 2] [3, 4]) ∧
    rmsnorm Real.sqrt (([3, 4] : List ℝ).map (fun v => 2 * v)) [1, 2] ([3, 4] : List ℝ).length =
      some (List.zipWith (fun wj xj =>
        wj * xj / Real.sqrt ((([3, 4] : List ℝ).map (fun v => v * v)).sum /
          ((([3, 4] : List ℝ).length : ℕ) : ℝ) + 1 / 100000 / 2 ^ 2)) [1, 2] [3, 4]) :=
  rmsnorm_scaled [3, 4] [1, 2] 2 (by norm_num) rfl

/-- C15 (as stated) fails: with `x = [9/2000]`, `w = [1]` the code gives `9/11`, and on
`alpha * x` with `alpha = 111/10` it gives `999/1001`. -/
theorem rmsnorm_scale_counterexample :
    rmsnorm Real.sqrt [9 / 2000] [1] 1 = some [9 / 11] ∧
    rmsnorm Real.sqrt (([9 / 2000] : List ℝ).map (fun v => 111 / 10 * v)) [1] 1 =
      some [999 / 1001] := by
  have h1 : Real.sqrt ((11 / 2000) ^ 2) = 11 / 2000 := Real.sqrt_sq (by norm_num)
  have h2 : Real.sqrt ((1001 / 20000) ^ 2) = 1001 / 20000 := Real.sqrt_sq (by norm_num)
  constructor
  · have h := rmsnorm_eq Real.sqrt [9 / 2000] [1] rfl
    simp only [List.length_singleton] at h
    rw [h]
    simp only [List.map_cons, List.map_nil, List.sum_cons, List.sum_nil, List.zipWith_cons_cons,
      List.zipWith_nil_right, Nat.cast_one]
    rw [show ((9 / 2000 : ℝ) * (9 / 2000) + 0) / 1 + 1 / 100000 = (11 / 2000) ^ 2 by norm_num, h1]
    norm_num
  · have h := rmsnorm_eq Real.sqrt (([9 / 2000] : List ℝ).map (fun v => 111 / 10 * v)) [1] rfl
    simp only [List.map_cons, List.map_nil, List.length_singleton] at h
    simp only [List.map_cons, List.map_nil]
    rw [h]
    simp only [List.map_cons, List.map_nil, List.sum_cons, List.sum_nil, List.zipWith_cons_cons,
      List.zipWith_nil_right, Nat.cast_one]
    rw [show ((111 / 10 * (9 / 2000) : ℝ) * (111 / 10 * (9 / 2000)) + 0) / 1 + 1 / 100000 =
      (1001 / 20000) ^ 2 by norm_num, h2]
    norm_num

/-! ## Properties of the forward pass -/

theorem rmsnorm_some {F : Type} [LinearOrderedField F] (sqrtf : F → F) (x w : List F)
    (size : Nat) (hx : size ≤ x.length) (hw : size ≤ w.length) :
    ∃ r, rmsnorm sqrtf x w size = some r ∧ r.length = size := by
  have ⟨xs, hxs, hxl⟩ := load_some x 0 size (le_refl 0) (by omega)
  have ⟨ws, hws, hwl⟩ := load_some w 0 size (le_refl 0) (by omega)
  unfold rmsnorm
  rw [hxs, hws]
  refine ⟨_, rfl, ?_⟩
  simp [hxl, hwl]

theorem rmsnorm_at_some {F : Type} [LinearOrderedField F] (sqrtf : F → F) (o x data : List F)
    (woff size : Int) (h0 : 0 ≤ size) (hx : size ≤ x.length) (hw0 : 0 ≤ woff)
    (hw : woff + size ≤ data.length) (ho : size ≤ o.length) :
    ∃ r, rmsnorm_at sqrtf o x data woff size = some r ∧ r.length = o.length := by
  have ⟨ws, hws, hwl⟩ := load_some data woff size.toNat hw0 (by omega)
  have ⟨vals, hv, hvl⟩ := rmsnorm_some sqrtf x ws size.toNat (by omega) (by omega)
  have ⟨r, hr, hrl⟩ := store_some o 0 vals (le_refl 0) (by omega)
  exact ⟨r, by simp only [rmsnorm_at, hws, hv, hr, and_then_some], hrl⟩

theorem matmul_length {F : Type} [LinearOrderedField F] (x w : List F) (n d : Nat) :
    (matmul x w n d).length = d := by
  simp [matmul]

theorem matmul_at_some {F : Type} [LinearOrderedField F] (xout x data : List F)
    (woff n d : Int) (hn : 0 ≤ n) (hdn : d * n ≤ 2147483648) (hx : n ≤ x.length)
    (hw0 : 0 ≤ woff) (hw : woff + d * n ≤ data.length) (ho : d ≤ xout.length) :
    ∃ r, matmul_at xout x data woff n d = some r ∧ r.length = xout.length := by
  unfold matmul_at
  split_ifs with hd hov
  · exact ⟨xout, rfl, rfl⟩
  · omega
  · have hd0 : 0 ≤ d := by omega
    have hcast : ((d.toNat * n.toNat : Nat) : Int) = d * n := by
      rw [Nat.cast_mul, Int.toNat_of_nonneg hd0, Int.toNat_of_nonneg hn]
    have ⟨xs, hxs, _⟩ := load_some x 0 n.toNat (le_refl 0) (by omega)
    have ⟨ws, hws, _⟩ := load_some data woff (d.toNat * n.toNat) hw0 (by rw [hcast]; exact hw)
    have ⟨r, hr, hrl⟩ := store_some xout 0 (matmul xs ws n.toNat d.toNat) (le_refl 0)
      (by rw [matmul_length]; omega)
    exact ⟨r, by simp only [hxs, hws, hr, and_then_some], hrl⟩

theorem add_into_some {F : Type} [LinearOrderedField F] (x y : List F) (n : Int)
    (hx : n ≤ x.length) (hy : n ≤ y.length) :
    ∃ r, add_into x y n = some r ∧ r.length = x.length := by
  have ⟨xs, hxs, hxl⟩ := load_some x 0 n.toNat (le_refl 0) (by omega)
  have ⟨ys, hys, hyl⟩ := load_some y 0 n.toNat (le_refl 0) (by omega)
  have ⟨r, hr, hrl⟩ := store_some x 0 (List.zipWith (fun xi yi => xi + yi) xs ys) (le_refl 0)
    (by rw [List.length_zipWith, hxl, hyl]; omega)
  exact ⟨r, by simp only [add_into, hxs, hys, hr, and_then_some], hrl⟩

theorem rope_rotate_some {F : Type} [LinearOrderedField F] (vec : List F) (i : Int)
    (fcr fci : F) (h0 : 0 ≤ i) (h1 : i + 2 ≤ vec.length) :
    ∃ r, rope_rotate vec i fcr fci = some r ∧ r.length = vec.length := by
  have ⟨v01, hv, hvl⟩ := load_some vec i 2 h0 (by omega)
  match v01, hvl with
  | [v0, v1], _ =>
    have ⟨r, hr, hrl⟩ := store_some vec i [v0 * fcr - v1 * fci, v0 * fci + v1 * fcr] h0
      (by simpa using h1)
    exact ⟨r, by simp only [rope_rotate, hv, and_then_some, hr], hrl⟩

theorem rope_step_some {F : Type} [LinearOrderedField F] (m : Libm F)
    (head_size kv_dim pos : Int) (qk : List F × List F) (i : Int) (hh : head_size ≠ 0)
    (h0 : 0 ≤ i) (hq : i + 2 ≤ qk.1.length) (hk : i < kv_dim → i + 2 ≤ qk.2.length) :
    ∃ r, rope_step m head_size kv_dim pos qk i = some r ∧ r.1.length = qk.1.length ∧
      r.2.length = qk.2.length := by
  unfold rope_step
  rw [if_neg hh]
  have ⟨q, hq1, hql⟩ := rope_rotate_some qk.1 i
    (m.cosf ((pos : F) * (1 / m.powf 10000 (((Int.tmod i head_size : Int) : F) / (head_size : F)))))
    (m.sinf ((pos : F) * (1 / m.powf 10000 (((Int.tmod i head_size : Int) : F) / (head_size : F)))))
    h0 hq
  simp only [hq1, and_then_some]
  split_ifs with hlt
  · obtain ⟨k, hk1, hkl⟩ := rope_rotate_some qk.2 i
      (m.cosf ((pos : F) * (1 / m.powf 10000 (((Int.tmod i head_size : Int) : F) / (head_size : F)))))
      (m.sinf ((pos : F) * (1 / m.powf 10000 (((Int.tmod i head_size : Int) : F) / (head_size : F)))))
      h0 (hk hlt)
    exact ⟨(q, k), by rw [hk1]; rfl, hql, hkl⟩
  · exact ⟨(q, qk.2), rfl, hql, rfl⟩

theorem rope_loop_some {F : Type} [LinearOrderedField F] (m : Libm F)
    (head_size kv_dim pos : Int) (qk : List F × List F) (hh : head_size ≠ 0)
    (hkv : kv_dim % 2 = 0) (hk : kv_dim ≤ qk.2.length) (n : Nat)
    (hq : 2 * (n : Int) ≤ qk.1.length) :
    ∃ r, rope_loop m head_size kv_dim pos n qk = some r ∧ r.1.length = qk.1.length ∧
      r.2.length = qk.2.length := by
  induction n with
  | zero => exact ⟨qk, rfl, rfl, rfl⟩
  | succ n ih =>
    have ⟨r, hr, hr1, hr2⟩ := ih (by push_cast at hq ⊢; omega)
    have ⟨r', hr', hr1', hr2'⟩ := rope_step_some m head_size kv_dim pos r (2 * (n : Int)) hh
      (by omega) (by rw [hr1]; push_cast at hq; omega) (by intro hlt; rw [hr2]; omega)
    exact ⟨r', by simp only [rope_loop, hr, and_then_some, hr'], by omega, by omega⟩

theorem Dims.kv_dim_pos {p : Config} {kv_dim kv_mul head_size : Int}
    (hd : Dims p kv_dim kv_mul head_size) : 0 < kv_dim := by
  rw [hd.kv_dim_eq]
  exact mul_pos hd.kv_heads_pos hd.head_size_pos

theorem Dims.kv_dim_le {p : Config} {kv_dim kv_mul head_size : Int}
    (hd : Dims p kv_dim kv_mul head_size) : kv_dim ≤ p.dim := by
  rw [hd.kv_dim_eq, hd.dim_eq]
  have h1 : p.n_kv_heads ≤ p.n_heads := by
    rw [hd.heads_eq]
    nlinarith [hd.kv_mul_pos, hd.kv_heads_pos]
  exact mul_le_mul_of_nonneg_right h1 (le_of_lt hd.head_size_pos)

theorem Dims.dim_lt {p : Config} {kv_dim kv_mul head_size : Int}
    (hd : Dims p kv_dim kv_mul head_size) : p.dim < 2147483648 := by
  nlinarith [hd.dim_pos, hd.sq_lt]

theorem Dims.hidden_lt {p : Config} {kv_dim kv_mul head_size : Int}
    (hd : Dims p kv_dim kv_mul head_size) : p.hidden_dim < 2147483648 := by
  nlinarith [hd.dim_pos, hd.ffn_lt, hd.hidden_pos]

theorem Dims.seq_dim_lt {p : Config} {kv_dim kv_mul head_size : Int}
    (hd : Dims p kv_dim kv_mul head_size) : p.seq_len * p.dim < 2147483648 := by
  have h := hd.cache_lt
  have h1 : 0 < p.seq_len * p.dim := mul_pos hd.seq_pos hd.dim_pos
  rw [mul_assoc] at h
  nlinarith [hd.layers_pos]

theorem Dims.layers_seq_lt {p : Config} {kv_dim kv_mul head_size : Int}
    (hd : Dims p kv_dim kv_mul head_size) : p.n_layers * p.seq_len < 2147483648 := by
  have h := hd.cache_lt
  have h1 : 0 < p.n_layers * p.seq_len := mul_pos hd.layers_pos hd.seq_pos
  nlinarith [hd.dim_pos]

theorem Dims.seq_lt {p : Config} {kv_dim kv_mul head_size : Int}
    (hd : Dims p kv_dim kv_mul head_size) : p.seq_len < 2147483648 := by
  nlinarith [hd.seq_dim_lt, hd.dim_pos, hd.seq_pos]

theorem Dims.layers_lt {p : Config} {kv_dim kv_mul head_size : Int}
    (hd : Dims p kv_dim kv_mul head_size) : p.n_layers < 2147483648 := by
  nlinarith [hd.layers_seq_lt, hd.layers_pos, hd.seq_pos]

theorem Dims.kv_sq_lt {p : Config} {kv_dim kv_mul head_size : Int}
    (hd : Dims p kv_dim kv_mul head_size) : kv_dim * p.dim < 2147483648 := by
  nlinarith [hd.kv_dim_le, hd.sq_lt, hd.dim_pos, hd.kv_dim_pos]

theorem Dims.cache_kv_lt {p : Config} {kv_dim kv_mul head_size : Int}
    (hd : Dims p kv_dim kv_mul head_size) :
    p.n_layers * p.seq_len * kv_dim < 2147483648 := by
  have h1 : 0 < p.n_layers * p.seq_len := mul_pos hd.layers_pos hd.seq_pos
  nlinarith [hd.kv_dim_le, hd.cache_lt]

/-- A layer offset `l * a * b` stays below the total `n * a * b`. -/
theorem slice_le (l n a : Int) (h1 : l < n) (ha : 0 ≤ a) : l * a + a ≤ n * a := by
  nlinarith

theorem slice_nonneg (l a : Int) (h0 : 0 ≤ l) (ha : 0 ≤ a) : 0 ≤ l * a :=
  mul_nonneg h0 ha

/-- The offsets that `forward` computes in `unsigned long long` for layer `l` do not
wrap, and the `int` it stores in `loff` is the exact product. -/
theorem Dims.offsets_exact {p : Config} {kv_dim kv_mul head_size : Int}
    (hd : Dims p kv_dim kv_mul head_size) (l : Int) (h0 : 0 ≤ l) (h1 : l < p.n_layers) :
    u64 (l * u64 p.dim) = l * p.dim ∧
    u64 (u64 (l * u64 p.dim) * u64 p.dim) = l * p.dim * p.dim ∧
    u64 (u64 (l * u64 p.dim) * u64 kv_dim) = l * p.dim * kv_dim ∧
    u64 (u64 (l * u64 p.dim) * u64 p.hidden_dim) = l * p.dim * p.hidden_dim ∧
    to_int (u64 (u64 (l * u64 p.seq_len) * u64 kv_dim)) = l * p.seq_len * kv_dim := by
  have hD := hd.dim_pos
  have hDlt := hd.dim_lt
  have hK := hd.kv_dim_pos
  have hKle := hd.kv_dim_le
  have hH := hd.hidden_pos
  have hHlt := hd.hidden_lt
  have hS := hd.seq_pos
  have hSlt := hd.seq_lt
  have hL := hd.layers_lt
  have eD : u64 p.dim = p.dim := u64_of_range _ (by omega) (by omega)
  have eK : u64 kv_dim = kv_dim := u64_of_range _ (by omega) (by omega)
  have eH : u64 p.hidden_dim = p.hidden_dim := u64_of_range _ (by omega) (by omega)
  have eS : u64 p.seq_len = p.seq_len := u64_of_range _ (by omega) (by omega)
  have hlD0 : 0 ≤ l * p.dim := mul_nonneg h0 (le_of_lt hD)
  have hlD : l * p.dim < 4611686018427387904 := mul_lt_two_pow_62 l p.dim h0 (by omega) hDlt
  have elD : u64 (l * p.dim) = l * p.dim := u64_of_range _ hlD0 (by omega)
  have hlS0 : 0 ≤ l * p.seq_len := mul_nonneg h0 (le_of_lt hS)
  have hlS : l * p.seq_len < 4611686018427387904 := mul_lt_two_pow_62 l p.seq_len h0 (by omega) hSlt
  have elS : u64 (l * p.seq_len) = l * p.seq_len := u64_of_range _ hlS0 (by omega)
  have b1 : l * p.dim * p.dim < 18446744073709551616 := by
    have := mul_lt_two_pow_62 l (p.dim * p.dim) h0 (by omega) hd.sq_lt
    rw [mul_assoc]; omega
  have b2 : l * p.dim * kv_dim < 18446744073709551616 := by
    have := mul_lt_two_pow_62 l (p.dim * kv_dim) h0 (by omega)
      (by have := hd.kv_sq_lt; rw [mul_comm] at this; exact this)
    rw [mul_assoc]; omega
  have b3 : l * p.dim * p.hidden_dim < 18446744073709551616 := by
    have := mul_lt_two_pow_62 l (p.dim * p.hidden_dim) h0 (by omega) hd.ffn_lt
    rw [mul_assoc]; omega
  have hlSK0 : 0 ≤ l * p.seq_len * kv_dim := mul_nonneg hlS0 (le_of_lt hK)
  have b4 : l * p.seq_len * kv_dim < 2147483648 := by
    have h5 := hd.cache_kv_lt
    have h6 : l * (p.seq_len * kv_dim) ≤ p.n_layers * (p.seq_len * kv_dim) :=
      mul_le_mul_of_nonneg_right (le_of_lt h1) (le_of_lt (mul_pos hS hK))
    rw [mul_assoc]; rw [mul_assoc] at h5; omega
  refine ⟨?_, ?_, ?_, ?_, ?_⟩
  · rw [eD, elD]
  · rw [eD, elD]; exact u64_of_range _ (mul_nonneg hlD0 (le_of_lt hD)) b1
  · rw [eD, elD, eK]; exact u64_of_range _ (mul_nonneg hlD0 (le_of_lt hK)) b2
  · rw [eD, elD, eH]; exact u64_of_range _ (mul_nonneg hlD0 (le_of_lt hH)) b3
  · rw [eS, elS, eK, u64_of_range _ hlSK0 (by omega)]
    unfold to_int
    omega

theorem layer_qkv_some {F : Type} [LinearOrderedField F] (m : Libm F) (p : Config)
    (w : TransformerWeights) (data : List F) (pos kv_dim kv_mul head_size l : Int)
    (a : Activations F) (hd : Dims p kv_dim kv_mul head_size) (hw : WeightsFit p kv_dim w data)
    (h0 : 0 ≤ l) (h1 : l < p.n_layers) (ha : ActShaped p kv_dim a) :
    ∃ a', layer_qkv m p w data pos kv_dim head_size l a = some a' ∧ ActShaped p kv_dim a' := by
  have ⟨e1, e2, e3, _, _⟩ := hd.offsets_exact l h0 h1
  have ⟨⟨ra0, ra1⟩, ⟨q0, q1⟩, ⟨k0, k1⟩, ⟨v0, v1⟩, _⟩ := hw.2.2.2 l h0 h1
  have ⟨hx, hxb, hxb2, hhb, hhb2, hq, hk, hv, hatt, hlog⟩ := ha
  have hD := hd.dim_pos
  have hK := hd.kv_dim_pos
  unfold layer_qkv
  rw [e2, e3, e1]
  have ⟨xb, hxb', hxbl⟩ := rmsnorm_at_some m.sqrtf a.xb a.x data (w.rms_att_weight + l * p.dim)
    p.dim (by omega) (by omega) ra0 (by omega) (by omega)
  have ⟨q, hq', hql⟩ := matmul_at_some a.q xb data (w.wq + l * p.dim * p.dim) p.dim p.dim
    (by omega) (by have := hd.sq_lt; omega) (by omega) q0 q1 (by omega)
  have ⟨k, hk', hkl⟩ := matmul_at_some a.k xb data (w.wk + l * p.dim * kv_dim) p.dim kv_dim
    (by omega) (by have := hd.kv_sq_lt; omega) (by omega) k0 k1 (by omega)
  have ⟨v, hv', hvl⟩ := matmul_at_some a.v xb data (w.wv + l * p.dim * kv_dim) p.dim kv_dim
    (by omega) (by have := hd.kv_sq_lt; omega) (by omega) v0 v1 (by omega)
  have hde := hd.dim_even
  have ⟨qk, hqk, hqk1, hqk2⟩ := rope_loop_some m head_size kv_dim pos (q, k)
    (ne_of_gt hd.head_size_pos) hd.kv_dim_even (by simp only; omega) ((p.dim + 1) / 2).toNat
    (by simp only; omega)
  simp only [hxb', hq', hk', hv', hqk, and_then_some, Option.map_some']
  refine ⟨_, rfl, ?_⟩
  simp only at hqk1 hqk2
  unfold ActShaped
  dsimp only
  exact ⟨hx, by rw [hxbl]; exact hxb, hxb2, hhb, hhb2, by rw [hqk1, hql]; exact hq,
    by rw [hqk2, hkl]; exact hk, by rw [hvl]; exact hv, hatt, hlog⟩

theorem cache_row_some {F : Type} (cache : List F) (p : Config)
    (loff kv_dim kv_mul head_size h t : Int) (hd : Dims p kv_dim kv_mul head_size)
    (hl0 : 0 ≤ loff) (hl1 : loff + p.seq_len * kv_dim ≤ cache.length)
    (ht0 : 0 ≤ t) (ht1 : t < p.seq_len) (hh0 : 0 ≤ h) (hh1 : h < p.n_heads) :
    ∃ r, cache_row cache loff kv_dim kv_mul head_size h t = some r ∧
      r.length = head_size.toNat := by
  have hK := hd.kv_dim_pos
  have hhs := hd.head_size_pos
  have htk0 : 0 ≤ t * kv_dim := mul_nonneg ht0 (le_of_lt hK)
  have htk1 : t * kv_dim + kv_dim ≤ p.seq_len * kv_dim := slice_le t p.seq_len kv_dim ht1 (le_of_lt hK)
  have hsk : p.seq_len * kv_dim < 2147483648 := by
    have h1 := hd.seq_dim_lt
    have h2 : p.seq_len * kv_dim ≤ p.seq_len * p.dim :=
      mul_le_mul_of_nonneg_left hd.kv_dim_le (le_of_lt hd.seq_pos)
    omega
  have hq0 : 0 ≤ h / kv_mul := Int.ediv_nonneg hh0 (le_of_lt hd.kv_mul_pos)
  have hq1 : h / kv_mul < p.n_kv_heads := by
    apply Int.ediv_lt_of_lt_mul hd.kv_mul_pos
    have := hd.heads_eq
    rw [mul_comm] at this
    omega
  have hko0 : 0 ≤ h / kv_mul * head_size := mul_nonneg hq0 (le_of_lt hhs)
  have hko1 : h / kv_mul * head_size + head_size ≤ kv_dim := by
    rw [hd.kv_dim_eq]
    exact slice_le _ _ _ hq1 (le_of_lt hhs)
  have hKlt : kv_dim < 2147483648 := by have := hd.kv_dim_le; have := hd.dim_lt; omega
  unfold cache_row
  simp only [imul_of_range t kv_dim htk0 (by omega), idiv_of_pos h kv_mul hh0 hd.kv_mul_pos,
    imul_of_range _ head_size hko0 (by omega), and_then_some]
  exact load_some cache _ head_size.toNat (by omega) (by omega)

theorem cache_rows_some {F : Type} (cache : List F) (p : Config)
    (loff kv_dim kv_mul head_size h : Int) (hd : Dims p kv_dim kv_mul head_size)
    (hl0 : 0 ≤ loff) (hl1 : loff + p.seq_len * kv_dim ≤ cache.length)
    (hh0 : 0 ≤ h) (hh1 : h < p.n_heads) (n : Nat) (hn : (n : Int) ≤ p.seq_len) :
    ∃ rows, cache_rows cache loff kv_dim kv_mul head_size h n = some rows ∧
      rows.length = n := by
  induction n with
  | zero => exact ⟨[], rfl, rfl⟩
  | succ n ih =>
    have ⟨rows, hr, hrl⟩ := ih (by push_cast at hn; omega)
    have ⟨r, hr', _⟩ := cache_row_some cache p loff kv_dim kv_mul head_size h (n : Int) hd hl0 hl1
      (by omega) (by push_cast at hn; omega) hh0 hh1
    exact ⟨rows ++ [r], by simp only [cache_rows, hr, and_then_some, hr', Option.map_some'],
      by simp [hrl]⟩

theorem softmax_some {F : Type} [LinearOrderedField F] (expf : F → F) (x : List F)
    (hx : x ≠ []) : ∃ r, softmax expf x = some r ∧ r.length = x.length := by
  cases x with
  | nil => exact absurd rfl hx
  | cons x0 rest => exact ⟨_, rfl, by simp⟩

theorem softmax_at_some {F : Type} [LinearOrderedField F] (expf : F → F) (buf : List F)
    (off size : Int) (hs : 0 < size) (h0 : 0 ≤ off) (h1 : off + size ≤ buf.length) :
    ∃ r, softmax_at expf buf off size = some r ∧ r.length = buf.length := by
  unfold softmax_at
  rw [if_neg (by omega)]
  have ⟨xs, hxs, hxl⟩ := load_some buf off size.toNat h0 (by omega)
  have ⟨ys, hys, hyl⟩ := softmax_some expf xs (by
    intro h; rw [h] at hxl; simp at hxl; omega)
  have ⟨r, hr, hrl⟩ := store_some buf off ys h0 (by omega)
  exact ⟨r, by simp only [hxs, hys, hr, and_then_some], hrl⟩

theorem foldl_zipWith_length_le {F : Type} (f : List F → (List F × F) → List F)
    (hf : ∀ acc va, (f acc va).length ≤ acc.length) (l : List (List F × F)) (acc : List F) :
    (l.foldl f acc).length ≤ acc.length := by
  induction l generalizing acc with
  | nil => exact le_refl _
  | cons a rest ih => exact le_trans (ih (f acc a)) (hf acc a)

theorem weighted_sum_length_le {F : Type} [LinearOrderedField F] (head_size : Nat)
    (rows : List (List F)) (weights : List F) :
    (weighted_sum head_size rows weights).length ≤ head_size := by
  unfold weighted_sum
  refine le_trans (foldl_zipWith_length_le _ ?_ _ _) (by simp)
  intro acc va
  simp only [List.length_zipWith]
  exact Nat.min_le_left _ _

theorem attend_head_some {F : Type} [LinearOrderedField F] (m : Libm F) (p : Config)
    (pos loff kv_dim kv_mul head_size : Int) (key_cache value_cache : List F)
    (a : Activations F) (h : Int) (hd : Dims p kv_dim kv_mul head_size)
    (hl0 : 0 ≤ loff) (hk1 : loff + p.seq_len * kv_dim ≤ key_cache.length)
    (hv1 : loff + p.seq_len * kv_dim ≤ value_cache.length)
    (hp0 : 0 ≤ pos) (hp1 : pos < p.seq_len) (hh0 : 0 ≤ h) (hh1 : h < p.n_heads)
    (ha : ActShaped p kv_dim a) :
    ∃ a', attend_head m p pos loff kv_dim kv_mul head_size key_cache value_cache a h = some a' ∧
      ActShaped p kv_dim a' := by
  have ⟨hx, hxb, hxb2, hhb, hhb2, hq, hk, hv, hatt, hlog⟩ := ha
  have hhs := hd.head_size_pos
  have hS := hd.seq_pos
  have hqo0 : 0 ≤ h * head_size := mul_nonneg hh0 (le_of_lt hhs)
  have hqo1 : h * head_size + head_size ≤ p.dim := by
    rw [hd.dim_eq]; exact slice_le _ _ _ hh1 (le_of_lt hhs)
  have hao0 : 0 ≤ h * p.seq_len := mul_nonneg hh0 (le_of_lt hS)
  have hao1 : h * p.seq_len + p.seq_len ≤ p.n_heads * p.seq_len :=
    slice_le _ _ _ hh1 (le_of_lt hS)
  have hDlt := hd.dim_lt
  have hAlt := hd.att_lt
  have ⟨krows, hkr, hkrl⟩ := cache_rows_some key_cache p loff kv_dim kv_mul head_size h hd hl0
    hk1 hh0 hh1 (pos + 1).toNat (by omega)
  have ⟨vrows, hvr, _⟩ := cache_rows_some value_cache p loff kv_dim kv_mul head_size h hd hl0
    hv1 hh0 hh1 (pos + 1).toNat (by omega)
  have ⟨qh, hqh, _⟩ := load_some a.q (h * head_size) head_size.toNat hqo0 (by omega)
  have ⟨att, hatt1, hattl⟩ := store_some a.att (h * p.seq_len)
    (krows.map fun kr =>
      (List.zipWith (fun qi ki => qi * ki) qh kr).sum / m.sqrtf (head_size : F)) hao0
    (by rw [List.length_map, hkrl]; omega)
  have ⟨att2, hatt2, hatt2l⟩ := softmax_at_some m.expf att (h * p.seq_len) (pos + 1) (by omega)
    hao0 (by omega)
  have ⟨weights, hwt, _⟩ := load_some att2 (h * p.seq_len) (pos + 1).toNat hao0 (by omega)
  have ⟨xb, hxb1, hxbl⟩ := store_some a.xb (h * head_size)
    (weighted_sum head_size.toNat vrows weights) hqo0
    (by have := weighted_sum_length_le head_size.toNat vrows weights; omega)
  unfold attend_head
  rw [imul_of_range h head_size hqo0 (by omega), imul_of_range h p.seq_len hao0 (by omega)]
  simp only [and_then_some, hkr, if_neg (show ¬ (pos + 1).toNat = 0 by omega), hqh, hatt1, hatt2,
    if_neg (show ¬ head_size < 0 by omega), hvr, hwt, hxb1, Option.map_some']
  refine ⟨_, rfl, ?_⟩
  unfold ActShaped
  dsimp only
  exact ⟨hx, by rw [hxbl]; exact hxb, hxb2, hhb, hhb2, hq, hk, hv,
    by rw [hatt2l, hattl]; exact hatt, hlog⟩

theorem attend_loop_some {F : Type} [LinearOrderedField F] (m : Libm F) (p : Config)
    (pos loff kv_dim kv_mul head_size : Int) (key_cache value_cache : List F)
    (a : Activations F) (hd : Dims p kv_dim kv_mul head_size)
    (hl0 : 0 ≤ loff) (hk1 : loff + p.seq_len * kv_dim ≤ key_cache.length)
    (hv1 : loff + p.seq_len * kv_dim ≤ value_cache.length)
    (hp0 : 0 ≤ pos) (hp1 : pos < p.seq_len) (ha : ActShaped p kv_dim a) (n : Nat)
    (hn : (n : Int) ≤ p.n_heads) :
    ∃ a', attend_loop m p pos loff kv_dim kv_mul head_size key_cache value_cache n a = some a' ∧
      ActShaped p kv_dim a' := by
  induction n with
  | zero => exact ⟨a, rfl, ha⟩
  | succ n ih =>
    have ⟨a1, h1, hs1⟩ := ih (by push_cast at hn; omega)
    have ⟨a2, h2, hs2⟩ := attend_head_some m p pos loff kv_dim kv_mul head_size key_cache
      value_cache a1 (n : Int) hd hl0 hk1 hv1 hp0 hp1 (by omega) (by push_cast at hn; omega) hs1
    exact ⟨a2, by simp only [attend_loop, h1, and_then_some, h2], hs2⟩

theorem layer_ffn_some {F : Type} [LinearOrderedField F] (m : Libm F) (p : Config)
    (w : TransformerWeights) (data : List F) (kv_dim kv_mul head_size l : Int)
    (a : Activations F) (hd : Dims p kv_dim kv_mul head_size) (hw : WeightsFit p kv_dim w data)
    (h0 : 0 ≤ l) (h1 : l < p.n_layers) (ha : ActShaped p kv_dim a) :
    ∃ a', layer_ffn m p w data l a = some a' ∧ ActShaped p kv_dim a' := by
  have ⟨e1, e2, _, e4, _⟩ := hd.offsets_exact l h0 h1
  have ⟨_, _, _, _, ⟨o0, o1⟩, ⟨rf0, rf1⟩, ⟨a0, a1⟩, ⟨b0, b1⟩, ⟨c0, c1⟩⟩ := hw.2.2.2 l h0 h1
  have ⟨hx, hxb, hxb2, hhb, hhb2, hq, hk, hv, hatt, hlog⟩ := ha
  have hD := hd.dim_pos
  have hH := hd.hidden_pos
  have hsq := hd.sq_lt
  have hffn := hd.ffn_lt
  have hffn' : p.hidden_dim * p.dim < 2147483648 := by rw [mul_comm]; exact hffn
  unfold layer_ffn
  rw [e2, e4, e1]
  have ⟨xb2, hxb2', hxb2l⟩ := matmul_at_some a.xb2 a.xb data (w.wo + l * p.dim * p.dim) p.dim
    p.dim (by omega) (by omega) (by omega) o0 o1 (by omega)
  have ⟨x, hx', hxl⟩ := add_into_some a.x xb2 p.dim (by omega) (by omega)
  have ⟨xb, hxb', hxbl⟩ := rmsnorm_at_some m.sqrtf a.xb x data (w.rms_ffn_weight + l * p.dim)
    p.dim (by omega) (by omega) rf0 (by omega) (by omega)
  have ⟨hb, hhb', hhbl⟩ := matmul_at_some a.hb xb data (w.w1 + l * p.dim * p.hidden_dim) p.dim
    p.hidden_dim (by omega) (by omega) (by omega) a0 a1 (by omega)
  have ⟨hb2, hhb2', hhb2l⟩ := matmul_at_some a.hb2 xb data (w.w3 + l * p.dim * p.hidden_dim)
    p.dim p.hidden_dim (by omega) (by omega) (by omega) c0 c1 (by omega)
  have ⟨hs, hhs, hhsl⟩ := load_some hb 0 p.hidden_dim.toNat (le_refl 0) (by omega)
  have ⟨hb3, hhb3, hhb3l⟩ := store_some hb 0 (hs.map fun hi => hi * (1 / (1 + m.expf (-hi))))
    (le_refl 0) (by rw [List.length_map, hhsl]; omega)
  have ⟨hs2, hhs2, hhs2l⟩ := load_some hb3 0 p.hidden_dim.toNat (le_refl 0) (by omega)
  have ⟨g, hg, hgl⟩ := load_some hb2 0 p.hidden_dim.toNat (le_refl 0) (by omega)
  have ⟨hb4, hhb4, hhb4l⟩ := store_some hb3 0 (List.zipWith (fun hi gi => hi * gi) hs2 g)
    (le_refl 0) (by rw [List.length_zipWith, hhs2l, hgl]; omega)
  have ⟨xb3, hxb3, hxb3l⟩ := matmul_at_some xb hb4 data (w.w2 + l * p.dim * p.hidden_dim)
    p.hidden_dim p.dim (by omega) (by omega) (by omega) b0 b1 (by omega)
  have ⟨x2, hx2, hx2l⟩ := add_into_some x xb3 p.dim (by omega) (by omega)
  simp only [hxb2', hx', hxb', hhb', hhb2', hhs, hhb3, hhs2, hg, hhb4, hxb3, hx2, and_then_some,
    Option.map_some']
  refine ⟨_, rfl, ?_⟩
  unfold ActShaped
  dsimp only
  exact ⟨by omega, by omega, by omega, by omega, by omega, hq, hk, hv, hatt, hlog⟩

theorem forward_layer_some {F : Type} [LinearOrderedField F] (m : Libm F) (p : Config)
    (w : TransformerWeights) (data : List F) (pos kv_dim kv_mul head_size : Int)
    (s : RunState F) (l : Int) (hd : Dims p kv_dim kv_mul head_size)
    (hw : WeightsFit p kv_dim w data) (hp0 : 0 ≤ pos) (hp1 : pos < p.seq_len)
    (h0 : 0 ≤ l) (h1 : l < p.n_layers) (ha : ActShaped p kv_dim s.toActivations)
    (hkc : (s.key_cache.length : Int) = p.n_layers * p.seq_len * kv_dim)
    (hvc : (s.value_cache.length : Int) = p.n_layers * p.seq_len * kv_dim) :
    ∃ s', forward_layer m p w data pos kv_dim kv_mul head_size s l = some s' ∧
      ActShaped p kv_dim s'.toActivations ∧
      (s'.key_cache.length : Int) = p.n_layers * p.seq_len * kv_dim ∧
      (s'.value_cache.length : Int) = p.n_layers * p.seq_len * kv_dim := by
  have ⟨_, _, _, _, e5⟩ := hd.offsets_exact l h0 h1
  have hK := hd.kv_dim_pos
  have hS := hd.seq_pos
  have hSK : 0 ≤ p.seq_len * kv_dim := le_of_lt (mul_pos hS hK)
  have hpk0 : 0 ≤ pos * kv_dim := mul_nonneg hp0 (le_of_lt hK)
  have hpk1 : pos * kv_dim + kv_dim ≤ p.seq_len * kv_dim := slice_le _ _ _ hp1 (le_of_lt hK)
  have hloff0 : 0 ≤ l * p.seq_len * kv_dim := by
    rw [mul_assoc]; exact mul_nonneg h0 hSK
  have hloff1 : l * p.seq_len * kv_dim + p.seq_len * kv_dim ≤ p.n_layers * p.seq_len * kv_dim := by
    rw [mul_assoc, mul_assoc]; exact slice_le _ _ _ h1 hSK
  have hlt := hd.cache_kv_lt
  have ⟨a, hqkv, haS⟩ := layer_qkv_some m p w data pos kv_dim kv_mul head_size l
    s.toActivations hd hw h0 h1 ha
  have ⟨_, _, _, _, _, _, hk, hv, _, _⟩ := id haS
  have ⟨krow, hkrow, hkrowl⟩ := load_some a.k 0 kv_dim.toNat (le_refl 0) (by omega)
  have ⟨kc, hkc1, hkcl⟩ := store_some s.key_cache (l * p.seq_len * kv_dim + pos * kv_dim) krow
    (by omega) (by omega)
  have ⟨vrow, hvrow, hvrowl⟩ := load_some a.v 0 kv_dim.toNat (le_refl 0) (by omega)
  have ⟨vc, hvc1, hvcl⟩ := store_some s.value_cache (l * p.seq_len * kv_dim + pos * kv_dim) vrow
    (by omega) (by omega)
  have ⟨a2, hatt, ha2⟩ := attend_loop_some m p pos (l * p.seq_len * kv_dim) kv_dim kv_mul
    head_size kc vc a hd hloff0 (by omega) (by omega) hp0 hp1 haS p.n_heads.toNat
    (by have := hd.heads_pos; omega)
  have ⟨a3, hffn, ha3⟩ := layer_ffn_some m p w data kv_dim kv_mul head_size l a2 hd hw h0 h1 ha2
  unfold forward_layer
  rw [e5]
  simp only [hqkv, and_then_some, imul_of_range pos kv_dim hpk0 (by omega),
    if_neg (show ¬ kv_dim < 0 by omega), hkrow, hkc1, hvrow, hvc1, hatt, hffn, Option.map_some']
  exact ⟨_, rfl, ha3, by dsimp only; omega, by dsimp only; omega⟩

theorem forward_layers_some {F : Type} [LinearOrderedField F] (m : Libm F) (p : Config)
    (w : TransformerWeights) (data : List F) (pos kv_dim kv_mul head_size : Int)
    (s : RunState F) (hd : Dims p kv_dim kv_mul head_size)
    (hw : WeightsFit p kv_dim w data) (hp0 : 0 ≤ pos) (hp1 : pos < p.seq_len)
    (ha : ActShaped p kv_dim s.toActivations)
    (hkc : (s.key_cache.length : Int) = p.n_layers * p.seq_len * kv_dim)
    (hvc : (s.value_cache.length : Int) = p.n_layers * p.seq_len * kv_dim) (n : Nat)
    (hn : (n : Int) ≤ p.n_layers) :
    ∃ s', forward_layers m p w data pos kv_dim kv_mul head_size n s = some s' ∧
      ActShaped p kv_dim s'.toActivations ∧
      (s'.key_cache.length : Int) = p.n_layers * p.seq_len * kv_dim ∧
      (s'.value_cache.length : Int) = p.n_layers * p.seq_len * kv_dim := by
  induction n with
  | zero => exact ⟨s, rfl, ha, hkc, hvc⟩
  | succ n ih =>
    have ⟨s1, h1, ha1, hk1, hv1⟩ := ih (by push_cast at hn; omega)
    have ⟨s2, h2, hs2⟩ := forward_layer_some m p w data pos kv_dim kv_mul head_size s1 (n : Int)
      hd hw hp0 hp1 (by omega) (by push_cast at hn; omega) ha1 hk1 hv1
    exact ⟨s2, by simp only [forward_layers, h1, and_then_some, h2], hs2⟩

/-- The facts `Dims` hold for the local variables of `forward` when the `Config` is in
range. -/
theorem dims_of_range (p : Config) (h : ForwardInRange p) :
    Dims p (p.dim * p.n_kv_heads / p.n_heads) (p.n_heads / p.n_kv_heads) (p.dim / p.n_heads) := by
  have ⟨⟨hD, hH, hL, hN, hK, hV, hS⟩, ⟨hdiv1, hdiv2⟩, ⟨hev1, hev2⟩, hr1, hr2, hr3, hr4, hr5⟩ := h
  have e1 : p.n_heads * (p.dim / p.n_heads) = p.dim := Int.mul_ediv_cancel_of_emod_eq_zero hdiv1
  have e2 : p.n_heads / p.n_kv_heads * p.n_kv_heads = p.n_heads :=
    Int.ediv_mul_cancel (Int.dvd_of_emod_eq_zero hdiv2)
  have hhs : 0 < p.dim / p.n_heads := by
    by_contra hneg
    have : p.n_heads * (p.dim / p.n_heads) ≤ 0 :=
      mul_nonpos_of_nonneg_of_nonpos (le_of_lt hN) (by omega)
    omega
  have hkm : 0 < p.n_heads / p.n_kv_heads := by
    by_contra hneg
    have : p.n_heads / p.n_kv_heads * p.n_kv_heads ≤ 0 :=
      mul_nonpos_of_nonpos_of_nonneg (by omega) (le_of_lt hK)
    omega
  have e3 : p.dim * p.n_kv_heads / p.n_heads = p.n_kv_heads * (p.dim / p.n_heads) := by
    have : p.dim * p.n_kv_heads = p.n_heads * (p.n_kv_heads * (p.dim / p.n_heads)) := by
      rw [← mul_assoc, mul_comm p.n_heads p.n_kv_heads, mul_assoc, e1, mul_comm]
    rw [this, Int.mul_ediv_cancel_left _ (ne_of_gt hN)]
  exact
    { dim_pos := hD, hidden_pos := hH, layers_pos := hL, heads_pos := hN, kv_heads_pos := hK,
      vocab_pos := hV, seq_pos := hS, head_size_pos := hhs, kv_mul_pos := hkm,
      dim_eq := e1.symm, kv_dim_eq := e3, heads_eq := e2.symm, dim_even := hev1,
      kv_dim_even := hev2, embed_lt := hr1, sq_lt := hr2, ffn_lt := hr3, att_lt := hr4,
      cache_lt := hr5 }

/-- Totality of `forward`: with the `Config` in range, the weight slices inside `data`,
the buffers sized as by `malloc_run_state`, and `token`, `pos` in range, `forward`
returns, and the buffers keep their sizes. -/
theorem forward_some {F : Type} [LinearOrderedField F] (m : Libm F) (p : Config)
    (w : TransformerWeights) (data : List F) (s : RunState F) (token pos : Int)
    (hr : ForwardInRange p) (hw : WeightsFit p (p.dim * p.n_kv_heads / p.n_heads) w data)
    (hs : Shaped p s) (ht0 : 0 ≤ token) (ht1 : token < p.vocab_size)
    (hp0 : 0 ≤ pos) (hp1 : pos < p.seq_len) :
    ∃ s', forward m p w data s token pos = some s' ∧ Shaped p s' := by
  have hd := dims_of_range p hr
  have ⟨ha, hkc, hvc⟩ := hs
  have hD := hd.dim_pos
  have hV := hd.vocab_pos
  have hN := hd.heads_pos
  have hK := hd.kv_heads_pos
  have hL := hd.layers_pos
  have hLlt := hd.layers_lt
  have hdk0 : 0 ≤ p.dim * p.n_kv_heads := le_of_lt (mul_pos hD hK)
  have hdk1 : p.dim * p.n_kv_heads < 2147483648 := by
    have h1 : p.n_kv_heads ≤ p.dim := by
      have h2 := hd.kv_dim_le
      rw [hd.kv_dim_eq] at h2
      nlinarith [hd.head_size_pos]
    nlinarith [hd.sq_lt]
  have hrow0 : 0 ≤ token * p.dim := mul_nonneg ht0 (le_of_lt hD)
  have hrow1 : token * p.dim + p.dim ≤ p.vocab_size * p.dim := slice_le _ _ _ ht1 (le_of_lt hD)
  have hemb := hd.embed_lt
  have ⟨⟨te0, te1⟩, ⟨rf0, rf1⟩, ⟨wc0, wc1⟩, _⟩ := id hw
  have hx := ha.1
  have ⟨row, hrow, hrowl⟩ := load_some data (w.token_embedding_table + token * p.dim)
    p.dim.toNat (by omega) (by omega)
  have ⟨x, hx1, hxl⟩ := store_some s.x 0 row (le_refl 0) (by omega)
  have ha' : ActShaped p (p.dim * p.n_kv_heads / p.n_heads)
      ({ s with x := x } : RunState F).toActivations := by
    have ⟨_, h2, h3, h4, h5, h6, h7, h8, h9, h10⟩ := id ha
    exact ⟨by dsimp only; omega, h2, h3, h4, h5, h6, h7, h8, h9, h10⟩
  have ⟨s1, hs1, ha1, hk1, hv1⟩ := forward_layers_some m p w data pos _ _ _
    ({ s with x := x } : RunState F) hd hw hp0 hp1 ha' hkc hvc p.n_layers.toNat (by omega)
  have ⟨x2, hx2, hx2l⟩ := rmsnorm_at_some m.sqrtf s1.x s1.x data w.rms_final_weight p.dim
    (by omega) (by have := ha1.1; omega) rf0 rf1 (by have := ha1.1; omega)
  have ⟨logits, hlg, hlgl⟩ := matmul_at_some s1.logits x2 data w.wcls p.dim p.vocab_size
    (by omega) (by omega) (by have := ha1.1; omega) wc0 wc1
    (by have := ha1.2.2.2.2.2.2.2.2.2; omega)
  have eL : (u64 p.n_layers).toNat = p.n_layers.toNat := by
    rw [u64_of_range _ (by omega) (by omega)]
  unfold forward
  simp only [imul_of_range _ _ hdk0 hdk1, idiv_of_pos _ _ hdk0 hN,
    idiv_of_pos _ _ (le_of_lt hN) hK, idiv_of_pos _ _ (le_of_lt hD) hN,
    imul_of_range _ _ hrow0 (by omega), and_then_some, if_neg (show ¬ p.dim < 0 by omega), hrow,
    hx1, eL, hs1, hx2, hlg, Option.map_some']
  refine ⟨_, rfl, ?_, hk1, hv1⟩
  have ⟨h1, h2, h3, h4, h5, h6, h7, h8, h9, h10⟩ := ha1
  exact ⟨by dsimp only; omega, h2, h3, h4, h5, h6, h7, h8, h9, by dsimp only; omega⟩

theorem layout_of_range (p : Config) (h : ForwardInRange p) : LayoutInRange p := by
  have hd := dims_of_range p h
  have hD := hd.dim_pos
  have hDlt := hd.dim_lt
  have hL := hd.layers_pos
  have hLlt := hd.layers_lt
  have hhs := hd.head_size_pos
  have hkd := hd.kv_dim_eq
  have hkle := hd.kv_dim_le
  have hkpos := hd.kv_dim_pos
  have hN : p.n_heads < 2147483648 := by nlinarith [hd.att_lt, hd.heads_pos, hd.seq_pos]
  have hK : p.n_kv_heads < 2147483648 := by
    have := hd.heads_eq
    nlinarith [hd.kv_mul_pos, hd.kv_heads_pos]
  have hV : p.vocab_size < 2147483648 := by nlinarith [hd.embed_lt, hd.vocab_pos]
  have hhsle : p.dim / p.n_heads ≤ p.dim := by
    have := hd.dim_eq
    nlinarith [hd.heads_pos]
  have hLD0 : 0 ≤ p.n_layers * p.dim := le_of_lt (mul_pos hL hD)
  have hLD : p.n_layers * p.dim < 4611686018427387904 :=
    mul_lt_two_pow_62 _ _ (le_of_lt hL) hLlt hDlt
  have b1 : p.n_layers * p.dim * p.dim < 18446744073709551616 := by
    have := mul_lt_two_pow_62 p.n_layers (p.dim * p.dim) (le_of_lt hL) hLlt hd.sq_lt
    rw [mul_assoc]; omega
  have b2 : p.n_layers * p.dim * (p.n_kv_heads * (p.dim / p.n_heads)) <
      18446744073709551616 := by
    rw [← hkd]
    have := mul_lt_two_pow_62 p.n_layers (p.dim * (p.dim * p.n_kv_heads / p.n_heads))
      (le_of_lt hL) hLlt (by have := hd.kv_sq_lt; rw [mul_comm] at this; exact this)
    rw [mul_assoc]; omega
  have b3 : p.n_layers * p.dim * p.hidden_dim < 18446744073709551616 := by
    have := mul_lt_two_pow_62 p.n_layers (p.dim * p.hidden_dim) (le_of_lt hL) hLlt hd.ffn_lt
    rw [mul_assoc]; omega
  have b4 : p.seq_len * (p.dim / p.n_heads) < 2147483648 := by
    have h1 := hd.seq_dim_lt
    have h2 : p.seq_len * (p.dim / p.n_heads) ≤ p.seq_len * p.dim :=
      mul_le_mul_of_nonneg_left hhsle (le_of_lt hd.seq_pos)
    omega
  exact ⟨⟨le_of_lt hD, hDlt⟩, ⟨le_of_lt hd.hidden_pos, hd.hidden_lt⟩, ⟨le_of_lt hL, hLlt⟩,
    ⟨hd.heads_pos, hN⟩, ⟨le_of_lt hd.kv_heads_pos, hK⟩, ⟨le_of_lt hd.vocab_pos, hV⟩,
    ⟨le_of_lt hd.seq_pos, hd.seq_lt⟩, hd.embed_lt, by rw [← hkd]; omega, b4, b1, b2, b3⟩

/-- The views of `memory_map_weights` into a region that holds the layout up to the end
of `rms_final_weight`, and the classifier, satisfy `WeightsFit`. -/
theorem weights_fit_of_layout {F : Type} (p : Config) (ptr : Int) (shared_weights : Bool)
    (w : TransformerWeights) (data : List F) (hr : ForwardInRange p)
    (hw : memory_map_weights p ptr shared_weights = some w) (hptr : 0 ≤ ptr)
    (h1 : w.rms_final_weight + p.dim ≤ data.length)
    (h2 : w.wcls + p.vocab_size * p.dim ≤ data.length) :
    WeightsFit p (p.dim * p.n_kv_heads / p.n_heads) w data := by
  have hd := dims_of_range p hr
  rw [memory_map_weights_eq p ptr shared_weights (layout_of_range p hr)] at hw
  have hq : p.n_heads * (p.dim / p.n_heads) = p.dim := hd.dim_eq.symm
  have hk : p.n_kv_heads * (p.dim / p.n_heads) = p.dim * p.n_kv_heads / p.n_heads :=
    hd.kv_dim_eq.symm
  rw [hq, hk] at hw
  have hD := hd.dim_pos
  have hH := hd.hidden_pos
  have hK := hd.kv_dim_pos
  have hV := hd.vocab_pos
  have hS := hd.seq_pos
  have hL := hd.layers_pos
  have hrope : 0 ≤ p.seq_len * (p.dim / p.n_heads) / 2 :=
    Int.ediv_nonneg (le_of_lt (mul_pos hS hd.head_size_pos)) (by decide)
  generalize p.dim * p.n_kv_heads / p.n_heads = kv at hw hK ⊢
  have hVD : 0 ≤ p.vocab_size * p.dim := le_of_lt (mul_pos hV hD)
  have hLD : 0 ≤ p.n_layers * p.dim := le_of_lt (mul_pos hL hD)
  have hLDD : 0 ≤ p.n_layers * p.dim * p.dim := mul_nonneg hLD (le_of_lt hD)
  have hLDK : 0 ≤ p.n_layers * p.dim * kv := mul_nonneg hLD (le_of_lt hK)
  have hLDH : 0 ≤ p.n_layers * p.dim * p.hidden_dim := mul_nonneg hLD (le_of_lt hH)
  have hLHD : p.n_layers * p.hidden_dim * p.dim = p.n_layers * p.dim * p.hidden_dim := by ring
  rw [hLHD] at hw
  cases hw
  dsimp only at h1 h2 ⊢
  unfold WeightsFit
  dsimp only
  have hwc : 0 ≤ (if shared_weights = true then ptr else
      ptr + p.vocab_size * p.dim + p.n_layers * p.dim + p.n_layers * p.dim * p.dim +
        p.n_layers * p.dim * kv + p.n_layers * p.dim * kv + p.n_layers * p.dim * p.dim +
        p.n_layers * p.dim + p.n_layers * p.dim * p.hidden_dim +
        p.n_layers * p.dim * p.hidden_dim + p.n_layers * p.dim * p.hidden_dim + p.dim +
        p.seq_len * (p.dim / p.n_heads) / 2 + p.seq_len * (p.dim / p.n_heads) / 2) := by
    split_ifs <;> omega
  refine ⟨⟨hptr, by omega⟩, ⟨by omega, h1⟩, ⟨hwc, h2⟩, ?_⟩
  intro l hl0 hl1
  have s1 : l * p.dim + p.dim ≤ p.n_layers * p.dim := slice_le _ _ _ hl1 (le_of_lt hD)
  have n1 : 0 ≤ l * p.dim := mul_nonneg hl0 (le_of_lt hD)
  have s2 : l * p.dim * p.dim + p.dim * p.dim ≤ p.n_layers * p.dim * p.dim := by
    have := mul_le_mul_of_nonneg_right s1 (le_of_lt hD)
    rw [add_mul] at this; exact this
  have n2 : 0 ≤ l * p.dim * p.dim := mul_nonneg n1 (le_of_lt hD)
  have s3 : l * p.dim * kv + kv * p.dim ≤ p.n_layers * p.dim * kv := by
    have := mul_le_mul_of_nonneg_right s1 (le_of_lt hK)
    rw [add_mul, mul_comm p.dim kv] at this; exact this
  have n3 : 0 ≤ l * p.dim * kv := mul_nonneg n1 (le_of_lt hK)
  have s4 : l * p.dim * p.hidden_dim + p.hidden_dim * p.dim ≤
      p.n_layers * p.dim * p.hidden_dim := by
    have := mul_le_mul_of_nonneg_right s1 (le_of_lt hH)
    rw [add_mul, mul_comm p.dim p.hidden_dim] at this; exact this
  have n4 : 0 ≤ l * p.dim * p.hidden_dim := mul_nonneg n1 (le_of_lt hH)
  have c1 : p.dim * p.hidden_dim = p.hidden_dim * p.dim := mul_comm _ _
  refine ⟨⟨?_, ?_⟩, ⟨?_, ?_⟩, ⟨?_, ?_⟩, ⟨?_, ?_⟩, ⟨?_, ?_⟩, ⟨?_, ?_⟩, ⟨?_, ?_⟩, ⟨?_, ?_⟩, ⟨?_, ?_⟩⟩ <;>
    omega

theorem calloc_some {F : Type} [Zero F] (n : Int) (h : 0 ≤ n) :
    calloc n = some (List.replicate n.toNat (0 : F)) := by
  unfold calloc
  rw [if_neg (by omega)]

/-- With the `Config` in range `malloc_run_state` returns, and its buffers are `Shaped`. -/
theorem malloc_run_state_shaped {F : Type} [Zero F] (p : Config) (hr : ForwardInRange p) :
    ∃ s : RunState F, malloc_run_state p = some s ∧ Shaped p s := by
  have hd := dims_of_range p hr
  have hD := hd.dim_pos
  have hK := hd.kv_heads_pos
  have hN := hd.heads_pos
  have hS := hd.seq_pos
  have hL := hd.layers_pos
  have hkv := hd.kv_dim_pos
  have hdk0 : 0 ≤ p.dim * p.n_kv_heads := le_of_lt (mul_pos hD hK)
  have hdk1 : p.dim * p.n_kv_heads < 2147483648 := by
    have h1 : p.n_kv_heads ≤ p.dim := by
      have h2 := hd.kv_dim_le
      rw [hd.kv_dim_eq] at h2
      nlinarith [hd.head_size_pos]
    nlinarith [hd.sq_lt]
  have hatt0 : 0 ≤ p.n_heads * p.seq_len := le_of_lt (mul_pos hN hS)
  have hls0 : 0 ≤ p.n_layers * p.seq_len := le_of_lt (mul_pos hL hS)
  have hc0 : 0 ≤ p.n_layers * p.seq_len * (p.dim * p.n_kv_heads / p.n_heads) :=
    mul_nonneg hls0 (le_of_lt hkv)
  unfold malloc_run_state
  simp only [imul_of_range _ _ hdk0 hdk1, idiv_of_pos _ _ hdk0 hN, and_then_some,
    calloc_some _ (le_of_lt hD), calloc_some _ (le_of_lt hd.hidden_pos),
    calloc_some _ (le_of_lt hkv), imul_of_range _ _ hatt0 hd.att_lt, calloc_some _ hatt0,
    calloc_some _ (le_of_lt hd.vocab_pos), imul_of_range _ _ hls0 hd.layers_seq_lt,
    imul_of_range _ _ hc0 hd.cache_kv_lt, calloc_some _ hc0]
  refine ⟨_, rfl, ?_⟩
  unfold Shaped ActShaped
  simp only [List.length_replicate]
  have hH := hd.hidden_pos
  have hV := hd.vocab_pos
  refine ⟨⟨?_, ?_, ?_, ?_, ?_, ?_, ?_, ?_, ?_, ?_⟩, ?_, ?_⟩ <;> omega

/-- C13 (amended): for every `Config` with positive fields, `dim % n_heads == 0`,
`n_heads % n_kv_heads == 0`, `dim` and `kv_dim` even and the `int` sizes below `2^31`
(`ForwardInRange`), a `RunState` whose buffers have the sizes `malloc_run_state` gives
them, views laid out by `memory_map_weights` in a region that holds the layout up to the
end of `rms_final_weight` and the classifier, and every `token`, `pos` with
`0 <= token < vocab_size` and `0 <= pos < seq_len`, every access made by `forward` is in
bounds: `forward` returns, and the buffers keep their sizes. -/
theorem forward_in_bounds {F : Type} [LinearOrderedField F] (m : Libm F) (p : Config)
    (ptr : Int) (shared_weights : Bool) (w : TransformerWeights) (data : List F)
    (s : RunState F) (token pos : Int) (hr : ForwardInRange p) (hs : Shaped p s)
    (hw : memory_map_weights p ptr shared_weights = some w) (hptr : 0 ≤ ptr)
    (hdata : w.rms_final_weight + p.dim ≤ data.length ∧
      w.wcls + p.vocab_size * p.dim ≤ data.length)
    (htoken : 0 ≤ token ∧ token < p.vocab_size) (hpos : 0 ≤ pos ∧ pos < p.seq_len) :
    ∃ s', forward m p w data s token pos = some s' ∧ Shaped p s' :=
  forward_some m p w data s token pos hr
    (weights_fit_of_layout p ptr shared_weights w data hr hw hptr hdata.1 hdata.2) hs
    htoken.1 htoken.2 hpos.1 hpos.2

/-- Witness of C13 (amended): `dim = 2`, `hidden_dim = 3`, one layer, one head,
`vocab_size = 2`, `seq_len = 2`, a zeroed `RunState`, 44 weights, token 1 at position 0. -/
theorem forward_in_bounds_witness :
    ∃ s', forward tiny_libm ⟨2, 3, 1, 1, 1, 2, 2⟩ ⟨0, 4, 22, 6, 10, 14, 18, 24, 30, 36, 42, 0⟩
        (List.replicate 44 (1 / 2))
        { x := [0, 0], xb := [0, 0], xb2 := [0, 0], hb := [0, 0, 0], hb2 := [0, 0, 0],
          q := [0, 0], k := [0, 0], v := [0, 0], att := [0, 0], logits := [0, 0],
          key_cache := [0, 0, 0, 0], value_cache := [0, 0, 0, 0] } 1 0 = some s' ∧
      Shaped ⟨2, 3, 1, 1, 1, 2, 2⟩ s' :=
  forward_in_bounds tiny_libm ⟨2, 3, 1, 1, 1, 2, 2⟩ 0 true
    ⟨0, 4, 22, 6, 10, 14, 18, 24, 30, 36, 42, 0⟩ (List.replicate 44 (1 / 2))
    { x := [0, 0], xb := [0, 0], xb2 := [0, 0], hb := [0, 0, 0], hb2 := [0, 0, 0],
      q := [0, 0], k := [0, 0], v := [0, 0], att := [0, 0], logits := [0, 0],
      key_cache := [0, 0, 0, 0], value_cache := [0, 0, 0, 0] } 1 0
    (by unfold ForwardInRange; decide) (by unfold Shaped ActShaped; decide) (by decide)
    (by decide) (by decide) (by decide) (by decide)

/-- C13 (as stated) fails: the `Config` with every field 1 has positive fields and
satisfies both divisibility conditions, yet on the `RunState` of `malloc_run_state` and
the views of `memory_map_weights` the RoPE loop of `forward` reads `q[1]` in a buffer of
one float. -/
theorem forward_odd_dim_counterexample :
    malloc_run_state ⟨1, 1, 1, 1, 1, 1, 1⟩ = some
      ({ x := [0], xb := [0], xb2 := [0], hb := [0], hb2 := [0], q := [0], k := [0], v := [0],
         att := [0], logits := [0], key_cache := [0], value_cache := [0] } : RunState ℚ) ∧
    memory_map_weights ⟨1, 1, 1, 1, 1, 1, 1⟩ 0 true =
      some ⟨0, 1, 6, 2, 3, 4, 5, 7, 8, 9, 10, 0⟩ ∧
    forward tiny_libm ⟨1, 1, 1, 1, 1, 1, 1⟩ ⟨0, 1, 6, 2, 3, 4, 5, 7, 8, 9, 10, 0⟩
      (List.replicate 40 (1 / 2))
      { x := [0], xb := [0], xb2 := [0], hb := [0], hb2 := [0], q := [0], k := [0], v := [0],
        att := [0], logits := [0], key_cache := [0], value_cache := [0] } 0 0 = none := by
  refine ⟨by decide!, by decide, by decide!⟩

/-! ## The causal mask -/

theorem load_congr {F : Type} (c1 c2 : List F) (off : Int) (len : Nat)
    (hlen : c1.length = c2.length)
    (h : ∀ i : Nat, i < len → c1[(off + i).toNat]? = c2[(off + i).toNat]?) :
    load c1 off len = load c2 off len := by
  unfold load
  rw [hlen]
  split_ifs with hz hb
  · rfl
  · congr 1
    apply List.ext_getElem?
    intro n
    rw [List.getElem?_take, List.getElem?_take]
    split_ifs with hn
    · rw [List.getElem?_drop, List.getElem?_drop]
      have := h n hn
      rwa [show (off + (n : Int)).toNat = off.toNat + n by omega] at this
    · rfl
  · rfl

theorem store_get_at {F : Type} (buf : List F) (off : Int) (vals r : List F)
    (h : store buf off vals = some r) (i : Nat) :
    r[i]? = if off.toNat ≤ i ∧ i < off.toNat + vals.length then vals[i - off.toNat]?
      else buf[i]? := by
  unfold store at h
  split_ifs at h with hz hb
  · cases h
    rw [if_neg (by omega)]
  · cases h
    have hoff : off.toNat + vals.length ≤ buf.length := by omega
    by_cases h1 : i < off.toNat
    · rw [if_neg (by omega), List.append_assoc, List.getElem?_append_left (by simp; omega),
        List.getElem?_take, if_pos h1]
    · by_cases h2 : i < off.toNat + vals.length
      · rw [if_pos ⟨by omega, h2⟩, List.append_assoc,
          List.getElem?_append_right (by simp; omega),
          List.getElem?_append_left (by simp; omega)]
        congr 1
        simp
        omega
      · rw [if_neg (by omega), List.getElem?_append_right (by simp; omega), List.getElem?_drop]
        congr 1
        simp
        omega

theorem store_none_congr {F : Type} (c1 c2 : List F) (off : Int) (vals : List F)
    (hlen : c1.length = c2.length) (h : store c1 off vals = none) :
    store c2 off vals = none := by
  unfold store at h ⊢
  rw [← hlen]
  split_ifs at h ⊢ with hz hb
  rfl

/-- The same write into two buffers of one size fails in both or succeeds in both, and
keeps equal entries equal. -/
theorem store_rel {F : Type} (c1 c2 : List F) (off : Int) (vals : List F)
    (hlen : c1.length = c2.length) :
    OptionRel (fun r1 r2 => r1.length = r2.length ∧
        ∀ i : Nat, c1[i]? = c2[i]? → r1[i]? = r2[i]?)
      (store c1 off vals) (store c2 off vals) := by
  cases h1 : store c1 off vals with
  | none =>
    rw [store_none_congr c1 c2 off vals hlen h1]
    trivial
  | some r1 =>
    cases h2 : store c2 off vals with
    | none =>
      rw [store_none_congr c2 c1 off vals hlen.symm h2] at h1
      cases h1
    | some r2 =>
      refine ⟨?_, ?_⟩
      · rw [store_length _ _ _ _ h1, store_length _ _ _ _ h2, hlen]
      · intro i hi
        rw [store_get_at _ _ _ _ h1, store_get_at _ _ _ _ h2, hi]

theorem cache_agree_store {F : Type} (p : Config) (kv_dim pos : Int) (c1 c2 : List F)
    (off : Int) (vals : List F) (h : CacheAgree p kv_dim pos c1 c2) :
    OptionRel (CacheAgree p kv_dim pos) (store c1 off vals) (store c2 off vals) := by
  have hr := store_rel c1 c2 off vals h.1
  cases h1 : store c1 off vals with
  | none =>
    rw [h1] at hr
    cases h2 : store c2 off vals with
    | none => trivial
    | some r2 => rw [h2] at hr; exact hr
  | some r1 =>
    rw [h1] at hr
    cases h2 : store c2 off vals with
    | none => rw [h2] at hr; exact hr
    | some r2 =>
      rw [h2] at hr
      exact ⟨hr.1, fun l t j hl0 hl1 ht0 ht1 hj0 hj1 => hr.2 _ (h.2 l t j hl0 hl1 ht0 ht1 hj0 hj1)⟩

theorem and_then_rel {α β : Type} (R : α → α → Prop) (Q : β → β → Prop)
    (o1 o2 : Option α) (f g : α → Option β) (ho : OptionRel R o1 o2)
    (hf : ∀ a b, R a b → OptionRel Q (f a) (g b)) :
    OptionRel Q (and_then o1 f) (and_then o2 g) := by
  cases o1 with
  | none =>
    cases o2 with
    | none => trivial
    | some b => exact ho.elim
  | some a =>
    cases o2 with
    | none => exact ho.elim
    | some b => exact hf a b ho

theorem option_rel_refl {α : Type} (R : α → α → Prop) (hR : ∀ a, R a a) (o : Option α) :
    OptionRel R o o := by
  cases o with
  | none => trivial
  | some a => exact hR a

theorem and_then_congr {α β : Type} {o1 o2 : Option α} {f g : α → Option β} (ho : o1 = o2)
    (hf : ∀ a, f a = g a) : and_then o1 f = and_then o2 g := by
  subst ho
  cases o1 with
  | none => rfl
  | some a => exact hf a

theorem and_then_rel_same {α β : Type} (Q : β → β → Prop) (o : Option α)
    (f g : α → Option β) (hf : ∀ a, OptionRel Q (f a) (g a)) :
    OptionRel Q (and_then o f) (and_then o g) := by
  cases o with
  | none => trivial
  | some a => exact hf a

theorem imul_eq_some (a b c : Int) (h : imul a b = some c) : c = a * b := by
  unfold imul at h
  split_ifs at h
  cases h
  rfl

theorem KvDims.kv_pos {p : Config} {kv_dim kv_mul head_size : Int}
    (hd : KvDims p kv_dim kv_mul head_size) : 0 < kv_dim := by
  rw [hd.kv_dim_eq]
  exact mul_pos hd.kv_heads_pos hd.head_size_pos

theorem KvDims.kv_lt {p : Config} {kv_dim kv_mul head_size : Int}
    (hd : KvDims p kv_dim kv_mul head_size) : kv_dim < 2147483648 := by
  have h1 : 0 < p.n_layers * p.seq_len := mul_pos hd.layers_pos hd.seq_pos
  nlinarith [hd.cache_kv_lt, hd.kv_pos]

/-- The `int` that `forward` stores in `loff` for layer `l` is the exact product. -/
theorem KvDims.loff_exact {p : Config} {kv_dim kv_mul head_size : Int}
    (hd : KvDims p kv_dim kv_mul head_size) (l : Int) (h0 : 0 ≤ l) (h1 : l < p.n_layers) :
    to_int (u64 (u64 (l * u64 p.seq_len) * u64 kv_dim)) = l * p.seq_len * kv_dim := by
  have hK := hd.kv_pos
  have hKlt := hd.kv_lt
  have hS := hd.seq_pos
  have hLS : 0 < p.n_layers * p.seq_len := mul_pos hd.layers_pos hS
  have hLSlt : p.n_layers * p.seq_len < 2147483648 := by nlinarith [hd.cache_kv_lt]
  have hSlt : p.seq_len < 2147483648 := by nlinarith [hd.layers_pos]
  have hlS0 : 0 ≤ l * p.seq_len := mul_nonneg h0 (le_of_lt hS)
  have hlS1 : l * p.seq_len ≤ p.n_layers * p.seq_len :=
    mul_le_mul_of_nonneg_right (le_of_lt h1) (le_of_lt hS)
  have hlSK0 : 0 ≤ l * p.seq_len * kv_dim := mul_nonneg hlS0 (le_of_lt hK)
  have hlSK1 : l * p.seq_len * kv_dim ≤ p.n_layers * p.seq_len * kv_dim :=
    mul_le_mul_of_nonneg_right hlS1 (le_of_lt hK)
  have hc := hd.cache_kv_lt
  rw [u64_of_range p.seq_len (by omega) (by omega), u64_of_range kv_dim (by omega) (by omega),
    u64_of_range (l * p.seq_len) hlS0 (by omega), u64_of_range _ hlSK0 (by omega)]
  unfold to_int
  omega

theorem cache_row_agree {F : Type} (p : Config) (kv_dim kv_mul head_size pos l h t : Int)
    (c1 c2 : List F) (hd : KvDims p kv_dim kv_mul head_size)
    (hc : CacheAgree p kv_dim pos c1 c2) (hl0 : 0 ≤ l) (hl1 : l < p.n_layers)
    (ht0 : 0 ≤ t) (ht1 : t ≤ pos) (hh0 : 0 ≤ h) (hh1 : h < p.n_heads) :
    cache_row c1 (l * p.seq_len * kv_dim) kv_dim kv_mul head_size h t =
      cache_row c2 (l * p.seq_len * kv_dim) kv_dim kv_mul head_size h t := by
  have hhs := hd.head_size_pos
  have hq0 : 0 ≤ h / kv_mul := Int.ediv_nonneg hh0 (le_of_lt hd.kv_mul_pos)
  have hq1 : h / kv_mul < p.n_kv_heads := by
    apply Int.ediv_lt_of_lt_mul hd.kv_mul_pos
    have := hd.heads_eq
    rw [mul_comm] at this
    omega
  have hko0 : 0 ≤ h / kv_mul * head_size := mul_nonneg hq0 (le_of_lt hhs)
  have hko1 : h / kv_mul * head_size + head_size ≤ kv_dim := by
    rw [hd.kv_dim_eq]
    exact slice_le _ _ _ hq1 (le_of_lt hhs)
  have hKlt := hd.kv_lt
  unfold cache_row
  cases himul : imul t kv_dim with
  | none => rfl
  | some tk =>
    have htk := imul_eq_some _ _ _ himul
    subst htk
    simp only [idiv_of_pos h kv_mul hh0 hd.kv_mul_pos,
      imul_of_range _ head_size hko0 (by omega), and_then_some]
    apply load_congr c1 c2 _ _ hc.1
    intro i hi
    have := hc.2 l t (h / kv_mul * head_size + i) hl0 hl1 ht0 ht1 (by omega) (by omega)
    rwa [show l * p.seq_len * kv_dim + t * kv_dim + (h / kv_mul * head_size + (i : Int)) =
      l * p.seq_len * kv_dim + t * kv_dim + h / kv_mul * head_size + (i : Int) by ring] at this

theorem cache_rows_agree {F : Type} (p : Config) (kv_dim kv_mul head_size pos l h : Int)
    (c1 c2 : List F) (hd : KvDims p kv_dim kv_mul head_size)
    (hc : CacheAgree p kv_dim pos c1 c2) (hl0 : 0 ≤ l) (hl1 : l < p.n_layers)
    (hh0 : 0 ≤ h) (hh1 : h < p.n_heads) (n : Nat) (hn : (n : Int) ≤ pos + 1) :
    cache_rows c1 (l * p.seq_len * kv_dim) kv_dim kv_mul head_size h n =
      cache_rows c2 (l * p.seq_len * kv_dim) kv_dim kv_mul head_size h n := by
  induction n with
  | zero => rfl
  | succ n ih =>
    simp only [cache_rows]
    rw [ih (by push_cast at hn; omega),
      cache_row_agree p kv_dim kv_mul head_size pos l h (n : Int) c1 c2 hd hc hl0 hl1 (by omega)
        (by push_cast at hn; omega) hh0 hh1]

theorem attend_head_agree {F : Type} [LinearOrderedField F] (m : Libm F) (p : Config)
    (pos kv_dim kv_mul head_size l h : Int) (k1 k2 v1 v2 : List F) (a : Activations F)
    (hd : KvDims p kv_dim kv_mul head_size) (hk : CacheAgree p kv_dim pos k1 k2)
    (hv : CacheAgree p kv_dim pos v1 v2) (hl0 : 0 ≤ l) (hl1 : l < p.n_layers)
    (hp0 : 0 ≤ pos) (hh0 : 0 ≤ h) (hh1 : h < p.n_heads) :
    attend_head m p pos (l * p.seq_len * kv_dim) kv_dim kv_mul head_size k1 v1 a h =
      attend_head m p pos (l * p.seq_len * kv_dim) kv_dim kv_mul head_size k2 v2 a h := by
  have hkr := cache_rows_agree p kv_dim kv_mul head_size pos l h k1 k2 hd hk hl0 hl1 hh0 hh1
    (pos + 1).toNat (by omega)
  have hvr := cache_rows_agree p kv_dim kv_mul head_size pos l h v1 v2 hd hv hl0 hl1 hh0 hh1
    (pos + 1).toNat (by omega)
  unfold attend_head
  refine and_then_congr rfl fun qo => ?_
  refine and_then_congr rfl fun ao => ?_
  refine and_then_congr hkr fun krows => ?_
  refine and_then_congr rfl fun qh => ?_
  refine and_then_congr rfl fun att => ?_
  refine and_then_congr rfl fun att2 => ?_
  split_ifs with hneg
  · rfl
  · exact and_then_congr hvr fun vrows => rfl

theorem attend_loop_agree {F : Type} [LinearOrderedField F] (m : Libm F) (p : Config)
    (pos kv_dim kv_mul head_size l : Int) (k1 k2 v1 v2 : List F) (a : Activations F)
    (hd : KvDims p kv_dim kv_mul head_size) (hk : CacheAgree p kv_dim pos k1 k2)
    (hv : CacheAgree p kv_dim pos v1 v2) (hl0 : 0 ≤ l) (hl1 : l < p.n_layers)
    (hp0 : 0 ≤ pos) (n : Nat) (hn : (n : Int) ≤ p.n_heads) :
    attend_loop m p pos (l * p.seq_len * kv_dim) kv_dim kv_mul head_size k1 v1 n a =
      attend_loop m p pos (l * p.seq_len * kv_dim) kv_dim kv_mul head_size k2 v2 n a := by
  induction n with
  | zero => rfl
  | succ n ih =>
    simp only [attend_loop]
    exact and_then_congr (ih (by push_cast at hn; omega)) fun a' =>
      attend_head_agree m p pos kv_dim kv_mul head_size l (n : Int) k1 k2 v1 v2 a' hd hk hv
        hl0 hl1 hp0 (by omega) (by push_cast at hn; omega)

theorem forward_layer_rel {F : Type} [LinearOrderedField F] (m : Libm F) (p : Config)
    (w : TransformerWeights) (data : List F) (pos kv_dim kv_mul head_size l : Int)
    (s1 s2 : RunState F) (hd : KvDims p kv_dim kv_mul head_size) (hp0 : 0 ≤ pos)
    (hl0 : 0 ≤ l) (hl1 : l < p.n_layers) (hs : StateAgree p kv_dim pos s1 s2) :
    OptionRel (StateAgree p kv_dim pos)
      (forward_layer m p w data pos kv_dim kv_mul head_size s1 l)
      (forward_layer m p w data pos kv_dim kv_mul head_size s2 l) := by
  have ⟨hact, hk, hv⟩ := hs
  unfold forward_layer
  rw [hact, hd.loff_exact l hl0 hl1]
  apply and_then_rel_same
  intro a
  apply and_then_rel_same
  intro pk
  split_ifs with hneg
  · trivial
  · apply and_then_rel_same
    intro krow
    apply and_then_rel (CacheAgree p kv_dim pos) _ _ _ _ _
      (cache_agree_store p kv_dim pos _ _ _ krow hk)
    intro kc1 kc2 hkc
    apply and_then_rel_same
    intro vrow
    apply and_then_rel (CacheAgree p kv_dim pos) _ _ _ _ _
      (cache_agree_store p kv_dim pos _ _ _ vrow hv)
    intro vc1 vc2 hvc
    rw [attend_loop_agree m p pos kv_dim kv_mul head_size l kc1 kc2 vc1 vc2 a hd hkc hvc hl0 hl1
      hp0 p.n_heads.toNat (by have := hd.heads_pos; omega)]
    apply and_then_rel_same
    intro a2
    cases layer_ffn m p w data l a2 with
    | none => trivial
    | some a3 => exact ⟨rfl, hkc, hvc⟩

theorem forward_layers_rel {F : Type} [LinearOrderedField F] (m : Libm F) (p : Config)
    (w : TransformerWeights) (data : List F) (pos kv_dim kv_mul head_size : Int)
    (s1 s2 : RunState F) (hd : KvDims p kv_dim kv_mul head_size) (hp0 : 0 ≤ pos)
    (hs : StateAgree p kv_dim pos s1 s2) (n : Nat) (hn : (n : Int) ≤ p.n_layers) :
    OptionRel (StateAgree p kv_dim pos)
      (forward_layers m p w data pos kv_dim kv_mul head_size n s1)
      (forward_layers m p w data pos kv_dim kv_mul head_size n s2) := by
  induction n with
  | zero => exact hs
  | succ n ih =>
    simp only [forward_layers]
    apply and_then_rel (StateAgree p kv_dim pos) _ _ _ _ _ (ih (by push_cast at hn; omega))
    intro a b hab
    exact forward_layer_rel m p w data pos kv_dim kv_mul head_size (n : Int) a b hd hp0 (by omega)
      (by push_cast at hn; omega) hab

/-- The facts `KvDims` hold for the local variables of `forward` when the fields are
positive, the two divisibility invariants hold and the cache size is an `int`. -/
theorem kv_dims_of_config (p : Config)
    (hfields : 0 < p.dim ∧ 0 < p.n_layers ∧ 0 < p.n_heads ∧ 0 < p.n_kv_heads ∧ 0 < p.seq_len)
    (hinv : p.dim % p.n_heads = 0 ∧ p.n_heads % p.n_kv_heads = 0)
    (hcache : p.n_layers * p.seq_len * (p.dim * p.n_kv_heads / p.n_heads) < 2147483648) :
    KvDims p (p.dim * p.n_kv_heads / p.n_heads) (p.n_heads / p.n_kv_heads)
      (p.dim / p.n_heads) := by
  have ⟨hD, hL, hN, hK, hS⟩ := hfields
  have ⟨hdiv1, hdiv2⟩ := hinv
  have e1 : p.n_heads * (p.dim / p.n_heads) = p.dim := Int.mul_ediv_cancel_of_emod_eq_zero hdiv1
  have e2 : p.n_heads / p.n_kv_heads * p.n_kv_heads = p.n_heads :=
    Int.ediv_mul_cancel (Int.dvd_of_emod_eq_zero hdiv2)
  have hhs : 0 < p.dim / p.n_heads := by
    by_contra hneg
    have : p.n_heads * (p.dim / p.n_heads) ≤ 0 :=
      mul_nonpos_of_nonneg_of_nonpos (le_of_lt hN) (by omega)
    omega
  have hkm : 0 < p.n_heads / p.n_kv_heads := by
    by_contra hneg
    have : p.n_heads / p.n_kv_heads * p.n_kv_heads ≤ 0 :=
      mul_nonpos_of_nonpos_of_nonneg (by omega) (le_of_lt hK)
    omega
  have e3 : p.dim * p.n_kv_heads / p.n_heads = p.n_kv_heads * (p.dim / p.n_heads) := by
    have : p.dim * p.n_kv_heads = p.n_heads * (p.n_kv_heads * (p.dim / p.n_heads)) := by
      rw [← mul_assoc, mul_comm p.n_heads p.n_kv_heads, mul_assoc, e1, mul_comm]
    rw [this, Int.mul_ediv_cancel_left _ (ne_of_gt hN)]
  exact
    { layers_pos := hL, seq_pos := hS, heads_pos := hN, kv_heads_pos := hK,
      head_size_pos := hhs, kv_mul_pos := hkm, kv_dim_eq := e3, heads_eq := e2.symm,
      cache_kv_lt := hcache }

theorem forward_rel {F : Type} [LinearOrderedField F] (m : Libm F) (p : Config)
    (w : TransformerWeights) (data : List F) (s1 s2 : RunState F) (token pos : Int)
    (hD : 0 < p.dim)
    (hd : KvDims p (p.dim * p.n_kv_heads / p.n_heads) (p.n_heads / p.n_kv_heads)
      (p.dim / p.n_heads))
    (hp0 : 0 ≤ pos) (hs : StateAgree p (p.dim * p.n_kv_heads / p.n_heads) pos s1 s2) :
    OptionRel (fun r1 r2 : RunState F => r1.logits = r2.logits)
      (forward m p w data s1 token pos) (forward m p w data s2 token pos) := by
  have ⟨a1, k1, v1⟩ := s1
  have ⟨a2, k2, v2⟩ := s2
  have ⟨hact, hk, hv⟩ := hs
  dsimp only at hact hk hv
  subst hact
  have hN := hd.heads_pos
  have hK := hd.kv_heads_pos
  have hL := hd.layers_pos
  have hLlt : p.n_layers < 2147483648 := by
    have h1 : 0 < p.seq_len * (p.dim * p.n_kv_heads / p.n_heads) :=
      mul_pos hd.seq_pos hd.kv_pos
    have h2 := hd.cache_kv_lt
    rw [mul_assoc] at h2
    nlinarith
  have hdk0 : 0 ≤ p.dim * p.n_kv_heads := le_of_lt (mul_pos hD hK)
  have eL : (u64 p.n_layers).toNat = p.n_layers.toNat := by
    rw [u64_of_range _ (by omega) (by omega)]
  unfold forward
  cases h1 : imul p.dim p.n_kv_heads with
  | none => trivial
  | some dk =>
    have hdk := imul_eq_some _ _ _ h1
    subst hdk
    simp only [and_then_some, idiv_of_pos _ _ hdk0 hN, idiv_of_pos _ _ (le_of_lt hN) hK,
      idiv_of_pos _ _ (le_of_lt hD) hN, eL]
    apply and_then_rel_same
    intro row
    split_ifs with hneg
    · trivial
    · apply and_then_rel_same
      intro content_row
      apply and_then_rel_same
      intro x
      refine and_then_rel (StateAgree p (p.dim * p.n_kv_heads / p.n_heads) pos) _ _ _ _ _ ?_ ?_
      · exact forward_layers_rel m p w data pos _ _ _ _ _ hd hp0 (by exact ⟨rfl, hk, hv⟩)
          p.n_layers.toNat (by omega)
      · intro a b hab
        have hax : a.x = b.x := congrArg Activations.x hab.1
        have hal : a.logits = b.logits := congrArg Activations.logits hab.1
        rw [hax, hal]
        apply and_then_rel_same
        intro x2
        cases matmul_at b.logits x2 data w.wcls p.dim p.vocab_size with
        | none => trivial
        | some lg => rfl

theorem option_rel_map {α β : Type} (f : α → β) (o1 o2 : Option α)
    (h : OptionRel (fun a b => f a = f b) o1 o2) : o1.map f = o2.map f := by
  cases o1 with
  | none =>
    cases o2 with
    | none => rfl
    | some b => exact h.elim
  | some a =>
    cases o2 with
    | none => exact h.elim
    | some b => exact congrArg some h

/-- C12: causal mask. For a `Config` with positive fields that satisfies the two
divisibility invariants and whose cache size is an `int`, every `token`, position
`pos >= 0` and weights, and two `RunState` that have the same activation buffers and
caches of one size that agree on the entries of positions `0 .. pos` of every layer
(they may differ in the entries of later positions), `forward(token, pos)` has the same
outcome on both, with the same logits. -/
theorem forward_causal_mask {F : Type} [LinearOrderedField F] (m : Libm F) (p : Config)
    (w : TransformerWeights) (data : List F) (s1 s2 : RunState F) (token pos : Int)
    (hfields : 0 < p.dim ∧ 0 < p.n_layers ∧ 0 < p.n_heads ∧ 0 < p.n_kv_heads ∧ 0 < p.seq_len)
    (hinv : p.dim % p.n_heads = 0 ∧ p.n_heads % p.n_kv_heads = 0)
    (hcache : p.n_layers * p.seq_len * (p.dim * p.n_kv_heads / p.n_heads) < 2147483648)
    (hpos : 0 ≤ pos)
    (hs : StateAgree p (p.dim * p.n_kv_heads / p.n_heads) pos s1 s2) :
    (forward m p w data s1 token pos).map (fun s => s.logits) =
      (forward m p w data s2 token pos).map (fun s => s.logits) :=
  option_rel_map (fun s : RunState F => s.logits) _ _
    (forward_rel m p w data s1 s2 token pos hfields.1 (kv_dims_of_config p hfields hinv hcache)
      hpos hs)

/-- Witness of C12: two `RunState` for `dim = 2`, `seq_len = 2` that
differ in the cache entries of position 1 give the same logits at position 0, and
`forward` does return there. -/
theorem forward_causal_mask_witness :
    (forward tiny_libm ⟨2, 3, 1, 1, 1, 2, 2⟩ ⟨0, 4, 22, 6, 10, 14, 18, 24, 30, 36, 42, 0⟩
        (List.replicate 44 (1 / 2))
        { x := [0, 0], xb := [0, 0], xb2 := [0, 0], hb := [0, 0, 0], hb2 := [0, 0, 0],
          q := [0, 0], k := [0, 0], v := [0, 0], att := [0, 0], logits := [0, 0],
          key_cache := [0, 0, 0, 0], value_cache := [0, 0, 0, 0] } 1 0).map
        (fun s => s.logits) =
      (forward tiny_libm ⟨2, 3, 1, 1, 1, 2, 2⟩ ⟨0, 4, 22, 6, 10, 14, 18, 24, 30, 36, 42, 0⟩
        (List.replicate 44 (1 / 2))
        { x := [0, 0], xb := [0, 0], xb2 := [0, 0], hb := [0, 0, 0], hb2 := [0, 0, 0],
          q := [0, 0], k := [0, 0], v := [0, 0], att := [0, 0], logits := [0, 0],
          key_cache := [0, 0, 5, 7], value_cache := [0, 0, 1, 9] } 1 0).map
        (fun s => s.logits) ∧
    (forward tiny_libm ⟨2, 3, 1, 1, 1, 2, 2⟩ ⟨0, 4, 22, 6, 10, 14, 18, 24, 30, 36, 42, 0⟩
        (List.replicate 44 (1 / 2))
        { x := [0, 0], xb := [0, 0], xb2 := [0, 0], hb := [0, 0, 0], hb2 := [0, 0, 0],
          q := [0, 0], k := [0, 0], v := [0, 0], att := [0, 0], logits := [0, 0],
          key_cache := [0, 0, 5, 7], value_cache := [0, 0, 1, 9] } 1 0).isSome = true :=
  ⟨forward_causal_mask tiny_libm ⟨2, 3, 1, 1, 1, 2, 2⟩
      ⟨0, 4, 22, 6, 10, 14, 18, 24, 30, 36, 42, 0⟩ (List.replicate 44 (1 / 2)) _ _ 1 0
      (by decide) (by decide) (by decide) (by decide)
      ⟨rfl,
        ⟨rfl, fun l t j hl0 hl1 ht0 ht1 hj0 hj1 => by
          have hl : l = 0 := by change l < 1 at hl1; omega
          have ht : t = 0 := by omega
          have hj : j = 0 ∨ j = 1 := by change j < 2 at hj1; omega
          subst hl ht
          rcases hj with hj | hj <;> subst hj <;> rfl⟩,
        ⟨rfl, fun l t j hl0 hl1 ht0 ht1 hj0 hj1 => by
          have hl : l = 0 := by change l < 1 at hl1; omega
          have ht : t = 0 := by omega
          have hj : j = 0 ∨ j = 1 := by change j < 2 at hj1; omega
          subst hl ht
          rcases hj with hj | hj <;> subst hj <;> rfl⟩⟩,
    by decide!⟩

/-! ## Properties of the driver and of the generator -/

theorem random_u32_lt (s : Nat) : (random_u32 s).1 < 2 ^ 32 := by
  simp only [random_u32, Nat.shiftRight_eq_div_pow]
  apply Nat.div_lt_of_lt_mul
  exact Nat.mod_lt _ (by decide)

/-- C21: for every state of the generator, `random_f32` returns `r = floor(u / 2^8) / 2^24`
with `u` the output of `random_u32` on that state (and leaves the state `random_u32`
leaves); `floor(u / 2^8)` is a natural number below `2^24`, so `r` is an integer multiple of
`2^-24` with `0 <= r < 1`. -/
theorem random_f32_spec (s : Nat) :
    (random_f32 s).1 = (((random_u32 s).1 / 2 ^ 8 : Nat) : ℚ) / 2 ^ 24 ∧
    (random_f32 s).2 = (random_u32 s).2 ∧
    (random_u32 s).1 / 2 ^ 8 < 2 ^ 24 ∧
    0 ≤ (random_f32 s).1 ∧ (random_f32 s).1 < 1 := by
  have hu := random_u32_lt s
  have hk : (random_u32 s).1 / 2 ^ 8 < 2 ^ 24 := by
    apply Nat.div_lt_of_lt_mul
    exact hu
  have heq : (random_f32 s).1 = (((random_u32 s).1 / 2 ^ 8 : Nat) : ℚ) / 2 ^ 24 := by
    simp only [random_f32, Nat.shiftRight_eq_div_pow]
    norm_num
  refine ⟨heq, rfl, hk, ?_, ?_⟩
  · rw [heq]
    positivity
  · rw [heq, div_lt_one (by norm_num)]
    exact_mod_cast hk

theorem generate_step_spec (m : Libm ℚ) (p : Config) (w : TransformerWeights) (data : List ℚ)
    (t : Tokenizer) (prompt_tokens : List Int) (temperature topp : ℚ) (g g' : GenState)
    (b : Bool) (h : generate_step m p w data t prompt_tokens temperature topp g = some (b, g')) :
    ∃ next : Int, g'.log = g.log ++ [(g.token, g.pos, next)] ∧ g'.pos = g.pos + 1 ∧
      (b = true → next = 1 ∧ g'.out = g.out) ∧
      (b = false → next ≠ 1 ∧ g'.out.length = g.out.length + 1) := by
  unfold generate_step at h
  rw [and_then_eq_some] at h
  obtain ⟨s, _, h⟩ := h
  rw [and_then_eq_some] at h
  obtain ⟨nlr, _, h⟩ := h
  split_ifs at h with h1
  · simp only [Option.some.injEq, Prod.mk.injEq] at h
    obtain ⟨hb, hg⟩ := h
    subst hb hg
    exact ⟨nlr.1, rfl, rfl, fun _ => ⟨h1, rfl⟩, fun hf => by cases hf⟩
  · rw [Option.map_eq_some'] at h
    obtain ⟨piece, _, h⟩ := h
    simp only [Prod.mk.injEq] at h
    obtain ⟨hb, hg⟩ := h
    subst hb hg
    exact ⟨nlr.1, rfl, rfl, fun hf => (by cases hf), fun _ => ⟨h1, by simp⟩⟩

/-- The generation loop from any point: with fuel for the passes that remain it does not
run out of fuel, and when it finishes, the passes it made are logged at the consecutive
positions from `pos`, at most `steps - pos` of them, none but the last has chosen BOS, a
pass that chose BOS emitted nothing and every other pass emitted one piece; without a BOS
the loop ends with `pos` at `steps`. -/
theorem generate_loop_run (m : Libm ℚ) (p : Config) (w : TransformerWeights) (data : List ℚ)
    (t : Tokenizer) (prompt_tokens : List Int) (temperature topp : ℚ) (steps : Int) :
    ∀ (fuel : Nat) (g : GenState), (steps - g.pos).toNat ≤ fuel →
      generate_loop m p w data t prompt_tokens temperature topp steps fuel g ≠ Run.out_of_fuel ∧
      ∀ g', generate_loop m p w data t prompt_tokens temperature topp steps fuel g =
          Run.finished g' →
        ∃ passes : List (Int × Int × Int), g'.log = g.log ++ passes ∧
          passes.length ≤ (steps - g.pos).toNat ∧
          passes.map (fun e => e.2.1) =
            (List.range passes.length).map (fun (i : Nat) => g.pos + (i : Int)) ∧
          g'.pos = g.pos + (passes.length : Int) ∧
          (∀ e ∈ passes.dropLast, e.2.2 ≠ 1) ∧
          ((∃ e, passes.getLast? = some e ∧ e.2.2 = 1) →
            g'.out.length + 1 = g.out.length + passes.length) ∧
          ((∀ e ∈ passes, e.2.2 ≠ 1) →
            g'.out.length = g.out.length + passes.length ∧ steps ≤ g'.pos) := by
  intro fuel
  induction fuel with
  | zero =>
    intro g hfuel
    have hge : ¬ g.pos < steps := by omega
    simp only [generate_loop, if_neg hge]
    refine ⟨by simp, ?_⟩
    intro g' hg'
    cases hg'
    exact ⟨[], by simp, by simp, by simp, by simp, by simp, by simp, fun _ => ⟨by simp, by omega⟩⟩
  | succ fuel ih =>
    intro g hfuel
    by_cases hlt : g.pos < steps
    · simp only [generate_loop, if_pos hlt]
      cases hstep : generate_step m p w data t prompt_tokens temperature topp g with
      | none =>
        refine ⟨by simp, ?_⟩
        intro g' hg'
        cases hg'
      | some bg =>
        obtain ⟨b, g1⟩ := bg
        obtain ⟨next, hlog, hpos, htrue, hfalse⟩ :=
          generate_step_spec m p w data t prompt_tokens temperature topp g g1 b hstep
        cases b with
        | true =>
          obtain ⟨hnext, hout⟩ := htrue rfl
          refine ⟨by simp, ?_⟩
          intro g' hg'
          simp only [Run.finished.injEq] at hg'
          subst hg'
          refine ⟨[(g.token, g.pos, next)], hlog, by simp; omega, by simp [List.range_succ], by simp [hpos],
            by simp, fun _ => by simp [hout], fun hall => ?_⟩
          exact absurd hnext (hall (g.token, g.pos, next) (by simp))
        | false =>
          obtain ⟨hnext, hout⟩ := hfalse rfl
          obtain ⟨hne, hfin⟩ := ih g1 (by rw [hpos]; omega)
          refine ⟨hne, ?_⟩
          intro g' hg'
          obtain ⟨passes, h1, h2, h3, h4, h5, h6, h7⟩ := hfin g' hg'
          refine ⟨(g.token, g.pos, next) :: passes, ?_, ?_, ?_, ?_, ?_, ?_, ?_⟩
          · rw [h1, hlog]; simp
          · simp only [List.length_cons]; rw [hpos] at h2; omega
          · simp only [List.map_cons, List.length_cons, List.range_succ_eq_map, List.map_map]
            rw [h3, hpos]
            simp only [Nat.cast_zero, add_zero, List.cons.injEq, true_and]
            apply List.map_congr_left
            intro i _
            simp only [Function.comp, Nat.cast_succ]
            ring
          · rw [h4, hpos]; simp only [List.length_cons, Nat.cast_succ]; ring
          · intro e he
            cases passes with
            | nil => simp at he
            | cons e1 rest =>
              simp only [List.dropLast_cons₂, List.mem_cons] at he
              rcases he with he | he
              · rw [he]; exact hnext
              · exact h5 e he
          · rintro ⟨e, he, he1⟩
            cases passes with
            | nil =>
              simp only [List.getLast?_singleton, Option.some.injEq] at he
              rw [← he] at he1
              exact absurd he1 hnext
            | cons e1 rest =>
              rw [List.getLast?_cons_cons] at he
              have := h6 ⟨e, he, he1⟩
              simp only [List.length_cons] at this ⊢
              omega
          · intro hall
            obtain ⟨h71, h72⟩ := h7 (fun e he => hall e (List.mem_cons_of_mem _ he))
            refine ⟨?_, h72⟩
            simp only [List.length_cons]
            omega
    · simp only [generate_loop, if_neg hlt]
      refine ⟨by simp, ?_⟩
      intro g' hg'
      cases hg'
      exact ⟨[], by simp, by simp, by simp, by simp, by simp, by simp,
        fun _ => ⟨by simp, by omega⟩⟩

/-- C22: for every step budget `steps`, prompt, temperature, top-p, model and tokenizer,
the generation loop started at position 0 does not run out of fuel when given `steps`
passes of fuel: it ends by the loop condition, by `break`, or in undefined behaviour of a
callee. When it ends, it has called `forward` (one call per logged pass) at most `steps`
times, at the positions `0, 1, 2, ...` in sequence; no pass but the last has chosen BOS;
if the last pass chose BOS it emitted no piece (one piece fewer than passes), and if no
pass chose BOS the loop ended with `steps` passes, one piece each. -/
theorem generation_loop_terminates (m : Libm ℚ) (p : Config) (w : TransformerWeights)
    (data : List ℚ) (t : Tokenizer) (prompt_tokens : List Int) (temperature topp : ℚ)
    (steps : Int) (g : GenState) (fuel : Nat) (hpos : g.pos = 0) (hlog : g.log = [])
    (hout : g.out = []) (hfuel : steps.toNat ≤ fuel) :
    generate_loop m p w data t prompt_tokens temperature topp steps fuel g ≠ Run.out_of_fuel ∧
    ∀ g', generate_loop m p w data t prompt_tokens temperature topp steps fuel g =
        Run.finished g' →
      g'.log.length ≤ steps.toNat ∧
      g'.log.map (fun e => e.2.1) =
        (List.range g'.log.length).map (fun (i : Nat) => (i : Int)) ∧
      (∀ e ∈ g'.log.dropLast, e.2.2 ≠ 1) ∧
      ((∃ e, g'.log.getLast? = some e ∧ e.2.2 = 1) → g'.out.length + 1 = g'.log.length) ∧
      ((∀ e ∈ g'.log, e.2.2 ≠ 1) →
        g'.out.length = g'.log.length ∧ steps ≤ (g'.log.length : Int)) := by
  obtain ⟨hne, hfin⟩ := generate_loop_run m p w data t prompt_tokens temperature topp steps fuel g
    (by rw [hpos]; simpa using hfuel)
  refine ⟨hne, ?_⟩
  intro g' hg'
  obtain ⟨passes, h1, h2, h3, h4, h5, h6, h7⟩ := hfin g' hg'
  rw [hlog, List.nil_append] at h1
  rw [hpos] at h2 h3 h4
  rw [hout] at h6 h7
  simp only [sub_zero, zero_add, List.length_nil] at h2 h3 h4 h6 h7
  rw [h1]
  refine ⟨h2, h3, h5, h6, ?_⟩
  intro hall
  obtain ⟨h71, h72⟩ := h7 hall
  exact ⟨h71, by rw [← h4]; exact h72⟩

/-- Witness of C22: a budget of two steps, an empty prompt and temperature 0 on a model
with `dim = 2`, from the start of `main` (`token = 1`, `pos = 0`, zeroed `RunState`). -/
theorem generation_loop_terminates_witness :
    generate_loop tiny_libm ⟨2, 3, 1, 1, 1, 2, 2⟩ ⟨0, 4, 22, 6, 10, 14, 18, 24, 30, 36, 42, 0⟩
        (List.replicate 44 (1 / 2)) llama_like [] 0 (9 / 10) 2 2
        { token := 1, pos := 0,
          state :=
            { x := [0, 0], xb := [0, 0], xb2 := [0, 0], hb := [0, 0, 0], hb2 := [0, 0, 0],
              q := [0, 0], k := [0, 0], v := [0, 0], att := [0, 0], logits := [0, 0],
              key_cache := [0, 0, 0, 0], value_cache := [0, 0, 0, 0] },
          rng_seed := 7, out := [], log := [] } ≠ Run.out_of_fuel ∧
    ∀ g', generate_loop tiny_libm ⟨2, 3, 1, 1, 1, 2, 2⟩
        ⟨0, 4, 22, 6, 10, 14, 18, 24, 30, 36, 42, 0⟩ (List.replicate 44 (1 / 2)) llama_like []
        0 (9 / 10) 2 2
        { token := 1, pos := 0,
          state :=
            { x := [0, 0], xb := [0, 0], xb2 := [0, 0], hb := [0, 0, 0], hb2 := [0, 0, 0],
              q := [0, 0], k := [0, 0], v := [0, 0], att := [0, 0], logits := [0, 0],
              key_cache := [0, 0, 0, 0], value_cache := [0, 0, 0, 0] },
          rng_seed := 7, out := [], log := [] } = Run.finished g' →
      g'.log.length ≤ (2 : Int).toNat ∧
      g'.log.map (fun e => e.2.1) =
        (List.range g'.log.length).map (fun (i : Nat) => (i : Int)) ∧
      (∀ e ∈ g'.log.dropLast, e.2.2 ≠ 1) ∧
      ((∃ e, g'.log.getLast? = some e ∧ e.2.2 = 1) → g'.out.length + 1 = g'.log.length) ∧
      ((∀ e ∈ g'.log, e.2.2 ≠ 1) →
        g'.out.length = g'.log.length ∧ (2 : Int) ≤ (g'.log.length : Int)) :=
  generation_loop_terminates tiny_libm ⟨2, 3, 1, 1, 1, 2, 2⟩
    ⟨0, 4, 22, 6, 10, 14, 18, 24, 30, 36, 42, 0⟩ (List.replicate 44 (1 / 2)) llama_like [] 0
    (9 / 10) 2 _ 2 rfl rfl rfl (by decide)

/-- C23 at the failing input: the step budget 0 stays 0 in the parameter validation, and
with it the generation loop started at position 0 ends at once, without a call of
`forward`, whatever `seq_len` the model has. -/
theorem steps_zero_runs_no_step (m : Libm ℚ) (p : Config) (w : TransformerWeights)
    (data : List ℚ) (t : Tokenizer) (prompt_tokens : List Int) (temperature topp : ℚ)
    (fuel : Nat) (g : GenState) :
    validate_steps 0 = 0 ∧
    generate_loop m p w data t prompt_tokens temperature topp (validate_steps 0) fuel
      { g with pos := 0 } = Run.finished { g with pos := 0 } := by
  refine ⟨rfl, ?_⟩
  have h0 : validate_steps 0 = 0 := rfl
  rw [h0]
  cases fuel <;> simp [generate_loop]

/-- C24 at the failing input: for `dim = 4`, `n_heads = 2`, `n_kv_heads = 1` the buffer `k`
of `malloc_run_state` has `kv_dim = 2` floats, and `zero_run_state`, which clears `dim = 4`
floats of `k`, writes past its end. With `n_kv_heads = n_heads = 2` the sizes agree and
`zero_run_state` gives back the freshly allocated state. -/
theorem zero_run_state_overruns_k :
    malloc_run_state ⟨4, 1, 1, 2, 1, 1, 1⟩ = some
      ({ x := [0, 0, 0, 0], xb := [0, 0, 0, 0], xb2 := [0, 0, 0, 0], hb := [0], hb2 := [0],
         q := [0, 0, 0, 0], k := [0, 0], v := [0, 0], att := [0, 0], logits := [0],
         key_cache := [0, 0], value_cache := [0, 0] } : RunState ℚ) ∧
    zero_run_state ⟨4, 1, 1, 2, 1, 1, 1⟩
      ({ x := [0, 0, 0, 0], xb := [0, 0, 0, 0], xb2 := [0, 0, 0, 0], hb := [0], hb2 := [0],
         q := [0, 0, 0, 0], k := [0, 0], v := [0, 0], att := [0, 0], logits := [0],
         key_cache := [0, 0], value_cache := [0, 0] } : RunState ℚ) = none ∧
    memset_zero ([0, 0] : List ℚ) 4 = none ∧
    (malloc_run_state ⟨4, 1, 1, 2, 2, 1, 1⟩ : Option (RunState ℚ)).bind
      (zero_run_state ⟨4, 1, 1, 2, 2, 1, 1⟩) = malloc_run_state ⟨4, 1, 1, 2, 2, 1, 1⟩ := by
  refine ⟨by decide!, by decide!, by decide!, by decide!⟩

/-- C25 at the failing input: for the probabilities `[1/2, 1/2]` and `top_p = 1/10` the
cutoff is `(1 - 1/10) / (2 - 1)`, about `9/10`, the pre-filter keeps no candidate and
`sample_topp` reads `probindex[-1]`, while the same steps on both candidates return
index 0. -/
theorem sample_topp_filter_drops_nucleus :
    topp_candidates (1 / 10) 2 [1 / 2, 1 / 2] 0 = [] ∧
    sample_topp [1 / 2, 1 / 2] (1 / 10) 0 = none ∧
    sample_topp_unfiltered [1 / 2, 1 / 2] (1 / 10) 0 = some 0 ∧
    ([1 / 2, 1 / 2] : List ℚ).sum = 1 := by
  refine ⟨by decide!, by decide!, by decide!, by decide!⟩

/-! ## RoPE -/

theorem load_get {F : Type} (buf : List F) (off : Int) (len : Nat) (v : List F)
    (h : load buf off len = some v) (j : Nat) (hj : j < len) :
    0 ≤ off ∧ v[j]? = buf[off.toNat + j]? := by
  unfold load at h
  split_ifs at h with hz hb
  · omega
  · cases h
    refine ⟨hb.1, ?_⟩
    rw [List.getElem?_take, if_pos hj, List.getElem?_drop]

/-- What `rope_rotate` does when it returns: the pair at `i`, `i + 1` is rotated and every
other entry is kept. -/
theorem rope_rotate_spec {F : Type} [LinearOrderedField F] (vec : List F) (i : Int)
    (fcr fci : F) (r : List F) (h : rope_rotate vec i fcr fci = some r) :
    0 ≤ i ∧ r.length = vec.length ∧
    (∃ a b, vec[i.toNat]? = some a ∧ vec[i.toNat + 1]? = some b ∧
      r[i.toNat]? = some (a * fcr - b * fci) ∧ r[i.toNat + 1]? = some (a * fci + b * fcr)) ∧
    ∀ j : Nat, j ≠ i.toNat → j ≠ i.toNat + 1 → r[j]? = vec[j]? := by
  unfold rope_rotate at h
  rw [and_then_eq_some] at h
  obtain ⟨v01, hload, hst⟩ := h
  have hlen := load_length _ _ _ _ hload
  match v01, hlen with
  | [v0, v1], _ =>
    simp only at hst
    obtain ⟨h0, hg0⟩ := load_get _ _ _ _ hload 0 (by decide)
    obtain ⟨_, hg1⟩ := load_get _ _ _ _ hload 1 (by decide)
    simp only [List.getElem?_cons_zero, add_zero, List.getElem?_cons_succ] at hg0 hg1
    have hget := store_get_at _ _ _ _ hst
    refine ⟨h0, store_length _ _ _ _ hst, ⟨v0, v1, hg0.symm, hg1.symm, ?_, ?_⟩, ?_⟩
    · rw [hget, if_pos (by simp)]
      simp
    · rw [hget, if_pos (by simp)]
      simp
    · intro j hj0 hj1
      rw [hget, if_neg]
      simp only [List.length_cons, List.length_singleton, List.length_nil]
      omega

/-- What the first `n` passes of the RoPE loop do to `q` when they return: the pairs at
`2 j`, `2 j + 1` for `j < n` are rotated by the `cosf` and `sinf` of the value `val` the
code computes for `i = 2 j`, and the entries from `2 n` on are kept. -/
theorem rope_loop_spec {F : Type} [LinearOrderedField F] (m : Libm F)
    (head_size kv_dim pos : Int) (q k : List F) (n : Nat) :
    ∀ r, rope_loop m head_size kv_dim pos n (q, k) = some r →
      r.1.length = q.length ∧
      (∀ j : Nat, j < n → ∃ a b, q[2 * j]? = some a ∧ q[2 * j + 1]? = some b ∧
        r.1[2 * j]? = some (a * m.cosf ((pos : F) * (1 / m.powf 10000
              (((Int.tmod (2 * (j : Int)) head_size : Int) : F) / (head_size : F)))) -
            b * m.sinf ((pos : F) * (1 / m.powf 10000
              (((Int.tmod (2 * (j : Int)) head_size : Int) : F) / (head_size : F))))) ∧
        r.1[2 * j + 1]? = some (a * m.sinf ((pos : F) * (1 / m.powf 10000
              (((Int.tmod (2 * (j : Int)) head_size : Int) : F) / (head_size : F)))) +
            b * m.cosf ((pos : F) * (1 / m.powf 10000
              (((Int.tmod (2 * (j : Int)) head_size : Int) : F) / (head_size : F)))))) ∧
      ∀ i : Nat, 2 * n ≤ i → r.1[i]? = q[i]? := by
  induction n with
  | zero =>
    intro r h
    simp only [rope_loop, Option.some.injEq] at h
    subst h
    exact ⟨rfl, fun j hj => absurd hj (Nat.not_lt_zero _), fun i _ => rfl⟩
  | succ n ih =>
    intro r h
    simp only [rope_loop] at h
    rw [and_then_eq_some] at h
    obtain ⟨r1, hr1, hstep⟩ := h
    obtain ⟨hlen1, hrot1, hkeep1⟩ := ih r1 hr1
    unfold rope_step at hstep
    by_cases hz : head_size = 0
    · rw [if_pos hz] at hstep
      cases hstep
    rw [if_neg hz, and_then_eq_some] at hstep
    obtain ⟨q2, hq2, hrest⟩ := hstep
    have hr : r.1 = q2 := by
      split_ifs at hrest with hlt
      · rw [Option.map_eq_some'] at hrest
        obtain ⟨k2, _, hk2⟩ := hrest
        rw [← hk2]
      · simp only [Option.some.injEq] at hrest
        rw [← hrest]
    obtain ⟨_, hlen2, ⟨a, b, ha, hb, ha', hb'⟩, hkeep2⟩ := rope_rotate_spec _ _ _ _ _ hq2
    have hidx : (2 * (n : Int)).toNat = 2 * n := by omega
    rw [hidx] at ha hb ha' hb' hkeep2
    rw [hr]
    refine ⟨by rw [hlen2, hlen1], ?_, ?_⟩
    · intro j hj
      by_cases hjn : j = n
      · subst hjn
        refine ⟨a, b, ?_, ?_, ha', hb'⟩
        · rw [← hkeep1 (2 * j) (le_refl _)]; exact ha
        · rw [← hkeep1 (2 * j + 1) (by omega)]; exact hb
      · obtain ⟨a0, b0, h1, h2, h3, h4⟩ := hrot1 j (by omega)
        refine ⟨a0, b0, h1, h2, ?_, ?_⟩
        · rw [hkeep2 (2 * j) (by omega) (by omega)]; exact h3
        · rw [hkeep2 (2 * j + 1) (by omega) (by omega)]; exact h4
    · intro i hi
      rw [hkeep2 i (by omega) (by omega)]
      exact hkeep1 i (by omega)

theorem rope_val_eq_angle {F : Type} [LinearOrderedField F] (m : Libm F)
    (head_size pos : Int) (j : Nat) (hhs : 0 < head_size) :
    (pos : F) * (1 / m.powf 10000
        (((Int.tmod (2 * (j : Int)) head_size : Int) : F) / (head_size : F))) =
      rope_angle m head_size pos (2 * (j : Int)) := by
  unfold rope_angle
  rw [Int.tmod_eq_emod (by omega) (le_of_lt hhs), mul_one_div]

/-- C30: the first `n` passes of the RoPE loop of `forward` (all of them for
`n = dim / 2`) return when `q` holds `2 n` floats, and rotate each pair
`(q[2j], q[2j+1])`, `j < n`, by the angle `position / 10000^((2j mod head_size) /
head_size)`: the new pair is `(a cos - b sin, a sin + b cos)`. For a `cosf` and `sinf` with
`cos^2 + sin^2 = 1` at that angle the rotation preserves `q[2j]^2 + q[2j+1]^2`, and a
query that is zero in every entry stays zero, whatever the libm. -/
theorem rope_rotates_pairs {F : Type} [LinearOrderedField F] (m : Libm F)
    (head_size kv_dim pos : Int) (q k : List F) (n : Nat) (hhs : 0 < head_size)
    (hkv : kv_dim % 2 = 0) (hk : kv_dim ≤ k.length) (hq : 2 * (n : Int) ≤ q.length) :
    ∃ q' k', rope_loop m head_size kv_dim pos n (q, k) = some (q', k') ∧
      q'.length = q.length ∧
      (∀ j : Nat, j < n → ∃ a b, q[2 * j]? = some a ∧ q[2 * j + 1]? = some b ∧
        q'[2 * j]? = some (a * m.cosf (rope_angle m head_size pos (2 * (j : Int))) -
          b * m.sinf (rope_angle m head_size pos (2 * (j : Int)))) ∧
        q'[2 * j + 1]? = some (a * m.sinf (rope_angle m head_size pos (2 * (j : Int))) +
          b * m.cosf (rope_angle m head_size pos (2 * (j : Int)))) ∧
        (m.cosf (rope_angle m head_size pos (2 * (j : Int))) ^ 2 +
            m.sinf (rope_angle m head_size pos (2 * (j : Int))) ^ 2 = 1 →
          (a * m.cosf (rope_angle m head_size pos (2 * (j : Int))) -
              b * m.sinf (rope_angle m head_size pos (2 * (j : Int)))) ^ 2 +
            (a * m.sinf (rope_angle m head_size pos (2 * (j : Int))) +
              b * m.cosf (rope_angle m head_size pos (2 * (j : Int)))) ^ 2 = a ^ 2 + b ^ 2)) ∧
      ((∀ v ∈ q, v = 0) → ∀ v ∈ q', v = 0) := by
  obtain ⟨r, hr, _, _⟩ := rope_loop_some m head_size kv_dim pos (q, k) (ne_of_gt hhs) hkv hk n hq
  obtain ⟨hlen, hrot, hkeep⟩ := rope_loop_spec m head_size kv_dim pos q k n r hr
  refine ⟨r.1, r.2, hr, hlen, ?_, ?_⟩
  · intro j hj
    obtain ⟨a, b, h1, h2, h3, h4⟩ := hrot j hj
    rw [rope_val_eq_angle m head_size pos j hhs] at h3 h4
    refine ⟨a, b, h1, h2, h3, h4, ?_⟩
    intro htrig
    generalize m.cosf (rope_angle m head_size pos (2 * (j : Int))) = c at htrig ⊢
    generalize m.sinf (rope_angle m head_size pos (2 * (j : Int))) = s at htrig ⊢
    have : (a * c - b * s) ^ 2 + (a * s + b * c) ^ 2 = (a ^ 2 + b ^ 2) * (c ^ 2 + s ^ 2) := by
      ring
    rw [this, htrig, mul_one]
  · intro hzero v hv
    obtain ⟨i, hi, hvi⟩ := List.getElem_of_mem hv
    have hget : r.1[i]? = some v := by rw [List.getElem?_eq_getElem hi, hvi]
    by_cases hlt : i < 2 * n
    · obtain ⟨a, b, h1, h2, h3, h4⟩ := hrot (i / 2) (by omega)
      have ha : a = 0 := hzero a (List.getElem?_mem h1)
      have hb : b = 0 := hzero b (List.getElem?_mem h2)
      subst ha hb
      simp only [zero_mul, sub_zero, add_zero] at h3 h4
      rcases Nat.mod_two_eq_zero_or_one i with hpar | hpar
      · rw [show 2 * (i / 2) = i by omega] at h3
        rw [h3] at hget
        exact (Option.some.inj hget).symm
      · rw [show 2 * (i / 2) + 1 = i by omega] at h4
        rw [h4] at hget
        exact (Option.some.inj hget).symm
    · rw [hkeep i (by omega)] at hget
      exact hzero v (List.getElem?_mem hget)

/-- Witness of C30 over the rationals with a `cosf = 3/5` and `sinf = 4/5`: the pair
`(1, 2)` at position 1. -/
theorem rope_rotates_pairs_witness :
    ∃ q' k', rope_loop tiny_libm 2 2 1 1 (([1, 2] : List ℚ), ([0, 0] : List ℚ)) = some (q', k') ∧
      q'.length = ([1, 2] : List ℚ).length ∧
      (∀ j : Nat, j < 1 → ∃ a b, ([1, 2] : List ℚ)[2 * j]? = some a ∧
        ([1, 2] : List ℚ)[2 * j + 1]? = some b ∧
        q'[2 * j]? = some (a * tiny_libm.cosf (rope_angle tiny_libm 2 1 (2 * (j : Int))) -
          b * tiny_libm.sinf (rope_angle tiny_libm 2 1 (2 * (j : Int)))) ∧
        q'[2 * j + 1]? = some (a * tiny_libm.sinf (rope_angle tiny_libm 2 1 (2 * (j : Int))) +
          b * tiny_libm.cosf (rope_angle tiny_libm 2 1 (2 * (j : Int)))) ∧
        (tiny_libm.cosf (rope_angle tiny_libm 2 1 (2 * (j : Int))) ^ 2 +
            tiny_libm.sinf (rope_angle tiny_libm 2 1 (2 * (j : Int))) ^ 2 = 1 →
          (a * tiny_libm.cosf (rope_angle tiny_libm 2 1 (2 * (j : Int))) -
              b * tiny_libm.sinf (rope_angle tiny_libm 2 1 (2 * (j : Int)))) ^ 2 +
            (a * tiny_libm.sinf (rope_angle tiny_libm 2 1 (2 * (j : Int))) +
              b * tiny_libm.cosf (rope_angle tiny_libm 2 1 (2 * (j : Int)))) ^ 2 =
            a ^ 2 + b ^ 2)) ∧
      ((∀ v ∈ ([1, 2] : List ℚ), v = 0) → ∀ v ∈ q', v = 0) :=
  rope_rotates_pairs tiny_libm 2 2 1 [1, 2] [0, 0] 1 (by decide) (by decide) (by decide)
    (by decide)

/-! ## The choice of the merge in `encode` -/

theorem mergeable_pair_succ (t : Tokenizer) (a0 : Int) (rest : List Int) (k : Nat) (id : Int)
    (sc : ℚ) :
    MergeablePair t (a0 :: rest) (k + 1) id sc ↔ MergeablePair t rest k id sc := by
  unfold MergeablePair
  simp only [List.getElem?_cons_succ]

theorem mergeable_pair_unique (t : Tokenizer) (tokens : List Int) (k : Nat) (id id' : Int)
    (sc sc' : ℚ) (h : MergeablePair t tokens k id sc) (h' : MergeablePair t tokens k id' sc') :
    id = id' ∧ sc = sc' := by
  obtain ⟨a, b, sa, sb, h1, h2, h3, h4, _, h6, h7⟩ := h
  obtain ⟨a', b', sa', sb', h1', h2', h3', h4', _, h6', h7'⟩ := h'
  rw [h1] at h1'
  rw [h2] at h2'
  cases h1'
  cases h2'
  rw [h3] at h3'
  rw [h4] at h4'
  cases h3'
  cases h4'
  have hid : id = id' := by rw [h6, h6']
  subst hid
  rw [h7] at h7'
  exact ⟨rfl, Option.some.inj h7'⟩

theorem mergeable_pair_short (t : Tokenizer) (tokens : List Int) (hlen : tokens.length ≤ 1)
    (k : Nat) (id : Int) (sc : ℚ) : ¬ MergeablePair t tokens k id sc := by
  rintro ⟨a, b, sa, sb, _, h2, _⟩
  have := (List.getElem?_eq_some_iff.mp h2).1
  omega

/-- The result of a scan: either it has updated nothing, and then no adjacent pair has a
merged entry with a score above the initial `best_score`; or it records the adjacent pair
whose merged entry has the highest score, the leftmost one on equal scores, and that score
is above the initial `best_score`. -/
theorem encode_scan_best (t : Tokenizer) (tokens : List Int) :
    ∀ (i : Nat) (best r : Best), encode_scan t (sorted_vocab t) tokens i best = some r →
      (r = best ∧ ∀ k id sc, MergeablePair t tokens k id sc → sc ≤ best.best_score) ∨
      ∃ k id sc, MergeablePair t tokens k id sc ∧
        r = { best_score := sc, best_id := id, best_idx := ((i + k : Nat) : Int) } ∧
        best.best_score < sc ∧
        ∀ k' id' sc', MergeablePair t tokens k' id' sc' → sc' ≤ sc ∧ (k' < k → sc' < sc) := by
  induction tokens with
  | nil =>
    intro i best r h
    simp only [encode_scan, Option.some.injEq] at h
    exact Or.inl ⟨h.symm, fun k id sc hm => absurd hm (mergeable_pair_short t [] (by simp) k id sc)⟩
  | cons a0 rest ih =>
    intro i best r h
    cases rest with
    | nil =>
      simp only [encode_scan, Option.some.injEq] at h
      exact Or.inl ⟨h.symm,
        fun k id sc hm => absurd hm (mergeable_pair_short t [a0] (by simp) k id sc)⟩
    | cons b0 rest2 =>
      unfold encode_scan at h
      cases hsa : vocab_at t a0 with
      | none => simp [hsa] at h
      | some sa =>
        cases hsb : vocab_at t b0 with
        | none => simp [hsa, hsb] at h
        | some sb =>
          simp only [hsa, hsb] at h
          -- pairs of the whole list, from the first pair and the pairs of the tail
          have split : ∀ (P : Nat → ℚ → Prop),
              (∀ id sc, MergeablePair t (a0 :: b0 :: rest2) 0 id sc → P 0 sc) →
              (∀ k id sc, MergeablePair t (b0 :: rest2) k id sc → P (k + 1) sc) →
              ∀ k id sc, MergeablePair t (a0 :: b0 :: rest2) k id sc → P k sc := by
            intro P h0 hs k id sc hm
            cases k with
            | zero => exact h0 id sc hm
            | succ k => exact hs k id sc ((mergeable_pair_succ t a0 _ k id sc).mp hm)
          by_cases hid : str_lookup (sa ++ sb) (sorted_vocab t) ≠ -1
          · rw [if_pos hid] at h
            cases hscore : score_at t (str_lookup (sa ++ sb) (sorted_vocab t)) with
            | none => simp [hscore] at h
            | some sc0 =>
              simp only [hscore] at h
              have hm0 : MergeablePair t (a0 :: b0 :: rest2) 0
                  (str_lookup (sa ++ sb) (sorted_vocab t)) sc0 :=
                ⟨a0, b0, sa, sb, by simp, by simp, hsa, hsb, str_lookup_mem t _ hid, rfl, hscore⟩
              have h0eq : ∀ id sc, MergeablePair t (a0 :: b0 :: rest2) 0 id sc → sc = sc0 :=
                fun id sc hm => (mergeable_pair_unique t _ 0 _ _ _ _ hm hm0).2
              by_cases hgt : sc0 > best.best_score
              · rw [if_pos hgt] at h
                rcases ih (i + 1) _ r h with ⟨hr, hall⟩ | ⟨k, id, sc, hm, hr, hlt, hall⟩
                · refine Or.inr ⟨0, _, sc0, hm0, by rw [hr]; rfl, hgt, ?_⟩
                  apply split (fun k' sc' => sc' ≤ sc0 ∧ (k' < 0 → sc' < sc0))
                  · intro id sc hm
                    exact ⟨le_of_eq (h0eq id sc hm), fun hk => absurd hk (Nat.not_lt_zero _)⟩
                  · intro k id sc hm
                    exact ⟨hall k id sc hm, fun hk => absurd hk (Nat.not_lt_zero _)⟩
                · simp only at hlt
                  refine Or.inr ⟨k + 1, id, sc, (mergeable_pair_succ t a0 _ k id sc).mpr hm, ?_,
                    lt_trans hgt hlt, ?_⟩
                  · rw [hr]
                    congr 2
                    omega
                  · apply split (fun k' sc' => sc' ≤ sc ∧ (k' < k + 1 → sc' < sc))
                    · intro id' sc' hm'
                      rw [h0eq id' sc' hm']
                      exact ⟨le_of_lt hlt, fun _ => hlt⟩
                    · intro k' id' sc' hm'
                      obtain ⟨h1, h2⟩ := hall k' id' sc' hm'
                      exact ⟨h1, fun hk => h2 (by omega)⟩
              · rw [if_neg hgt] at h
                have hle : sc0 ≤ best.best_score := not_lt.mp hgt
                rcases ih (i + 1) best r h with ⟨hr, hall⟩ | ⟨k, id, sc, hm, hr, hlt, hall⟩
                · refine Or.inl ⟨hr, ?_⟩
                  apply split (fun _ sc' => sc' ≤ best.best_score)
                  · intro id sc hm
                    rw [h0eq id sc hm]
                    exact hle
                  · intro k id sc hm
                    exact hall k id sc hm
                · refine Or.inr ⟨k + 1, id, sc, (mergeable_pair_succ t a0 _ k id sc).mpr hm, ?_,
                    hlt, ?_⟩
                  · rw [hr]
                    congr 2
                    omega
                  · apply split (fun k' sc' => sc' ≤ sc ∧ (k' < k + 1 → sc' < sc))
                    · intro id' sc' hm'
                      rw [h0eq id' sc' hm']
                      exact ⟨le_of_lt (lt_of_le_of_lt hle hlt), fun _ => lt_of_le_of_lt hle hlt⟩
                    · intro k' id' sc' hm'
                      obtain ⟨h1, h2⟩ := hall k' id' sc' hm'
                      exact ⟨h1, fun hk => h2 (by omega)⟩
          · rw [if_neg hid] at h
            have hno : ∀ id sc, ¬ MergeablePair t (a0 :: b0 :: rest2) 0 id sc := by
              rintro id sc ⟨a, b, sa', sb', h1, h2, h3, h4, hmem, _, _⟩
              simp only [List.getElem?_cons_zero, Option.some.injEq, zero_add,
                List.getElem?_cons_succ] at h1 h2
              subst h1 h2
              rw [hsa] at h3
              rw [hsb] at h4
              cases h3
              cases h4
              exact hid (str_lookup_found t _ hmem)
            rcases ih (i + 1) best r h with ⟨hr, hall⟩ | ⟨k, id, sc, hm, hr, hlt, hall⟩
            · refine Or.inl ⟨hr, ?_⟩
              apply split (fun _ sc' => sc' ≤ best.best_score)
              · intro id sc hm
                exact absurd hm (hno id sc)
              · intro k id sc hm
                exact hall k id sc hm
            · refine Or.inr ⟨k + 1, id, sc, (mergeable_pair_succ t a0 _ k id sc).mpr hm, ?_,
                hlt, ?_⟩
              · rw [hr]
                congr 2
                omega
              · apply split (fun k' sc' => sc' ≤ sc ∧ (k' < k + 1 → sc' < sc))
                · intro id' sc' hm'
                  exact absurd hm' (hno id' sc')
                · intro k' id' sc' hm'
                  obtain ⟨h1, h2⟩ := hall k' id' sc' hm'
                  exact ⟨h1, fun hk => h2 (by omega)⟩

/-- C26 (amended): one pass of the merge loop of `encode`, on tokens that are ids of the
vocabulary. Either no adjacent pair has a merged entry with a score above `-1e10`, and the
loop ends with the tokens unchanged; or, among the adjacent pairs whose concatenated
strings form a vocabulary entry, the pass chooses the pair at `k` whose merged entry has
the highest score, the leftmost such pair on equal scores, that score being above `-1e10`,
and goes on with `tokens[0 .. k)`, the merged id, `tokens[k + 2 ..)`: `tokens[k]` is
replaced, `tokens[k + 1]` deleted, the other tokens keep their values and order. -/
theorem merge_loop_chooses_best (t : Tokenizer)
    (hsc : t.vocab_scores.length = t.vocab.length) (tokens : List Int)
    (hvalid : ∀ id ∈ tokens, (vocab_at t id).isSome = true) (fuel : Nat) :
    ((∀ k id sc, MergeablePair t tokens k id sc → sc ≤ -10000000000) ∧
      encode_merge_loop t (sorted_vocab t) (fuel + 1) tokens = some tokens) ∨
    ∃ k id sc, MergeablePair t tokens k id sc ∧ -10000000000 < sc ∧
      (∀ k' id' sc', MergeablePair t tokens k' id' sc' → sc' ≤ sc ∧ (k' < k → sc' < sc)) ∧
      encode_merge_loop t (sorted_vocab t) (fuel + 1) tokens =
        encode_merge_loop t (sorted_vocab t) fuel
          (tokens.take k ++ id :: tokens.drop (k + 2)) := by
  obtain ⟨r, hscan⟩ := encode_scan_total t hsc tokens 0
    { best_score := -10000000000, best_id := -1, best_idx := -1 }
    (fun id hid => Option.isSome_iff_exists.mp (hvalid id hid))
  rcases encode_scan_best t tokens 0 _ r hscan with ⟨hr, hall⟩ | ⟨k, id, sc, hm, hr, hlt, hall⟩
  · refine Or.inl ⟨hall, ?_⟩
    unfold encode_merge_loop
    simp only [hscan, hr, if_true]
  · refine Or.inr ⟨k, id, sc, hm, hlt, hall, ?_⟩
    conv_lhs => unfold encode_merge_loop
    simp only [hscan, hr]
    rw [if_neg (by omega)]
    simp

/-- Witness of C26 (amended): the tokens of `" abb"` over `llama_like`. -/
theorem merge_loop_chooses_best_witness :
    ((∀ k id sc, MergeablePair llama_like [259, 260, 261, 261] k id sc →
        sc ≤ -10000000000) ∧
      encode_merge_loop llama_like (sorted_vocab llama_like) (3 + 1) [259, 260, 261, 261] =
        some [259, 260, 261, 261]) ∨
    ∃ k id sc, MergeablePair llama_like [259, 260, 261, 261] k id sc ∧ -10000000000 < sc ∧
      (∀ k' id' sc', MergeablePair llama_like [259, 260, 261, 261] k' id' sc' →
        sc' ≤ sc ∧ (k' < k → sc' < sc)) ∧
      encode_merge_loop llama_like (sorted_vocab llama_like) (3 + 1) [259, 260, 261, 261] =
        encode_merge_loop llama_like (sorted_vocab llama_like) 3
          (([259, 260, 261, 261] : List Int).take k ++ id ::
            ([259, 260, 261, 261] : List Int).drop (k + 2)) :=
  merge_loop_chooses_best llama_like (by decide!) [259, 260, 261, 261] (by decide!) 3

/-- C26 as stated fails: in the tokens `" " a a` over the vocabulary `" "`, `"a"`, `"aa"`,
where `"aa"` has the score `-1e10`, the pair `a a` is the only adjacent pair whose strings
form a vocabulary entry, and the pass of the merge loop does not choose it: the loop ends
with the tokens unchanged. -/
theorem merge_loop_skips_low_score_counterexample :
    vocab_at { vocab := [[32], [97], [97, 97]], vocab_scores := [0, 0, -10000000000] } 1 =
      some [97] ∧
    [97] ++ [97] ∈ (Tokenizer.mk [[32], [97], [97, 97]] [0, 0, -10000000000]).vocab ∧
    str_lookup ([97] ++ [97])
      (sorted_vocab { vocab := [[32], [97], [97, 97]], vocab_scores := [0, 0, -10000000000] }) =
      2 ∧
    score_at { vocab := [[32], [97], [97, 97]], vocab_scores := [0, 0, -10000000000] } 2 =
      some (-10000000000) ∧
    encode_merge_loop { vocab := [[32], [97], [97, 97]], vocab_scores := [0, 0, -10000000000] }
      (sorted_vocab { vocab := [[32], [97], [97, 97]], vocab_scores := [0, 0, -10000000000] })
      3 [0, 1, 1] = some [0, 1, 1] := by
  decide!

/-! ## The attention step -/

theorem load_getD {F : Type} [Zero F] (buf : List F) (off : Int) (len : Nat) (v : List F)
    (h : load buf off len = some v) (j : Nat) (hj : j < len) :
    0 ≤ off ∧ v.getD j 0 = buf.getD (off.toNat + j) 0 := by
  obtain ⟨h0, hg⟩ := load_get buf off len v h j hj
  exact ⟨h0, by rw [List.getD_eq_getElem?_getD, List.getD_eq_getElem?_getD, hg]⟩

theorem load_store_same {F : Type} (buf : List F) (off : Int) (vals r : List F)
    (h : store buf off vals = some r) : load r off vals.length = some vals := by
  have hlen := store_length _ _ _ _ h
  have hget := store_get_at _ _ _ _ h
  by_cases hz : vals.length = 0
  · rw [List.length_eq_zero.mp hz]
    simp [load]
  · unfold store at h
    rw [if_neg hz] at h
    by_cases hb : 0 ≤ off ∧ off + vals.length ≤ buf.length
    · unfold load
      rw [if_neg hz, if_pos (by rw [hlen]; exact hb)]
      congr 1
      apply List.ext_getElem?
      intro i
      rw [List.getElem?_take, List.getElem?_drop]
      split_ifs with hi
      · rw [hget, if_pos ⟨by omega, by omega⟩]
        congr 1
        omega
      · rw [List.getElem?_eq_none (by omega)]
    · rw [if_neg hb] at h
      cases h

theorem zipWith_eq_range_map {F G : Type} [Zero F] (f : F → F → G) (x y : List F) (n : Nat)
    (hx : x.length = n) (hy : y.length = n) :
    List.zipWith f x y = (List.range n).map fun i => f (x.getD i 0) (y.getD i 0) := by
  apply List.ext_getElem
  · simp [hx, hy]
  · intro i h1 h2
    simp only [List.length_zipWith, hx, hy, min_self] at h1
    simp only [List.getElem_zipWith, List.getElem_map, List.getElem_range]
    rw [List.getD_eq_getElem _ _ (by omega), List.getD_eq_getElem _ _ (by omega)]

/-- The accumulation loop of the attention: entry `i` after adding the rows `va.1` with
their weights `va.2` to `acc`. -/
theorem foldl_weighted {F : Type} [LinearOrderedField F] (l : List (List F × F)) :
    ∀ acc : List F, (∀ va ∈ l, va.1.length = acc.length) →
      (l.foldl (fun acc va => List.zipWith (fun xi vi => xi + va.2 * vi) acc va.1) acc).length =
        acc.length ∧
      ∀ i : Nat,
        (l.foldl (fun acc va => List.zipWith (fun xi vi => xi + va.2 * vi) acc va.1) acc).getD i 0 =
          acc.getD i 0 + (l.map fun va => va.2 * va.1.getD i 0).sum := by
  induction l with
  | nil => intro acc _; simp
  | cons va rest ih =>
    intro acc hlen
    have hva : va.1.length = acc.length := hlen va (by simp)
    have hacc : (List.zipWith (fun xi vi => xi + va.2 * vi) acc va.1).length = acc.length := by
      simp [hva]
    obtain ⟨h1, h2⟩ := ih (List.zipWith (fun xi vi => xi + va.2 * vi) acc va.1)
      (fun v hv => by rw [hacc]; exact hlen v (List.mem_cons_of_mem _ hv))
    simp only [List.foldl_cons, List.map_cons, List.sum_cons]
    refine ⟨by rw [h1, hacc], ?_⟩
    intro i
    rw [h2 i, ← add_assoc]
    congr 1
    by_cases hi : i < acc.length
    · rw [List.getD_eq_getElem _ _ (by rw [hacc]; exact hi), List.getD_eq_getElem _ _ hi,
        List.getD_eq_getElem _ _ (by rw [hva]; exact hi), List.getElem_zipWith]
    · rw [List.getD_eq_default _ _ (by rw [hacc]; omega), List.getD_eq_default _ _ (by omega),
        List.getD_eq_default _ _ (by rw [hva]; omega)]
      simp

theorem weighted_sum_spec {F : Type} [LinearOrderedField F] (n : Nat) (rows : List (List F))
    (ws : List F) (hrows : ∀ r ∈ rows, r.length = n) (hws : ws.length = rows.length) :
    (weighted_sum n rows ws).length = n ∧
    ∀ i : Nat, (weighted_sum n rows ws).getD i 0 =
      ((List.range rows.length).map fun t => ws.getD t 0 * (rows.getD t []).getD i 0).sum := by
  unfold weighted_sum
  obtain ⟨h1, h2⟩ := foldl_weighted (rows.zip ws) (List.replicate n 0)
    (fun va hva => by
      rw [List.length_replicate]
      exact hrows va.1 (List.of_mem_zip hva).1)
  refine ⟨by rw [h1, List.length_replicate], ?_⟩
  intro i
  rw [h2 i]
  have h0 : (List.replicate n (0 : F)).getD i 0 = 0 := by
    by_cases hi : i < n
    · rw [List.getD_eq_getElem _ _ (by simpa using hi)]; simp
    · rw [List.getD_eq_default _ _ (by simp; omega)]
  rw [h0, zero_add]
  congr 1
  apply List.ext_getElem
  · simp [hws]
  · intro t h1' h2'
    have ht : t < rows.length := by simpa using h2'
    simp only [List.getElem_map, List.getElem_zip, List.getElem_range]
    rw [List.getD_eq_getElem ws 0 (by omega), List.getD_eq_getElem rows [] ht]

theorem cache_row_spec {F : Type} [Zero F] (cache : List F)
    (loff kv_dim kv_mul head_size h t : Int) (row : List F)
    (hrow : cache_row cache loff kv_dim kv_mul head_size h t = some row) (hh : 0 ≤ h)
    (hkm : 0 < kv_mul) (hhs : 0 < head_size) :
    row.length = head_size.toNat ∧ 0 ≤ loff + t * kv_dim + h / kv_mul * head_size ∧
    ∀ i : Nat, i < head_size.toNat →
      row.getD i 0 =
        cache.getD (loff + t * kv_dim + h / kv_mul * head_size + (i : Int)).toNat 0 := by
  unfold cache_row at hrow
  rw [and_then_eq_some] at hrow
  obtain ⟨tk, htk, hrow⟩ := hrow
  rw [idiv_of_pos h kv_mul hh hkm, and_then_some, and_then_eq_some] at hrow
  obtain ⟨ko, hko, hrow⟩ := hrow
  have e1 := imul_eq_some _ _ _ htk
  have e2 := imul_eq_some _ _ _ hko
  subst e1 e2
  have h0 := (load_getD _ _ _ _ hrow 0 (by omega)).1
  refine ⟨load_length _ _ _ _ hrow, h0, ?_⟩
  intro i hi
  rw [(load_getD _ _ _ _ hrow i hi).2]
  congr 1
  omega

theorem cache_rows_spec {F : Type} [Zero F] (cache : List F)
    (loff kv_dim kv_mul head_size h : Int) (hh : 0 ≤ h) (hkm : 0 < kv_mul)
    (hhs : 0 < head_size) (n : Nat) :
    ∀ rows, cache_rows cache loff kv_dim kv_mul head_size h n = some rows →
      rows.length = n ∧ (∀ r ∈ rows, r.length = head_size.toNat) ∧
      ∀ t : Nat, t < n → ∀ i : Nat, i < head_size.toNat →
        (rows.getD t []).getD i 0 =
          cache.getD (loff + (t : Int) * kv_dim + h / kv_mul * head_size + (i : Int)).toNat 0 := by
  induction n with
  | zero =>
    intro rows hr
    simp only [cache_rows, Option.some.injEq] at hr
    subst hr
    exact ⟨rfl, by simp, fun t ht => absurd ht (Nat.not_lt_zero _)⟩
  | succ n ih =>
    intro rows hr
    simp only [cache_rows] at hr
    rw [and_then_eq_some] at hr
    obtain ⟨rows0, hr0, hr⟩ := hr
    rw [Option.map_eq_some'] at hr
    obtain ⟨row, hrow, hr⟩ := hr
    subst hr
    obtain ⟨hlen, hall, hent⟩ := ih rows0 hr0
    obtain ⟨hrl, _, hre⟩ := cache_row_spec cache loff kv_dim kv_mul head_size h (n : Int) row hrow
      hh hkm hhs
    refine ⟨by simp [hlen], ?_, ?_⟩
    · intro r hr
      rcases List.mem_append.mp hr with hr | hr
      · exact hall r hr
      · rw [List.mem_singleton.mp hr]; exact hrl
    · intro t ht i hi
      by_cases htn : t < n
      · rw [List.getD_append _ _ _ _ (by omega)]
        exact hent t htn i hi
      · have htn' : t = n := by omega
        subst htn'
        rw [List.getD_append_right _ _ _ _ (by omega), hlen, Nat.sub_self]
        exact hre i hi

theorem softmax_length {F : Type} [LinearOrderedField F] (expf : F → F) (x y : List F)
    (h : softmax expf x = some y) : y.length = x.length := by
  cases x with
  | nil => simp [softmax] at h
  | cons x0 rest =>
    simp only [softmax, Option.some.injEq] at h
    rw [← h]
    simp

/-- What the body of the loop over the heads does for head `h` when it returns: `q` and
the sizes are kept, the slice `xb[h*head_size ..]` receives the attention output of C27,
and `xb` is kept outside that slice. -/
theorem attend_head_spec {F : Type} [LinearOrderedField F] (m : Libm F) (p : Config)
    (pos kv_dim kv_mul head_size l h : Int) (key_cache value_cache : List F)
    (a a' : Activations F)
    (hrun : attend_head m p pos (l * p.seq_len * kv_dim) kv_dim kv_mul head_size key_cache
      value_cache a h = some a')
    (hh : 0 ≤ h) (hkm : 0 < kv_mul) (hhs : 0 < head_size) (hpos : 0 ≤ pos) :
    a'.q = a.q ∧ a'.xb.length = a.xb.length ∧
    (∃ wts, attention_weights m p kv_dim kv_mul head_size pos a.q key_cache l h = some wts ∧
      ∀ i : Nat, i < head_size.toNat →
        a'.xb[(h * head_size + (i : Int)).toNat]? =
          some (attention_output p kv_dim kv_mul head_size pos wts value_cache l h (i : Int))) ∧
    ∀ j : Nat, (j < (h * head_size).toNat ∨ (h * head_size).toNat + head_size.toNat ≤ j) →
      a'.xb[j]? = a.xb[j]? := by
  unfold attend_head at hrun
  rw [and_then_eq_some] at hrun
  obtain ⟨qo, hqo, hrun⟩ := hrun
  rw [and_then_eq_some] at hrun
  obtain ⟨ao, hao, hrun⟩ := hrun
  rw [and_then_eq_some] at hrun
  obtain ⟨krows, hkr, hrun⟩ := hrun
  rw [if_neg (show ¬ (pos + 1).toNat = 0 by omega), and_then_eq_some] at hrun
  obtain ⟨qh, hqh, hrun⟩ := hrun
  rw [and_then_eq_some] at hrun
  obtain ⟨att1, hatt1, hrun⟩ := hrun
  rw [and_then_eq_some] at hrun
  obtain ⟨att2, hatt2, hrun⟩ := hrun
  rw [if_neg (show ¬ head_size < 0 by omega), and_then_eq_some] at hrun
  obtain ⟨vrows, hvr, hrun⟩ := hrun
  rw [and_then_eq_some] at hrun
  obtain ⟨wts, hwts, hrun⟩ := hrun
  rw [Option.map_eq_some'] at hrun
  obtain ⟨xb, hxb, ha'⟩ := hrun
  subst ha'
  have eqo := imul_eq_some _ _ _ hqo
  subst eqo
  -- the rows of the two caches
  obtain ⟨hkl, hkall, hkent⟩ := cache_rows_spec key_cache _ kv_dim kv_mul head_size h hh hkm hhs
    _ krows hkr
  obtain ⟨hvl, hvall, hvent⟩ := cache_rows_spec value_cache _ kv_dim kv_mul head_size h hh hkm hhs
    _ vrows hvr
  -- the slice of `q`
  have hqlen := load_length _ _ _ _ hqh
  have hq0 : 0 ≤ h * head_size := (load_getD _ _ _ _ hqh 0 (by omega)).1
  -- the scores are those of the claim
  have hscores : (krows.map fun kr =>
      (List.zipWith (fun qi ki => qi * ki) qh kr).sum / m.sqrtf (head_size : F)) =
      (List.range (pos + 1).toNat).map fun (t : Nat) =>
        attention_score m p kv_dim kv_mul head_size a.q key_cache l h (t : Int) := by
    apply List.ext_getElem
    · simp [hkl]
    · intro t h1 h2
      have ht : t < (pos + 1).toNat := by simpa using h2
      have htk : t < krows.length := by omega
      simp only [List.getElem_map, List.getElem_range]
      unfold attention_score
      congr 1
      rw [zipWith_eq_range_map _ qh krows[t] head_size.toNat hqlen (hkall _ (List.getElem_mem _))]
      congr 1
      apply List.map_congr_left
      intro i hi
      have hi' : i < head_size.toNat := List.mem_range.mp hi
      have hk1 := hkent t ht i hi'
      rw [List.getD_eq_getElem krows [] htk] at hk1
      rw [(load_getD _ _ _ _ hqh i hi').2, hk1]
      unfold cache_entry
      congr 2
      · omega
      · omega
  -- the round trip through `att`
  have hxs : load att1 ao (pos + 1).toNat =
      some ((List.range (pos + 1).toNat).map fun (t : Nat) =>
        attention_score m p kv_dim kv_mul head_size a.q key_cache l h (t : Int)) := by
    rw [hscores] at hatt1
    have := load_store_same _ _ _ _ hatt1
    simpa using this
  unfold softmax_at at hatt2
  rw [if_neg (show ¬ pos + 1 ≤ 0 by omega), hxs, and_then_some, and_then_eq_some] at hatt2
  obtain ⟨ys, hys, hatt2⟩ := hatt2
  have hyl : ys.length = (pos + 1).toNat := by
    rw [softmax_length _ _ _ hys]; simp
  have hw : wts = ys := by
    have := load_store_same _ _ _ _ hatt2
    rw [hyl, hwts] at this
    exact Option.some.inj this
  subst hw
  -- the weighted sum of the value rows
  obtain ⟨hsl, hsent⟩ := weighted_sum_spec head_size.toNat vrows wts hvall (by rw [hyl, hvl])
  have hget := store_get_at _ _ _ _ hxb
  refine ⟨rfl, store_length _ _ _ _ hxb, ⟨wts, hys, ?_⟩, ?_⟩
  · intro i hi
    show xb[(h * head_size + (i : Int)).toNat]? = _
    rw [hget, if_pos ⟨by omega, by rw [hsl]; omega⟩,
      show (h * head_size + (i : Int)).toNat - (h * head_size).toNat = i by omega,
      List.getElem?_eq_getElem (by rw [hsl]; exact hi), ← List.getD_eq_getElem _ 0, hsent i]
    congr 1
    unfold attention_output
    rw [hvl]
    congr 1
    apply List.map_congr_left
    intro t ht
    have ht' : t < (pos + 1).toNat := List.mem_range.mp ht
    rw [hvent t ht' i hi]
    unfold cache_entry
    congr 2
    omega
  · intro j hj
    show xb[j]? = _
    rw [hget, if_neg]
    rw [hsl]
    omega

/-- What the loop over the heads has done after `n` passes when it returns: `q` is kept,
the slice of `xb` of every head `h < n` holds the attention output of C27, and `xb` is
kept from `n * head_size` on. -/
theorem attend_loop_spec {F : Type} [LinearOrderedField F] (m : Libm F) (p : Config)
    (pos kv_dim kv_mul head_size l : Int) (key_cache value_cache : List F)
    (a : Activations F) (hkm : 0 < kv_mul) (hhs : 0 < head_size) (hpos : 0 ≤ pos) (n : Nat) :
    ∀ a', attend_loop m p pos (l * p.seq_len * kv_dim) kv_dim kv_mul head_size key_cache
        value_cache n a = some a' →
      a'.q = a.q ∧ a'.xb.length = a.xb.length ∧
      (∀ h : Nat, h < n →
        ∃ wts, attention_weights m p kv_dim kv_mul head_size pos a.q key_cache l (h : Int) =
            some wts ∧
          ∀ i : Nat, i < head_size.toNat →
            a'.xb[((h : Int) * head_size + (i : Int)).toNat]? =
              some (attention_output p kv_dim kv_mul head_size pos wts value_cache l (h : Int)
                (i : Int))) ∧
      ∀ j : Nat, ((n : Int) * head_size).toNat ≤ j → a'.xb[j]? = a.xb[j]? := by
  induction n with
  | zero =>
    intro a' ha'
    simp only [attend_loop, Option.some.injEq] at ha'
    subst ha'
    exact ⟨rfl, rfl, fun h hh => absurd hh (Nat.not_lt_zero _), fun j _ => rfl⟩
  | succ n ih =>
    intro a' ha'
    simp only [attend_loop] at ha'
    rw [and_then_eq_some] at ha'
    obtain ⟨a1, ha1, hhead⟩ := ha'
    obtain ⟨hq1, hl1, hform1, hkeep1⟩ := ih a1 ha1
    obtain ⟨hq2, hl2, hform2, hkeep2⟩ := attend_head_spec m p pos kv_dim kv_mul head_size l
      (n : Int) key_cache value_cache a1 a' hhead (by omega) hkm hhs hpos
    have hn0 : 0 ≤ (n : Int) * head_size := mul_nonneg (by omega) (le_of_lt hhs)
    refine ⟨by rw [hq2, hq1], by rw [hl2, hl1], ?_, ?_⟩
    · intro h hh
      by_cases hhn : h = n
      · subst hhn
        rw [← hq1]
        exact hform2
      · obtain ⟨wts, hw, hent⟩ := hform1 h (by omega)
        refine ⟨wts, hw, ?_⟩
        intro i hi
        rw [hkeep2 _ (Or.inl ?_)]
        · exact hent i hi
        · have h1 : ((h : Int) + 1) * head_size ≤ (n : Int) * head_size :=
            mul_le_mul_of_nonneg_right (by omega) (le_of_lt hhs)
          have h2 : 0 ≤ (h : Int) * head_size := mul_nonneg (by omega) (le_of_lt hhs)
          rw [add_mul, one_mul] at h1
          omega
    · intro j hj
      have h1 : ((n : Int) + 1) * head_size = (n : Int) * head_size + head_size := by ring
      push_cast at hj
      rw [h1] at hj
      rw [hkeep2 j (Or.inr (by omega))]
      exact hkeep1 j (by omega)

/-- The attention part of a layer returns under the conditions of `forward_layer_some`,
and keeps the sizes. -/
theorem layer_attention_some {F : Type} [LinearOrderedField F] (m : Libm F) (p : Config)
    (w : TransformerWeights) (data : List F) (pos kv_dim kv_mul head_size : Int)
    (s : RunState F) (l : Int) (hd : Dims p kv_dim kv_mul head_size)
    (hw : WeightsFit p kv_dim w data) (hp0 : 0 ≤ pos) (hp1 : pos < p.seq_len)
    (h0 : 0 ≤ l) (h1 : l < p.n_layers) (ha : ActShaped p kv_dim s.toActivations)
    (hkc : (s.key_cache.length : Int) = p.n_layers * p.seq_len * kv_dim)
    (hvc : (s.value_cache.length : Int) = p.n_layers * p.seq_len * kv_dim) :
    ∃ s', layer_attention m p w data pos kv_dim kv_mul head_size s l = some s' ∧
      ActShaped p kv_dim s'.toActivations ∧
      (s'.key_cache.length : Int) = p.n_layers * p.seq_len * kv_dim ∧
      (s'.value_cache.length : Int) = p.n_layers * p.seq_len * kv_dim := by
  have ⟨_, _, _, _, e5⟩ := hd.offsets_exact l h0 h1
  have hK := hd.kv_dim_pos
  have hS := hd.seq_pos
  have hSK : 0 ≤ p.seq_len * kv_dim := le_of_lt (mul_pos hS hK)
  have hpk0 : 0 ≤ pos * kv_dim := mul_nonneg hp0 (le_of_lt hK)
  have hpk1 : pos * kv_dim + kv_dim ≤ p.seq_len * kv_dim := slice_le _ _ _ hp1 (le_of_lt hK)
  have hloff0 : 0 ≤ l * p.seq_len * kv_dim := by
    rw [mul_assoc]; exact mul_nonneg h0 hSK
  have hloff1 : l * p.seq_len * kv_dim + p.seq_len * kv_dim ≤ p.n_layers * p.seq_len * kv_dim := by
    rw [mul_assoc, mul_assoc]; exact slice_le _ _ _ h1 hSK
  have hlt := hd.cache_kv_lt
  have ⟨a, hqkv, haS⟩ := layer_qkv_some m p w data pos kv_dim kv_mul head_size l
    s.toActivations hd hw h0 h1 ha
  have ⟨_, _, _, _, _, _, hk, hv, _, _⟩ := id haS
  have ⟨krow, hkrow, hkrowl⟩ := load_some a.k 0 kv_dim.toNat (le_refl 0) (by omega)
  have ⟨kc, hkc1, hkcl⟩ := store_some s.key_cache (l * p.seq_len * kv_dim + pos * kv_dim) krow
    (by omega) (by omega)
  have ⟨vrow, hvrow, hvrowl⟩ := load_some a.v 0 kv_dim.toNat (le_refl 0) (by omega)
  have ⟨vc, hvc1, hvcl⟩ := store_some s.value_cache (l * p.seq_len * kv_dim + pos * kv_dim) vrow
    (by omega) (by omega)
  have ⟨a2, hatt, ha2⟩ := attend_loop_some m p pos (l * p.seq_len * kv_dim) kv_dim kv_mul
    head_size kc vc a hd hloff0 (by omega) (by omega) hp0 hp1 haS p.n_heads.toNat
    (by have := hd.heads_pos; omega)
  unfold layer_attention
  rw [e5]
  simp only [hqkv, and_then_some, imul_of_range pos kv_dim hpk0 (by omega),
    if_neg (show ¬ kv_dim < 0 by omega), hkrow, hkc1, hvrow, hvc1, hatt, Option.map_some']
  exact ⟨_, rfl, ha2, by dsimp only; omega, by dsimp only; omega⟩

/-- What the attention part of a layer has done when it returns: the slice of `xb` of
every head holds the attention output of C27, computed from the `q` and the caches of the
state it returns. -/
theorem layer_attention_spec {F : Type} [LinearOrderedField F] (m : Libm F) (p : Config)
    (w : TransformerWeights) (data : List F) (pos kv_dim kv_mul head_size : Int)
    (s s' : RunState F) (l : Int) (hd : Dims p kv_dim kv_mul head_size)
    (hp0 : 0 ≤ pos) (h0 : 0 ≤ l) (h1 : l < p.n_layers)
    (hrun : layer_attention m p w data pos kv_dim kv_mul head_size s l = some s') :
    ∀ h : Int, 0 ≤ h → h < p.n_heads →
      ∃ wts, attention_weights m p kv_dim kv_mul head_size pos s'.q s'.key_cache l h =
          some wts ∧
        ∀ i : Nat, i < head_size.toNat →
          s'.xb[(h * head_size + (i : Int)).toNat]? =
            some (attention_output p kv_dim kv_mul head_size pos wts s'.value_cache l h
              (i : Int)) := by
  have ⟨_, _, _, _, e5⟩ := hd.offsets_exact l h0 h1
  unfold layer_attention at hrun
  rw [e5, and_then_eq_some] at hrun
  obtain ⟨a, _, hrun⟩ := hrun
  rw [and_then_eq_some] at hrun
  obtain ⟨pk, _, hrun⟩ := hrun
  by_cases hneg : kv_dim < 0
  · rw [if_pos hneg] at hrun
    cases hrun
  rw [if_neg hneg, and_then_eq_some] at hrun
  obtain ⟨krow, _, hrun⟩ := hrun
  rw [and_then_eq_some] at hrun
  obtain ⟨kc, _, hrun⟩ := hrun
  rw [and_then_eq_some] at hrun
  obtain ⟨vrow, _, hrun⟩ := hrun
  rw [and_then_eq_some] at hrun
  obtain ⟨vc, _, hrun⟩ := hrun
  rw [Option.map_eq_some'] at hrun
  obtain ⟨a2, hloop, hs'⟩ := hrun
  subst hs'
  obtain ⟨hq, _, hform, _⟩ := attend_loop_spec m p pos kv_dim kv_mul head_size l kc vc a
    hd.kv_mul_pos hd.head_size_pos hp0 p.n_heads.toNat a2 hloop
  intro h hh0 hh1
  obtain ⟨wts, hw, hent⟩ := hform h.toNat (by omega)
  rw [Int.toNat_of_nonneg hh0] at hw hent
  exact ⟨wts, by show attention_weights m p kv_dim kv_mul head_size pos a2.q kc l h = some wts
                 rw [hq]; exact hw, hent⟩

/-- The body of the layer loop is its attention part followed by the feed-forward part. -/
theorem forward_layer_eq {F : Type} [LinearOrderedField F] (m : Libm F) (p : Config)
    (w : TransformerWeights) (data : List F) (pos kv_dim kv_mul head_size : Int)
    (s : RunState F) (l : Int) :
    forward_layer m p w data pos kv_dim kv_mul head_size s l =
      and_then (layer_attention m p w data pos kv_dim kv_mul head_size s l) fun s1 =>
        (layer_ffn m p w data l s1.toActivations).map fun a =>
          { toActivations := a, key_cache := s1.key_cache, value_cache := s1.value_cache } := by
  unfold forward_layer layer_attention
  cases layer_qkv m p w data pos kv_dim head_size l s.toActivations with
  | none => simp only [and_then_none]
  | some a =>
    simp only [and_then_some]
    cases imul pos kv_dim with
    | none => simp only [and_then_none]
    | some pk =>
      simp only [and_then_some]
      by_cases hneg : kv_dim < 0
      · simp only [if_pos hneg, and_then_none]
      simp only [if_neg hneg]
      cases load a.k 0 kv_dim.toNat with
      | none => simp only [and_then_none]
      | some krow =>
        simp only [and_then_some]
        cases store s.key_cache
            (to_int (u64 (u64 (l * u64 p.seq_len) * u64 kv_dim)) + pk) krow with
        | none => simp only [and_then_none]
        | some kc =>
          simp only [and_then_some]
          cases load a.v 0 kv_dim.toNat with
          | none => simp only [and_then_none]
          | some vrow =>
            simp only [and_then_some]
            cases store s.value_cache
                (to_int (u64 (u64 (l * u64 p.seq_len) * u64 kv_dim)) + pk) vrow with
            | none => simp only [and_then_none]
            | some vc =>
              simp only [and_then_some]
              cases attend_loop m p pos (to_int (u64 (u64 (l * u64 p.seq_len) * u64 kv_dim)))
                  kv_dim kv_mul head_size kc vc p.n_heads.toNat a with
              | none => simp only [and_then_none, Option.map_none']
              | some a2 => simp only [and_then_some, Option.map_some']

/-- C27: for a `Config` in range, weights laid out by `memory_map_weights` in a region
that holds them, a `RunState` with the sizes of `malloc_run_state`, every layer
`l < n_layers` and position `0 <= pos < seq_len`, the attention part of the body of
the layer loop returns (the body is this part followed by the feed-forward part), and for
every head `h < n_heads` and `i < head_size` it has written
`xb[h*head_size + i] = sum over t = 0..pos of a_t * value_cache[l, t, (h/kv_mul)*head_size
+ i]`, where `a` is the softmax over `t = 0..pos` of
`score_t = (sum over i of q[h*head_size + i] * key_cache[l, t, (h/kv_mul)*head_size + i]) /
sqrtf(head_size)`; `q` and the caches are those after the projections, RoPE and the write
of the row `pos`. -/
theorem attention_writes_weighted_values {F : Type} [LinearOrderedField F] (m : Libm F)
    (p : Config) (ptr : Int) (shared_weights : Bool) (w : TransformerWeights) (data : List F)
    (s : RunState F) (l pos : Int) (hr : ForwardInRange p) (hs : Shaped p s)
    (hw : memory_map_weights p ptr shared_weights = some w) (hptr : 0 ≤ ptr)
    (hdata : w.rms_final_weight + p.dim ≤ data.length ∧
      w.wcls + p.vocab_size * p.dim ≤ data.length)
    (hl : 0 ≤ l ∧ l < p.n_layers) (hpos : 0 ≤ pos ∧ pos < p.seq_len) :
    ∃ s', layer_attention m p w data pos (p.dim * p.n_kv_heads / p.n_heads)
        (p.n_heads / p.n_kv_heads) (p.dim / p.n_heads) s l = some s' ∧
      forward_layer m p w data pos (p.dim * p.n_kv_heads / p.n_heads)
          (p.n_heads / p.n_kv_heads) (p.dim / p.n_heads) s l =
        ((layer_ffn m p w data l s'.toActivations).map fun a =>
          { toActivations := a, key_cache := s'.key_cache, value_cache := s'.value_cache }) ∧
      ∀ h : Int, 0 ≤ h → h < p.n_heads →
        ∃ a, attention_weights m p (p.dim * p.n_kv_heads / p.n_heads)
            (p.n_heads / p.n_kv_heads) (p.dim / p.n_heads) pos s'.q s'.key_cache l h = some a ∧
          ∀ i : Nat, (i : Int) < p.dim / p.n_heads →
            s'.xb[(h * (p.dim / p.n_heads) + (i : Int)).toNat]? =
              some (attention_output p (p.dim * p.n_kv_heads / p.n_heads)
                (p.n_heads / p.n_kv_heads) (p.dim / p.n_heads) pos a s'.value_cache l h
                (i : Int)) := by
  have hd := dims_of_range p hr
  have hfit := weights_fit_of_layout p ptr shared_weights w data hr hw hptr hdata.1 hdata.2
  obtain ⟨ha, hkc, hvc⟩ := hs
  obtain ⟨s', hrun, _⟩ := layer_attention_some m p w data pos _ _ _ s l hd hfit hpos.1 hpos.2
    hl.1 hl.2 ha hkc hvc
  refine ⟨s', hrun, by rw [forward_layer_eq, hrun, and_then_some], ?_⟩
  intro h hh0 hh1
  obtain ⟨a, hw', hent⟩ := layer_attention_spec m p w data pos _ _ _ s s' l hd hpos.1 hl.1 hl.2
    hrun h hh0 hh1
  exact ⟨a, hw', fun i hi => hent i (by omega)⟩

/-- Witness of C27: `dim = 2`, one layer, one head, `seq_len = 2`, a `RunState` whose
caches hold the rows of position 0, 44 weights, layer 0 at position 1. -/
theorem attention_writes_weighted_values_witness :
    ∃ s', layer_attention tiny_libm ⟨2, 3, 1, 1, 1, 2, 2⟩
        ⟨0, 4, 22, 6, 10, 14, 18, 24, 30, 36, 42, 0⟩ (List.replicate 44 (1 / 2)) 1
        (2 * 1 / 1) (1 / 1) (2 / 1)
        { x := [1, 2], xb := [0, 0], xb2 := [0, 0], hb := [0, 0, 0], hb2 := [0, 0, 0],
          q := [0, 0], k := [0, 0], v := [0, 0], att := [0, 0], logits := [0, 0],
          key_cache := [1, 2, 0, 0], value_cache := [3, 4, 0, 0] } 0 = some s' ∧
      forward_layer tiny_libm ⟨2, 3, 1, 1, 1, 2, 2⟩
          ⟨0, 4, 22, 6, 10, 14, 18, 24, 30, 36, 42, 0⟩ (List.replicate 44 (1 / 2)) 1
          (2 * 1 / 1) (1 / 1) (2 / 1)
          { x := [1, 2], xb := [0, 0], xb2 := [0, 0], hb := [0, 0, 0], hb2 := [0, 0, 0],
            q := [0, 0], k := [0, 0], v := [0, 0], att := [0, 0], logits := [0, 0],
            key_cache := [1, 2, 0, 0], value_cache := [3, 4, 0, 0] } 0 =
        ((layer_ffn tiny_libm ⟨2, 3, 1, 1, 1, 2, 2⟩
            ⟨0, 4, 22, 6, 10, 14, 18, 24, 30, 36, 42, 0⟩ (List.replicate 44 (1 / 2)) 0
            s'.toActivations).map fun a =>
          { toActivations := a, key_cache := s'.key_cache, value_cache := s'.value_cache }) ∧
      ∀ h : Int, 0 ≤ h → h < 1 →
        ∃ a, attention_weights tiny_libm ⟨2, 3, 1, 1, 1, 2, 2⟩ (2 * 1 / 1) (1 / 1) (2 / 1) 1
            s'.q s'.key_cache 0 h = some a ∧
          ∀ i : Nat, (i : Int) < 2 / 1 →
            s'.xb[(h * (2 / 1) + (i : Int)).toNat]? =
              some (attention_output ⟨2, 3, 1, 1, 1, 2, 2⟩ (2 * 1 / 1) (1 / 1) (2 / 1) 1 a
                s'.value_cache 0 h (i : Int)) :=
  attention_writes_weighted_values tiny_libm ⟨2, 3, 1, 1, 1, 2, 2⟩ 0 true
    ⟨0, 4, 22, 6, 10, 14, 18, 24, 30, 36, 42, 0⟩ (List.replicate 44 (1 / 2))
    { x := [1, 2], xb := [0, 0], xb2 := [0, 0], hb := [0, 0, 0], hb2 := [0, 0, 0],
      q := [0, 0], k := [0, 0], v := [0, 0], att := [0, 0], logits := [0, 0],
      key_cache := [1, 2, 0, 0], value_cache := [3, 4, 0, 0] } 0 1
    (by unfold ForwardInRange; decide) (by unfold Shaped ActShaped; decide) (by decide)
    (by decide) (by decide) (by decide) (by decide)

/-! ## The frame of the caches -/

/-- A row of an earlier layer ends before any row of a later layer starts. -/
theorem row_le (S K l n t u : Int) (hS : 0 ≤ S) (hK : 0 ≤ K) (hln : l < n) (ht : t < S)
    (hu : 0 ≤ u) : l * S * K + t * K + K ≤ n * S * K + u * K := by
  have h1 : t * K + K ≤ S * K := slice_le t S K ht hK
  have h2 : l * (S * K) + S * K ≤ n * (S * K) := slice_le l n (S * K) hln (mul_nonneg hS hK)
  have h3 : 0 ≤ u * K := mul_nonneg hu hK
  rw [mul_assoc, mul_assoc]
  omega

/-- What the attention part of a layer does to the caches when it returns: the row
`[l, pos, :]` of the key cache receives the `k` of `layer_qkv` (the key after RoPE), that
of the value cache its `v`, and every other entry is kept. -/
theorem layer_attention_cache {F : Type} [LinearOrderedField F] (m : Libm F) (p : Config)
    (w : TransformerWeights) (data : List F) (pos kv_dim kv_mul head_size : Int)
    (s s' : RunState F) (l : Int) (hd : Dims p kv_dim kv_mul head_size)
    (hp0 : 0 ≤ pos) (hp1 : pos < p.seq_len) (h0 : 0 ≤ l) (h1 : l < p.n_layers)
    (hrun : layer_attention m p w data pos kv_dim kv_mul head_size s l = some s') :
    ∃ a, layer_qkv m p w data pos kv_dim head_size l s.toActivations = some a ∧
      (∀ j : Nat, j < kv_dim.toNat →
        s'.key_cache[(l * p.seq_len * kv_dim + pos * kv_dim).toNat + j]? = a.k[j]? ∧
        s'.value_cache[(l * p.seq_len * kv_dim + pos * kv_dim).toNat + j]? = a.v[j]?) ∧
      ∀ n : Nat, (n < (l * p.seq_len * kv_dim + pos * kv_dim).toNat ∨
          (l * p.seq_len * kv_dim + pos * kv_dim).toNat + kv_dim.toNat ≤ n) →
        s'.key_cache[n]? = s.key_cache[n]? ∧ s'.value_cache[n]? = s.value_cache[n]? := by
  have ⟨_, _, _, _, e5⟩ := hd.offsets_exact l h0 h1
  have hK := hd.kv_dim_pos
  have hS := hd.seq_pos
  have hSK : 0 ≤ p.seq_len * kv_dim := le_of_lt (mul_pos hS hK)
  have hpk0 : 0 ≤ pos * kv_dim := mul_nonneg hp0 (le_of_lt hK)
  have hpk1 : pos * kv_dim + kv_dim ≤ p.seq_len * kv_dim := slice_le _ _ _ hp1 (le_of_lt hK)
  have hloff0 : 0 ≤ l * p.seq_len * kv_dim := by
    rw [mul_assoc]; exact mul_nonneg h0 hSK
  have hloff1 : l * p.seq_len * kv_dim + p.seq_len * kv_dim ≤ p.n_layers * p.seq_len * kv_dim := by
    rw [mul_assoc, mul_assoc]; exact slice_le _ _ _ h1 hSK
  have hlt := hd.cache_kv_lt
  unfold layer_attention at hrun
  rw [e5, and_then_eq_some] at hrun
  obtain ⟨a, hqkv, hrun⟩ := hrun
  rw [and_then_eq_some] at hrun
  obtain ⟨pk, hpk, hrun⟩ := hrun
  rw [imul_of_range pos kv_dim hpk0 (by omega)] at hpk
  cases hpk
  rw [if_neg (show ¬ kv_dim < 0 by omega), and_then_eq_some] at hrun
  obtain ⟨krow, hkrow, hrun⟩ := hrun
  rw [and_then_eq_some] at hrun
  obtain ⟨kc, hkc, hrun⟩ := hrun
  rw [and_then_eq_some] at hrun
  obtain ⟨vrow, hvrow, hrun⟩ := hrun
  rw [and_then_eq_some] at hrun
  obtain ⟨vc, hvc, hrun⟩ := hrun
  rw [Option.map_eq_some'] at hrun
  obtain ⟨a2, _, hs'⟩ := hrun
  subst hs'
  have hkl := load_length a.k 0 kv_dim.toNat krow hkrow
  have hvl := load_length a.v 0 kv_dim.toNat vrow hvrow
  refine ⟨a, hqkv, ?_, ?_⟩
  · intro j hj
    constructor
    · show kc[(l * p.seq_len * kv_dim + pos * kv_dim).toNat + j]? = a.k[j]?
      rw [store_get_at _ _ _ _ hkc, if_pos (by omega), (load_get a.k 0 kv_dim.toNat krow hkrow
        ((l * p.seq_len * kv_dim + pos * kv_dim).toNat + j -
          (l * p.seq_len * kv_dim + pos * kv_dim).toNat) (by omega)).2]
      congr 1
      simp
    · show vc[(l * p.seq_len * kv_dim + pos * kv_dim).toNat + j]? = a.v[j]?
      rw [store_get_at _ _ _ _ hvc, if_pos (by omega), (load_get a.v 0 kv_dim.toNat vrow hvrow
        ((l * p.seq_len * kv_dim + pos * kv_dim).toNat + j -
          (l * p.seq_len * kv_dim + pos * kv_dim).toNat) (by omega)).2]
      congr 1
      simp
  · intro n hn
    constructor
    · show kc[n]? = s.key_cache[n]?
      rw [store_get_at _ _ _ _ hkc, if_neg (by omega)]
    · show vc[n]? = s.value_cache[n]?
      rw [store_get_at _ _ _ _ hvc, if_neg (by omega)]

/-- A layer leaves the caches as its attention part leaves them. -/
theorem forward_layer_cache {F : Type} [LinearOrderedField F] (m : Libm F) (p : Config)
    (w : TransformerWeights) (data : List F) (pos kv_dim kv_mul head_size : Int)
    (s s' : RunState F) (l : Int)
    (hrun : forward_layer m p w data pos kv_dim kv_mul head_size s l = some s') :
    ∃ s1, layer_attention m p w data pos kv_dim kv_mul head_size s l = some s1 ∧
      s'.key_cache = s1.key_cache ∧ s'.value_cache = s1.value_cache := by
  rw [forward_layer_eq, and_then_eq_some] at hrun
  obtain ⟨s1, h1, hrun⟩ := hrun
  rw [Option.map_eq_some'] at hrun
  obtain ⟨a, _, hs'⟩ := hrun
  subst hs'
  exact ⟨s1, h1, rfl, rfl⟩

/-- What the first `n` layers have done to the caches when they return: for every layer
`l < n` the row `[l, pos, :]` holds the `k` and the `v` that `layer_qkv` computed in that
layer, and every entry outside these rows is kept. -/
theorem forward_layers_cache {F : Type} [LinearOrderedField F] (m : Libm F) (p : Config)
    (w : TransformerWeights) (data : List F) (pos kv_dim kv_mul head_size : Int)
    (s : RunState F) (hd : Dims p kv_dim kv_mul head_size)
    (hp0 : 0 ≤ pos) (hp1 : pos < p.seq_len) (n : Nat) (hn : (n : Int) ≤ p.n_layers) :
    ∀ s', forward_layers m p w data pos kv_dim kv_mul head_size n s = some s' →
      (∀ l : Nat, l < n →
        ∃ sl a, forward_layers m p w data pos kv_dim kv_mul head_size l s = some sl ∧
          layer_qkv m p w data pos kv_dim head_size (l : Int) sl.toActivations = some a ∧
          ∀ j : Nat, j < kv_dim.toNat →
            s'.key_cache[((l : Int) * p.seq_len * kv_dim + pos * kv_dim).toNat + j]? =
              a.k[j]? ∧
            s'.value_cache[((l : Int) * p.seq_len * kv_dim + pos * kv_dim).toNat + j]? =
              a.v[j]?) ∧
      ∀ idx : Nat,
        (∀ l : Nat, l < n → idx < ((l : Int) * p.seq_len * kv_dim + pos * kv_dim).toNat ∨
          ((l : Int) * p.seq_len * kv_dim + pos * kv_dim).toNat + kv_dim.toNat ≤ idx) →
        s'.key_cache[idx]? = s.key_cache[idx]? ∧ s'.value_cache[idx]? = s.value_cache[idx]? := by
  induction n with
  | zero =>
    intro s' hs'
    simp only [forward_layers, Option.some.injEq] at hs'
    subst hs'
    exact ⟨fun l hl => absurd hl (Nat.not_lt_zero _), fun idx _ => ⟨rfl, rfl⟩⟩
  | succ n ih =>
    intro s' hs'
    simp only [forward_layers] at hs'
    rw [and_then_eq_some] at hs'
    obtain ⟨s1, hs1, hlayer⟩ := hs'
    push_cast at hn
    obtain ⟨hrows, hkeep⟩ := ih (by omega) s1 hs1
    obtain ⟨s2, hatt, hk2, hv2⟩ := forward_layer_cache m p w data pos kv_dim kv_mul head_size
      s1 s' (n : Int) hlayer
    obtain ⟨a, hqkv, hrow, hframe⟩ := layer_attention_cache m p w data pos kv_dim kv_mul
      head_size s1 s2 (n : Int) hd hp0 hp1 (by omega) (by omega) hatt
    rw [hk2, hv2]
    have hK := hd.kv_dim_pos
    have hS := hd.seq_pos
    constructor
    · intro l hl
      by_cases hln : l = n
      · subst hln
        exact ⟨s1, a, hs1, hqkv, hrow⟩
      · obtain ⟨sl, al, hsl, hal, hrl⟩ := hrows l (by omega)
        refine ⟨sl, al, hsl, hal, ?_⟩
        intro j hj
        have hle := row_le p.seq_len kv_dim (l : Int) (n : Int) pos pos (le_of_lt hS)
          (le_of_lt hK) (by omega) hp1 hp0
        have h3 : 0 ≤ (l : Int) * p.seq_len * kv_dim + pos * kv_dim :=
          add_nonneg (mul_nonneg (mul_nonneg (by omega) (le_of_lt hS)) (le_of_lt hK))
            (mul_nonneg hp0 (le_of_lt hK))
        have hfr := hframe (((l : Int) * p.seq_len * kv_dim + pos * kv_dim).toNat + j)
          (Or.inl (by omega))
        rw [hfr.1, hfr.2]
        exact hrl j hj
    · intro idx hidx
      have hfr := hframe idx (hidx n (by omega))
      rw [hfr.1, hfr.2]
      exact hkeep idx (fun l hl => hidx l (by omega))

/-- When `forward` returns, its caches are those left by the loop over the layers, run on
the state whose `x` holds the embedding row of the token. -/
theorem forward_caches {F : Type} [LinearOrderedField F] (m : Libm F) (p : Config)
    (w : TransformerWeights) (data : List F) (s s' : RunState F) (token pos : Int)
    (hr : ForwardInRange p) (ht0 : 0 ≤ token) (ht1 : token < p.vocab_size)
    (h : forward m p w data s token pos = some s') :
    ∃ x s2, and_then (load data (w.token_embedding_table + token * p.dim) p.dim.toNat)
        (fun r => store s.x 0 r) = some x ∧
      forward_layers m p w data pos (p.dim * p.n_kv_heads / p.n_heads)
        (p.n_heads / p.n_kv_heads) (p.dim / p.n_heads) p.n_layers.toNat
        ({ s with x := x } : RunState F) = some s2 ∧
      s'.key_cache = s2.key_cache ∧ s'.value_cache = s2.value_cache := by
  have hd := dims_of_range p hr
  have hD := hd.dim_pos
  have hN := hd.heads_pos
  have hK := hd.kv_heads_pos
  have hL := hd.layers_pos
  have hLlt := hd.layers_lt
  have hdk0 : 0 ≤ p.dim * p.n_kv_heads := le_of_lt (mul_pos hD hK)
  have hdk1 : p.dim * p.n_kv_heads < 2147483648 := by
    have h1 : p.n_kv_heads ≤ p.dim := by
      have h2 := hd.kv_dim_le
      rw [hd.kv_dim_eq] at h2
      nlinarith [hd.head_size_pos]
    nlinarith [hd.sq_lt]
  have hrow0 : 0 ≤ token * p.dim := mul_nonneg ht0 (le_of_lt hD)
  have hrow1 : token * p.dim + p.dim ≤ p.vocab_size * p.dim := slice_le _ _ _ ht1 (le_of_lt hD)
  have hemb := hd.embed_lt
  have eL : (u64 p.n_layers).toNat = p.n_layers.toNat := by
    rw [u64_of_range _ (by omega) (by omega)]
  unfold forward at h
  simp only [imul_of_range _ _ hdk0 hdk1, idiv_of_pos _ _ hdk0 hN,
    idiv_of_pos _ _ (le_of_lt hN) hK, idiv_of_pos _ _ (le_of_lt hD) hN,
    imul_of_range _ _ hrow0 (by omega), and_then_some, if_neg (show ¬ p.dim < 0 by omega),
    eL] at h
  rw [and_then_eq_some] at h
  obtain ⟨row, hrow, h⟩ := h
  rw [and_then_eq_some] at h
  obtain ⟨x, hx, h⟩ := h
  rw [and_then_eq_some] at h
  obtain ⟨s2, hs2, h⟩ := h
  rw [and_then_eq_some] at h
  obtain ⟨x2, _, h⟩ := h
  rw [Option.map_eq_some'] at h
  obtain ⟨logits, _, hs'⟩ := h
  subst hs'
  exact ⟨x, s2, by simp only [hrow, and_then_some, hx], hs2, rfl, rfl⟩

/-- C28: for a `Config` in range, weights laid out by `memory_map_weights` in a region
that holds them, a `RunState` with the sizes of `malloc_run_state`, a token
`0 <= token < vocab_size` and a position `0 <= pos < seq_len`, `forward(token, pos)`
returns; it keeps the sizes of `key_cache` and `value_cache` and every entry `[l, t, j]`
of them with `t != pos`; and for every layer `l` the row `[l, pos, :]` of `key_cache`
holds the key that `layer_qkv` computed in layer `l` (the projection after RoPE) and the
row of `value_cache` holds its value, layer `l` being run on the state left by the
layers before it. -/
theorem forward_changes_cache_rows_at_pos {F : Type} [LinearOrderedField F] (m : Libm F)
    (p : Config) (ptr : Int) (shared_weights : Bool) (w : TransformerWeights) (data : List F)
    (s : RunState F) (token pos : Int) (hr : ForwardInRange p) (hs : Shaped p s)
    (hw : memory_map_weights p ptr shared_weights = some w) (hptr : 0 ≤ ptr)
    (hdata : w.rms_final_weight + p.dim ≤ data.length ∧
      w.wcls + p.vocab_size * p.dim ≤ data.length)
    (htok : 0 ≤ token ∧ token < p.vocab_size) (hpos : 0 ≤ pos ∧ pos < p.seq_len) :
    ∃ s', forward m p w data s token pos = some s' ∧
      s'.key_cache.length = s.key_cache.length ∧
      s'.value_cache.length = s.value_cache.length ∧
      (∀ l t j : Int, 0 ≤ l → l < p.n_layers → 0 ≤ t → t < p.seq_len → t ≠ pos → 0 ≤ j →
        j < p.dim * p.n_kv_heads / p.n_heads →
        cache_entry p (p.dim * p.n_kv_heads / p.n_heads) s'.key_cache l t j =
          cache_entry p (p.dim * p.n_kv_heads / p.n_heads) s.key_cache l t j ∧
        cache_entry p (p.dim * p.n_kv_heads / p.n_heads) s'.value_cache l t j =
          cache_entry p (p.dim * p.n_kv_heads / p.n_heads) s.value_cache l t j) ∧
      ∃ x, and_then (load data (w.token_embedding_table + token * p.dim) p.dim.toNat)
          (fun r => store s.x 0 r) = some x ∧
        ∀ l : Int, 0 ≤ l → l < p.n_layers →
          ∃ sl a, forward_layers m p w data pos (p.dim * p.n_kv_heads / p.n_heads)
              (p.n_heads / p.n_kv_heads) (p.dim / p.n_heads) l.toNat
              ({ s with x := x } : RunState F) = some sl ∧
            layer_qkv m p w data pos (p.dim * p.n_kv_heads / p.n_heads) (p.dim / p.n_heads) l
              sl.toActivations = some a ∧
            ∀ j : Int, 0 ≤ j → j < p.dim * p.n_kv_heads / p.n_heads →
              cache_entry p (p.dim * p.n_kv_heads / p.n_heads) s'.key_cache l pos j =
                a.k.getD j.toNat 0 ∧
              cache_entry p (p.dim * p.n_kv_heads / p.n_heads) s'.value_cache l pos j =
                a.v.getD j.toNat 0 := by
  have hd := dims_of_range p hr
  have hfit := weights_fit_of_layout p ptr shared_weights w data hr hw hptr hdata.1 hdata.2
  obtain ⟨s', hrun, hshaped⟩ := forward_some m p w data s token pos hr hfit hs htok.1 htok.2
    hpos.1 hpos.2
  obtain ⟨x, s2, hx, hs2, hk2, hv2⟩ := forward_caches m p w data s s' token pos hr htok.1 htok.2
    hrun
  have hL := hd.layers_pos
  have hK := hd.kv_dim_pos
  have hS := hd.seq_pos
  obtain ⟨hrows, hkeep⟩ := forward_layers_cache m p w data pos _ _ _
    ({ s with x := x } : RunState F) hd hpos.1 hpos.2 p.n_layers.toNat (by omega) s2 hs2
  have hnn : ∀ l t : Int, 0 ≤ l → 0 ≤ t →
      0 ≤ l * p.seq_len * (p.dim * p.n_kv_heads / p.n_heads) +
        t * (p.dim * p.n_kv_heads / p.n_heads) := fun l t hl ht =>
    add_nonneg (mul_nonneg (mul_nonneg hl (le_of_lt hS)) (le_of_lt hK))
      (mul_nonneg ht (le_of_lt hK))
  refine ⟨s', hrun, ?_, ?_, ?_, x, hx, ?_⟩
  · have h1 := hshaped.2.1
    have h2 := hs.2.1
    omega
  · have h1 := hshaped.2.2
    have h2 := hs.2.2
    omega
  · intro l t j hl0 hl1 ht0 ht1 hne hj0 hj1
    have hfr := hkeep (l * p.seq_len * (p.dim * p.n_kv_heads / p.n_heads) +
        t * (p.dim * p.n_kv_heads / p.n_heads) + j).toNat (by
      intro l' hl'
      have h1 := hnn l t hl0 ht0
      have h2 := hnn (l' : Int) pos (by omega) hpos.1
      rcases lt_trichotomy l (l' : Int) with hlt | heq | hgt
      · have := row_le p.seq_len (p.dim * p.n_kv_heads / p.n_heads) l (l' : Int) t pos
          (le_of_lt hS) (le_of_lt hK) hlt ht1 hpos.1
        left; omega
      · rw [← heq] at h2 ⊢
        rcases lt_or_gt_of_ne hne with htp | htp
        · have := slice_le t pos (p.dim * p.n_kv_heads / p.n_heads) htp (le_of_lt hK)
          left; omega
        · have := slice_le pos t (p.dim * p.n_kv_heads / p.n_heads) htp (le_of_lt hK)
          right; omega
      · have := row_le p.seq_len (p.dim * p.n_kv_heads / p.n_heads) (l' : Int) l pos t
          (le_of_lt hS) (le_of_lt hK) hgt hpos.2 ht0
        right; omega)
    unfold cache_entry
    rw [List.getD_eq_getElem?_getD, List.getD_eq_getElem?_getD, List.getD_eq_getElem?_getD,
      List.getD_eq_getElem?_getD, hk2, hv2, hfr.1, hfr.2]
    exact ⟨rfl, rfl⟩
  · intro l hl0 hl1
    obtain ⟨sl, a, hsl, ha, hrow⟩ := hrows l.toNat (by omega)
    rw [Int.toNat_of_nonneg hl0] at ha hrow
    refine ⟨sl, a, hsl, ha, ?_⟩
    intro j hj0 hj1
    have hr1 := hrow j.toNat (by omega)
    have h1 := hnn l pos hl0 hpos.1
    have hidx : (l * p.seq_len * (p.dim * p.n_kv_heads / p.n_heads) +
        pos * (p.dim * p.n_kv_heads / p.n_heads) + j).toNat =
        (l * p.seq_len * (p.dim * p.n_kv_heads / p.n_heads) +
          pos * (p.dim * p.n_kv_heads / p.n_heads)).toNat + j.toNat := by omega
    unfold cache_entry
    rw [List.getD_eq_getElem?_getD, List.getD_eq_getElem?_getD, List.getD_eq_getElem?_getD,
      List.getD_eq_getElem?_getD, hidx, hk2, hv2, hr1.1, hr1.2]
    exact ⟨rfl, rfl⟩

/-- Witness of C28: `dim = 2`, one layer, one head, `seq_len = 2`, a `RunState` whose
caches hold the rows of position 0, 44 weights, token 1 at position 1. -/
theorem forward_changes_cache_rows_at_pos_witness :
    ∃ s', forward tiny_libm ⟨2, 3, 1, 1, 1, 2, 2⟩ ⟨0, 4, 22, 6, 10, 14, 18, 24, 30, 36, 42, 0⟩
        (List.replicate 44 (1 / 2))
        { x := [0, 0], xb := [0, 0], xb2 := [0, 0], hb := [0, 0, 0], hb2 := [0, 0, 0],
          q := [0, 0], k := [0, 0], v := [0, 0], att := [0, 0], logits := [0, 0],
          key_cache := [1, 2, 0, 0], value_cache := [3, 4, 0, 0] } 1 1 = some s' ∧
      s'.key_cache.length = ([1, 2, 0, 0] : List ℚ).length ∧
      s'.value_cache.length = ([3, 4, 0, 0] : List ℚ).length ∧
      (∀ l t j : Int, 0 ≤ l → l < 1 → 0 ≤ t → t < 2 → t ≠ 1 → 0 ≤ j → j < 2 * 1 / 1 →
        cache_entry ⟨2, 3, 1, 1, 1, 2, 2⟩ (2 * 1 / 1) s'.key_cache l t j =
          cache_entry ⟨2, 3, 1, 1, 1, 2, 2⟩ (2 * 1 / 1) [1, 2, 0, 0] l t j ∧
        cache_entry ⟨2, 3, 1, 1, 1, 2, 2⟩ (2 * 1 / 1) s'.value_cache l t j =
          cache_entry ⟨2, 3, 1, 1, 1, 2, 2⟩ (2 * 1 / 1) [3, 4, 0, 0] l t j) ∧
      ∃ x, and_then (load (List.replicate 44 (1 / 2 : ℚ)) (0 + 1 * 2) (2 : Int).toNat)
          (fun r => store [0, 0] 0 r) = some x ∧
        ∀ l : Int, 0 ≤ l → l < 1 →
          ∃ sl a, forward_layers tiny_libm ⟨2, 3, 1, 1, 1, 2, 2⟩
              ⟨0, 4, 22, 6, 10, 14, 18, 24, 30, 36, 42, 0⟩ (List.replicate 44 (1 / 2)) 1
              (2 * 1 / 1) (1 / 1) (2 / 1) l.toNat
              { x := x, xb := [0, 0], xb2 := [0, 0], hb := [0, 0, 0], hb2 := [0, 0, 0],
                q := [0, 0], k := [0, 0], v := [0, 0], att := [0, 0], logits := [0, 0],
                key_cache := [1, 2, 0, 0], value_cache := [3, 4, 0, 0] } = some sl ∧
            layer_qkv tiny_libm ⟨2, 3, 1, 1, 1, 2, 2⟩
              ⟨0, 4, 22, 6, 10, 14, 18, 24, 30, 36, 42, 0⟩ (List.replicate 44 (1 / 2)) 1
              (2 * 1 / 1) (2 / 1) l sl.toActivations = some a ∧
            ∀ j : Int, 0 ≤ j → j < 2 * 1 / 1 →
              cache_entry ⟨2, 3, 1, 1, 1, 2, 2⟩ (2 * 1 / 1) s'.key_cache l 1 j =
                a.k.getD j.toNat 0 ∧
              cache_entry ⟨2, 3, 1, 1, 1, 2, 2⟩ (2 * 1 / 1) s'.value_cache l 1 j =
                a.v.getD j.toNat 0 :=
  forward_changes_cache_rows_at_pos tiny_libm ⟨2, 3, 1, 1, 1, 2, 2⟩ 0 true
    ⟨0, 4, 22, 6, 10, 14, 18, 24, 30, 36, 42, 0⟩ (List.replicate 44 (1 / 2))
    { x := [0, 0], xb := [0, 0], xb2 := [0, 0], hb := [0, 0, 0], hb2 := [0, 0, 0],
      q := [0, 0], k := [0, 0], v := [0, 0], att := [0, 0], logits := [0, 0],
      key_cache := [1, 2, 0, 0], value_cache := [3, 4, 0, 0] } 1 1
    (by unfold ForwardInRange; decide) (by unfold Shaped ActShaped; decide) (by decide)
    (by decide) (by decide) (by decide) (by decide)

/-! ## Attention at position 0 -/

theorem softmax_singleton {F : Type} [LinearOrderedField F] (expf : F → F) (x : F)
    (h : expf 0 ≠ 0) : softmax expf [x] = some [1] := by
  simp [softmax, h]

/-- At position 0 the attention part of a layer writes, for every head, the slice of the
value of its KV head to `xb`: the softmax of the single score is 1. -/
theorem attention_pos0 {F : Type} [LinearOrderedField F] (m : Libm F) (p : Config)
    (w : TransformerWeights) (data : List F) (kv_dim kv_mul head_size : Int)
    (s : RunState F) (l : Int) (hd : Dims p kv_dim kv_mul head_size)
    (hw : WeightsFit p kv_dim w data) (h0 : 0 ≤ l) (h1 : l < p.n_layers)
    (ha : ActShaped p kv_dim s.toActivations)
    (hkc : (s.key_cache.length : Int) = p.n_layers * p.seq_len * kv_dim)
    (hvc : (s.value_cache.length : Int) = p.n_layers * p.seq_len * kv_dim)
    (hexp : m.expf 0 ≠ 0) :
    ∃ s' a, layer_attention m p w data 0 kv_dim kv_mul head_size s l = some s' ∧
      layer_qkv m p w data 0 kv_dim head_size l s.toActivations = some a ∧
      ActShaped p kv_dim s'.toActivations ∧
      ∀ h : Int, 0 ≤ h → h < p.n_heads → ∀ i : Nat, (i : Int) < head_size →
        s'.xb[(h * head_size + (i : Int)).toNat]? =
          some (a.v.getD (h / kv_mul * head_size + (i : Int)).toNat 0) := by
  have hS := hd.seq_pos
  have hK := hd.kv_dim_pos
  have hhs := hd.head_size_pos
  obtain ⟨s', hrun, hsh, _, hvl⟩ := layer_attention_some m p w data 0 kv_dim kv_mul head_size
    s l hd hw (le_refl 0) hS h0 h1 ha hkc hvc
  obtain ⟨a, hqkv, hrow, _⟩ := layer_attention_cache m p w data 0 kv_dim kv_mul head_size
    s s' l hd (le_refl 0) hS h0 h1 hrun
  refine ⟨s', a, hrun, hqkv, hsh, ?_⟩
  intro h hh0 hh1 i hi
  obtain ⟨wts, hwts, hent⟩ := layer_attention_spec m p w data 0 kv_dim kv_mul head_size s s' l
    hd (le_refl 0) h0 h1 hrun h hh0 hh1
  have hone : (0 + 1 : Int).toNat = 1 := rfl
  have hrange : List.range 1 = [0] := rfl
  unfold attention_weights at hwts
  rw [hone, hrange, List.map_singleton, softmax_singleton m.expf _ hexp] at hwts
  cases hwts
  rw [hent i (by omega)]
  have hq0 : 0 ≤ h / kv_mul := Int.ediv_nonneg hh0 (le_of_lt hd.kv_mul_pos)
  have hq1 : h / kv_mul < p.n_kv_heads := by
    apply Int.ediv_lt_of_lt_mul hd.kv_mul_pos
    have := hd.heads_eq
    rw [mul_comm] at this
    omega
  have hko0 : 0 ≤ h / kv_mul * head_size := mul_nonneg hq0 (le_of_lt hhs)
  have hko1 : h / kv_mul * head_size + head_size ≤ kv_dim := by
    rw [hd.kv_dim_eq]
    exact slice_le _ _ _ hq1 (le_of_lt hhs)
  have hloff0 : 0 ≤ l * p.seq_len * kv_dim :=
    mul_nonneg (mul_nonneg h0 (le_of_lt hS)) (le_of_lt hK)
  have hr := (hrow (h / kv_mul * head_size + (i : Int)).toNat (by omega)).2
  have hidx : (l * p.seq_len * kv_dim + ((0 : Nat) : Int) * kv_dim +
      (h / kv_mul * head_size + (i : Int))).toNat =
      (l * p.seq_len * kv_dim + 0 * kv_dim).toNat +
        (h / kv_mul * head_size + (i : Int)).toNat := by
    simp only [Nat.cast_zero, zero_mul, add_zero]
    omega
  unfold attention_output cache_entry
  rw [hone, hrange, List.map_singleton, List.sum_singleton, hidx,
    List.getD_eq_getElem?_getD, List.getD_eq_getElem?_getD, List.getD_eq_getElem?_getD, hr]
  simp

theorem store_full {F : Type} (buf vals r : List F) (h : store buf 0 vals = some r)
    (hl : buf.length = vals.length) : r = vals := by
  unfold store at h
  split_ifs at h with hz hb
  · cases h
    rw [List.eq_nil_of_length_eq_zero hz, List.eq_nil_of_length_eq_zero (hl.trans hz)]
  · cases h
    simp [hl]

theorem matmul_identity4 {F : Type} [LinearOrderedField F] (a b c d : F) :
    matmul [a, b, c, d] [1, 0, 0, 0, 0, 1, 0, 0, 0, 0, 1, 0, 0, 0, 0, 1] 4 4 = [a, b, c, d] := by
  simp [matmul, List.range_succ]

/-- The `v` that `layer_qkv` returns is the product of the value weights of the layer
with the output of the attention rmsnorm. -/
theorem layer_qkv_value {F : Type} [LinearOrderedField F] (m : Libm F) (p : Config)
    (w : TransformerWeights) (data : List F) (pos kv_dim kv_mul head_size l : Int)
    (a0 a : Activations F) (hd : Dims p kv_dim kv_mul head_size) (h0 : 0 ≤ l)
    (h1 : l < p.n_layers) (h : layer_qkv m p w data pos kv_dim head_size l a0 = some a) :
    ∃ xb, rmsnorm_at m.sqrtf a0.xb a0.x data (w.rms_att_weight + l * p.dim) p.dim = some xb ∧
      matmul_at a0.v xb data (w.wv + l * p.dim * kv_dim) p.dim kv_dim = some a.v := by
  have ⟨e1, e2, e3, _, _⟩ := hd.offsets_exact l h0 h1
  unfold layer_qkv at h
  rw [e2, e3, e1, and_then_eq_some] at h
  obtain ⟨xb, hxb, h⟩ := h
  rw [and_then_eq_some] at h
  obtain ⟨q, _, h⟩ := h
  rw [and_then_eq_some] at h
  obtain ⟨k, _, h⟩ := h
  rw [and_then_eq_some] at h
  obtain ⟨v, hv, h⟩ := h
  rw [Option.map_eq_some'] at h
  obtain ⟨qk, _, ha⟩ := h
  subst ha
  exact ⟨xb, hxb, hv⟩

/-- With a single head, `dim = 4` and the identity as value weights of the layer, the
attention part of the layer at position 0 leaves in `xb` the output of the attention
rmsnorm of `x`. -/
theorem attention_pos0_identity {F : Type} [LinearOrderedField F] (m : Libm F) (p : Config)
    (w : TransformerWeights) (data : List F) (kv_dim kv_mul head_size : Int)
    (s : RunState F) (l : Int) (hd : Dims p kv_dim kv_mul head_size)
    (hw : WeightsFit p kv_dim w data) (h0 : 0 ≤ l) (h1 : l < p.n_layers)
    (ha : ActShaped p kv_dim s.toActivations)
    (hkc : (s.key_cache.length : Int) = p.n_layers * p.seq_len * kv_dim)
    (hvc : (s.value_cache.length : Int) = p.n_layers * p.seq_len * kv_dim)
    (hexp : m.expf 0 ≠ 0) (hdim : p.dim = 4) (hheads : p.n_heads = 1)
    (hwv : load data (w.wv + l * p.dim * kv_dim) 16 =
      some [1, 0, 0, 0, 0, 1, 0, 0, 0, 0, 1, 0, 0, 0, 0, 1]) :
    ∃ s' ws r, layer_attention m p w data 0 kv_dim kv_mul head_size s l = some s' ∧
      load data (w.rms_att_weight + l * p.dim) 4 = some ws ∧
      rmsnorm m.sqrtf s.x ws 4 = some r ∧ s'.xb = r := by
  have hhs : head_size = 4 := by
    have := hd.dim_eq
    rw [hdim, hheads, one_mul] at this
    exact this.symm
  have hkvh : p.n_kv_heads = 1 := by
    have h2 := hd.heads_eq
    have h3 := hd.kv_mul_pos
    have h4 := hd.kv_heads_pos
    rw [hheads] at h2
    nlinarith
  have hkv : kv_dim = 4 := by
    rw [hd.kv_dim_eq, hkvh, hhs, one_mul]
  obtain ⟨s', a, hrun, hqkv, hsh, hxb⟩ := attention_pos0 m p w data kv_dim kv_mul head_size s l
    hd hw h0 h1 ha hkc hvc hexp
  obtain ⟨xbn, hnorm, hmat⟩ := layer_qkv_value m p w data 0 kv_dim kv_mul head_size l
    s.toActivations a hd h0 h1 hqkv
  have ⟨hx, hxbl, _, _, _, _, _, hvl, _, _⟩ := id ha
  have ⟨_, hxbl', _, _, _, _, _, _, _, _⟩ := id hsh
  rw [hdim] at hx hxbl hxbl'
  rw [hkv] at hvl
  have h4 : (4 : Int).toNat = 4 := rfl
  unfold rmsnorm_at at hnorm
  rw [hdim, h4, and_then_eq_some] at hnorm
  obtain ⟨ws, hws, hnorm⟩ := hnorm
  rw [and_then_eq_some] at hnorm
  obtain ⟨r, hr, hst⟩ := hnorm
  have hwsl := load_length _ _ _ _ hws
  have hrl : r.length = 4 := by
    obtain ⟨r', hr', hrl'⟩ := rmsnorm_some m.sqrtf s.x ws 4 (by omega) (by omega)
    rw [hr] at hr'
    cases hr'
    exact hrl'
  have hxbn : xbn = r := store_full _ _ _ hst (by omega)
  subst hxbn
  have hav : a.v = xbn := by
    unfold matmul_at at hmat
    rw [hdim, hkv, if_neg (by omega), if_neg (by omega), h4] at hmat
    have hl : load xbn 0 4 = some xbn := by rw [← hrl]; exact load_full xbn
    rw [hl, and_then_some, show (4 : Nat) * 4 = 16 from rfl] at hmat
    rw [hdim, hkv] at hwv
    rw [hwv, and_then_some] at hmat
    match xbn, hrl, hmat with
    | [a1, b1, c1, d1], _, hmat =>
      rw [matmul_identity4] at hmat
      exact store_full _ _ _ hmat (by simp; omega)
  refine ⟨s', ws, xbn, hrun, by rw [hdim]; exact hws, hr, ?_⟩
  apply List.ext_getElem?
  intro i
  by_cases hi : i < 4
  · have h5 := hxb 0 (le_refl 0) (by omega) i (by omega)
    simp only [zero_mul, zero_add, Int.zero_ediv, Int.toNat_ofNat] at h5
    rw [h5, hav, List.getD_eq_getElem?_getD]
    have : i < xbn.length := by omega
    rw [List.getElem?_eq_getElem this]
    rfl
  · rw [List.getElem?_eq_none (by omega), List.getElem?_eq_none (by omega)]

/-- C29 (amended): for a `Config` in range, weights laid out by `memory_map_weights` in a
region that holds them, a `RunState` with the sizes of `malloc_run_state`, a layer `l` and
a libm whose `expf(0)` is not zero, the attention part of the layer at position 0 returns,
and for every head `h` and `i < head_size` it has written
`xb[h*head_size + i] = v[(h/kv_mul)*head_size + i]`, with `v` the value vector that the
layer computed; with `dim = 4`, a single head and the identity as value weights of the
layer, `xb` then is the output of `rmsnorm(x, rms_att_weight of the layer)`, where `x` is
the input of the layer (in layer 0 the embedding row of the token). -/
theorem attention_at_position_zero {F : Type} [LinearOrderedField F] (m : Libm F)
    (p : Config) (ptr : Int) (shared_weights : Bool) (w : TransformerWeights) (data : List F)
    (s : RunState F) (l : Int) (hr : ForwardInRange p) (hs : Shaped p s)
    (hw : memory_map_weights p ptr shared_weights = some w) (hptr : 0 ≤ ptr)
    (hdata : w.rms_final_weight + p.dim ≤ data.length ∧
      w.wcls + p.vocab_size * p.dim ≤ data.length)
    (hl : 0 ≤ l ∧ l < p.n_layers) (hexp : m.expf 0 ≠ 0) :
    ∃ s' a, layer_attention m p w data 0 (p.dim * p.n_kv_heads / p.n_heads)
        (p.n_heads / p.n_kv_heads) (p.dim / p.n_heads) s l = some s' ∧
      layer_qkv m p w data 0 (p.dim * p.n_kv_heads / p.n_heads) (p.dim / p.n_heads) l
        s.toActivations = some a ∧
      (∀ h : Int, 0 ≤ h → h < p.n_heads → ∀ i : Nat, (i : Int) < p.dim / p.n_heads →
        s'.xb[(h * (p.dim / p.n_heads) + (i : Int)).toNat]? =
          some (a.v.getD (h / (p.n_heads / p.n_kv_heads) * (p.dim / p.n_heads) +
            (i : Int)).toNat 0)) ∧
      (p.dim = 4 → p.n_heads = 1 →
        load data (w.wv + l * p.dim * (p.dim * p.n_kv_heads / p.n_heads)) 16 =
          some [1, 0, 0, 0, 0, 1, 0, 0, 0, 0, 1, 0, 0, 0, 0, 1] →
        ∃ ws r, load data (w.rms_att_weight + l * p.dim) 4 = some ws ∧
          rmsnorm m.sqrtf s.x ws 4 = some r ∧ s'.xb = r) := by
  have hd := dims_of_range p hr
  have hfit := weights_fit_of_layout p ptr shared_weights w data hr hw hptr hdata.1 hdata.2
  obtain ⟨ha, hkc, hvc⟩ := hs
  obtain ⟨s', a, hrun, hqkv, _, hxb⟩ := attention_pos0 m p w data _ _ _ s l hd hfit hl.1 hl.2
    ha hkc hvc hexp
  refine ⟨s', a, hrun, hqkv, hxb, ?_⟩
  intro hdim hheads hwv
  obtain ⟨s2, ws, r, hrun2, hws, hr2, hxb2⟩ := attention_pos0_identity m p w data _ _ _ s l hd
    hfit hl.1 hl.2 ha hkc hvc hexp hdim hheads hwv
  rw [hrun] at hrun2
  cases hrun2
  exact ⟨ws, r, hws, hr2, hxb2⟩

/-- Witness of C29 (amended): `dim = 4`, one layer, one head, identity projections, the
embedding row `[3, 4, 0, 0]` in `x`, layer 0. -/
theorem attention_at_position_zero_witness :
    ∃ s' ws r, layer_attention tiny_libm ⟨4, 1, 1, 1, 1, 1, 1⟩
        ⟨0, 4, 72, 8, 24, 40, 56, 76, 80, 84, 88, 0⟩
        ([3, 4, 0, 0] ++ [1, 1, 1, 1] ++ [1, 0, 0, 0, 0, 1, 0, 0, 0, 0, 1, 0, 0, 0, 0, 1] ++
          [1, 0, 0, 0, 0, 1, 0, 0, 0, 0, 1, 0, 0, 0, 0, 1] ++
          [1, 0, 0, 0, 0, 1, 0, 0, 0, 0, 1, 0, 0, 0, 0, 1] ++
          [1, 0, 0, 0, 0, 1, 0, 0, 0, 0, 1, 0, 0, 0, 0, 1] ++ List.replicate 20 1)
        0 (4 * 1 / 1) (1 / 1) (4 / 1)
        { x := [3, 4, 0, 0], xb := [0, 0, 0, 0], xb2 := [0, 0, 0, 0], hb := [0], hb2 := [0],
          q := [0, 0, 0, 0], k := [0, 0, 0, 0], v := [0, 0, 0, 0], att := [0], logits := [0],
          key_cache := [0, 0, 0, 0], value_cache := [0, 0, 0, 0] } 0 = some s' ∧
      load ([3, 4, 0, 0] ++ [1, 1, 1, 1] ++ [1, 0, 0, 0, 0, 1, 0, 0, 0, 0, 1, 0, 0, 0, 0, 1] ++
          [1, 0, 0, 0, 0, 1, 0, 0, 0, 0, 1, 0, 0, 0, 0, 1] ++
          [1, 0, 0, 0, 0, 1, 0, 0, 0, 0, 1, 0, 0, 0, 0, 1] ++
          [1, 0, 0, 0, 0, 1, 0, 0, 0, 0, 1, 0, 0, 0, 0, 1] ++ List.replicate 20 (1 : ℚ))
        (4 + 0 * 4) 4 = some ws ∧
      rmsnorm tiny_libm.sqrtf [3, 4, 0, 0] ws 4 = some r ∧ s'.xb = r := by
  obtain ⟨s', a, hrun, _, _, hid⟩ := attention_at_position_zero tiny_libm ⟨4, 1, 1, 1, 1, 1, 1⟩
    0 true ⟨0, 4, 72, 8, 24, 40, 56, 76, 80, 84, 88, 0⟩
    ([3, 4, 0, 0] ++ [1, 1, 1, 1] ++ [1, 0, 0, 0, 0, 1, 0, 0, 0, 0, 1, 0, 0, 0, 0, 1] ++
      [1, 0, 0, 0, 0, 1, 0, 0, 0, 0, 1, 0, 0, 0, 0, 1] ++
      [1, 0, 0, 0, 0, 1, 0, 0, 0, 0, 1, 0, 0, 0, 0, 1] ++
      [1, 0, 0, 0, 0, 1, 0, 0, 0, 0, 1, 0, 0, 0, 0, 1] ++ List.replicate 20 1)
    { x := [3, 4, 0, 0], xb := [0, 0, 0, 0], xb2 := [0, 0, 0, 0], hb := [0], hb2 := [0],
      q := [0, 0, 0, 0], k := [0, 0, 0, 0], v := [0, 0, 0, 0], att := [0], logits := [0],
      key_cache := [0, 0, 0, 0], value_cache := [0, 0, 0, 0] } 0
    (by unfold ForwardInRange; decide) (by unfold Shaped ActShaped; decide) (by decide)
    (by decide) (by decide) (by decide) (by decide!)
  obtain ⟨ws, r, hws, hr, hxb⟩ := hid rfl rfl (by decide!)
  exact ⟨s', ws, r, hrun, hws, hr, hxb⟩

/-- C29 (as stated) fails: with `dim = head_size = 4`, one head, identity projections,
attention rmsnorm weights 1 and the embedding row `[9/1000, 0, 0, 0]` of token 0, which
`forward` copies to `x`, the attention part of layer 0 at position 0 leaves
`xb = [18/11, 0, 0, 0]`: the row after the attention rmsnorm, not the row. -/
theorem attention_identity_layer_counterexample :
    and_then (load ([9 / 1000, 0, 0, 0] ++ [1, 1, 1, 1] ++
          [1, 0, 0, 0, 0, 1, 0, 0, 0, 0, 1, 0, 0, 0, 0, 1] ++
          [1, 0, 0, 0, 0, 1, 0, 0, 0, 0, 1, 0, 0, 0, 0, 1] ++
          [1, 0, 0, 0, 0, 1, 0, 0, 0, 0, 1, 0, 0, 0, 0, 1] ++
          [1, 0, 0, 0, 0, 1, 0, 0, 0, 0, 1, 0, 0, 0, 0, 1] ++ List.replicate 20 (1 : ℝ))
        (0 + 0 * 4) 4) (fun r => store [0, 0, 0, 0] 0 r) = some [9 / 1000, 0, 0, 0] ∧
    ∃ s', layer_attention ⟨Real.exp, Real.sqrt, fun x y => x ^ y, Real.cos, Real.sin⟩
        ⟨4, 1, 1, 1, 1, 1, 1⟩ ⟨0, 4, 72, 8, 24, 40, 56, 76, 80, 84, 88, 0⟩
        ([9 / 1000, 0, 0, 0] ++ [1, 1, 1, 1] ++
          [1, 0, 0, 0, 0, 1, 0, 0, 0, 0, 1, 0, 0, 0, 0, 1] ++
          [1, 0, 0, 0, 0, 1, 0, 0, 0, 0, 1, 0, 0, 0, 0, 1] ++
          [1, 0, 0, 0, 0, 1, 0, 0, 0, 0, 1, 0, 0, 0, 0, 1] ++
          [1, 0, 0, 0, 0, 1, 0, 0, 0, 0, 1, 0, 0, 0, 0, 1] ++ List.replicate 20 (1 : ℝ))
        0 4 1 4
        { x := [9 / 1000, 0, 0, 0], xb := [0, 0, 0, 0], xb2 := [0, 0, 0, 0], hb := [0],
          hb2 := [0], q := [0, 0, 0, 0], k := [0, 0, 0, 0], v := [0, 0, 0, 0], att := [0],
          logits := [0], key_cache := [0, 0, 0, 0], value_cache := [0, 0, 0, 0] } 0 =
          some s' ∧
      s'.xb = [18 / 11, 0, 0, 0] ∧ s'.xb ≠ [9 / 1000, 0, 0, 0] := by
  have hr : ForwardInRange ⟨4, 1, 1, 1, 1, 1, 1⟩ := by unfold ForwardInRange; decide
  have hd := dims_of_range _ hr
  have hfit := weights_fit_of_layout ⟨4, 1, 1, 1, 1, 1, 1⟩ 0 true
    ⟨0, 4, 72, 8, 24, 40, 56, 76, 80, 84, 88, 0⟩
    ([9 / 1000, 0, 0, 0] ++ [1, 1, 1, 1] ++
      [1, 0, 0, 0, 0, 1, 0, 0, 0, 0, 1, 0, 0, 0, 0, 1] ++
      [1, 0, 0, 0, 0, 1, 0, 0, 0, 0, 1, 0, 0, 0, 0, 1] ++
      [1, 0, 0, 0, 0, 1, 0, 0, 0, 0, 1, 0, 0, 0, 0, 1] ++
      [1, 0, 0, 0, 0, 1, 0, 0, 0, 0, 1, 0, 0, 0, 0, 1] ++ List.replicate 20 (1 : ℝ))
    hr (by decide) (by decide) (by decide) (by decide)
  obtain ⟨s', ws, r, hrun, hws, hrms, hxb⟩ := attention_pos0_identity
    ⟨Real.exp, Real.sqrt, fun x y => x ^ y, Real.cos, Real.sin⟩ ⟨4, 1, 1, 1, 1, 1, 1⟩
    ⟨0, 4, 72, 8, 24, 40, 56, 76, 80, 84, 88, 0⟩
    ([9 / 1000, 0, 0, 0] ++ [1, 1, 1, 1] ++
      [1, 0, 0, 0, 0, 1, 0, 0, 0, 0, 1, 0, 0, 0, 0, 1] ++
      [1, 0, 0, 0, 0, 1, 0, 0, 0, 0, 1, 0, 0, 0, 0, 1] ++
      [1, 0, 0, 0, 0, 1, 0, 0, 0, 0, 1, 0, 0, 0, 0, 1] ++
      [1, 0, 0, 0, 0, 1, 0, 0, 0, 0, 1, 0, 0, 0, 0, 1] ++ List.replicate 20 (1 : ℝ))
    (4 * 1 / 1) (1 / 1) (4 / 1)
    { x := [9 / 1000, 0, 0, 0], xb := [0, 0, 0, 0], xb2 := [0, 0, 0, 0], hb := [0],
      hb2 := [0], q := [0, 0, 0, 0], k := [0, 0, 0, 0], v := [0, 0, 0, 0], att := [0],
      logits := [0], key_cache := [0, 0, 0, 0], value_cache := [0, 0, 0, 0] } 0
    hd hfit (by decide) (by decide) (by unfold ActShaped; decide) (by decide) (by decide)
    (Real.exp_pos 0).ne' rfl rfl rfl
  have hws' : ws = [1, 1, 1, 1] := by
    have h : load ([9 / 1000, 0, 0, 0] ++ [1, 1, 1, 1] ++
      [1, 0, 0, 0, 0, 1, 0, 0, 0, 0, 1, 0, 0, 0, 0, 1] ++
      [1, 0, 0, 0, 0, 1, 0, 0, 0, 0, 1, 0, 0, 0, 0, 1] ++
      [1, 0, 0, 0, 0, 1, 0, 0, 0, 0, 1, 0, 0, 0, 0, 1] ++
      [1, 0, 0, 0, 0, 1, 0, 0, 0, 0, 1, 0, 0, 0, 0, 1] ++ List.replicate 20 (1 : ℝ))
      (4 + 0 * 4) 4 = some [1, 1, 1, 1] := rfl
    rw [h] at hws
    cases hws
    rfl
  subst hws'
  have hsq : Real.sqrt ((11 / 2000) ^ 2) = 11 / 2000 := Real.sqrt_sq (by norm_num)
  have hval : r = [18 / 11, 0, 0, 0] := by
    have h2 : rmsnorm Real.sqrt [9 / 1000, 0, 0, 0] [1, 1, 1, 1] 4 = some _ :=
      rmsnorm_eq Real.sqrt [9 / 1000, 0, 0, 0] [1, 1, 1, 1] rfl
    rw [h2] at hrms
    rw [← Option.some.inj hrms]
    simp only [List.map_cons, List.map_nil, List.sum_cons, List.sum_nil, List.zipWith_cons_cons,
      List.zipWith_nil_right, List.length_cons, List.length_nil]
    rw [show ((9 / 1000 : ℝ) * (9 / 1000) + (0 * 0 + (0 * 0 + (0 * 0 + 0)))) /
        ((0 + 1 + 1 + 1 + 1 : ℕ) : ℝ) + 1 / 100000 = (11 / 2000) ^ 2 by norm_num, hsq]
    norm_num
  refine ⟨rfl, s', hrun, by rw [hxb, hval], ?_⟩
  rw [hxb, hval]
  intro h
  have h1 := (List.cons.inj h).1
  norm_num at h1

/-! ## The range of the sampled index -/

theorem sample_argmax_loop_lt (rest : List ℚ) :
    ∀ (i max_i : Nat) (max_p : ℚ), max_i < i →
      sample_argmax_loop rest i max_i max_p < i + rest.length := by
  induction rest with
  | nil => intro i max_i max_p h; simpa [sample_argmax_loop] using h
  | cons p rest ih =>
    intro i max_i max_p h
    simp only [sample_argmax_loop, List.length_cons]
    split_ifs
    · have := ih (i + 1) i p (by omega)
      omega
    · have := ih (i + 1) max_i max_p (by omega)
      omega

theorem sample_mult_loop_lt (r : ℚ) (rest : List ℚ) :
    ∀ (i : Nat) (cdf : ℚ) (k : Nat), sample_mult_loop r rest i cdf = some k →
      k < i + rest.length := by
  induction rest with
  | nil => intro i cdf k h; simp [sample_mult_loop] at h
  | cons p rest ih =>
    intro i cdf k h
    simp only [sample_mult_loop] at h
    split_ifs at h
    · cases h
      simp
    · have := ih (i + 1) _ k h
      simp only [List.length_cons]
      omega

theorem sample_mult_range (probabilities : List ℚ) (r : ℚ) (hne : probabilities ≠ []) :
    0 ≤ sample_mult probabilities r ∧ sample_mult probabilities r < probabilities.length := by
  have hpos : 0 < probabilities.length := List.length_pos.mpr hne
  unfold sample_mult
  split
  · rename_i i hi
    have := sample_mult_loop_lt r probabilities 0 0 i hi
    omega
  · omega

theorem topp_truncate_loop_lt (topp : ℚ) (rest : List ProbIndex) :
    ∀ (i : Nat) (cum : ℚ) (k : Nat) (c : ℚ), topp_truncate_loop topp rest i cum = some (k, c) →
      k < i + rest.length := by
  induction rest with
  | nil => intro i cum k c h; simp [topp_truncate_loop] at h
  | cons p rest ih =>
    intro i cum k c h
    simp only [topp_truncate_loop] at h
    split_ifs at h
    · cases h
      simp
    · have := ih (i + 1) _ k c h
      simp only [List.length_cons]
      omega

theorem topp_truncate_range (topp : ℚ) (probindex : List ProbIndex) :
    (topp_truncate topp probindex).1 < probindex.length ∧
    (probindex ≠ [] → 0 ≤ (topp_truncate topp probindex).1) ∧
    (probindex = [] → (topp_truncate topp probindex).1 = -1) := by
  unfold topp_truncate
  split
  · rename_i i c hi
    have h1 := topp_truncate_loop_lt topp probindex 0 0 i c hi
    refine ⟨by simp only; omega, fun _ => by simp only; omega, ?_⟩
    intro he
    rw [he] at hi
    simp [topp_truncate_loop] at hi
  · refine ⟨by simp only; omega, ?_, ?_⟩
    · intro hne
      have hpos : 0 < probindex.length := List.length_pos.mpr hne
      simp only
      omega
    · intro he
      rw [he]
      rfl

/-- The call `sample_topp` reads `probindex[-1]` exactly when no candidate passes the
cutoff. -/
theorem sample_topp_eq_none_iff (probabilities : List ℚ) (topp coin : ℚ) :
    sample_topp probabilities topp coin = none ↔
      topp_candidates topp probabilities.length probabilities 0 = [] := by
  have hq : qsort compare (topp_candidates topp probabilities.length probabilities 0) = [] ↔
      topp_candidates topp probabilities.length probabilities 0 = [] := by
    constructor
    · intro h
      have hp := qsort_perm compare (topp_candidates topp probabilities.length probabilities 0)
      rw [h] at hp
      exact List.Perm.nil_eq hp |>.symm
    · intro h
      rw [h]
      rfl
  have ⟨hlt, hnn, hneg⟩ := topp_truncate_range topp
    (qsort compare (topp_candidates topp probabilities.length probabilities 0))
  unfold sample_topp
  simp only
  constructor
  · intro h
    by_contra hne
    have h0 := hnn (fun he => hne (hq.mp he))
    rw [if_neg (by omega)] at h
    split at h
    · cases h
    · rw [Option.map_eq_none'] at h
      rw [List.getElem?_eq_none_iff] at h
      omega
  · intro h
    have h1 := hneg (hq.mpr h)
    rw [if_pos (by omega)]

theorem sample_topp_lt (probabilities : List ℚ) (topp coin : ℚ) (idx : Nat)
    (h : sample_topp probabilities topp coin = some idx) : idx < probabilities.length := by
  obtain ⟨c, hmem, hidx⟩ := sample_topp_returns_candidate probabilities topp coin idx h
  have hmem' := (qsort_perm compare _).mem_iff.mp hmem
  obtain ⟨j, hj, hget, _⟩ := topp_candidates_mem topp _ probabilities 0 c hmem'
  have hjl : j < probabilities.length := by
    by_contra hge
    rw [List.getElem?_eq_none (by omega)] at hget
    cases hget
  omega

theorem softmax_zero_pair (expf : ℚ → ℚ) (hexp : expf 0 ≠ 0) :
    softmax expf (([0, 0] : List ℚ).map fun l => l / 1) = some [1 / 2, 1 / 2] := by
  simp only [softmax, List.map_cons, List.map_nil, List.foldl_cons, List.foldl_nil, div_one,
    gt_iff_lt, lt_self_iff_false, if_false, sub_self, zero_add, Option.some.injEq]
  have h2 : expf 0 / (expf 0 + expf 0) = 1 / 2 := by
    rw [← two_mul, div_mul_eq_div_div_swap, div_self hexp]
  rw [h2]

theorem softmax_zero_single (expf : ℚ → ℚ) (hexp : expf 0 ≠ 0) :
    softmax expf (([0] : List ℚ).map fun l => l / 1) = some [1] := by
  simp only [softmax, List.map_cons, List.map_nil, List.foldl_cons, List.foldl_nil, div_one,
    sub_self, zero_add, Option.some.injEq]
  rw [div_self hexp]

/-- C31 at the failing inputs, and the cases in which the index is in range. With an
`expf` that is not zero at 0 (as `expf(0) = 1`), `sample` on the logits `[0, 0]` with
temperature 1 and `top_p = 1/10` gets the probabilities `[1/2, 1/2]`, below the cutoff
of about `9/10`, and on the single logit `[0]` with `top_p = 1/2` the probability `[1]`, with the
cutoff `(1 - top_p) / 0`: no candidate is kept and `sample_topp` reads `probindex[-1]`.
For every non-empty `logits`, `sample` reads `probindex[-1]` exactly when the temperature
is not zero, `0 < top_p < 1` and the pre-filter keeps no candidate of the softmax
probabilities; whenever it returns an index, the index is in `[0, vocab_size)`. -/
theorem sample_reads_before_probindex (expf : ℚ → ℚ) (rng_seed : Nat) :
    (expf 0 ≠ 0 →
      sample expf [0, 0] 1 (1 / 10) rng_seed = (none, (random_f32 rng_seed).2) ∧
      sample expf [0] 1 (1 / 2) rng_seed = (none, (random_f32 rng_seed).2)) ∧
    ∀ (logits : List ℚ) (temperature topp : ℚ), logits ≠ [] →
      ((sample expf logits temperature topp rng_seed).1 = none ↔
        temperature ≠ 0 ∧ 0 < topp ∧ topp < 1 ∧
          ∃ probs, softmax expf (logits.map fun l => l / temperature) = some probs ∧
            topp_candidates topp probs.length probs 0 = []) ∧
      ∀ i : Int, (sample expf logits temperature topp rng_seed).1 = some i →
        0 ≤ i ∧ i < logits.length := by
  constructor
  · intro hexp
    have h1 : sample_topp [1 / 2, 1 / 2] (1 / 10) (random_f32 rng_seed).1 = none :=
      (sample_topp_eq_none_iff _ _ _).mpr (by decide!)
    have h2 : sample_topp [1] (1 / 2) (random_f32 rng_seed).1 = none :=
      (sample_topp_eq_none_iff _ _ _).mpr (by decide!)
    constructor
    · unfold sample
      rw [if_neg (by norm_num), softmax_zero_pair expf hexp]
      simp only
      rw [if_neg (by norm_num), h1]
      rfl
    · unfold sample
      rw [if_neg (by norm_num), softmax_zero_single expf hexp]
      simp only
      rw [if_neg (by norm_num), h2]
      rfl
  · intro logits temperature topp hne
    unfold sample
    by_cases ht : temperature = 0
    · rw [if_pos ht]
      cases logits with
      | nil => exact absurd rfl hne
      | cons p0 rest =>
        have hlt := sample_argmax_loop_lt rest 1 0 p0 (by omega)
        simp only [sample_argmax, Option.map_some', List.length_cons]
        refine ⟨⟨fun h => (by cases h), fun h => absurd ht h.1⟩, ?_⟩
        intro i hi
        cases hi
        simp only [Int.ofNat_eq_coe]
        omega
    · rw [if_neg ht]
      obtain ⟨probs, hprobs, hlen⟩ := softmax_some expf (logits.map fun l => l / temperature)
        (by simpa using hne)
      rw [List.length_map] at hlen
      have hpne : probs ≠ [] := by
        intro he
        rw [he] at hlen
        exact hne (List.length_eq_zero.mp hlen.symm)
      rw [hprobs]
      simp only
      by_cases hp : topp ≤ 0 ∨ topp ≥ 1
      · rw [if_pos hp]
        simp only
        refine ⟨⟨fun h => (by cases h), fun h => ?_⟩, ?_⟩
        · rcases hp with hp | hp
          · exact absurd h.2.1 (not_lt.mpr hp)
          · exact absurd h.2.2.1 (not_lt.mpr hp)
        · intro i hi
          cases hi
          have := sample_mult_range probs (random_f32 rng_seed).1 hpne
          omega
      · rw [if_neg hp]
        simp only
        push_neg at hp
        constructor
        · rw [Option.map_eq_none', sample_topp_eq_none_iff]
          constructor
          · intro h
            exact ⟨ht, hp.1, hp.2, probs, rfl, h⟩
          · rintro ⟨_, _, _, probs', hp', hc⟩
            cases hp'
            exact hc
        · intro i hi
          obtain ⟨idx, hidx, hi'⟩ := Option.map_eq_some'.mp hi
          have := sample_topp_lt probs topp _ idx hidx
          subst hi'
          simp only [Int.ofNat_eq_coe]
          omega

/-- Witness of the failing input of C31 with the stand-in `expf x = 1 + x * x`, which
is 1 at 0: on the logits `[0, 0]`, temperature 1, `top_p = 1/10` and the generator
state 7 the pre-filter keeps no candidate and `sample` reads `probindex[-1]`. -/
theorem sample_reads_before_probindex_witness :
    (fun x : ℚ => 1 + x * x) 0 ≠ 0 ∧
    sample (fun x => 1 + x * x) [0, 0] 1 (1 / 10) 7 = (none, (random_f32 7).2) ∧
    topp_candidates (1 / 10) 2 [1 / 2, 1 / 2] 0 = [] :=
  ⟨by norm_num,
    ((sample_reads_before_probindex (fun x => 1 + x * x) 7).1 (by norm_num)).1, by decide!⟩

/-! ## The state update of the generator -/

theorem xor_shift_right_inj (a n : Nat) (ha : 0 < a) (x y : Nat) (hx : x < 2 ^ n)
    (hy : y < 2 ^ n) (h : x ^^^ (x >>> a) = y ^^^ (y >>> a)) : x = y := by
  have hbits : ∀ (k i : Nat), n ≤ i + k → x.testBit i = y.testBit i := by
    intro k
    induction k with
    | zero =>
      intro i hi
      have hpow : 2 ^ n ≤ 2 ^ i := Nat.pow_le_pow_right (by decide) (by omega)
      rw [Nat.testBit_lt_two_pow (lt_of_lt_of_le hx hpow),
        Nat.testBit_lt_two_pow (lt_of_lt_of_le hy hpow)]
    | succ k ih =>
      intro i hi
      have h1 := congrArg (fun z => Nat.testBit z i) h
      simp only [Nat.testBit_xor, Nat.testBit_shiftRight] at h1
      have h2 := ih (a + i) (by omega)
      rw [h2] at h1
      cases hxi : x.testBit i <;> cases hyi : y.testBit i <;> cases hya : y.testBit (a + i) <;>
        simp_all
  exact Nat.eq_of_testBit_eq fun i => hbits n i (by omega)

theorem xor_shift_left_inj (a n : Nat) (ha : 0 < a) (x y : Nat)
    (h : x ^^^ ((x <<< a) % 2 ^ n) = y ^^^ ((y <<< a) % 2 ^ n)) : x = y := by
  apply Nat.eq_of_testBit_eq
  intro i
  induction i using Nat.strong_induction_on with
  | _ i ih =>
    have h1 := congrArg (fun z => Nat.testBit z i) h
    simp only [Nat.testBit_xor, Nat.testBit_mod_two_pow, Nat.testBit_shiftLeft] at h1
    by_cases hia : a ≤ i
    · have h2 := ih (i - a) (by omega)
      rw [h2] at h1
      cases hxi : x.testBit i <;> cases hyi : y.testBit i <;>
        cases hya : y.testBit (i - a) <;> simp_all
    · simp only [ge_iff_le, hia, decide_False, Bool.false_and, Bool.and_false,
        Bool.xor_false] at h1
      exact h1

theorem shift_right_le (x a : Nat) : x >>> a ≤ x := by
  rw [Nat.shiftRight_eq_div_pow]
  exact Nat.div_le_self _ _

theorem random_u32_state_lt (s : Nat) (hs : s < 2 ^ 64) : (random_u32 s).2 < 2 ^ 64 := by
  have h1 : s ^^^ (s >>> 12) < 2 ^ 64 :=
    Nat.xor_lt_two_pow hs (lt_of_le_of_lt (shift_right_le _ _) hs)
  have h2 : (s ^^^ (s >>> 12)) ^^^ (((s ^^^ (s >>> 12)) <<< 25) % 2 ^ 64) < 2 ^ 64 :=
    Nat.xor_lt_two_pow h1 (Nat.mod_lt _ (by decide))
  exact Nat.xor_lt_two_pow h2 (lt_of_le_of_lt (shift_right_le _ _) h2)

theorem random_u32_state_inj (s s' : Nat) (hs : s < 2 ^ 64) (hs' : s' < 2 ^ 64)
    (h : (random_u32 s).2 = (random_u32 s').2) : s = s' := by
  have h1 : s ^^^ (s >>> 12) < 2 ^ 64 :=
    Nat.xor_lt_two_pow hs (lt_of_le_of_lt (shift_right_le _ _) hs)
  have h1' : s' ^^^ (s' >>> 12) < 2 ^ 64 :=
    Nat.xor_lt_two_pow hs' (lt_of_le_of_lt (shift_right_le _ _) hs')
  have h2 : (s ^^^ (s >>> 12)) ^^^ (((s ^^^ (s >>> 12)) <<< 25) % 2 ^ 64) < 2 ^ 64 :=
    Nat.xor_lt_two_pow h1 (Nat.mod_lt _ (by decide))
  have h2' : (s' ^^^ (s' >>> 12)) ^^^ (((s' ^^^ (s' >>> 12)) <<< 25) % 2 ^ 64) < 2 ^ 64 :=
    Nat.xor_lt_two_pow h1' (Nat.mod_lt _ (by decide))
  simp only [random_u32] at h
  have e3 := xor_shift_right_inj 27 64 (by decide) _ _ h2 h2' h
  have e2 := xor_shift_left_inj 25 64 (by decide) _ _ e3
  exact xor_shift_right_inj 12 64 (by decide) _ _ hs hs' e2

theorem random_u32_state_surj (t : Nat) (ht : t < 2 ^ 64) :
    ∃ s, s < 2 ^ 64 ∧ (random_u32 s).2 = t := by
  have hinj : Function.Injective (fun s : Fin (2 ^ 64) =>
      (⟨(random_u32 s.1).2, random_u32_state_lt s.1 s.2⟩ : Fin (2 ^ 64))) := by
    intro a b hab
    have h1 : (random_u32 a.1).2 = (random_u32 b.1).2 := congrArg Fin.val hab
    exact Fin.ext (random_u32_state_inj a.1 b.1 a.2 b.2 h1)
  obtain ⟨s, hs⟩ := (Finite.injective_iff_surjective.mp hinj) ⟨t, ht⟩
  exact ⟨s.1, s.2, congrArg Fin.val hs⟩

/-- C36: the state update of `random_u32` maps the 64-bit states to 64-bit states, is
injective and surjective on them (a bijection), and fixes 0: the call on state 0 returns
0 and leaves the state 0, so after any number of calls from state 0 the state is 0 and
the output is 0; and every 64-bit state other than 0 is mapped to a state other than 0. -/
theorem random_u32_state_bijection :
    (∀ s, s < 2 ^ 64 → (random_u32 s).2 < 2 ^ 64) ∧
    (∀ s s', s < 2 ^ 64 → s' < 2 ^ 64 → (random_u32 s).2 = (random_u32 s').2 → s = s') ∧
    (∀ t, t < 2 ^ 64 → ∃ s, s < 2 ^ 64 ∧ (random_u32 s).2 = t) ∧
    random_u32 0 = (0, 0) ∧
    (∀ s, s < 2 ^ 64 → s ≠ 0 → (random_u32 s).2 ≠ 0) ∧
    ∀ n : Nat, (fun s => (random_u32 s).2)^[n] 0 = 0 ∧
      (random_u32 ((fun s => (random_u32 s).2)^[n] 0)).1 = 0 := by
  have h0 : random_u32 0 = (0, 0) := by decide
  refine ⟨random_u32_state_lt, random_u32_state_inj, random_u32_state_surj, h0, ?_, ?_⟩
  · intro s hs hne h
    apply hne
    apply random_u32_state_inj s 0 hs (by decide)
    rw [h, h0]
  · intro n
    have hn : (fun s => (random_u32 s).2)^[n] 0 = 0 := by
      induction n with
      | zero => rfl
      | succ n ih =>
        rw [Function.iterate_succ_apply', ih, h0]
    rw [hn, h0]
    exact ⟨rfl, rfl⟩

/-! ## The number of tokens of `encode` -/

theorem encode_seed_loop_length (sv : List TokenIndex) (text : List Nat) :
    ∀ (str_buffer : List Nat) (tokens : List Int),
      tokens.length ≤ (encode_seed_loop sv text str_buffer tokens).length ∧
      (encode_seed_loop sv text str_buffer tokens).length ≤
        tokens.length + str_buffer.length + text.length := by
  induction text with
  | nil => intro b tokens; simp [encode_seed_loop]
  | cons c rest ih =>
    intro b tokens
    unfold encode_seed_loop
    simp only
    have hsb : ((if (c &&& 0xC0) ≠ 0x80 then [] else b) ++ [c]).length ≤ b.length + 1 ∧
        1 ≤ ((if (c &&& 0xC0) ≠ 0x80 then [] else b) ++ [c]).length := by
      split_ifs <;> simp
    generalize (if (c &&& 0xC0) ≠ 0x80 then [] else b) ++ [c] = sb at hsb
    simp only [List.length_cons]
    split_ifs
    · have := ih sb tokens
      omega
    · have := ih [] (tokens ++ [str_lookup sb sv])
      simp only [List.length_append, List.length_singleton, List.length_nil] at this
      omega
    · have := ih [] (tokens ++ sb.map (fun (b : Nat) => (b : Int) + 3))
      simp only [List.length_append, List.length_map, List.length_nil] at this
      omega

theorem merge_pass_length (t : Tokenizer) (sv : List TokenIndex) (tokens : List Int)
    (best init : Best) (hinit : init.best_idx = -1)
    (h : encode_scan t sv tokens 0 init = some best) (hidx : best.best_idx ≠ -1) :
    (tokens.take best.best_idx.toNat ++
      best.best_id :: tokens.drop (best.best_idx.toNat + 2)).length + 1 = tokens.length := by
  rcases encode_scan_merge t sv tokens 0 init best h with he | ⟨k, a, b, sa, sb, _, hkb, _, _, hk, _, _⟩
  · rw [he] at hidx
    exact absurd hinit hidx
  · have hklt : k + 1 < tokens.length := (List.getElem?_eq_some_iff.mp hkb).1
    rw [hk]
    simp only [Nat.zero_add, Int.toNat_ofNat, List.length_append, List.length_take,
      List.length_cons, List.length_drop]
    omega

theorem encode_merge_loop_length (t : Tokenizer) (sv : List TokenIndex) (fuel : Nat) :
    ∀ (tokens out : List Int), encode_merge_loop t sv fuel tokens = some out →
      out.length ≤ tokens.length := by
  induction fuel with
  | zero => intro tokens out h; simp [encode_merge_loop] at h
  | succ fuel ih =>
    intro tokens out h
    unfold encode_merge_loop at h
    split at h
    · cases h
    · rename_i best hscan
      split_ifs at h with hidx
      · cases h
        exact le_refl _
      · have h1 := ih _ out h
        have h2 := merge_pass_length t sv tokens best _ rfl hscan hidx
        omega

theorem encode_merge_loop_none (t : Tokenizer) (sv : List TokenIndex) (fuel : Nat) :
    ∀ tokens : List Int, tokens ≠ [] → tokens.length ≤ fuel →
      encode_merge_loop t sv fuel tokens = none →
      ∃ tokens' : List Int, tokens'.length ≤ tokens.length ∧
        encode_scan t sv tokens' 0
          { best_score := -10000000000, best_id := -1, best_idx := -1 } = none := by
  induction fuel with
  | zero =>
    intro tokens hne hlen
    exact absurd (List.length_eq_zero.mp (Nat.le_zero.mp hlen)) hne
  | succ fuel ih =>
    intro tokens hne hlen h
    unfold encode_merge_loop at h
    split at h
    · rename_i hscan
      exact ⟨tokens, le_refl _, hscan⟩
    · rename_i best hscan
      split_ifs at h with hidx
      have h2 := merge_pass_length t sv tokens best _ rfl hscan hidx
      obtain ⟨tokens', hl, hs⟩ := ih _ (by simp) (by omega) h
      exact ⟨tokens', by omega, hs⟩

/-- C32: the tokens `encode` has written never number more than `strlen(text) + 1`.
In the seeding loop the count only grows, and from any state of the loop it ends at no
more than the count so far plus the bytes held in `str_buffer` plus the bytes not yet
read, so the count at the end of the seeding is at most `strlen(text) + 1` (one for the
dummy-prefix token); every pass of the merge loop that merges leaves one token fewer, so
the merge loop, and `encode`, never hold more tokens than the seeding left. When `encode`
does not return tokens, a scan of the merge loop has read outside `vocab` or
`vocab_scores`, on no more than `strlen(text) + 1` tokens. -/
theorem encode_token_count_bounded (t : Tokenizer) (text : List Nat) :
    (∀ (rest str_buffer : List Nat) (tokens : List Int),
      tokens.length ≤ (encode_seed_loop (sorted_vocab t) rest str_buffer tokens).length ∧
      (encode_seed_loop (sorted_vocab t) rest str_buffer tokens).length ≤
        tokens.length + str_buffer.length + rest.length) ∧
    (encode_seed t text).length ≤ (c_str text).length + 1 ∧
    (∀ (tokens : List Int) (best : Best),
      encode_scan t (sorted_vocab t) tokens 0
        { best_score := -10000000000, best_id := -1, best_idx := -1 } = some best →
      best.best_idx ≠ -1 →
      (tokens.take best.best_idx.toNat ++
        best.best_id :: tokens.drop (best.best_idx.toNat + 2)).length + 1 = tokens.length) ∧
    (∀ (fuel : Nat) (tokens out : List Int),
      encode_merge_loop t (sorted_vocab t) fuel tokens = some out →
      out.length ≤ tokens.length) ∧
    (∀ out, encode t text = some out → out.length ≤ (c_str text).length + 1) ∧
    (encode t text = none →
      ∃ tokens : List Int, tokens.length ≤ (c_str text).length + 1 ∧
        encode_scan t (sorted_vocab t) tokens 0
          { best_score := -10000000000, best_id := -1, best_idx := -1 } = none) := by
  have hseed : (encode_seed t text).length ≤ (c_str text).length + 1 := by
    have := (encode_seed_loop_length (sorted_vocab t) (c_str text) []
      [str_lookup [32] (sorted_vocab t)]).2
    simp only [List.length_singleton, List.length_nil] at this
    unfold encode_seed
    omega
  refine ⟨fun rest b tokens => encode_seed_loop_length (sorted_vocab t) rest b tokens, hseed,
    fun tokens best h hidx => merge_pass_length t _ tokens best _ rfl h hidx,
    fun fuel tokens out h => encode_merge_loop_length t _ fuel tokens out h, ?_, ?_⟩
  · intro out h
    have := encode_merge_loop_length t _ _ _ out h
    omega
  · intro h
    have hne : encode_seed t text ≠ [] := by
      obtain ⟨more, hmore⟩ := encode_seed_loop_append (sorted_vocab t) (c_str text) []
        [str_lookup [32] (sorted_vocab t)]
      unfold encode_seed
      rw [hmore]
      simp
    obtain ⟨tokens', hl, hs⟩ := encode_merge_loop_none t _ _ _ hne (le_refl _) h
    exact ⟨tokens', by omega, hs⟩

/-! ## The text of the tokens in the merge loop -/

/-- One merge: the pair at `k` replaced by the id that `str_lookup` finds for the
concatenation of the two strings spells the same text with one token fewer. -/
theorem merge_pair_text (t : Tokenizer) (tokens : List Int) (k : Nat) (a b : Int)
    (sa sb : List Nat) (hka : tokens[k]? = some a) (hkb : tokens[k + 1]? = some b)
    (hsa : vocab_at t a = some sa) (hsb : vocab_at t b = some sb)
    (hid : str_lookup (sa ++ sb) (sorted_vocab t) ≠ -1) :
    vocab_at t (str_lookup (sa ++ sb) (sorted_vocab t)) = some (sa ++ sb) ∧
      text_of t
        (tokens.take k ++ str_lookup (sa ++ sb) (sorted_vocab t) :: tokens.drop (k + 2)) =
        text_of t tokens ∧
      (tokens.take k ++ str_lookup (sa ++ sb) (sorted_vocab t) :: tokens.drop (k + 2)).length + 1 =
        tokens.length := by
  have hsplit := list_split_pair tokens k a b hka hkb
  have hnew := str_lookup_spec t (sa ++ sb) hid
  have hklt : k + 1 < tokens.length := (List.getElem?_eq_some_iff.mp hkb).1
  refine ⟨hnew, ?_, ?_⟩
  · conv_rhs => rw [hsplit]
    simp [text_of_append, text_of, hnew, hsa, hsb]
  · simp only [List.length_append, List.length_take, List.length_cons, List.length_drop]
    omega

/-- One pass of the merge loop that merges: what it does to the tokens. -/
theorem merge_pass_text (t : Tokenizer) (tokens : List Int) (best : Best)
    (h : encode_scan t (sorted_vocab t) tokens 0
      { best_score := -10000000000, best_id := -1, best_idx := -1 } = some best)
    (hidx : best.best_idx ≠ -1) :
    ∃ (k : Nat) (a b : Int) (sa sb : List Nat), best.best_idx = (k : Int) ∧
      tokens[k]? = some a ∧ tokens[k + 1]? = some b ∧ vocab_at t a = some sa ∧
      vocab_at t b = some sb ∧ vocab_at t best.best_id = some (sa ++ sb) ∧
      text_of t (tokens.take best.best_idx.toNat ++
        best.best_id :: tokens.drop (best.best_idx.toNat + 2)) = text_of t tokens ∧
      (tokens.take best.best_idx.toNat ++
        best.best_id :: tokens.drop (best.best_idx.toNat + 2)).length + 1 = tokens.length := by
  rcases encode_scan_merge t _ tokens 0 _ best h with
    he | ⟨k, a, b, sa, sb, hka, hkb, hsa, hsb, hk, hbid, hne⟩
  · rw [he] at hidx
    exact absurd rfl hidx
  · have ⟨h1, h2, h3⟩ := merge_pair_text t tokens k a b sa sb hka hkb hsa hsb hne
    rw [Nat.zero_add] at hk
    refine ⟨k, a, b, sa, sb, hk, hka, hkb, hsa, hsb, by rw [hbid]; exact h1, ?_, ?_⟩
    · rw [hk, hbid, Int.toNat_ofNat]
      exact h2
    · rw [hk, hbid, Int.toNat_ofNat]
      exact h3

theorem merge_loop_text (t : Tokenizer) (hsc : t.vocab_scores.length = t.vocab.length)
    (fuel : Nat) :
    ∀ tokens : List Int, (∀ id ∈ tokens, ∃ p, vocab_at t id = some p) → tokens ≠ [] →
      tokens.length ≤ fuel →
      ∃ out, encode_merge_loop t (sorted_vocab t) fuel tokens = some out ∧
        text_of t out = text_of t tokens ∧ out.length ≤ tokens.length ∧
        (∀ id ∈ out, ∃ p, vocab_at t id = some p) := by
  induction fuel with
  | zero =>
    intro tokens _ hne hlen
    exact absurd (List.length_eq_zero.mp (Nat.le_zero.mp hlen)) hne
  | succ fuel ih =>
    intro tokens hvalid hne hlen
    obtain ⟨r, hscan⟩ := encode_scan_total t hsc tokens 0
      { best_score := -10000000000, best_id := -1, best_idx := -1 } hvalid
    unfold encode_merge_loop
    rw [hscan]
    simp only
    by_cases hidx : r.best_idx = -1
    · rw [if_pos hidx]
      exact ⟨tokens, rfl, rfl, le_refl _, hvalid⟩
    · rw [if_neg hidx]
      obtain ⟨k, a, b, sa, sb, hk, hka, hkb, hsa, hsb, hnew, htext, hlen'⟩ :=
        merge_pass_text t tokens r hscan hidx
      have hvalid' : ∀ id ∈ tokens.take r.best_idx.toNat ++
          r.best_id :: tokens.drop (r.best_idx.toNat + 2), ∃ p, vocab_at t id = some p := by
        intro id hmem
        rcases List.mem_append.mp hmem with h | h
        · exact hvalid id (List.mem_of_mem_take h)
        · rcases List.mem_cons.mp h with h | h
          · exact ⟨sa ++ sb, by rw [h]; exact hnew⟩
          · exact hvalid id (List.mem_of_mem_drop h)
      obtain ⟨out, hout, ht, hl, hv⟩ := ih _ hvalid' (by simp) (by omega)
      exact ⟨out, hout, by rw [ht, htext], by omega, hv⟩

/-- C33: on tokens that are ids of the vocabulary (and a `vocab_scores` as long as
`vocab`), a pass of the merge loop of `encode` that merges replaces two adjacent tokens
`tokens[k]`, `tokens[k+1]` by one token whose vocabulary string is the concatenation of
theirs, so the concatenation of the vocabulary strings stays the same and the token count
goes down by one; and the merge loop, given a pass of fuel for every token, returns tokens
that spell the same text as the tokens it started from, no more in number. -/
theorem merge_loop_preserves_text (t : Tokenizer)
    (hsc : t.vocab_scores.length = t.vocab.length) (tokens : List Int)
    (hvalid : ∀ id ∈ tokens, (vocab_at t id).isSome = true) (hne : tokens ≠ []) (fuel : Nat)
    (hfuel : tokens.length ≤ fuel) :
    (∀ best : Best,
      encode_scan t (sorted_vocab t) tokens 0
        { best_score := -10000000000, best_id := -1, best_idx := -1 } = some best →
      best.best_idx ≠ -1 →
      ∃ (k : Nat) (a b : Int) (sa sb : List Nat), best.best_idx = (k : Int) ∧
        tokens[k]? = some a ∧ tokens[k + 1]? = some b ∧ vocab_at t a = some sa ∧
        vocab_at t b = some sb ∧ vocab_at t best.best_id = some (sa ++ sb) ∧
        text_of t (tokens.take best.best_idx.toNat ++
          best.best_id :: tokens.drop (best.best_idx.toNat + 2)) = text_of t tokens ∧
        (tokens.take best.best_idx.toNat ++
          best.best_id :: tokens.drop (best.best_idx.toNat + 2)).length + 1 =
          tokens.length) ∧
    ∃ out, encode_merge_loop t (sorted_vocab t) fuel tokens = some out ∧
      text_of t out = text_of t tokens ∧ out.length ≤ tokens.length := by
  refine ⟨fun best h hidx => merge_pass_text t tokens best h hidx, ?_⟩
  obtain ⟨out, hout, ht, hl, _⟩ := merge_loop_text t hsc fuel tokens
    (fun id hid => Option.isSome_iff_exists.mp (hvalid id hid)) hne hfuel
  exact ⟨out, hout, ht, hl⟩

/-- Witness of C33: the tokens `" " a b` over the vocabulary `llama_like`, where the
pair `a b` merges into `ab`. -/
theorem merge_loop_preserves_text_witness :
    (∀ best : Best,
      encode_scan llama_like (sorted_vocab llama_like) [259, 260, 261] 0
        { best_score := -10000000000, best_id := -1, best_idx := -1 } = some best →
      best.best_idx ≠ -1 →
      ∃ (k : Nat) (a b : Int) (sa sb : List Nat), best.best_idx = (k : Int) ∧
        ([259, 260, 261] : List Int)[k]? = some a ∧
        ([259, 260, 261] : List Int)[k + 1]? = some b ∧ vocab_at llama_like a = some sa ∧
        vocab_at llama_like b = some sb ∧ vocab_at llama_like best.best_id = some (sa ++ sb) ∧
        text_of llama_like (([259, 260, 261] : List Int).take best.best_idx.toNat ++
          best.best_id :: ([259, 260, 261] : List Int).drop (best.best_idx.toNat + 2)) =
          text_of llama_like [259, 260, 261] ∧
        (([259, 260, 261] : List Int).take best.best_idx.toNat ++
          best.best_id :: ([259, 260, 261] : List Int).drop (best.best_idx.toNat + 2)).length +
            1 = ([259, 260, 261] : List Int).length) ∧
    ∃ out, encode_merge_loop llama_like (sorted_vocab llama_like) 3 [259, 260, 261] =
        some out ∧
      text_of llama_like out = text_of llama_like [259, 260, 261] ∧
      out.length ≤ ([259, 260, 261] : List Int).length :=
  merge_loop_preserves_text llama_like (by decide!) [259, 260, 261] (by decide!) (by decide) 3
    (by decide)

/-! ## The positions handed to `forward` -/

theorem generate_calls_range (m : Libm ℚ) (p : Config) (w : TransformerWeights)
    (data : List ℚ) (t : Tokenizer) (prompt_tokens : List Int) (temperature topp : ℚ)
    (steps : Int) :
    ∀ (fuel : Nat) (g : GenState),
      generate_calls m p w data t prompt_tokens temperature topp steps fuel g =
        (List.range (generate_calls m p w data t prompt_tokens temperature topp steps fuel
          g).length).map (fun (i : Nat) => g.pos + (i : Int)) ∧
      ∀ pos ∈ generate_calls m p w data t prompt_tokens temperature topp steps fuel g,
        g.pos ≤ pos ∧ pos < steps := by
  intro fuel
  induction fuel with
  | zero => intro g; simp [generate_calls]
  | succ fuel ih =>
    intro g
    by_cases hlt : g.pos < steps
    · simp only [generate_calls, if_pos hlt]
      cases hstep : generate_step m p w data t prompt_tokens temperature topp g with
      | none => simp [hlt, List.range_succ]
      | some bg =>
        obtain ⟨b, g1⟩ := bg
        cases b with
        | true => simp [hlt, List.range_succ]
        | false =>
          obtain ⟨_, _, hpos, _, _⟩ :=
            generate_step_spec m p w data t prompt_tokens temperature topp g g1 false hstep
          obtain ⟨hseq, hrange⟩ := ih g1
          simp only
          constructor
          · simp only [List.length_cons, List.range_succ_eq_map, List.map_cons, List.map_map,
              Nat.cast_zero, add_zero, List.cons.injEq, true_and]
            conv_lhs => rw [hseq]
            apply List.map_congr_left
            intro i _
            simp only [Function.comp, Nat.cast_succ, hpos]
            ring
          · intro pos hmem
            rcases List.mem_cons.mp hmem with h | h
            · rw [h]; exact ⟨le_refl _, hlt⟩
            · have := hrange pos h
              rw [hpos] at this
              exact ⟨by omega, this.2⟩
    · simp [generate_calls, hlt]

/-- The calls of `forward` of a run that finishes are the passes of its log. -/
theorem generate_loop_calls (m : Libm ℚ) (p : Config) (w : TransformerWeights)
    (data : List ℚ) (t : Tokenizer) (prompt_tokens : List Int) (temperature topp : ℚ)
    (steps : Int) :
    ∀ (fuel : Nat) (g g' : GenState),
      generate_loop m p w data t prompt_tokens temperature topp steps fuel g =
        Run.finished g' →
      g'.log.map (fun e => e.2.1) = g.log.map (fun e => e.2.1) ++
        generate_calls m p w data t prompt_tokens temperature topp steps fuel g := by
  intro fuel
  induction fuel with
  | zero =>
    intro g g' h
    by_cases hlt : g.pos < steps
    · simp [generate_loop, hlt] at h
    · simp only [generate_loop, if_neg hlt, Run.finished.injEq] at h
      subst h
      simp [generate_calls]
  | succ fuel ih =>
    intro g g' h
    by_cases hlt : g.pos < steps
    · simp only [generate_loop, if_pos hlt] at h
      simp only [generate_calls, if_pos hlt]
      cases hstep : generate_step m p w data t prompt_tokens temperature topp g with
      | none => rw [hstep] at h; cases h
      | some bg =>
        obtain ⟨b, g1⟩ := bg
        rw [hstep] at h
        obtain ⟨next, hlog, _, _, _⟩ :=
          generate_step_spec m p w data t prompt_tokens temperature topp g g1 b hstep
        cases b with
        | true =>
          simp only [Run.finished.injEq] at h
          subst h
          rw [hlog]
          simp
        | false =>
          simp only at h
          rw [ih g1 g' h, hlog]
          simp
    · simp only [generate_loop, if_neg hlt, Run.finished.injEq] at h
      subst h
      simp [generate_calls, hlt]

/-- C34 (amended): the generation loop started at position 0 with the step budget left
by the parameter validation calls `forward` at the positions `0, 1, 2, ...` in sequence,
every one of them at least 0 and below the budget; so every position handed to `forward`
is below `seq_len` when the budget given on the command line is at most `seq_len`. The
calls are the passes of the log of a run that finishes. -/
theorem driver_positions_below_steps (m : Libm ℚ) (p : Config) (w : TransformerWeights)
    (data : List ℚ) (t : Tokenizer) (prompt_tokens : List Int) (temperature topp : ℚ)
    (steps : Int) (g : GenState) (fuel : Nat) (hpos : g.pos = 0) :
    generate_calls m p w data t prompt_tokens temperature topp (validate_steps steps) fuel g =
      (List.range (generate_calls m p w data t prompt_tokens temperature topp
        (validate_steps steps) fuel g).length).map (fun (i : Nat) => (i : Int)) ∧
    (∀ pos ∈ generate_calls m p w data t prompt_tokens temperature topp (validate_steps steps)
        fuel g,
      0 ≤ pos ∧ pos < validate_steps steps ∧ (steps ≤ p.seq_len → pos < p.seq_len)) ∧
    ∀ g', generate_loop m p w data t prompt_tokens temperature topp (validate_steps steps)
        fuel g = Run.finished g' →
      g'.log.map (fun e => e.2.1) = g.log.map (fun e => e.2.1) ++
        generate_calls m p w data t prompt_tokens temperature topp (validate_steps steps)
          fuel g := by
  obtain ⟨hseq, hrange⟩ := generate_calls_range m p w data t prompt_tokens temperature topp
    (validate_steps steps) fuel g
  refine ⟨?_, ?_, fun g' h => generate_loop_calls m p w data t prompt_tokens temperature topp
    (validate_steps steps) fuel g g' h⟩
  · conv_lhs => rw [hseq]
    apply List.map_congr_left
    intro i _
    rw [hpos, zero_add]
  · intro pos hmem
    have h := hrange pos hmem
    rw [hpos] at h
    refine ⟨h.1, h.2, ?_⟩
    intro hle
    have h2 := h.2
    unfold validate_steps at h2
    split_ifs at h2 <;> omega

/-- Witness of C34 (amended): a budget of two steps on a model with `seq_len = 2`, an
empty prompt and temperature 0, from the start of `main`. -/
theorem driver_positions_below_steps_witness :
    generate_calls tiny_libm ⟨2, 3, 1, 1, 1, 2, 2⟩ ⟨0, 4, 22, 6, 10, 14, 18, 24, 30, 36, 42, 0⟩
        (List.replicate 44 (1 / 2)) llama_like [] 0 (9 / 10) (validate_steps 2) 2
        { token := 1, pos := 0,
          state :=
            { x := [0, 0], xb := [0, 0], xb2 := [0, 0], hb := [0, 0, 0], hb2 := [0, 0, 0],
              q := [0, 0], k := [0, 0], v := [0, 0], att := [0, 0], logits := [0, 0],
              key_cache := [0, 0, 0, 0], value_cache := [0, 0, 0, 0] },
          rng_seed := 7, out := [], log := [] } = [0, 1] ∧
    ∀ pos ∈ generate_calls tiny_libm ⟨2, 3, 1, 1, 1, 2, 2⟩
        ⟨0, 4, 22, 6, 10, 14, 18, 24, 30, 36, 42, 0⟩ (List.replicate 44 (1 / 2)) llama_like []
        0 (9 / 10) (validate_steps 2) 2
        { token := 1, pos := 0,
          state :=
            { x := [0, 0], xb := [0, 0], xb2 := [0, 0], hb := [0, 0, 0], hb2 := [0, 0, 0],
              q := [0, 0], k := [0, 0], v := [0, 0], att := [0, 0], logits := [0, 0],
              key_cache := [0, 0, 0, 0], value_cache := [0, 0, 0, 0] },
          rng_seed := 7, out := [], log := [] },
      0 ≤ pos ∧ pos < validate_steps 2 ∧
        ((2 : Int) ≤ (⟨2, 3, 1, 1, 1, 2, 2⟩ : Config).seq_len →
          pos < (⟨2, 3, 1, 1, 1, 2, 2⟩ : Config).seq_len) :=
  ⟨by decide!,
    (driver_positions_below_steps tiny_libm ⟨2, 3, 1, 1, 1, 2, 2⟩
      ⟨0, 4, 22, 6, 10, 14, 18, 24, 30, 36, 42, 0⟩ (List.replicate 44 (1 / 2)) llama_like [] 0
      (9 / 10) 2 _ 2 rfl).2.1⟩

/-- C34 (as stated) fails: with `-n 3` on a model with `seq_len = 2`, an empty prompt and
temperature 0, the driver calls `forward` at the positions 0, 1 and 2. The call at
position 2, on the state the two passes before it left, writes past the end of the key
cache, which is undefined behaviour. -/
theorem driver_steps_beyond_seq_len_counterexample :
    (⟨2, 3, 1, 1, 1, 2, 2⟩ : Config).seq_len = 2 ∧
    generate_calls tiny_libm ⟨2, 3, 1, 1, 1, 2, 2⟩ ⟨0, 4, 22, 6, 10, 14, 18, 24, 30, 36, 42, 0⟩
        (List.replicate 44 (1 / 2)) llama_like [] 0 (9 / 10) (validate_steps 3) 3
        { token := 1, pos := 0,
          state :=
            { x := [0, 0], xb := [0, 0], xb2 := [0, 0], hb := [0, 0, 0], hb2 := [0, 0, 0],
              q := [0, 0], k := [0, 0], v := [0, 0], att := [0, 0], logits := [0, 0],
              key_cache := [0, 0, 0, 0], value_cache := [0, 0, 0, 0] },
          rng_seed := 7, out := [], log := [] } = [0, 1, 2] ∧
    generate_loop tiny_libm ⟨2, 3, 1, 1, 1, 2, 2⟩ ⟨0, 4, 22, 6, 10, 14, 18, 24, 30, 36, 42, 0⟩
        (List.replicate 44 (1 / 2)) llama_like [] 0 (9 / 10) (validate_steps 3) 3
        { token := 1, pos := 0,
          state :=
            { x := [0, 0], xb := [0, 0], xb2 := [0, 0], hb := [0, 0, 0], hb2 := [0, 0, 0],
              q := [0, 0], k := [0, 0], v := [0, 0], att := [0, 0], logits := [0, 0],
              key_cache := [0, 0, 0, 0], value_cache := [0, 0, 0, 0] },
          rng_seed := 7, out := [], log := [] } = Run.undefined ∧
    ∃ g2, generate_loop tiny_libm ⟨2, 3, 1, 1, 1, 2, 2⟩
        ⟨0, 4, 22, 6, 10, 14, 18, 24, 30, 36, 42, 0⟩ (List.replicate 44 (1 / 2)) llama_like []
        0 (9 / 10) (validate_steps 2) 2
        { token := 1, pos := 0,
          state :=
            { x := [0, 0], xb := [0, 0], xb2 := [0, 0], hb := [0, 0, 0], hb2 := [0, 0, 0],
              q := [0, 0], k := [0, 0], v := [0, 0], att := [0, 0], logits := [0, 0],
              key_cache := [0, 0, 0, 0], value_cache := [0, 0, 0, 0] },
          rng_seed := 7, out := [], log := [] } = Run.finished g2 ∧
      g2.pos = 2 ∧
      forward tiny_libm ⟨2, 3, 1, 1, 1, 2, 2⟩ ⟨0, 4, 22, 6, 10, 14, 18, 24, 30, 36, 42, 0⟩
        (List.replicate 44 (1 / 2)) g2.state g2.token g2.pos = none := by
  refine ⟨rfl, by decide!, by decide!, ?_⟩
  have key : ∀ r : Run GenState,
      (match r with
        | Run.finished g =>
          decide (g.pos = 2 ∧
            forward tiny_libm ⟨2, 3, 1, 1, 1, 2, 2⟩
              ⟨0, 4, 22, 6, 10, 14, 18, 24, 30, 36, 42, 0⟩ (List.replicate 44 (1 / 2))
              g.state g.token g.pos = none)
        | _ => false) = true →
      ∃ g2, r = Run.finished g2 ∧ g2.pos = 2 ∧
        forward tiny_libm ⟨2, 3, 1, 1, 1, 2, 2⟩ ⟨0, 4, 22, 6, 10, 14, 18, 24, 30, 36, 42, 0⟩
          (List.replicate 44 (1 / 2)) g2.state g2.token g2.pos = none := by
    intro r h
    cases r with
    | finished g => exact ⟨g, rfl, of_decide_eq_true h⟩
    | undefined => cases h
    | out_of_fuel => cases h
  exact key _ (by decide!)

/-! ## The weight slices of a layer -/

end Llama2
